import Mathlib

/-!
# Trinity: segment index session and updated-documents tracking

A shallow embedding of `src/indexer.cpp` (the `SegmentIndexSession` methods and
`persist_segment`) and of `src/docidupdates.h`, together with the properties
proved about them.

Conventions of the embedding.

* A byte buffer (`IOBuffer`, a mapped file, a `str8_t`) is a `List Nat` whose
  entries are below 256.
* Unsigned machine integers are `Nat`; a narrowing store or cast of the source
  is written as an explicit `% 2 ^ w`.
* A method that mutates the session takes the session and returns the new one.
  A call that can fail returns an `Outcome` next to the state reached.
* `require`, `EXPECT`, `DEXPECT` and `Drequire` are declared outside the two
  source files.  They are embedded as checks that are always active.
-/

namespace Trinity

/-- Byte strings: the contents of an `IOBuffer`, of a mapped file or of a `str8_t`. -/
abbrev Bytes := List Nat

/-- How a call ends: it returns, it throws a `Switch::data_error`, or a `require`
fails and the process aborts. -/
inductive Outcome where
  | ok
  | threw
  | aborted
  deriving DecidableEq, Repr

/-! ## The duplicate-update guard (`track`, `consider_update`) -/

/-- Modelled from the spec: `SparseFixedBitSet` comes from a library header that is
not part of the sources.  The bitset is the list of the bits that are set;
`try_set` "sets bit `offset` and returns false iff it was already set". -/
def SparseFixedBitSet.try_set (bs : List Nat) (i : Nat) : Bool × List Nat :=
  if i ∈ bs then (false, bs) else (true, i :: bs)

/-- Modelled from the spec: `SparseFixedBitSet::set` sets bit `i`. -/
def SparseFixedBitSet.set (bs : List Nat) (i : Nat) : List Nat :=
  if i ∈ bs then bs else i :: bs

/-- A `bank` of the guard: its aligned `base` and its bitset `bs`. -/
structure bank where
  base : Nat
  bs : List Nat
  deriving DecidableEq, Repr

/-- The guard's part of `SegmentIndexSession`: `banks` in `emplace_back` order and
`curBank`, a pointer into `banks` (here the index of the bank, `none` for
`nullptr`). -/
structure Guard where
  banks : List bank
  curBank : Option Nat
  deriving DecidableEq, Repr

/-- The guard of a new session: no bank, `curBank == nullptr`. -/
def Guard.fresh : Guard := ⟨[], none⟩

/-- The `documentID & (~(bank::SPAN - 1))` of `track`, on 32-bit document IDs.
`bank::SPAN` is declared in `indexer.h`, so it is a parameter here. -/
def alignDown (SPAN documentID : Nat) : Nat :=
  documentID &&& (2 ^ 32 - 1 - (SPAN - 1))

/-- The `it->bs.try_set(normalized)` of `track` on the bank at index `i`. -/
def try_set_at : List bank → Nat → Nat → Bool × List bank
  | [], _, _ => (true, [])
  | bk :: rest, 0, n => ((SparseFixedBitSet.try_set bk.bs n).1,
      { bk with bs := (SparseFixedBitSet.try_set bk.bs n).2 } :: rest)
  | bk :: rest, i + 1, n => ((try_set_at rest i n).1, bk :: (try_set_at rest i n).2)

/-- The loop `for (auto it : banks) if (it->base == base)`: the index of the first
bank whose base is `base`. -/
def findBank : List bank → Nat → Option Nat
  | [], _ => none
  | bk :: rest, base =>
    if bk.base = base then some 0 else (findBank rest base).map (· + 1)

/-- The base of the bank `curBank` points to (`none` for `nullptr`). -/
def curBankBase (g : Guard) : Option Nat :=
  match g.curBank with
  | none => none
  | some i => (g.banks.get? i).map (·.base)

/-- `SegmentIndexSession::track` (the `#if 1` branch). -/
def track (SPAN : Nat) (g : Guard) (documentID : Nat) : Bool × Guard :=
  let base := alignDown SPAN documentID
  let normalized := documentID - base
  if curBankBase g = some base then
    ((try_set_at g.banks (g.curBank.getD 0) normalized).1,
      { g with banks := (try_set_at g.banks (g.curBank.getD 0) normalized).2 })
  else
    match findBank g.banks base with
    | some j =>
      ((try_set_at g.banks j normalized).1,
        { banks := (try_set_at g.banks j normalized).2, curBank := some j })
    | none =>
      (true, { banks := g.banks ++ [⟨base, SparseFixedBitSet.set [] normalized⟩],
               curBank := some g.banks.length })

/-- `SegmentIndexSession::consider_update`: throws "Already committed document"
when `track` answers false. -/
def consider_update (SPAN : Nat) (g : Guard) (document_id : Nat) : Outcome × Guard :=
  if (track SPAN g document_id).1 then (Outcome.ok, (track SPAN g document_id).2)
  else (Outcome.threw, (track SPAN g document_id).2)

/-- The guard after the IDs of `ids` were passed to `track`, one after another. -/
def trackMany (SPAN : Nat) (g : Guard) (ids : List Nat) : Guard :=
  ids.foldl (fun g d => (track SPAN g d).2) g

/-! ## The term dictionary (`term_id`, `term`) -/

/-- The two dictionaries of the session: `dictionary` (term to ID) and `invDict` (ID to
term), each an `unordered_map`, here the list of its entries in insertion order. -/
structure Dict where
  dictionary : List (Bytes × Nat)
  invDict : List (Nat × Bytes)
  deriving DecidableEq, Repr

/-- The dictionaries of a new session. -/
def Dict.fresh : Dict := ⟨[], []⟩

/-- An `unordered_map::emplace(k, v)`: the entry is added unless the key is present. -/
def emplace {κ ν : Type} [BEq κ] (m : List (κ × ν)) (k : κ) (v : ν) : List (κ × ν) :=
  match m.lookup k with
  | some _ => m
  | none => m ++ [(k, v)]

/-- `SegmentIndexSession::term`: the entry of `invDict`, or the empty `str8_t`. -/
def term (D : Dict) (id : Nat) : Bytes :=
  match D.invDict.lookup id with
  | some t => t
  | none => []

/-- `SegmentIndexSession::term_id`.  The result is `none` when one of the two `EXPECT`
checks rejects the term.  `Limits::MaxTermLength` is declared outside the sources and
is a parameter.  The value `0` given to `emplace` is overwritten with `k` at once, so
the new entry is written with `k`; `k` is `dictionary.size()` after the insertion,
returned as `uint32_t`. -/
def term_id (MaxTermLength : Nat) (D : Dict) (t : Bytes) : Option Nat × Dict :=
  if t.length = 0 then (none, D)
  else if ¬ t.length ≤ MaxTermLength then (none, D)
  else
    match D.dictionary.lookup t with
    | some id => (some id, D)
    | none =>
      let k := D.dictionary.length + 1
      (some (k % 2 ^ 32),
        { dictionary := D.dictionary ++ [(t, k % 2 ^ 32)],
          invDict := emplace D.invDict (k % 2 ^ 32) t })

/-- The dictionaries after `term_id` was called on the terms of `ts`, one after another. -/
def internMany (MaxTermLength : Nat) (D : Dict) (ts : List Bytes) : Dict :=
  ts.foldl (fun D t => (term_id MaxTermLength D t).2) D

/-- A term the two `EXPECT` checks of `term_id` accept. -/
def validTerm (MaxTermLength : Nat) (t : Bytes) : Bool :=
  decide (1 ≤ t.length) && decide (t.length ≤ MaxTermLength)

/-! ## Staging a document (`begin`, `insert`, `commit_document_impl`) -/

/-- An entry of a `hits` bucket: `{termID, {position, {offset, size}}}`, the payload
being `size` bytes at `offset` of `hitsBuf`. -/
structure hit_t where
  termID : Nat
  position : Nat
  payloadOffset : Nat
  payloadSize : Nat
  deriving DecidableEq, Repr

/-- The counters of `IndexSource::field_statistics` that `commit` updates. -/
structure field_statistics where
  sumTermHits : Nat
  totalTerms : Nat
  sumTermsDocs : Nat
  docsCnt : Nat
  deriving DecidableEq, Repr

/-- The state of a `SegmentIndexSession`.  `hits` is the array of 16 buckets, indexed
`0..15`; `b` is the stage buffer; `backingFile` is the contents of the file behind
`backingFileFD`, `none` while `backingFileFD == -1`. -/
structure SegmentIndexSession where
  hits : Nat → List hit_t
  hitsBuf : Bytes
  b : Bytes
  backingFile : Option Bytes
  intermediateStateFlushFreq : Nat
  updatedDocumentIDs : List Nat
  guard : Guard
  dict : Dict
  defaultFieldStats : field_statistics

/-- A new session with the given `intermediateStateFlushFreq`. -/
def SegmentIndexSession.fresh (freq : Nat) : SegmentIndexSession :=
  { hits := fun _ => [], hitsBuf := [], b := [], backingFile := none,
    intermediateStateFlushFreq := freq, updatedDocumentIDs := [],
    guard := Guard.fresh, dict := Dict.fresh, defaultFieldStats := ⟨0, 0, 0, 0⟩ }

/-- The fields of a `document_proxy` besides its references to the session's `hits`
and `hitsBuf`. -/
structure document_proxy where
  did : Nat
  lastPos : Nat
  positionOverlapsCnt : Nat
  deriving DecidableEq, Repr

/-- `SegmentIndexSession::begin`: clears `hitsBuf` and returns a proxy for the
document, its `lastPos` and `positionOverlapsCnt` being zero. -/
def SegmentIndexSession.begin (s : SegmentIndexSession) (documentID : Nat) :
    SegmentIndexSession × document_proxy :=
  ({ s with hitsBuf := [] }, ⟨documentID, 0, 0⟩)

/-- `document_proxy::insert`.  `Limits::MaxPosition` is declared outside the sources
and is a parameter.  The three checks are `require(termID)`,
`DEXPECT(position < Limits::MaxPosition)` and `Drequire(size <= sizeof(uint64_t))`;
the counters are updated between the second and the third. -/
def insert (MaxPosition : Nat) (s : SegmentIndexSession) (px : document_proxy)
    (termID position : Nat) (payload : Bytes) :
    Outcome × SegmentIndexSession × document_proxy :=
  if termID = 0 then (Outcome.aborted, s, px)
  else if ¬ position < MaxPosition then (Outcome.aborted, s, px)
  else
    let px1 : document_proxy :=
      { px with
        positionOverlapsCnt :=
          px.positionOverlapsCnt + (if position ≠ 0 ∧ position = px.lastPos then 1 else 0),
        lastPos := position }
    if payload.length ≠ 0 then
      let l := s.hitsBuf.length
      if ¬ payload.length ≤ 8 then (Outcome.aborted, s, px1)
      else
        (Outcome.ok,
          { s with
            hitsBuf := s.hitsBuf ++ payload,
            hits := Function.update s.hits (termID &&& 15)
              (s.hits (termID &&& 15) ++ [⟨termID, position, l, payload.length⟩]) },
          px1)
    else
      (Outcome.ok,
        { s with
          hits := Function.update s.hits (termID &&& 15)
            (s.hits (termID &&& 15) ++ [⟨termID, position, 0, 0⟩]) },
        px1)

/-- The number of hits in all 16 buckets. -/
def hitsCount (s : SegmentIndexSession) : Nat :=
  ((List.range 16).map (fun k => (s.hits k).length)).sum

/-! ## Byte-level helpers -/

/-- `IOBuffer::pack` of a `uint16_t`: its two bytes, low byte first. -/
def pack16 (v : Nat) : Bytes := [v % 256, v / 256 % 256]

/-- `IOBuffer::pack` of a `uint32_t`: its four bytes, low byte first. -/
def pack32 (v : Nat) : Bytes :=
  [v % 256, v / 256 % 256, v / 65536 % 256, v / 16777216 % 256]

/-- The store `*(uint16_t *)(b.data() + o) = v`: bytes `o` and `o + 1` of `b` are
overwritten with the low 16 bits of `v`. -/
def patch16 (b : Bytes) (o v : Nat) : Bytes :=
  b.take o ++ pack16 (v % 65536) ++ b.drop (o + 2)

/-- The load `*(uint16_t *)p` followed by `p += 2`; `none` when fewer than two bytes
remain before the end of the range. -/
def read16 : Bytes → Option (Nat × Bytes)
  | b0 :: b1 :: rest => some (b0 + 256 * b1, rest)
  | _ => none

/-- The load `*(uint32_t *)p` followed by `p += 4`; `none` when fewer than four bytes
remain before the end of the range. -/
def read32 : Bytes → Option (Nat × Bytes)
  | b0 :: b1 :: b2 :: b3 :: rest => some (b0 + 256 * b1 + 65536 * b2 + 16777216 * b3, rest)
  | _ => none

/-- Modelled from the spec: `IOBuffer::encode_varbyte32` is declared outside the
sources.  "Unsigned little-endian base-128 with MSB continuation bit", of a value
below `2 ^ 32`: one to five bytes. -/
def encode_varbyte32 (n : Nat) : Bytes :=
  if n < 128 then [n]
  else if n < 16384 then [n % 128 + 128, n / 128]
  else if n < 2097152 then [n % 128 + 128, n / 128 % 128 + 128, n / 16384]
  else if n < 268435456 then
    [n % 128 + 128, n / 128 % 128 + 128, n / 16384 % 128 + 128, n / 2097152]
  else
    [n % 128 + 128, n / 128 % 128 + 128, n / 16384 % 128 + 128, n / 2097152 % 128 + 128,
      n / 268435456]

/-- Modelled from the spec: `varbyte_get32(p, n)` is declared outside the sources.  It
decodes one base-128 integer of at most five bytes at `p`, stores it into a 32-bit `n`
and moves `p` past it; `none` when the range ends before the integer does. -/
def varbyte_get32 : Bytes → Option (Nat × Bytes)
  | b0 :: r0 =>
    if b0 < 128 then some (b0, r0) else
    match r0 with
    | b1 :: r1 =>
      if b1 < 128 then some (b0 % 128 + 128 * b1, r1) else
      match r1 with
      | b2 :: r2 =>
        if b2 < 128 then some (b0 % 128 + 128 * (b1 % 128) + 16384 * b2, r2) else
        match r2 with
        | b3 :: r3 =>
          if b3 < 128 then
            some (b0 % 128 + 128 * (b1 % 128) + 16384 * (b2 % 128) + 2097152 * b3, r3)
          else
          match r3 with
          | b4 :: r4 =>
            some ((b0 % 128 + 128 * (b1 % 128) + 16384 * (b2 % 128) + 2097152 * (b3 % 128)
              + 268435456 * b4) % 2 ^ 32, r4)
          | [] => none
        | [] => none
      | [] => none
    | [] => none
  | [] => none

/-! ## `commit_document_impl` -/

/-- The comparison given to `std::sort` in `commit_document_impl`:
by term ID, then by position. -/
def hitLess (a b : hit_t) : Bool :=
  decide (a.termID < b.termID) || (decide (a.termID = b.termID) && decide (a.position < b.position))

/-- Insertion of `a` into a list sorted for `less`, after the entries that are not
greater. -/
def orderedInsertBy {α : Type} (less : α → α → Bool) (a : α) : List α → List α
  | [] => [a]
  | b :: l => if less a b then a :: b :: l else b :: orderedInsertBy less a l

/-- `std::sort(v.begin(), v.end(), less)`, as an insertion sort.  The C++ standard
fixes the result up to the order of equivalent entries; the properties proved below
use only that the result is a sorted permutation of `v`. -/
def stdSort {α : Type} (less : α → α → Bool) : List α → List α
  | [] => []
  | a :: l => orderedInsertBy less a (stdSort less l)

/-- The locals of the hit loop of one term group: `prev`, `prevPayloadSize`,
`termHits` and the stage buffer `b`.  (`posHits` and `fs` only feed the empty
`if (fs.positionHitsCnt)` statement and are left out.) -/
structure HitLoop where
  prev : Nat
  prevPayloadSize : Nat
  termHits : Nat
  b : Bytes
  deriving DecidableEq, Repr

/-- The body of the `do ... while` over the hits of one term: one hit is appended to
the stage buffer.  `delta` is a `uint32_t` difference and `(delta << 1) | flag` a
`uint32_t`. -/
def hitBody (all_hits : Bytes) (it : hit_t) (st : HitLoop) : HitLoop :=
  let delta := (it.position + 2 ^ 32 - st.prev) % 2 ^ 32
  let payloadSize := it.payloadSize
  let b1 :=
    if payloadSize ≠ st.prevPayloadSize then
      st.b ++ encode_varbyte32 ((delta * 2) % 2 ^ 32) ++ encode_varbyte32 payloadSize
    else
      st.b ++ encode_varbyte32 ((delta * 2) % 2 ^ 32 + 1)
  let b2 :=
    if payloadSize ≠ 0 then b1 ++ (all_hits.drop it.payloadOffset).take payloadSize else b1
  { prev := it.position,
    prevPayloadSize := if payloadSize ≠ st.prevPayloadSize then payloadSize else st.prevPayloadSize,
    termHits := st.termHits + 1,
    b := b2 }

/-- The loop `do { ... } while (++p != e && p->first == term)`: `it` is the entry at
`p`, `rest` the entries after it.  Returns the locals and the entries from the final
`p` on. -/
def hitsLoop (all_hits : Bytes) (term : Nat) :
    hit_t → List hit_t → HitLoop → HitLoop × List hit_t
  | it, [], st => (hitBody all_hits it st, [])
  | it, nxt :: rest, st =>
    if nxt.termID = term then hitsLoop all_hits term nxt rest (hitBody all_hits it st)
    else (hitBody all_hits it st, nxt :: rest)

/-- One pass of the loop `for (p = v.data(); p != e;)` of a bucket: the term group
that starts at `p`.  `none` when a `require` fails. -/
def termGroup (all_hits : Bytes) (b : Bytes) : List hit_t → Option (Bytes × List hit_t)
  | [] => some (b, [])
  | it :: rest =>
    let term := it.termID
    if term = 0 then none
    else
      let b1 := b ++ pack32 term
      let o := b1.length
      let b2 := b1 ++ pack16 0
      let r := hitsLoop all_hits term it rest ⟨0, 0xff, 0, b2⟩
      if ¬ r.1.termHits ≤ 65535 then none
      else some (patch16 r.1.b o r.1.termHits, r.2)

/-- The loop `for (p = v.data(); p != e;)` over a sorted bucket, `terms` counting the
groups.  Every pass moves `p` forward, so `fuel = v.size()` passes are enough. -/
def bucketLoop (all_hits : Bytes) : Nat → Bytes → Nat → List hit_t → Option (Bytes × Nat)
  | _, b, terms, [] => some (b, terms)
  | 0, _, _, _ :: _ => none
  | fuel + 1, b, terms, it :: rest =>
    match termGroup all_hits b (it :: rest) with
    | none => none
    | some (b', p') => bucketLoop all_hits fuel b' (terms + 1) p'

/-- The loop `for (auto &v : hits)` over buckets `k, k + 1, ..., k + n - 1`: each is
sorted and written. -/
def bucketsLoop (all_hits : Bytes) (hits : Nat → List hit_t) :
    Nat → Nat → Bytes → Nat → Option (Bytes × Nat)
  | 0, _, b, terms => some (b, terms)
  | n + 1, k, b, terms =>
    match bucketLoop all_hits (hits k).length b terms (stdSort hitLess (hits k)) with
    | none => none
    | some (b', terms') => bucketsLoop all_hits hits n (k + 1) b' terms'

/-- `SegmentIndexSession::commit_document_impl`.  The outcome is `threw` when
`consider_update` throws and `aborted` when a `require` fails; the writes to the
backing file are taken to succeed. -/
def commit_document_impl (SPAN : Nat) (s : SegmentIndexSession) (proxy : document_proxy)
    (replace : Bool) : Outcome × SegmentIndexSession :=
  let all_hits := s.hitsBuf
  match consider_update SPAN s.guard proxy.did with
  | (Outcome.ok, g) =>
    let b1 := s.b ++ pack32 proxy.did
    let updated := if replace then s.updatedDocumentIDs ++ [proxy.did] else s.updatedDocumentIDs
    let offset := b1.length
    let b2 := b1 ++ pack16 0
    match bucketsLoop all_hits s.hits 16 0 b2 0 with
    | none =>
      (Outcome.aborted, { s with guard := g, updatedDocumentIDs := updated })
    | some (b3, terms) =>
      let b4 := patch16 b3 offset terms
      if s.intermediateStateFlushFreq ≠ 0 ∧ b4.length > s.intermediateStateFlushFreq then
        (Outcome.ok,
          { s with
            guard := g, updatedDocumentIDs := updated, hits := fun _ => [],
            backingFile := some (s.backingFile.getD [] ++ b4), b := [] })
      else
        (Outcome.ok,
          { s with guard := g, updatedDocumentIDs := updated, hits := fun _ => [], b := b4 })
  | (o, g) => (o, { s with guard := g })

/-- `SegmentIndexSession::erase`. -/
def erase (SPAN : Nat) (s : SegmentIndexSession) (documentID : Nat) :
    Outcome × SegmentIndexSession :=
  match consider_update SPAN s.guard documentID with
  | (Outcome.ok, g) =>
    (Outcome.ok, { s with guard := g, updatedDocumentIDs := s.updatedDocumentIDs ++ [documentID] })
  | (o, g) => (o, { s with guard := g })

/-! ## `commit` -/

/-- The `segment_data` of `commit`: one entry per (term, document) group met by the
collect phase. -/
structure segment_data where
  termID : Nat
  documentID : Nat
  hitsOffset : Nat
  hitsCnt : Nat
  rangeIdx : Nat
  deriving DecidableEq, Repr

/-- The number of passes of `do { ... } while (--c)` for a `uint16_t c`: `c` passes,
and 65536 of them when `c` is 0 at entry. -/
def passes16 (c : Nat) : Nat := if c = 0 then 65536 else c

/-- The locals of `scan` that the collect phase updates: the `uint8_t payloadSize`
(declared once for both phases, without an initial value), the 32 partitions `all`,
and `defaultFieldStats.docsCnt`. -/
structure ScanState where
  payloadSize : Nat
  all : Nat → List segment_data
  docsCnt : Nat

/-- The `varbyte_get32(p, payloadSize)` that follows a `deltaMask` with low bit 0 (the
value is stored into the `uint8_t payloadSize`); with low bit 1 nothing is read. -/
def readPayloadSize (deltaMask payloadSize : Nat) (p : Bytes) : Option (Nat × Bytes) :=
  if deltaMask &&& 1 = 0 then
    match varbyte_get32 p with
    | none => none
    | some (v, p') => some (v % 256, p')
  else some (payloadSize, p)

/-- The hits loop of the collect phase, `n` passes of
`do { varbyte_get32(p, _t); ...; p += payloadSize; } while (--hitsCnt)`.
`none` when the loop reads or moves past the end of the range. -/
def skipHits : Nat → Bytes → Nat → Option (Bytes × Nat)
  | 0, p, payloadSize => some (p, payloadSize)
  | n + 1, p, payloadSize =>
    match varbyte_get32 p with
    | none => none
    | some (deltaMask, p1) =>
      match readPayloadSize deltaMask payloadSize p1 with
      | none => none
      | some (ps, p2) =>
        if p2.length < ps then none else skipHits n (p2.drop ps) ps

/-- The terms loop of the collect phase, `n` passes of
`do { ... all[term & 31].emplace_back(...); } while (--termsCnt)` for the document
`documentID` of range `i`, whose size is `dataSize`. -/
def collectTerms (i dataSize documentID : Nat) :
    Nat → Bytes → ScanState → Option (Bytes × ScanState)
  | 0, p, st => some (p, st)
  | n + 1, p, st =>
    match read32 p with
    | none => none
    | some (term, p1) =>
      match read16 p1 with
      | none => none
      | some (hitsCnt, base) =>
        match skipHits (passes16 hitsCnt) base st.payloadSize with
        | none => none
        | some (p3, ps) =>
          collectTerms i dataSize documentID n p3
            { st with
              payloadSize := ps,
              all := Function.update st.all (term &&& 31)
                (st.all (term &&& 31) ++
                  [⟨term, documentID, (dataSize - base.length) % 2 ^ 32, hitsCnt, i⟩]) }

/-- The loop `for (p = data; p != e;)` of the collect phase over range `i`.  A pass
reads at least six bytes, so `fuel = dataSize` passes are enough. -/
def collectDocs (i dataSize : Nat) : Nat → Bytes → ScanState → Option ScanState
  | _, [], st => some st
  | 0, _ :: _, _ => none
  | fuel + 1, p, st =>
    match read32 p with
    | none => none
    | some (documentID, p1) =>
      match read16 p1 with
      | none => none
      | some (termsCnt, p2) =>
        if termsCnt = 0 then collectDocs i dataSize fuel p2 st
        else
          match collectTerms i dataSize documentID termsCnt p2
              { st with docsCnt := st.docsCnt + 1 } with
          | none => none
          | some (p3, st') => collectDocs i dataSize fuel p3 st'

/-- The loop `for (uint8_t i{0}; i != ranges.size(); ++i)` of the collect phase, from
range index `i` on. -/
def collectRanges : List Bytes → Nat → ScanState → Option ScanState
  | [], _, st => some st
  | data :: more, i, st =>
    match collectDocs i data.length data.length data st with
    | none => none
    | some st' => collectRanges more (i + 1) st'

/-- The comparison given to `std::sort` in the sort phase: by term ID, then by
document ID. -/
def segLess (a b : segment_data) : Bool :=
  decide (a.termID < b.termID) ||
    (decide (a.termID = b.termID) && decide (a.documentID < b.documentID))

/-- What the encoder is told about one document of a term: the argument of
`begin_document` and the arguments of the `new_hit` calls up to `end_document`. -/
abbrev DocPosting := Nat × List (Nat × Bytes)

/-- What `commit` does for one term: the term ID it files in `map` after `end_term`,
and the documents given between `begin_term` and `end_term`. -/
abbrev TermPosting := Nat × List DocPosting

/-- The hits loop of the encode phase, `for (uint32_t i{0}; i != hitsCnt; ++i)`: the
`new_hit(pos, {p, payloadSize})` calls, with the final `payloadSize`. -/
def decodeHits : Nat → Bytes → Nat → Nat → Option (List (Nat × Bytes) × Nat)
  | 0, _, _, payloadSize => some ([], payloadSize)
  | n + 1, p, pos, payloadSize =>
    match varbyte_get32 p with
    | none => none
    | some (deltaMask, p1) =>
      match readPayloadSize deltaMask payloadSize p1 with
      | none => none
      | some (ps, p2) =>
        if p2.length < ps then none
        else
          match decodeHits n (p2.drop ps) ((pos + (deltaMask >>> 1)) % 2 ^ 32) ps with
          | none => none
          | some (calls, ps') =>
            some (((pos + (deltaMask >>> 1)) % 2 ^ 32, p2.take ps) :: calls, ps')

/-- The locals of `scan` that the encode phase updates: `payloadSize`, the counters of
`defaultFieldStats` and the keys of `map` in `emplace` order. -/
structure EncodeState where
  payloadSize : Nat
  stats : field_statistics
  map : List Nat
  deriving DecidableEq, Repr

/-- The loop `do { ... } while (++it != e && it->termID == term)` of the encode phase:
`it` is the entry at hand, `rest` the entries after it.  `none` when
`require(documentID > prevDID)` fails or a read leaves the range. -/
def docsLoop (R : List Bytes) (term : Nat) :
    segment_data → List segment_data → Nat → EncodeState →
      Option (List DocPosting × EncodeState × List segment_data)
  | it, rest, prevDID, st =>
    if ¬ it.documentID > prevDID then none
    else
      match decodeHits it.hitsCnt ((R.getD it.rangeIdx []).drop it.hitsOffset) 0
          st.payloadSize with
      | none => none
      | some (calls, ps) =>
        let st' : EncodeState :=
          { st with
            payloadSize := ps,
            stats := { st.stats with
              sumTermHits := st.stats.sumTermHits + it.hitsCnt,
              sumTermsDocs := st.stats.sumTermsDocs + 1 } }
        match rest with
        | [] => some ([(it.documentID, calls)], st', [])
        | nxt :: rest' =>
          if nxt.termID = term then
            match docsLoop R term nxt rest' it.documentID st' with
            | none => none
            | some (docs, st'', left) => some ((it.documentID, calls) :: docs, st'', left)
          else some ([(it.documentID, calls)], st', nxt :: rest')

/-- The loop `for (it = v.data(); it != e;)` of the encode phase over one sorted
partition.  A pass moves `it` forward, so `fuel = v.size()` passes are enough.  (The
`flush_index` call writes the encoder output to the index file and is left out.) -/
def termsLoop (R : List Bytes) :
    Nat → List segment_data → EncodeState → Option (List TermPosting × EncodeState)
  | _, [], st => some ([], st)
  | 0, _ :: _, _ => none
  | fuel + 1, it :: rest, st =>
    match docsLoop R it.termID it rest 0 st with
    | none => none
    | some (docs, st', left) =>
      let st'' : EncodeState :=
        { st' with
          map := if it.termID ∈ st'.map then st'.map else st'.map ++ [it.termID],
          stats := { st'.stats with totalTerms := st'.stats.totalTerms + 1 } }
      match termsLoop R fuel left st'' with
      | none => none
      | some (more, st₃) => some ((it.termID, docs) :: more, st₃)

/-- The loop `for (auto &v : all)` of the sort and encode phases over partitions
`k, k + 1, ..., k + n - 1`. -/
def partitionsLoop (R : List Bytes) (all : Nat → List segment_data) :
    Nat → Nat → EncodeState → Option (List TermPosting × EncodeState)
  | 0, _, st => some ([], st)
  | n + 1, k, st =>
    match termsLoop R (all k).length (stdSort segLess (all k)) st with
    | none => none
    | some (ts, st') =>
      match partitionsLoop R all n (k + 1) st' with
      | none => none
      | some (more, st'') => some (ts ++ more, st'')

/-- What `commit` has done when it returns: the postings given to the encoder, term
by term, the keys of `map`, and `defaultFieldStats`. -/
structure CommitResult where
  postings : List TermPosting
  map : List Nat
  stats : field_statistics
  deriving DecidableEq, Repr

/-- The `scan` lambda of `commit` on the source ranges; `payloadSize0` is whatever the
uninitialised `payloadSize` holds at entry. -/
def scan (stats : field_statistics) (payloadSize0 : Nat) (ranges : List Bytes) :
    Option CommitResult :=
  if ¬ ranges.length < 8 then none
  else
    match collectRanges ranges 0 ⟨payloadSize0, fun _ => [], stats.docsCnt⟩ with
    | none => none
    | some st =>
      match partitionsLoop ranges st.all 32 0
          ⟨st.payloadSize, { stats with docsCnt := st.docsCnt }, []⟩ with
      | none => none
      | some (postings, est) => some ⟨postings, est.map, est.stats⟩

/-- The source ranges of `commit`: the stage buffer when it is not empty, then the
mapped backing file when there is one. -/
def sourceRanges (s : SegmentIndexSession) : List Bytes :=
  (if s.b.length ≠ 0 then [s.b] else []) ++
    (match s.backingFile with
     | some f => [f]
     | none => [])

/-- `SegmentIndexSession::commit`, up to the point where the terms dictionary and the
segment are persisted: the calls made on the encoder and the statistics.  `none` when
a `require` fails or a read leaves its range.  File operations are taken to succeed. -/
def commit (s : SegmentIndexSession) (payloadSize0 : Nat) : Option CommitResult :=
  match s.backingFile with
  | some _ => scan s.defaultFieldStats payloadSize0 (sourceRanges s)
  | none =>
    if (sourceRanges s).length ≠ 0 then scan s.defaultFieldStats payloadSize0 (sourceRanges s)
    else some ⟨[], [], s.defaultFieldStats⟩

/-- The calls on the encoder, in order. -/
inductive EncoderCall where
  | begin_term
  | begin_document (documentID : Nat)
  | new_hit (pos : Nat) (payload : Bytes)
  | end_document
  | end_term
  deriving DecidableEq, Repr

/-- The sequence of encoder calls that the postings stand for. -/
def encoderCalls (postings : List TermPosting) : List EncoderCall :=
  postings.flatMap fun t =>
    [EncoderCall.begin_term] ++
      (t.2.flatMap fun d =>
        [EncoderCall.begin_document d.1] ++ d.2.map (fun h => EncoderCall.new_hit h.1 h.2) ++
          [EncoderCall.end_document]) ++
      [EncoderCall.end_term]

/-! ## Driving a session -/

/-- One call of `insert`: the term ID, the position and the payload. -/
structure InsertCall where
  termID : Nat
  position : Nat
  payload : Bytes
  deriving DecidableEq, Repr

/-- One document given to the session: `begin(did)`, the `insert` calls on the proxy,
then `commit_document_impl(proxy, replace)`. -/
structure Document where
  did : Nat
  replace : Bool
  inserts : List InsertCall
  deriving DecidableEq, Repr

/-- The `insert` calls of a document, one after another, up to the first that fails. -/
def insertAll (MaxPosition : Nat) :
    List InsertCall → SegmentIndexSession → document_proxy →
      Outcome × SegmentIndexSession × document_proxy
  | [], s, px => (Outcome.ok, s, px)
  | c :: cs, s, px =>
    match insert MaxPosition s px c.termID c.position c.payload with
    | (Outcome.ok, s', px') => insertAll MaxPosition cs s' px'
    | r => r

/-- A document is indexed: `begin`, the inserts, `commit_document_impl`. -/
def indexDocument (SPAN MaxPosition : Nat) (s : SegmentIndexSession) (doc : Document) :
    Outcome × SegmentIndexSession :=
  match insertAll MaxPosition doc.inserts (s.begin doc.did).1 (s.begin doc.did).2 with
  | (Outcome.ok, s', px) => commit_document_impl SPAN s' px doc.replace
  | (o, s', _) => (o, s')

/-- The documents are indexed one after another, up to the first failure. -/
def indexAll (SPAN MaxPosition : Nat) :
    List Document → SegmentIndexSession → Outcome × SegmentIndexSession
  | [], s => (Outcome.ok, s)
  | doc :: docs, s =>
    match indexDocument SPAN MaxPosition s doc with
    | (Outcome.ok, s') => indexAll SPAN MaxPosition docs s'
    | r => r

/-- The guard holds bit `n` in a bank of base `base`. -/
def memB (banks : List bank) (base n : Nat) : Prop :=
  ∃ bk ∈ banks, bk.base = base ∧ n ∈ bk.bs

/-- The guard has recorded document `d`. -/
def tracked (SPAN : Nat) (g : Guard) (d : Nat) : Prop :=
  memB g.banks (alignDown SPAN d) (d - alignDown SPAN d)

/-- The accepted terms met so far, without repetition, in the order of their first
occurrence: `acc` extended by the terms of `ts`. -/
def interned (MaxTermLength : Nat) (acc : List Bytes) (ts : List Bytes) : List Bytes :=
  ts.foldl (fun acc t => if validTerm MaxTermLength t = true ∧ t ∉ acc then acc ++ [t] else acc) acc

/-- The dictionaries hold the terms `ts`, numbered from 1 in this order. -/
def DictInv (D : Dict) (ts : List Bytes) : Prop :=
  ts.Nodup ∧ D.dictionary = ts.zip (List.range' 1 ts.length) ∧
    D.invDict = (List.range' 1 ts.length).zip ts

/-- The number of distinct accepted terms among `ts`. -/
def distinctTerms (MaxTermLength : Nat) (ts : List Bytes) : Nat :=
  ((ts.filter (validTerm MaxTermLength)).dedup).length

/-- The index of the first occurrence of `t` in `ts` (`ts.length` when there is none). -/
def firstIndex (t : Bytes) : List Bytes → Nat
  | [] => 0
  | hd :: tl => if hd = t then 0 else firstIndex t tl + 1

/-! ## Specification-level views of the staged data -/

/-- The maximal runs of consecutive entries with the same key. -/
def groupRuns {α : Type} (key : α → Nat) : List α → List (List α)
  | [] => []
  | a :: l =>
    match groupRuns key l with
    | [] => [[a]]
    | g :: gs => if g.head?.map key = some (key a) then (a :: g) :: gs else [a] :: g :: gs

/-- The key of a run: the key of its first entry. -/
def runKey {α : Type} (key : α → Nat) (run : List α) : Nat :=
  match run with
  | [] => 0
  | a :: _ => key a

/-- The hit stream of a term group as `commit_document_impl` writes it, from the
positions and payloads of its hits: `prev` and `prevPayloadSize` are the values of
the two locals before the first hit. -/
def encodeHits : Nat → Nat → List (Nat × Bytes) → Bytes
  | _, _, [] => []
  | prev, prevPayloadSize, (pos, payload) :: rest =>
    (if payload.length ≠ prevPayloadSize then
        encode_varbyte32 (((pos + 2 ^ 32 - prev) % 2 ^ 32 * 2) % 2 ^ 32) ++
          encode_varbyte32 payload.length
      else encode_varbyte32 (((pos + 2 ^ 32 - prev) % 2 ^ 32 * 2) % 2 ^ 32 + 1)) ++
    payload ++ encodeHits pos payload.length rest

/-- A term group of a staged record: the term ID and the (position, payload) pairs of
its hits, in the order in which they are written. -/
abbrev Group := Nat × List (Nat × Bytes)

/-- The bytes of a term group: term ID, `u16` hit count, hit stream. -/
def encGroup (g : Group) : Bytes :=
  pack32 g.1 ++ pack16 (g.2.length % 65536) ++ encodeHits 0 0xff g.2

/-- The bytes of the record of a document: document ID, `u16` term count (the low 16
bits of the number of groups), the groups. -/
def encRecord (r : Nat × List Group) : Bytes :=
  pack32 r.1 ++ pack16 (r.2.length % 65536) ++ r.2.flatMap encGroup

/-- The position and the payload bytes that a bucket entry stands for. -/
def resolve (all_hits : Bytes) (h : hit_t) : Nat × Bytes :=
  (h.position, (all_hits.drop h.payloadOffset).take h.payloadSize)

/-- The payload of a bucket entry lies inside `hitsBuf`. -/
def HitOK (all_hits : Bytes) (h : hit_t) : Prop :=
  h.payloadOffset + h.payloadSize ≤ all_hits.length

/-- The term group that a run of bucket entries is written as. -/
def hitGroup (all_hits : Bytes) (run : List hit_t) : Group :=
  (runKey (·.termID) run, run.map (resolve all_hits))

/-- The runs of the buckets `k, ..., k + n - 1`, each bucket sorted, in the order in
which `commit_document_impl` writes them. -/
def bucketRuns (hits : Nat → List hit_t) (k n : Nat) : List (List hit_t) :=
  (List.range' k n).flatMap fun i => groupRuns (·.termID) (stdSort hitLess (hits i))

/-- The `require` checks of `commit_document_impl` pass on a run: the term ID is not 0
and there are at most `UINT16_MAX` hits. -/
def RunOK (run : List hit_t) : Prop :=
  runKey (·.termID) run ≠ 0 ∧ run.length ≤ 65535

instance RunOK.dec (run : List hit_t) : Decidable (RunOK run) := by
  unfold RunOK; infer_instance

/-- The bytes that `commit_document_impl` appends to the stage buffer for the document
of the proxy, given the buckets and `hitsBuf` of the session. -/
def stagedRecord (s : SegmentIndexSession) (did : Nat) : Bytes :=
  encRecord (did, (bucketRuns s.hits 0 16).map (hitGroup s.hitsBuf))

/-- A hit as the caller gives it: term ID, position, payload. -/
abbrev Triple := Nat × Nat × Bytes

/-- The order of `hitLess` on triples: by term ID, then by position. -/
def tripleLess (a b : Triple) : Bool :=
  decide (a.1 < b.1) || (decide (a.1 = b.1) && decide (a.2.1 < b.2.1))

/-- The triple of an `insert` call. -/
def callTriple (c : InsertCall) : Triple := (c.termID, c.position, c.payload)

/-- The triple that a bucket entry stands for. -/
def hitTriple (all_hits : Bytes) (h : hit_t) : Triple := (h.termID, resolve all_hits h)

/-- The term group of a run of triples with one term ID. -/
def tripleGroup (run : List Triple) : Group := (runKey (·.1) run, run.map (·.2))

/-- The runs of a document: for each bucket `0..15` in turn, the inserted hits whose
term ID falls in the bucket, sorted by term ID and position and cut into runs of one
term ID. -/
def Document.runs (doc : Document) : List (List Triple) :=
  (List.range' 0 16).flatMap fun k =>
    groupRuns (·.1)
      (stdSort tripleLess ((doc.inserts.filter (fun c => c.termID &&& 15 = k)).map callTriple))

/-- The term groups of the record of a document. -/
def Document.groups (doc : Document) : List Group := doc.runs.map tripleGroup

/-- The bytes of the record of a document. -/
def Document.record (doc : Document) : Bytes := encRecord (doc.did, doc.groups)

/-- The three checks of `insert` pass on the call. -/
def InsertOK (MaxPosition : Nat) (c : InsertCall) : Prop :=
  c.termID ≠ 0 ∧ c.position < MaxPosition ∧ c.payload.length ≤ 8

instance InsertOK.dec (MaxPosition : Nat) (c : InsertCall) : Decidable (InsertOK MaxPosition c) := by
  unfold InsertOK; infer_instance

/-- The `require` checks of `commit_document_impl` pass on a run of triples. -/
def TripleRunOK (run : List Triple) : Prop :=
  runKey (·.1) run ≠ 0 ∧ run.length ≤ 65535

instance TripleRunOK.dec (run : List Triple) : Decidable (TripleRunOK run) := by
  unfold TripleRunOK; infer_instance

/-- The fields of the session that `insert` leaves alone are the same in `s` and `s'`. -/
def SameStage (s s' : SegmentIndexSession) : Prop :=
  s'.b = s.b ∧ s'.backingFile = s.backingFile ∧
  s'.intermediateStateFlushFreq = s.intermediateStateFlushFreq ∧
  s'.updatedDocumentIDs = s.updatedDocumentIDs ∧ s'.guard = s.guard ∧ s'.dict = s.dict ∧
  s'.defaultFieldStats = s.defaultFieldStats

/-- The stage buffer of `s` with the record of `doc` appended is moved to the backing
file. -/
def Spills (s : SegmentIndexSession) (doc : Document) : Prop :=
  s.intermediateStateFlushFreq ≠ 0 ∧
    (s.b ++ doc.record).length > s.intermediateStateFlushFreq

/-- Session `s'` is session `s` after document `doc` was staged. -/
def StagedDoc (SPAN : Nat) (s : SegmentIndexSession) (doc : Document)
    (s' : SegmentIndexSession) : Prop :=
  s'.hits = (fun _ => []) ∧
  s'.guard = (track SPAN s.guard doc.did).2 ∧
  s'.updatedDocumentIDs
    = (if doc.replace then s.updatedDocumentIDs ++ [doc.did] else s.updatedDocumentIDs) ∧
  s'.intermediateStateFlushFreq = s.intermediateStateFlushFreq ∧
  s'.dict = s.dict ∧ s'.defaultFieldStats = s.defaultFieldStats ∧
  ((Spills s doc ∧ s'.b = [] ∧
      s'.backingFile = some (s.backingFile.getD [] ++ (s.b ++ doc.record))) ∨
   (¬ Spills s doc ∧ s'.b = s.b ++ doc.record ∧ s'.backingFile = s.backingFile))

/-- The session holds the records of the documents `docs`, staged in this order with
`intermediateStateFlushFreq = freq`: the backing file holds the records of the first
documents and the stage buffer those of the others. -/
def Holds (SPAN freq : Nat) (docs : List Document) (s : SegmentIndexSession) : Prop :=
  s.hits = (fun _ => []) ∧ s.intermediateStateFlushFreq = freq ∧
  s.guard = trackMany SPAN Guard.fresh (docs.map (·.did)) ∧
  s.defaultFieldStats = ⟨0, 0, 0, 0⟩ ∧
  s.updatedDocumentIDs = (docs.filter (·.replace)).map (·.did) ∧
  ∃ spilled staged : List Document, docs = spilled ++ staged ∧
    s.b = (staged.map (·.record)).flatten ∧
    s.backingFile.getD [] = (spilled.map (·.record)).flatten ∧
    (s.backingFile = none → spilled = [])

/-- Every `insert` of the document passes its checks and every run of the document
passes the `require` checks of `commit_document_impl`. -/
def DocOK (MaxPosition : Nat) (doc : Document) : Prop :=
  (∀ c ∈ doc.inserts, InsertOK MaxPosition c) ∧ ∀ run ∈ doc.runs, TripleRunOK run

/-- An entry of the staged data: term ID, document ID and the (position, payload)
pairs of the group, in the order in which they were written. -/
abbrev Entry := Nat × Nat × List (Nat × Bytes)

/-- The entries of a list of records, in the order of the records and of their
groups. -/
def entries (rs : List (Nat × List Group)) : List Entry :=
  rs.flatMap fun r => r.2.map fun g => (g.1, r.1, g.2)

/-- The `segment_data` value `tup`, found in range `i` with contents `data`, stands for
the entry `e`: same term and document, the hit count of the entry, and the offset of
its hit stream. -/
def EntryAt (data : Bytes) (i : Nat) (tup : segment_data) (e : Entry) : Prop :=
  tup.rangeIdx = i ∧ tup.termID = e.1 ∧ tup.documentID = e.2.1 ∧
  tup.hitsCnt = e.2.2.length ∧
  ∃ tail, data.drop tup.hitsOffset = encodeHits 0 0xff e.2.2 ++ tail

/-- The hits of a group can be read back: no payload is longer than 8 bytes, the
positions are below `2 ^ 31` and do not decrease. -/
def WFHits (hs : List (Nat × Bytes)) : Prop :=
  (∀ h ∈ hs, h.2.length ≤ 8 ∧ h.1 < 2 ^ 31) ∧ hs.Pairwise (fun a b => a.1 ≤ b.1)

/-- A group can be read back: a 32-bit term ID, between 1 and 65535 hits. -/
def WFGroup (g : Group) : Prop :=
  g.1 < 2 ^ 32 ∧ 1 ≤ g.2.length ∧ g.2.length ≤ 65535 ∧ WFHits g.2

/-- A record can be read back: a 32-bit document ID, fewer than 65536 groups. -/
def WFRecord (r : Nat × List Group) : Prop :=
  r.1 < 2 ^ 32 ∧ r.2.length < 65536 ∧ ∀ g ∈ r.2, WFGroup g

/-- The `segment_data` value `tup` stands for the entry `e` in the source ranges `R`. -/
def EntryRel (R : List Bytes) (tup : segment_data) (e : Entry) : Prop :=
  EntryAt (R.getD tup.rangeIdx []) tup.rangeIdx tup e

/-- The order of `segLess` on entries: by term ID, then by document ID. -/
def entryLess (a b : Entry) : Bool :=
  decide (a.1 < b.1) || (decide (a.1 = b.1) && decide (a.2.1 < b.2.1))

/-- The postings that the encode phase makes of a sorted partition: one per run of
entries with the same term ID, with the documents of the run in order. -/
def postingsOf (es : List Entry) : List TermPosting :=
  (groupRuns (·.1) es).map fun run => (runKey (·.1) run, run.map fun e => (e.2.1, e.2.2))

/-- The postings that `commit` makes of the staged entries `es`: partition
`term & 31` by partition, each sorted by term ID and document ID. -/
def postingsAll (es : List Entry) (k n : Nat) : List TermPosting :=
  (List.range' k n).flatMap fun i =>
    postingsOf (stdSort entryLess (es.filter (fun e => e.1 &&& 31 = i)))

/-- The entries that the postings stand for: one per document of each term. -/
def flattenPostings (ps : List TermPosting) : List Entry :=
  ps.flatMap fun tp => tp.2.map fun d => (tp.1, d.1, d.2)

/-- The total number of hits of the entries. -/
def hitsTotal (es : List Entry) : Nat := (es.map fun e => e.2.2.length).sum

/-- The staged entries in the order in which the encode phase meets them: partition
by partition, each partition sorted. -/
def partEntries (es : List Entry) (k n : Nat) : List Entry :=
  (List.range' k n).flatMap fun i => stdSort entryLess (es.filter (fun e => e.1 &&& 31 = i))

/-- No two entries have the same term ID and document ID. -/
def DistinctKeys (es : List Entry) : Prop :=
  es.Pairwise fun a b => ¬ (a.1 = b.1 ∧ a.2.1 = b.2.1)

/-- The record of a document as a value: its ID and its term groups. -/
def Document.staged (doc : Document) : Nat × List Group := (doc.did, doc.groups)

/-- The entries staged for a list of documents. -/
def docEntries (docs : List Document) : List Entry := entries (docs.map Document.staged)

/-- The document ID and the term IDs of the document are 32-bit values. -/
def DocTyped (doc : Document) : Prop :=
  doc.did < 2 ^ 32 ∧ ∀ c ∈ doc.inserts, c.termID < 2 ^ 32

/-- The triples of the `insert` calls of a document. -/
def Document.triples (doc : Document) : List Triple := doc.inserts.map callTriple

/-- The (position, payload) pairs given to `insert` for term `t` of the document, in
call order. -/
def Document.pairs (doc : Document) (t : Nat) : List (Nat × Bytes) :=
  (doc.inserts.filter (fun c => c.termID = t)).map fun c => (c.position, c.payload)

/-- The document has a hit of term `t`. -/
def Document.hasTerm (doc : Document) (t : Nat) : Prop :=
  ∃ c ∈ doc.inserts, c.termID = t

/-- The distinct term IDs of a document. -/
def Document.termIDs (doc : Document) : List Nat := (doc.inserts.map (·.termID)).dedup

/-- The `new_hit` calls that `commit` made for document `d` inside term `t`: the
(position, payload) pairs given between `begin_document(d)` and `end_document`, in
the terms filed under `t`. -/
def newHitCalls (r : CommitResult) (t d : Nat) : List (Nat × Bytes) :=
  (r.postings.filter (fun tp => tp.1 = t)).flatMap fun tp =>
    (tp.2.filter (fun dp => dp.1 = d)).flatMap (·.2)

/-- Every document has a non-zero 32-bit ID, 32-bit term IDs and fewer than 65536
distinct terms. -/
def Admissible (docs : List Document) : Prop :=
  ∀ doc ∈ docs, doc.did ≠ 0 ∧ DocTyped doc ∧ doc.termIDs.length < 65536

/-- The bytes staged for the documents: their records, one after another. -/
def stagedBytes (docs : List Document) : Bytes := (docs.map (·.record)).flatten

/-- The session after the documents were indexed, one after another, by a new session
with the given `intermediateStateFlushFreq`. -/
def sessionOf (SPAN MaxPosition freq : Nat) (docs : List Document) :
    Outcome × SegmentIndexSession :=
  indexAll SPAN MaxPosition docs (SegmentIndexSession.fresh freq)

instance DocTyped.dec (doc : Document) : Decidable (DocTyped doc) := by
  unfold DocTyped; infer_instance

instance Admissible.dec (docs : List Document) : Decidable (Admissible docs) := by
  unfold Admissible; infer_instance

instance Document.hasTerm.dec (doc : Document) (t : Nat) : Decidable (doc.hasTerm t) := by
  unfold Document.hasTerm; infer_instance

/-- Claim C2 at the documents `docs`: `commit` returns, and for every document and
every term it has a hit of, the `new_hit` calls made for the document inside the term
are a permutation of the (position, payload) pairs given to `insert` for the term, in
non-decreasing position. -/
def HitsReplayed (SPAN MaxPosition freq ps0 : Nat) (docs : List Document) : Prop :=
  ∃ r, commit (sessionOf SPAN MaxPosition freq docs).2 ps0 = some r ∧
    ∀ doc ∈ docs, ∀ t, doc.hasTerm t →
      (newHitCalls r t doc.did).Perm (doc.pairs t) ∧
      (newHitCalls r t doc.did).Pairwise (fun a b => a.1 ≤ b.1)

/-- Claim C3 at the documents `docs`: `commit` returns, and for every term it emitted,
the IDs given to `begin_document` inside the term are strictly increasing and are
exactly the IDs of the documents that have a hit of the term. -/
def DocumentsListed (SPAN MaxPosition freq ps0 : Nat) (docs : List Document) : Prop :=
  ∃ r, commit (sessionOf SPAN MaxPosition freq docs).2 ps0 = some r ∧
    ∀ tp ∈ r.postings,
      (tp.2.map (·.1)).Pairwise (fun a b => a < b) ∧
      ∀ d, d ∈ tp.2.map (·.1) ↔ ∃ doc ∈ docs, doc.did = d ∧ doc.hasTerm tp.1

/-- Claim C4 at the documents `docs`: `commit` returns, with `docsCnt` the number of
documents that have a hit, `sumTermHits` the number of hits inserted, and
`sumTermsDocs` the number of (term, document) pairs that have a hit. -/
def StatsCounted (SPAN MaxPosition freq ps0 : Nat) (docs : List Document) : Prop :=
  ∃ r, commit (sessionOf SPAN MaxPosition freq docs).2 ps0 = some r ∧
    r.stats.docsCnt = (docs.filter (fun d => decide (d.inserts ≠ []))).length ∧
    r.stats.sumTermHits = (docs.map fun d => d.inserts.length).sum ∧
    r.stats.sumTermsDocs = (docs.map fun d => d.termIDs.length).sum

/-- The distinct term IDs staged for the documents. -/
def stagedTermIDs (docs : List Document) : List Nat :=
  ((docs.flatMap (·.inserts)).map (·.termID)).dedup

/-- Claim C5 at the documents `docs`: `commit` returns; the terms it emitted (one
`begin_term` ... `end_term` each) are the distinct staged term IDs, each once;
`totalTerms` is their number and `map` has one entry for each. -/
def TermsEmittedOnce (SPAN MaxPosition freq ps0 : Nat) (docs : List Document) : Prop :=
  ∃ r, commit (sessionOf SPAN MaxPosition freq docs).2 ps0 = some r ∧
    (r.postings.map (·.1)).Nodup ∧
    (∀ t, t ∈ r.postings.map (·.1) ↔ t ∈ stagedTermIDs docs) ∧
    r.stats.totalTerms = (stagedTermIDs docs).length ∧
    r.map.Nodup ∧ (∀ t, t ∈ r.map ↔ t ∈ stagedTermIDs docs) ∧
    ((encoderCalls r.postings).count EncoderCall.begin_term = (stagedTermIDs docs).length) ∧
    ((encoderCalls r.postings).count EncoderCall.end_term = (stagedTermIDs docs).length)

/-- Three documents over three terms, with payloads of several sizes, positions given
out of order and a repeated position; with a spill threshold of 20 bytes the first
two documents are written to the backing file and the third stays in memory. -/
def sampleDocs : List Document :=
  [⟨7, false, [⟨1, 5, [9]⟩, ⟨33, 2, []⟩, ⟨1, 3, [4]⟩, ⟨1, 3, [1, 2]⟩]⟩,
   ⟨2, true, [⟨33, 1, [8]⟩, ⟨2, 4, []⟩]⟩,
   ⟨9, false, []⟩]

/-- A session of one document, of ID 0, with one hit. -/
def zeroDocs : List Document := [⟨0, false, [⟨1, 1, []⟩]⟩]

/-! ## Sequences of operations on a session -/

/-- The number of positions in the list that are non-zero and equal to the position
just before them, `last` being the position before the first. -/
def overlaps : Nat → List Nat → Nat
  | _, [] => 0
  | last, p :: ps => (if p ≠ 0 ∧ p = last then 1 else 0) + overlaps p ps

/-- An operation of the caller on the session that stages or masks a document: a
document is indexed and committed, or an ID is erased. -/
inductive SessionOp where
  | commit (doc : Document)
  | erase (documentID : Nat)
  deriving DecidableEq, Repr

/-- The document ID that the operation submits. -/
def SessionOp.did : SessionOp → Nat
  | SessionOp.commit doc => doc.did
  | SessionOp.erase documentID => documentID

/-- The operation is an `erase` or a commit with `replace = true`. -/
def SessionOp.masks : SessionOp → Bool
  | SessionOp.commit doc => doc.replace
  | SessionOp.erase _ => true

/-- One operation on the session. -/
def applyOp (SPAN MaxPosition : Nat) (s : SegmentIndexSession) :
    SessionOp → Outcome × SegmentIndexSession
  | SessionOp.commit doc => indexDocument SPAN MaxPosition s doc
  | SessionOp.erase documentID => erase SPAN s documentID

/-- The operations one after another, up to the first failure. -/
def runOps (SPAN MaxPosition : Nat) :
    List SessionOp → SegmentIndexSession → Outcome × SegmentIndexSession
  | [], s => (Outcome.ok, s)
  | op :: ops, s =>
    match applyOp SPAN MaxPosition s op with
    | (Outcome.ok, s') => runOps SPAN MaxPosition ops s'
    | r => r

/-- A commit with replacement, a plain commit, an erase and another commit with
replacement. -/
def sampleOps : List SessionOp :=
  [SessionOp.commit ⟨7, true, [⟨1, 5, [9]⟩]⟩, SessionOp.commit ⟨2, false, [⟨33, 1, []⟩]⟩,
   SessionOp.erase 70000, SessionOp.commit ⟨4, true, []⟩]

/-- The state that a run of operations keeps: empty buckets, the guard holding the IDs
submitted so far, and the masked IDs in submission order. -/
def OpsHold (SPAN : Nat) (ops : List SessionOp) (s : SegmentIndexSession) : Prop :=
  s.hits = (fun _ => []) ∧
  s.guard = trackMany SPAN Guard.fresh (ops.map (·.did)) ∧
  s.updatedDocumentIDs = (ops.filter (·.masks)).map (·.did)

/-- A session that holds one staged document of 23 bytes, with a spill threshold of
30 bytes, and one hit in the buckets for the next document. -/
def spillSession : SegmentIndexSession :=
  (insert 8192 ((indexDocument 65536 8192 (SegmentIndexSession.fresh 30)
    ⟨7, false, [⟨1, 5, [9]⟩, ⟨33, 2, []⟩]⟩).2.begin 8).1 ⟨8, 0, 0⟩ 3 1 [1, 2, 3]).2.1

/-! ## The layout of a staged record -/

/-- The bytes `R` were appended to the stage of `s`, giving `s'`: they follow the stage
buffer, or the stage buffer followed by them was moved to the end of the backing
file. -/
def Appended (s s' : SegmentIndexSession) (R : Bytes) : Prop :=
  (s'.b = s.b ++ R ∧ s'.backingFile = s.backingFile) ∨
  (s'.b = [] ∧ s'.backingFile = some (s.backingFile.getD [] ++ (s.b ++ R)))

/-- The same-size flags of the hits of one term group, as the rule is worded: from the
payload lengths of the hits in emission order, a hit has flag 1 exactly when there is
a hit before it in the group and that hit has the same payload length.  `prev` is the
length of the hit before, `none` at the start of the group. -/
def sameSizeFlags : Option Nat → List Nat → List Bool
  | _, [] => []
  | prev, l :: ls => decide (prev = some l) :: sameSizeFlags (some l) ls

/-- The hit stream of a term group for given flags: each hit is its `delta_mask` (the
position delta from the hit before, shifted left by one, with the flag as low bit),
then its payload size when the flag is 0, then its payload. -/
def flaggedHits : Nat → List (Nat × Bytes) → List Bool → Bytes
  | prev, (pos, payload) :: hs, flag :: fs =>
    encode_varbyte32 (((pos + 2 ^ 32 - prev) % 2 ^ 32 * 2) % 2 ^ 32 + (if flag then 1 else 0)) ++
      (if flag then [] else encode_varbyte32 payload.length) ++ payload ++
      flaggedHits pos hs fs
  | _, _, _ => []

/-- A document with `n` distinct terms, `1..n`, one hit each. -/
def manyTermsDoc (n : Nat) : Document :=
  ⟨1, false, (List.range' 1 n).map fun t => ⟨t, 0, []⟩⟩

/-- A document with three hits of term 1, two of them with payloads of one byte, and a
hit of term 33. -/
def sampleDoc : Document :=
  ⟨7, false, [⟨1, 5, [9]⟩, ⟨33, 2, []⟩, ⟨1, 3, [4]⟩, ⟨1, 3, [1, 2]⟩]⟩

/-! ## The checks of the encode phase -/

/-- The 32 partitions as the encode phase walks them: what the collect phase filed in
`all`, each partition sorted.  `none` when the collect phase does not end. -/
def sortedPartitions (s : SegmentIndexSession) (payloadSize0 : Nat) :
    Option (List (List segment_data)) :=
  (collectRanges (sourceRanges s) 0
      ⟨payloadSize0, fun _ => [], s.defaultFieldStats.docsCnt⟩).map fun st =>
    (List.range 32).map fun k => stdSort segLess (st.all k)

/-- The checks `require(documentID > prevDID)` on the document IDs of a run, one after
another, `prevDID` becoming the document ID after each. -/
def ascendFrom : Nat → List Nat → Bool
  | _, [] => true
  | prevDID, documentID :: more => decide (documentID > prevDID) && ascendFrom documentID more

/-- The check `require(documentID > prevDID)` passes on every entry of a run of
entries of one term, `prevDID` being 0 before the first entry. -/
def DocIDsAscend (run : List segment_data) : Prop :=
  ascendFrom 0 (run.map (·.documentID)) = true

instance DocIDsAscend.dec (run : List segment_data) : Decidable (DocIDsAscend run) := by
  unfold DocIDsAscend; infer_instance

/-- The check passes on every entry of every run of the partitions; false when there
are no partitions because the collect phase did not end. -/
def ChecksOn : Option (List (List segment_data)) → Prop
  | some parts =>
    ∀ p ∈ parts, ∀ run ∈ groupRuns (fun x : segment_data => x.termID) p, DocIDsAscend run
  | none => False

instance ChecksOn.dec : (o : Option (List (List segment_data))) → Decidable (ChecksOn o)
  | some parts =>
    inferInstanceAs (Decidable (∀ p ∈ parts,
      ∀ run ∈ groupRuns (fun x : segment_data => x.termID) p, DocIDsAscend run))
  | none => inferInstanceAs (Decidable False)

/-- Claim C16 at the documents `docs`: the collect phase ends, the check
`require(documentID > prevDID)` passes on every entry of every run of every
partition, and `commit` returns. -/
def DocIDChecksPass (SPAN MaxPosition freq ps0 : Nat) (docs : List Document) : Prop :=
  ChecksOn (sortedPartitions (sessionOf SPAN MaxPosition freq docs).2 ps0) ∧
  (commit (sessionOf SPAN MaxPosition freq docs).2 ps0).isSome = true

instance DocIDChecksPass.dec (SPAN MaxPosition freq ps0 : Nat) (docs : List Document) :
    Decidable (DocIDChecksPass SPAN MaxPosition freq ps0 docs) := by
  unfold DocIDChecksPass; infer_instance

/-! ## The order of the terms -/

/-- Term `a` comes before term `b` in the order `(term_id mod 32, term_id)`. -/
def termOrder (a b : Nat) : Prop := a % 32 < b % 32 ∨ (a % 32 = b % 32 ∧ a < b)

instance termOrder.dec (a b : Nat) : Decidable (termOrder a b) := by
  unfold termOrder; infer_instance

/-- Claim C20 at the documents `docs`: `commit` returns; every entry that the collect
phase filed is in partition `term_id & 31`; and the terms given to `begin_term`, in
call order, are the distinct staged term IDs in the order
`(term_id mod 32, term_id)`. -/
def TermsInPartitionOrder (SPAN MaxPosition freq ps0 : Nat) (docs : List Document) : Prop :=
  ∃ r, commit (sessionOf SPAN MaxPosition freq docs).2 ps0 = some r ∧
    (∃ parts, sortedPartitions (sessionOf SPAN MaxPosition freq docs).2 ps0 = some parts ∧
      parts.length = 32 ∧ ∀ k, ∀ x ∈ parts.getD k [], x.termID &&& 31 = k) ∧
    (r.postings.map (·.1)).Pairwise termOrder ∧
    ∀ t, t ∈ r.postings.map (·.1) ↔ t ∈ stagedTermIDs docs

/-- A session in which the document of ID 0 has hits of terms 1 and 2. -/
def zeroTwoTermsDocs : List Document := [⟨0, false, [⟨1, 1, []⟩, ⟨2, 1, []⟩]⟩]

/-! ## `docidupdates.h`: the scanner registry -/

/-- The value `UINT32_MAX`. -/
def UINT32_MAX : Nat := 2 ^ 32 - 1

/-- The members of `updated_documents_scanner`.  The pointers into the skip list and
the banks of the bitmap are kept as the contents (`udSkipList`, `udBanks`) and
offsets into them (`endp` for `end`, `skiplistBase`, `curBank`); `curBankRange` is
its `offset` and `len`. -/
structure updated_documents_scanner where
  endp : Nat
  bankSize : Nat
  curBankRange : Nat × Nat
  skiplistBase : Nat
  curBank : Nat
  maxDocID : Nat
  udSkipList : List Nat
  udBanks : Bytes
  deriving DecidableEq, Repr

/-- `updated_documents_scanner::drained`. -/
def updated_documents_scanner.drained (s : updated_documents_scanner) : Bool :=
  decide (s.curBankRange.1 = UINT32_MAX)

/-- The copy constructor of `updated_documents_scanner`: `end`, `bankSize`,
`skiplistBase`, `udSkipList`, `udBanks`, `curBankRange` and `curBank` are taken from
`o`; `maxDocID` is not initialised, and `indet` is the value it is found to hold. -/
def updated_documents_scanner.copy (indet : Nat) (o : updated_documents_scanner) :
    updated_documents_scanner :=
  { endp := o.endp, bankSize := o.bankSize, skiplistBase := o.skiplistBase,
    udSkipList := o.udSkipList, udBanks := o.udBanks, curBankRange := o.curBankRange,
    curBank := o.curBank, maxDocID := indet }

/-- The members of `masked_documents_registry`: `rem` and the array `scanners`, with
the slots past `rem` that still hold scanners removed earlier. -/
structure masked_documents_registry where
  rem : Nat
  scanners : List updated_documents_scanner
  deriving DecidableEq, Repr

/-- The loop `for (uint8_t i{0}; i < rem;)` of `masked_documents_registry::test`
from index `i` on.  `updated_documents_scanner::test` is defined outside the sources
and is the parameter `scan`: the answer and the scanner after the call.  `indet`
gives the value that the `maxDocID` left unset by the copy constructor is found to
hold, from the scanner that was in the slot.  The result is the answer, the registry
after the call and the scanners on which `test` was called, in call order, as they
were before their call; `none` when `fuel` passes were not enough or a slot index is
outside the array. -/
def masked_documents_registry.testLoop
    (scan : updated_documents_scanner → Nat → Bool × updated_documents_scanner)
    (indet : updated_documents_scanner → Nat) (id : Nat) :
    Nat → Nat → masked_documents_registry →
      Option (Bool × masked_documents_registry × List updated_documents_scanner)
  | fuel, i, r =>
    if ¬ i < r.rem then some (false, r, [])
    else
      match fuel with
      | 0 => none
      | fuel + 1 =>
        match r.scanners.get? i with
        | none => none
        | some it =>
          let r1 : masked_documents_registry :=
            { r with scanners := r.scanners.set i (scan it id).2 }
          if (scan it id).1 = true then some (true, r1, [it])
          else if (scan it id).2.drained = true then
            match r1.scanners.get? (r1.rem - 1) with
            | none => none
            | some src =>
              let r2 : masked_documents_registry :=
                { rem := r1.rem - 1,
                  scanners := r1.scanners.set i (src.copy (indet (scan it id).2)) }
              match masked_documents_registry.testLoop scan indet id fuel i r2 with
              | none => none
              | some (ans, rf, tested) => some (ans, rf, it :: tested)
          else
            match masked_documents_registry.testLoop scan indet id fuel (i + 1) r1 with
            | none => none
            | some (ans, rf, tested) => some (ans, rf, it :: tested)

/-- `masked_documents_registry::test`; every pass of the loop returns, removes a
scanner or moves `i` forward, so `rem` passes are enough. -/
def masked_documents_registry.test
    (scan : updated_documents_scanner → Nat → Bool × updated_documents_scanner)
    (indet : updated_documents_scanner → Nat) (r : masked_documents_registry) (id : Nat) :
    Option (Bool × masked_documents_registry × List updated_documents_scanner) :=
  masked_documents_registry.testLoop scan indet id r.rem 0 r

/-- A scanner without its `maxDocID`, the member that the copy constructor leaves
unset: two scanners with the same image differ at most there. -/
def updated_documents_scanner.forget (s : updated_documents_scanner) :
    updated_documents_scanner :=
  { s with maxDocID := 0 }

/-- A stand-in for `updated_documents_scanner::test`, to run the registry on: the
scanner answers true on its `maxDocID` and is drained by a larger ID. -/
def sampleScan (s : updated_documents_scanner) (id : Nat) :
    Bool × updated_documents_scanner :=
  if s.maxDocID < id then (false, { s with curBankRange := (UINT32_MAX, 0) })
  else (decide (id = s.maxDocID), s)

/-- A scanner with the given `maxDocID` over an empty bitmap. -/
def sampleScanner (m : Nat) : updated_documents_scanner := ⟨0, 0, (0, 0), 0, 0, m, [], []⟩

/-- A registry of three scanners. -/
def sampleRegistry : masked_documents_registry :=
  ⟨3, [sampleScanner 3, sampleScanner 9, sampleScanner 7]⟩

/-! ## `persist_segment`: the `id` file -/

/-- `IOBuffer::pack` of a `uint8_t`: one byte. -/
def pack8 (v : Nat) : Bytes := [v % 256]

/-- `IOBuffer::pack` of a `uint64_t`: its eight bytes, low byte first. -/
def pack64 (v : Nat) : Bytes :=
  [v % 256, v / 256 % 256, v / 65536 % 256, v / 16777216 % 256, v / 4294967296 % 256,
    v / 1099511627776 % 256, v / 281474976710656 % 256, v / 72057594037927936 % 256]

/-- Modelled from the spec: the buffer that `persist_segment` writes to the `id` file,
`b.pack(uint8_t(1), codecID.size()); b.serialize(codecID.data(), codecID.size());
b.pack(fs.sumTermHits, fs.totalTerms, fs.sumTermsDocs, fs.docsCnt)`.  The types of
`codecID.size()` and of the four counters are declared outside the sources; they are
taken as the specification gives them, `u8` and `u64`. -/
def idFileBytes (codecID : Bytes) (fs : field_statistics) : Bytes :=
  pack8 1 ++ pack8 codecID.length ++ codecID ++
    (pack64 fs.sumTermHits ++ pack64 fs.totalTerms ++ pack64 fs.sumTermsDocs ++
      pack64 fs.docsCnt)

/-- The value of a little-endian unsigned integer, from its bytes. -/
def leValue : Bytes → Nat
  | [] => 0
  | b :: bs => b + 256 * leValue bs

/-! ## A document whose term count wraps -/

/-- An eight-byte payload; read as staged data it is the term ID 2048 (with the two
bytes before it), a hit count of 1 and a hit with a payload of `size` bytes. -/
def wrapPayload (size : Nat) : Bytes := [0, 0, 1, 0, 0, size, 170, 187]

/-- Document 1 with `n + 1` distinct terms, one hit each at position 0: the terms
`16, 32, ..., 16 * n`, which fall in bucket 0, with the payload `wrapPayload 2`, and
term 15, the only one in bucket 15, with the payload `wrapPayload 3`. -/
def wrapDoc (n : Nat) : Document :=
  ⟨1, false,
    ((List.range' 1 n).map fun j => ⟨16 * j, 0, wrapPayload 2⟩) ++ [⟨15, 0, wrapPayload 3⟩]⟩

/-- Document 2 with one hit of term 256 at position 0 and a payload of five bytes. -/
def tailDoc : Document := ⟨2, false, [⟨256, 0, [7, 7, 7, 0, 0]⟩]⟩

/-- The document with 65536 distinct terms, then the small document. -/
def wrapDocs : List Document := [wrapDoc 65535, tailDoc]

/-- The record that the collect phase reads where `wrapDoc` has the term group of term
`t`: a document of ID `t` with one group, of term 2048, holding one hit at position 0
with the given payload. -/
def misread (t : Nat) (payload : Bytes) : Nat × List Group := (t, [(2048, [(0, payload)])])


/-! ## `docidupdates.h`: the bitmap and the making of scanners -/

/-- The members of `updated_documents`.  The skip list (`skiplist`, `skiplistSize`) is
kept as the list of its entries and the banks as their bytes. -/
structure updated_documents where
  skiplist : List Nat
  bankSize : Nat
  banks : Bytes
  lowestID : Nat
  highestID : Nat
  deriving DecidableEq, Repr

/-- The member `skiplistSize`: the number of entries of the skip list. -/
def updated_documents.skiplistSize (ud : updated_documents) : Nat := ud.skiplist.length

/-- The constructor of `updated_documents_scanner` from an `updated_documents`.  The
initialiser list sets `end`, `bankSize`, `skiplistBase`, `udSkipList`, `udBanks` and
`maxDocID`; the body sets `curBankRange` and `curBank` when `skiplistBase != end`,
that is when the skip list has a first entry, `*skiplistBase`.  Otherwise the body
sets nothing, and `unset` gives what `curBankRange` and `curBank` are found to
hold. -/
def updated_documents_scanner.ofUpdates (unset : (Nat × Nat) × Nat) (ud : updated_documents) :
    updated_documents_scanner :=
  match ud.skiplist with
  | first :: _ =>
    { endp := ud.skiplistSize, bankSize := ud.bankSize, skiplistBase := 0,
      udSkipList := ud.skiplist, udBanks := ud.banks, maxDocID := ud.highestID,
      curBankRange := (first, ud.bankSize), curBank := 0 }
  | [] =>
    { endp := ud.skiplistSize, bankSize := ud.bankSize, skiplistBase := 0,
      udSkipList := ud.skiplist, udBanks := ud.banks, maxDocID := ud.highestID,
      curBankRange := unset.1, curBank := unset.2 }

/-- Modelled from the spec: `pack_updates` and `unpack_updates`, which make the
`updated_documents` that a scanner is built from, are declared in `docidupdates.h` and
defined outside the sources.  The bitmap has banks of `bank_size` bytes, not zero
("it MUST be a power of two"): the banks are "bank_count * bank_size bytes", "each
bank covers a contiguous range [base, base + bank_size*8) of document IDs", the skip
list holds one entry "per bank, equal to that bank's base", and "skip[i] ≡ 0 (mod
bank_size*8)".  The member `bankSize` is the length of the range of a bank, the
number of its bits, as `curBankRange.Set(*skiplistBase, ud.bankSize)` takes it. -/
def updated_documents.IsBitmap (bank_size : Nat) (ud : updated_documents) : Prop :=
  0 < bank_size ∧ ud.bankSize = bank_size * 8 ∧
  ud.banks.length = ud.skiplistSize * bank_size ∧
  ∀ base ∈ ud.skiplist, base % (bank_size * 8) = 0

instance updated_documents.IsBitmap.dec (bank_size : Nat) (ud : updated_documents) :
    Decidable (ud.IsBitmap bank_size) := by
  unfold updated_documents.IsBitmap; infer_instance

/-- `masked_documents_registry::make`: `none` when `require(n <= 255)` fails;
otherwise `rem = n` and slot `i` holds the scanner made of `ud[i]`.  `unset i` gives
what the members that the constructor leaves unset are found to hold in slot `i`. -/
def masked_documents_registry.make (unset : Nat → (Nat × Nat) × Nat)
    (ud : List updated_documents) : Option masked_documents_registry :=
  if ¬ ud.length ≤ 255 then none
  else
    some ⟨ud.length,
      ud.enum.map fun iu => updated_documents_scanner.ofUpdates (unset iu.1) iu.2⟩

/-- The loop `for (uint8_t i{0}; i < rem;)` of `masked_documents_registry::test` with
the index held in the `uint8_t i`: `++i` is taken modulo `2 ^ 8`.  Everything else is
as in `testLoop`. -/
def masked_documents_registry.testLoop8
    (scan : updated_documents_scanner → Nat → Bool × updated_documents_scanner)
    (indet : updated_documents_scanner → Nat) (id : Nat) :
    Nat → Nat → masked_documents_registry →
      Option (Bool × masked_documents_registry × List updated_documents_scanner)
  | fuel, i, r =>
    if ¬ i < r.rem then some (false, r, [])
    else
      match fuel with
      | 0 => none
      | fuel + 1 =>
        match r.scanners.get? i with
        | none => none
        | some it =>
          let r1 : masked_documents_registry :=
            { r with scanners := r.scanners.set i (scan it id).2 }
          if (scan it id).1 = true then some (true, r1, [it])
          else if (scan it id).2.drained = true then
            match r1.scanners.get? (r1.rem - 1) with
            | none => none
            | some src =>
              let r2 : masked_documents_registry :=
                { rem := r1.rem - 1,
                  scanners := r1.scanners.set i (src.copy (indet (scan it id).2)) }
              match masked_documents_registry.testLoop8 scan indet id fuel i r2 with
              | none => none
              | some (ans, rf, tested) => some (ans, rf, it :: tested)
          else
            match masked_documents_registry.testLoop8 scan indet id fuel ((i + 1) % 2 ^ 8) r1 with
            | none => none
            | some (ans, rf, tested) => some (ans, rf, it :: tested)

/-- `masked_documents_registry::test` with the index held in a `uint8_t`, given `rem`
passes of the loop. -/
def masked_documents_registry.test8
    (scan : updated_documents_scanner → Nat → Bool × updated_documents_scanner)
    (indet : updated_documents_scanner → Nat) (r : masked_documents_registry) (id : Nat) :
    Option (Bool × masked_documents_registry × List updated_documents_scanner) :=
  masked_documents_registry.testLoop8 scan indet id r.rem 0 r

/-- Claim C25 at the scanner `o` and the value `m` that `maxDocID` is found to hold in
the slot: the copy has the value of `o` in every member. -/
def CopyKeepsEveryField (m : Nat) (o : updated_documents_scanner) : Prop :=
  (o.copy m).endp = o.endp ∧ (o.copy m).bankSize = o.bankSize ∧
  (o.copy m).curBankRange = o.curBankRange ∧ (o.copy m).skiplistBase = o.skiplistBase ∧
  (o.copy m).curBank = o.curBank ∧ (o.copy m).maxDocID = o.maxDocID ∧
  (o.copy m).udSkipList = o.udSkipList ∧ (o.copy m).udBanks = o.udBanks

/-! ## The records held by a session -/

/-- The documents committed by a list of operations, in commit order. -/
def committedDocs : List SessionOp → List Document
  | [] => []
  | SessionOp.commit doc :: ops => doc :: committedDocs ops
  | SessionOp.erase _ :: ops => committedDocs ops

/-- The backing file of the session holds the records of the first documents of
`docs`, and the stage buffer holds the records of the others. -/
def SplitAtRecords (docs : List Document) (s : SegmentIndexSession) : Prop :=
  ∃ spilled staged : List Document, docs = spilled ++ staged ∧
    s.backingFile.getD [] = stagedBytes spilled ∧ s.b = stagedBytes staged

/-! ## The tuples of the collect phase -/

/-- A record that `commit_document_impl` writes with every field within its width: a
32-bit document ID, fewer than 65536 groups, and in each group a 32-bit term ID,
between 1 and 65535 hits, and payloads of at most 8 bytes. -/
def Walkable (r : Nat × List Group) : Prop :=
  r.1 < 2 ^ 32 ∧ r.2.length < 65536 ∧
    ∀ g ∈ r.2, g.1 < 2 ^ 32 ∧ 1 ≤ g.2.length ∧ g.2.length ≤ 65535 ∧ ∀ h ∈ g.2, h.2.length ≤ 8

/-- One tuple for each group of the document `did` of range `i`, in the order of the
groups, the first group starting at offset `o` of the range: the term of the group,
the document, the offset of the first hit of the group (six bytes on, past the term
ID and the hit count) and the number of hits of the group. -/
def groupTuples (i did : Nat) : Nat → List Group → List segment_data
  | _, [] => []
  | o, g :: gs =>
    ⟨g.1, did, o + 6, g.2.length, i⟩ :: groupTuples i did (o + (encGroup g).length) gs

/-- One tuple for each group of each record of range `i`, in the order of the records,
the first record starting at offset `o` of the range; the groups of a record start
six bytes on, past the document ID and the term count. -/
def recordTuples (i : Nat) : Nat → List (Nat × List Group) → List segment_data
  | _, [] => []
  | o, r :: rs =>
    groupTuples i r.1 (o + 6) r.2 ++ recordTuples i (o + (encRecord r).length) rs

/-- The tuple with its offset as `uint32_t(base - data)` stores it. -/
def wrapOffset (t : segment_data) : segment_data :=
  { t with hitsOffset := t.hitsOffset % 2 ^ 32 }

/-- Claim C23 at a range `i` that holds the records of the documents `docs`: the
collect phase, started in state `st`, ends at the end of the range, and what it
appends to the partitions is one tuple for each group, with the offset of the first
hit of the group and the number of its hits. -/
def CollectsGroups (i : Nat) (docs : List Document) (st : ScanState) : Prop :=
  ∃ st' : ScanState,
    collectDocs i (stagedBytes docs).length (stagedBytes docs).length (stagedBytes docs) st
      = some st' ∧
    ∀ k, st'.all k
      = st.all k ++
        (recordTuples i 0 (docs.map Document.staged)).filter (fun t => t.termID &&& 31 = k)

/-- The documents with IDs `1..n`, each with one hit of term 1 at position 0 without
payload: the record of each is 14 bytes. -/
def bigDocs (n : Nat) : List Document :=
  (List.range' 1 n).map fun d => ⟨d, false, [⟨1, 0, []⟩]⟩

instance DocOK.dec (MaxPosition : Nat) (doc : Document) : Decidable (DocOK MaxPosition doc) := by
  unfold DocOK; infer_instance
/-! # Theorems -/

/-! ## The duplicate-update guard -/

theorem alignDown_le (SPAN d : Nat) : alignDown SPAN d ≤ d := Nat.and_le_left

theorem alignDown_inj (SPAN d x : Nat) (hb : alignDown SPAN x = alignDown SPAN d)
    (hn : x - alignDown SPAN x = d - alignDown SPAN d) : x = d := by
  have h1 := alignDown_le SPAN d
  have h2 := alignDown_le SPAN x
  omega

theorem memB_cons (hd : bank) (tl : List bank) (b m : Nat) :
    memB (hd :: tl) b m ↔ (hd.base = b ∧ m ∈ hd.bs) ∨ memB tl b m := by
  simp [memB]

theorem try_set_at_spec (base n : Nat) :
    ∀ (banks : List bank) (i : Nat) (bk : bank), banks.get? i = some bk → bk.base = base →
      (banks.map (·.base)).Nodup →
      ((try_set_at banks i n).1 = true ↔ ¬ memB banks base n) ∧
      ((try_set_at banks i n).2.map (·.base) = banks.map (·.base)) ∧
      (∀ b m, memB (try_set_at banks i n).2 b m ↔ memB banks b m ∨ (b = base ∧ m = n)) := by
  intro banks
  induction banks with
  | nil => intro i bk h; simp at h
  | cons hd tl ih =>
    intro i bk hget hbase hnd
    simp only [List.map_cons, List.nodup_cons, List.mem_map, not_exists, not_and] at hnd
    cases i with
    | zero =>
      simp only [List.get?_cons_zero, Option.some.injEq] at hget
      subst hget
      have hno : ∀ m, ¬ memB tl base m := by
        rintro m ⟨bk, hbk, hb, -⟩
        exact hnd.1 bk hbk (by rw [hb, hbase])
      refine ⟨?_, ?_, ?_⟩
      · rw [memB_cons]
        simp only [try_set_at, SparseFixedBitSet.try_set]
        by_cases hm : n ∈ hd.bs
        · simp [hm, hbase]
        · simp [hm, hno n]
      · simp [try_set_at]
      · intro b m
        simp only [try_set_at, SparseFixedBitSet.try_set]
        rw [memB_cons, memB_cons]
        by_cases hm : n ∈ hd.bs
        · simp only [hm, if_true]
          constructor
          · intro h; exact Or.inl h
          · rintro (h | ⟨rfl, rfl⟩)
            · exact h
            · exact Or.inl ⟨hbase, hm⟩
        · simp only [hm, if_false, List.mem_cons]
          constructor
          · rintro (⟨hb, rfl | h⟩ | h)
            · exact Or.inr ⟨by rw [← hb, hbase], rfl⟩
            · exact Or.inl (Or.inl ⟨hb, h⟩)
            · exact Or.inl (Or.inr h)
          · rintro ((⟨hb, h⟩ | h) | ⟨rfl, rfl⟩)
            · exact Or.inl ⟨hb, Or.inr h⟩
            · exact Or.inr h
            · exact Or.inl ⟨hbase, Or.inl rfl⟩
    | succ j =>
      simp only [List.get?_cons_succ] at hget
      obtain ⟨h1, h2, h3⟩ := ih j bk hget hbase hnd.2
      have hmem : bk ∈ tl := by
        rw [List.mem_iff_get?]; exact ⟨j, hget⟩
      have hhd : hd.base ≠ base := by
        intro h
        exact hnd.1 bk hmem (by rw [h, hbase])
      refine ⟨?_, ?_, ?_⟩
      · simp only [try_set_at]
        rw [h1, memB_cons]
        simp [hhd]
      · simp [try_set_at, h2]
      · intro b m
        simp only [try_set_at]
        rw [memB_cons, memB_cons, h3 b m, or_assoc]

theorem findBank_some (base : Nat) :
    ∀ (banks : List bank) (j : Nat), findBank banks base = some j →
      ∃ bk, banks.get? j = some bk ∧ bk.base = base := by
  intro banks
  induction banks with
  | nil => intro j h; simp [findBank] at h
  | cons hd tl ih =>
    intro j h
    simp only [findBank] at h
    split at h
    · simp only [Option.some.injEq] at h
      subst h
      exact ⟨hd, by simp, by assumption⟩
    · simp only [Option.map_eq_some'] at h
      obtain ⟨k, hk, rfl⟩ := h
      obtain ⟨bk, h1, h2⟩ := ih k hk
      exact ⟨bk, by simpa using h1, h2⟩

theorem findBank_none (base : Nat) :
    ∀ (banks : List bank), findBank banks base = none → ∀ bk ∈ banks, bk.base ≠ base := by
  intro banks
  induction banks with
  | nil => intro _ bk h; simp at h
  | cons hd tl ih =>
    intro h bk hbk
    simp only [findBank] at h
    split at h
    · simp at h
    · simp only [Option.map_eq_none'] at h
      rcases List.mem_cons.1 hbk with rfl | hbk
      · assumption
      · exact ih h bk hbk

/-- One call of `track`: it answers true exactly when the document was not recorded,
records it, and keeps the bases of the banks distinct. -/
theorem track_step (SPAN : Nat) (g : Guard) (d : Nat) (hnd : (g.banks.map (·.base)).Nodup) :
    ((track SPAN g d).1 = true ↔ ¬ tracked SPAN g d) ∧
    ((track SPAN g d).2.banks.map (·.base)).Nodup ∧
    (∀ x, tracked SPAN (track SPAN g d).2 x ↔ tracked SPAN g x ∨ x = d) := by
  have key : ∀ x, (alignDown SPAN x = alignDown SPAN d ∧
      x - alignDown SPAN x = d - alignDown SPAN d) ↔ x = d := by
    intro x
    constructor
    · rintro ⟨h1, h2⟩; exact alignDown_inj SPAN d x h1 h2
    · rintro rfl; exact ⟨rfl, rfl⟩
  unfold track
  simp only
  split
  · rename_i hcur
    unfold curBankBase at hcur
    split at hcur
    · simp at hcur
    · rename_i i hi
      simp only [Option.map_eq_some'] at hcur
      obtain ⟨bk, hget, hb⟩ := hcur
      obtain ⟨h1, h2, h3⟩ := try_set_at_spec (alignDown SPAN d) (d - alignDown SPAN d)
        g.banks i bk hget hb hnd
      simp only [hi, Option.getD_some]
      refine ⟨h1, by rw [h2]; exact hnd, ?_⟩
      intro x
      simp only [tracked, h3, key]
  · split
    · rename_i j hj
      obtain ⟨bk, hget, hb⟩ := findBank_some _ _ _ hj
      obtain ⟨h1, h2, h3⟩ := try_set_at_spec (alignDown SPAN d) (d - alignDown SPAN d)
        g.banks j bk hget hb hnd
      refine ⟨h1, by rw [h2]; exact hnd, ?_⟩
      intro x
      simp only [tracked, h3, key]
    · rename_i hj
      have hno := findBank_none _ _ hj
      refine ⟨?_, ?_, ?_⟩
      · have : ¬ tracked SPAN g d := by
          rintro ⟨bk, hbk, hb, -⟩
          exact hno bk hbk hb
        simpa using this
      · simp only [List.map_append, List.map_cons, List.map_nil]
        rw [List.nodup_append]
        refine ⟨hnd, by simp, ?_⟩
        intro a ha hb
        simp only [List.mem_singleton] at hb
        simp only [List.mem_map] at ha
        obtain ⟨bk, hbk, rfl⟩ := ha
        exact hno bk hbk hb
      · intro x
        simp only [tracked, memB, List.mem_append, List.mem_singleton, SparseFixedBitSet.set,
          List.not_mem_nil, if_false]
        constructor
        · rintro ⟨bk, hbk | rfl, hb, hm⟩
          · exact Or.inl ⟨bk, hbk, hb, hm⟩
          · simp only [List.mem_singleton] at hm
            exact Or.inr ((key x).1 ⟨hb.symm, hm⟩)
        · rintro (⟨bk, hbk, hb, hm⟩ | rfl)
          · exact ⟨bk, Or.inl hbk, hb, hm⟩
          · exact ⟨_, Or.inr rfl, rfl, by simp⟩

theorem trackMany_spec (SPAN : Nat) (ids : List Nat) :
    ∀ (g : Guard) (seen : List Nat), (g.banks.map (·.base)).Nodup →
      (∀ x, tracked SPAN g x ↔ x ∈ seen) →
      ((trackMany SPAN g ids).banks.map (·.base)).Nodup ∧
      (∀ x, tracked SPAN (trackMany SPAN g ids) x ↔ x ∈ seen ++ ids) := by
  induction ids with
  | nil => intro g seen h1 h2; simpa [trackMany] using ⟨h1, h2⟩
  | cons d tl ih =>
    intro g seen h1 h2
    obtain ⟨-, h4, h5⟩ := track_step SPAN g d h1
    have := ih (track SPAN g d).2 (seen ++ [d]) h4 (by
      intro x; rw [h5, h2]; simp)
    simpa [trackMany] using this

theorem track_trackMany (SPAN : Nat) (pre : List Nat) (d : Nat) :
    (track SPAN (trackMany SPAN Guard.fresh pre) d).1 = decide (d ∉ pre) := by
  obtain ⟨h1, h2⟩ := trackMany_spec SPAN pre Guard.fresh [] (by simp [Guard.fresh])
    (by intro x; simp [tracked, memB, Guard.fresh])
  obtain ⟨h3, -, -⟩ := track_step SPAN (trackMany SPAN Guard.fresh pre) d h1
  have := h2 d
  simp only [List.nil_append] at this
  rw [this] at h3
  by_cases hd : d ∈ pre
  · simp only [hd, not_true_eq_false, iff_false, Bool.not_eq_true] at h3
    simp [hd, h3]
  · simp only [hd, not_false_eq_true, iff_true] at h3
    simp [hd, h3]

theorem trackMany_append (SPAN : Nat) (g : Guard) (ids : List Nat) (d : Nat) :
    trackMany SPAN g (ids ++ [d]) = (track SPAN (trackMany SPAN g ids) d).2 := by
  simp [trackMany, List.foldl_append]

/-- C1: in a session, whatever IDs `pre` were passed to `track` before (in any banks,
in any order), `track d` answers true exactly when `d` is not among them, and
`consider_update d` throws exactly when `d` is among them. -/
theorem track_true_iff_first_submission (SPAN : Nat) (pre : List Nat) (d : Nat) :
    (track SPAN (trackMany SPAN Guard.fresh pre) d).1 = decide (d ∉ pre) ∧
    (consider_update SPAN (trackMany SPAN Guard.fresh pre) d).1
      = (if d ∈ pre then Outcome.threw else Outcome.ok) := by
  have h4 := track_trackMany SPAN pre d
  refine ⟨h4, ?_⟩
  unfold consider_update
  rw [h4]
  by_cases hd : d ∈ pre <;> simp [hd]
/-! ## The term dictionary -/

theorem lookup_zip_range (t : Bytes) :
    ∀ (ts : List Bytes) (a : Nat),
      (ts.zip (List.range' a ts.length)).lookup t
        = if t ∈ ts then some (a + firstIndex t ts) else none := by
  intro ts
  induction ts with
  | nil => intro a; simp
  | cons hd tl ih =>
    intro a
    simp only [List.length_cons, List.range'_succ, List.zip_cons_cons, List.lookup_cons]
    by_cases h : t = hd
    · subst h; simp [firstIndex]
    · have h2 : (t == hd) = false := by simpa using h
      have h3 : ¬ hd = t := fun e => h e.symm
      rw [h2]
      simp only [ih, List.mem_cons, h, false_or, firstIndex, h3, if_false]
      split
      · congr 1; omega
      · rfl

theorem firstIndex_append (t : Bytes) (us : List Bytes) :
    ∀ ts : List Bytes, t ∈ ts → firstIndex t (ts ++ us) = firstIndex t ts := by
  intro ts
  induction ts with
  | nil => intro h; simp at h
  | cons hd tl ih =>
    intro h
    by_cases e : hd = t
    · simp [firstIndex, e]
    · have : t ∈ tl := by
        rcases List.mem_cons.1 h with h | h
        · exact absurd h.symm e
        · exact h
      simp [firstIndex, e, ih this]

theorem firstIndex_lt (t : Bytes) :
    ∀ ts : List Bytes, t ∈ ts → firstIndex t ts < ts.length := by
  intro ts
  induction ts with
  | nil => intro h; simp at h
  | cons hd tl ih =>
    intro h
    by_cases e : hd = t
    · simp [firstIndex, e]
    · have : t ∈ tl := by
        rcases List.mem_cons.1 h with h | h
        · exact absurd h.symm e
        · exact h
      simp [firstIndex, e, ih this]

theorem firstIndex_get (t : Bytes) :
    ∀ ts : List Bytes, t ∈ ts → ts.get? (firstIndex t ts) = some t := by
  intro ts
  induction ts with
  | nil => intro h; simp at h
  | cons hd tl ih =>
    intro h
    by_cases e : hd = t
    · simp [firstIndex, e]
    · have : t ∈ tl := by
        rcases List.mem_cons.1 h with h | h
        · exact absurd h.symm e
        · exact h
      simpa [firstIndex, e] using ih this

theorem lookup_range_zip (k : Nat) :
    ∀ (ts : List Bytes) (a : Nat),
      ((List.range' a ts.length).zip ts).lookup k
        = if a ≤ k then ts.get? (k - a) else none := by
  intro ts
  induction ts with
  | nil => intro a; simp
  | cons hd tl ih =>
    intro a
    simp only [List.length_cons, List.range'_succ, List.zip_cons_cons, List.lookup_cons]
    by_cases h : k = a
    · subst h; simp
    · have h2 : (k == a) = false := by simpa using h
      rw [h2]
      simp only [ih]
      by_cases h3 : a ≤ k
      · have h4 : a + 1 ≤ k := by omega
        have h5 : k - a = (k - (a + 1)) + 1 := by omega
        simp only [h3, h4, if_true]
        rw [h5, List.get?_cons_succ]
      · have h4 : ¬ a + 1 ≤ k := by omega
        simp [h3, h4]

theorem term_id_invalid (M : Nat) (D : Dict) (t : Bytes) (h : validTerm M t = false) :
    term_id M D t = (none, D) := by
  unfold term_id
  unfold validTerm at h
  by_cases h0 : t.length = 0
  · simp [h0]
  · by_cases h1 : t.length ≤ M
    · have : 1 ≤ t.length := by omega
      simp [this, h1] at h
    · simp [h0, h1]

theorem term_id_known (M : Nat) (D : Dict) (ts : List Bytes) (t : Bytes)
    (hinv : DictInv D ts) (hv : validTerm M t = true) (hmem : t ∈ ts) :
    term_id M D t = (some (firstIndex t ts + 1), D) := by
  obtain ⟨-, hd, -⟩ := hinv
  unfold validTerm at hv
  simp only [Bool.and_eq_true, decide_eq_true_eq] at hv
  unfold term_id
  have h0 : ¬ t.length = 0 := by omega
  simp only [h0, if_false, hv.2, not_true_eq_false]
  rw [hd, lookup_zip_range]
  simp only [hmem, if_true]
  congr 2
  omega

theorem term_id_new (M : Nat) (D : Dict) (ts : List Bytes) (t : Bytes)
    (hinv : DictInv D ts) (hv : validTerm M t = true) (hmem : t ∉ ts)
    (hlen : ts.length + 1 < 2 ^ 32) :
    (term_id M D t).1 = some (ts.length + 1) ∧ DictInv (term_id M D t).2 (ts ++ [t]) := by
  obtain ⟨hnd, hd, hi⟩ := hinv
  unfold validTerm at hv
  simp only [Bool.and_eq_true, decide_eq_true_eq] at hv
  unfold term_id
  have h0 : ¬ t.length = 0 := by omega
  simp only [h0, if_false, hv.2, not_true_eq_false]
  have hlk : D.dictionary.lookup t = none := by
    rw [hd, lookup_zip_range]; simp [hmem]
  have hdl : D.dictionary.length = ts.length := by
    rw [hd]; simp
  rw [hlk]
  simp only [hdl, Nat.mod_eq_of_lt hlen]
  refine ⟨by simp, ?_, ?_, ?_⟩
  · rw [List.nodup_append]
    refine ⟨hnd, by simp, ?_⟩
    intro a ha hb
    simp only [List.mem_singleton] at hb
    subst hb
    exact hmem ha
  · simp only [List.length_append, List.length_singleton, List.range'_concat, one_mul]
    rw [List.zip_append (by simp), hd]
    simp [Nat.add_comm]
  · have hlk2 : D.invDict.lookup (ts.length + 1) = none := by
      rw [hi, lookup_range_zip]
      simp
    unfold emplace
    rw [hlk2]
    simp only [List.length_append, List.length_singleton, List.range'_concat, one_mul]
    rw [List.zip_append (by simp), hi]
    simp [Nat.add_comm]

theorem interned_append (M : Nat) (ts us : List Bytes) (acc : List Bytes) :
    interned M acc (ts ++ us) = interned M (interned M acc ts) us := by
  simp [interned, List.foldl_append]

theorem interned_prefix (M : Nat) (ts : List Bytes) :
    ∀ acc, ∃ ext, interned M acc ts = acc ++ ext := by
  induction ts with
  | nil => intro acc; exact ⟨[], by simp [interned]⟩
  | cons hd tl ih =>
    intro acc
    simp only [interned, List.foldl_cons]
    split
    · obtain ⟨ext, he⟩ := ih (acc ++ [hd])
      exact ⟨[hd] ++ ext, by simp only [interned] at he; rw [he]; simp⟩
    · exact ih acc

theorem interned_spec (M : Nat) (ts : List Bytes) :
    ∀ acc, acc.Nodup → (interned M acc ts).Nodup ∧
      ∀ t, t ∈ interned M acc ts ↔ t ∈ acc ∨ (t ∈ ts ∧ validTerm M t = true) := by
  induction ts with
  | nil => intro acc h; simpa [interned] using h
  | cons hd tl ih =>
    intro acc hacc
    simp only [interned, List.foldl_cons]
    split
    · rename_i hc
      have hnd : (acc ++ [hd]).Nodup := by
        rw [List.nodup_append]
        refine ⟨hacc, by simp, ?_⟩
        intro a ha hb
        simp only [List.mem_singleton] at hb
        subst hb
        exact hc.2 ha
      obtain ⟨h1, h2⟩ := ih (acc ++ [hd]) hnd
      refine ⟨h1, ?_⟩
      intro t
      have := h2 t
      simp only [interned] at this
      rw [this]
      simp only [List.mem_append, List.mem_cons, List.not_mem_nil, or_false]
      constructor
      · rintro ((h | rfl) | ⟨h, hv⟩)
        · exact Or.inl h
        · exact Or.inr ⟨Or.inl rfl, hc.1⟩
        · exact Or.inr ⟨Or.inr h, hv⟩
      · rintro (h | ⟨rfl | h, hv⟩)
        · exact Or.inl (Or.inl h)
        · exact Or.inl (Or.inr rfl)
        · exact Or.inr ⟨h, hv⟩
    · rename_i hc
      obtain ⟨h1, h2⟩ := ih acc hacc
      refine ⟨h1, ?_⟩
      intro t
      have := h2 t
      simp only [interned] at this
      rw [this]
      simp only [List.mem_cons]
      constructor
      · rintro (h | ⟨h, hv⟩)
        · exact Or.inl h
        · exact Or.inr ⟨Or.inr h, hv⟩
      · rintro (h | ⟨rfl | h, hv⟩)
        · exact Or.inl h
        · by_cases hm : t ∈ acc
          · exact Or.inl hm
          · exact absurd ⟨hv, hm⟩ hc
        · exact Or.inr ⟨h, hv⟩

theorem interned_length (M : Nat) (ts : List Bytes) :
    (interned M [] ts).length = distinctTerms M ts := by
  obtain ⟨h1, h2⟩ := interned_spec M ts [] List.nodup_nil
  unfold distinctTerms
  apply List.Perm.length_eq
  rw [List.perm_ext_iff_of_nodup h1 (List.nodup_dedup _)]
  intro a
  rw [h2 a, List.mem_dedup, List.mem_filter]
  simp

theorem interned_length_mono (M : Nat) (ts us : List Bytes) :
    (interned M [] ts).length ≤ (interned M [] (ts ++ us)).length := by
  rw [interned_append]
  obtain ⟨ext, he⟩ := interned_prefix M us (interned M [] ts)
  rw [he]; simp

theorem internMany_inv (M : Nat) (ts : List Bytes) :
    ∀ (D : Dict) (acc : List Bytes), DictInv D acc →
      (interned M acc ts).length < 2 ^ 32 →
      DictInv (internMany M D ts) (interned M acc ts) := by
  induction ts with
  | nil => intro D acc h _; simpa [internMany, interned] using h
  | cons hd tl ih =>
    intro D acc hinv hlen
    have hstep : DictInv (term_id M D hd).2
        (if validTerm M hd = true ∧ hd ∉ acc then acc ++ [hd] else acc) := by
      by_cases hv : validTerm M hd = true
      · by_cases hm : hd ∈ acc
        · rw [term_id_known M D acc hd hinv hv hm]
          simpa [hm] using hinv
        · have hl : acc.length + 1 < 2 ^ 32 := by
            obtain ⟨ext, he⟩ := interned_prefix M tl (acc ++ [hd])
            have : interned M acc (hd :: tl) = interned M (acc ++ [hd]) tl := by
              simp [interned, hv, hm]
            rw [this, he] at hlen
            simp only [List.length_append, List.length_singleton] at hlen
            omega
          simpa [hv, hm] using (term_id_new M D acc hd hinv hv hm hl).2
      · have hv2 : validTerm M hd = false := by simpa using hv
        rw [term_id_invalid M D hd hv2]
        simpa [hv2] using hinv
    have := ih (term_id M D hd).2 _ hstep (by simpa [interned] using hlen)
    simpa [internMany, interned] using this

theorem DictInv_fresh : DictInv Dict.fresh [] := by
  simp [DictInv, Dict.fresh]

theorem internMany_fresh_inv (M : Nat) (ts : List Bytes) (h : distinctTerms M ts < 2 ^ 32) :
    DictInv (internMany M Dict.fresh ts) (interned M [] ts) :=
  internMany_inv M ts Dict.fresh [] DictInv_fresh (by rw [interned_length]; exact h)

theorem firstIndex_append_new (t : Bytes) (us : List Bytes) :
    ∀ ts : List Bytes, t ∉ ts → firstIndex t (ts ++ t :: us) = ts.length := by
  intro ts
  induction ts with
  | nil => intro _; simp [firstIndex]
  | cons hd tl ih =>
    intro h
    simp only [List.mem_cons, not_or] at h
    have e : ¬ hd = t := fun e => h.1 e.symm
    simp [firstIndex, e, ih h.2]

theorem firstIndex_of_get (t : Bytes) :
    ∀ (ts : List Bytes) (j : Nat), ts.Nodup → ts.get? j = some t → firstIndex t ts = j := by
  intro ts
  induction ts with
  | nil => intro j _ h; simp at h
  | cons hd tl ih =>
    intro j hnd h
    simp only [List.nodup_cons] at hnd
    cases j with
    | zero =>
      simp only [List.get?_cons_zero, Option.some.injEq] at h
      simp [firstIndex, h]
    | succ k =>
      simp only [List.get?_cons_succ] at h
      have hm : t ∈ tl := by rw [List.mem_iff_get?]; exact ⟨k, h⟩
      have e : ¬ hd = t := by
        intro e; subst e; exact hnd.1 hm
      simp [firstIndex, e, ih k hnd.2 h]

theorem term_id_post (M : Nat) (D : Dict) (ts : List Bytes) (t : Bytes)
    (hinv : DictInv D ts) (hv : validTerm M t = true) (hlen : ts.length + 1 < 2 ^ 32) :
    ∃ ts', DictInv (term_id M D t).2 ts' ∧ t ∈ ts' ∧
      (term_id M D t).1 = some (firstIndex t ts' + 1) ∧ (∃ ext, ts' = ts ++ ext) ∧
      ts'.length ≤ ts.length + 1 := by
  by_cases hm : t ∈ ts
  · refine ⟨ts, ?_, hm, ?_, ⟨[], by simp⟩, by omega⟩
    · rw [term_id_known M D ts t hinv hv hm]; exact hinv
    · rw [term_id_known M D ts t hinv hv hm]
  · obtain ⟨h1, h2⟩ := term_id_new M D ts t hinv hv hm hlen
    refine ⟨ts ++ [t], h2, by simp, ?_, ⟨[t], rfl⟩, by simp⟩
    rw [h1, firstIndex_append_new t [] ts hm]

theorem term_of_inv (D : Dict) (ts : List Bytes) (hinv : DictInv D ts) (j : Nat) (t : Bytes)
    (h : ts.get? j = some t) : term D (j + 1) = t := by
  obtain ⟨-, -, hi⟩ := hinv
  unfold term
  rw [List.get?_eq_getElem?] at h
  rw [hi, lookup_range_zip]
  simp [h]

/-- C7: for an accepted term `s`, `term_id` answers (number of distinct terms interned
before) + 1 when `s` is new; when `s` was interned by an earlier call it answers what
that call answered and leaves both dictionaries as they are; the IDs held by the
dictionary after any calls are `1, 2, ..., n`, and `0` is not returned.  The count of
distinct terms stays below `2 ^ 32`, the range of the `uint32_t` result. -/
theorem term_id_existing_or_next (M : Nat) (pre post : List Bytes) (s : Bytes)
    (hs : validTerm M s = true)
    (hn : distinctTerms M (pre ++ s :: post) < 2 ^ 32) :
    (s ∉ pre → (term_id M (internMany M Dict.fresh pre) s).1
        = some (distinctTerms M pre + 1)) ∧
    (term_id M (internMany M Dict.fresh (pre ++ s :: post)) s
        = ((term_id M (internMany M Dict.fresh pre) s).1,
            internMany M Dict.fresh (pre ++ s :: post))) ∧
    ((internMany M Dict.fresh pre).dictionary.map Prod.snd
        = List.range' 1 (distinctTerms M pre)) ∧
    (term_id M (internMany M Dict.fresh pre) s).1 ≠ some 0 := by
  have hstep : interned M [] (pre ++ s :: post)
      = interned M (if s ∈ interned M [] pre then interned M [] pre
          else interned M [] pre ++ [s]) post := by
    rw [interned_append]
    have hc : ∀ acc, interned M acc (s :: post)
        = interned M (if validTerm M s = true ∧ s ∉ acc then acc ++ [s] else acc) post :=
      fun _ => rfl
    rw [hc]
    by_cases hm : s ∈ interned M [] pre
    · simp only [hm, not_true_eq_false, and_false, if_false, if_true]
    · simp only [hm, not_false_eq_true, and_true, hs, if_false, if_true]
  have hpre_le : distinctTerms M pre ≤ distinctTerms M (pre ++ s :: post) := by
    rw [← interned_length, ← interned_length]; exact interned_length_mono M pre _
  have hpre : distinctTerms M pre < 2 ^ 32 := by omega
  have hinvPre := internMany_fresh_inv M pre hpre
  have hinvAll := internMany_fresh_inv M (pre ++ s :: post) hn
  have hlenPre := interned_length M pre
  have hmemPre : s ∈ interned M [] pre ↔ s ∈ pre := by
    rw [(interned_spec M pre [] List.nodup_nil).2 s]; simp [hs]
  have hnew : s ∉ interned M [] pre → (interned M [] pre).length + 1 < 2 ^ 32 := by
    intro hm
    obtain ⟨ext, he⟩ := interned_prefix M post (interned M [] pre ++ [s])
    have : (interned M [] (pre ++ s :: post)).length < 2 ^ 32 := by
      rw [interned_length]; exact hn
    rw [hstep] at this
    simp only [hm, if_false, he, List.length_append, List.length_singleton] at this
    omega
  refine ⟨?_, ?_, ?_, ?_⟩
  · intro hm
    have hm2 : s ∉ interned M [] pre := fun h => hm (hmemPre.1 h)
    rw [(term_id_new M _ _ s hinvPre hs hm2 (hnew hm2)).1, hlenPre]
  · by_cases hm : s ∈ interned M [] pre
    · obtain ⟨ext, he⟩ := interned_prefix M post (interned M [] pre)
      have hAll : interned M [] (pre ++ s :: post) = interned M [] pre ++ ext := by
        rw [hstep]; simp only [hm, if_true]; exact he
      have hmAll : s ∈ interned M [] (pre ++ s :: post) := by
        rw [hAll]; exact List.mem_append_left _ hm
      rw [term_id_known M _ _ s hinvAll hs hmAll, term_id_known M _ _ s hinvPre hs hm,
        hAll, firstIndex_append s ext _ hm]
    · obtain ⟨ext, he⟩ := interned_prefix M post (interned M [] pre ++ [s])
      have hAll : interned M [] (pre ++ s :: post) = interned M [] pre ++ s :: ext := by
        rw [hstep]; simp only [hm, if_false]; rw [he]; simp
      have hmAll : s ∈ interned M [] (pre ++ s :: post) := by
        rw [hAll]; simp
      rw [term_id_known M _ _ s hinvAll hs hmAll,
        (term_id_new M _ _ s hinvPre hs hm (hnew hm)).1, hAll,
        firstIndex_append_new s ext _ hm]
  · rw [hinvPre.2.1, ← hlenPre]
    exact List.map_snd_zip _ _ (by simp)
  · by_cases hm : s ∈ interned M [] pre
    · rw [term_id_known M _ _ s hinvPre hs hm]; simp
    · rw [(term_id_new M _ _ s hinvPre hs hm (hnew hm)).1]; simp

theorem term_id_existing_or_next_witness :
    validTerm 4 [104, 105] = true ∧
    (term_id 4 (internMany 4 Dict.fresh [[97], [104, 105], [], [97]]) [104, 105]).1 = some 2 ∧
    (term_id 4 (internMany 4 Dict.fresh [[97]]) [104, 105]).1 = some 2 :=
  ⟨by decide,
    by
      have h := (term_id_existing_or_next 4 [[97]] [[], [97]] [104, 105] (by decide)
        (by decide)).2.1
      have h2 := (term_id_existing_or_next 4 [[97]] [[], [97]] [104, 105] (by decide)
        (by decide)).1 (by decide)
      rw [h2] at h
      simpa using congrArg Prod.fst h,
    (term_id_existing_or_next 4 [[97]] [[], [97]] [104, 105] (by decide) (by decide)).1
      (by decide)⟩

/-- C8: the session dictionary is a bijection between the interned terms and their IDs.
For an accepted term `s`, `term` of the ID `term_id` answers is `s`; for an ID `i` held
by the dictionary, `term_id (term i)` is `i` and changes nothing; and two different
accepted terms, interned one after the other, get different IDs. -/
theorem dictionary_bijection (M : Nat) (pre : List Bytes)
    (hn : distinctTerms M pre + 2 < 2 ^ 32) :
    (∀ s, validTerm M s = true →
      ∃ id, (term_id M (internMany M Dict.fresh pre) s).1 = some id ∧
        term (term_id M (internMany M Dict.fresh pre) s).2 id = s) ∧
    (∀ i, i ∈ (internMany M Dict.fresh pre).dictionary.map Prod.snd →
      term_id M (internMany M Dict.fresh pre) (term (internMany M Dict.fresh pre) i)
        = (some i, internMany M Dict.fresh pre)) ∧
    (∀ s₁ s₂, validTerm M s₁ = true → validTerm M s₂ = true → s₁ ≠ s₂ →
      (term_id M (internMany M Dict.fresh pre) s₁).1
        ≠ (term_id M (term_id M (internMany M Dict.fresh pre) s₁).2 s₂).1) := by
  have hinv := internMany_fresh_inv M pre (by omega)
  have hlen := interned_length M pre
  refine ⟨?_, ?_, ?_⟩
  · intro s hs
    obtain ⟨ts', h1, h2, h3, -, -⟩ := term_id_post M _ _ s hinv hs (by omega)
    exact ⟨_, h3, term_of_inv _ ts' h1 _ s (firstIndex_get s ts' h2)⟩
  · intro i hi
    rw [hinv.2.1, List.map_snd_zip _ _ (by simp)] at hi
    simp only [List.mem_range'_1] at hi
    obtain ⟨j, rfl⟩ : ∃ j, i = j + 1 := ⟨i - 1, by omega⟩
    have hj : j < (interned M [] pre).length := by omega
    have hget : (interned M [] pre).get? j = some ((interned M [] pre).get ⟨j, hj⟩) :=
      List.get?_eq_get hj
    have hmem : (interned M [] pre).get ⟨j, hj⟩ ∈ interned M [] pre := List.get_mem _ _ _
    have hv : validTerm M ((interned M [] pre).get ⟨j, hj⟩) = true := by
      rcases ((interned_spec M pre [] List.nodup_nil).2 _).1 hmem with h | h
      · simp at h
      · exact h.2
    rw [term_of_inv _ _ hinv j _ hget, term_id_known M _ _ _ hinv hv hmem,
      firstIndex_of_get _ _ j hinv.1 hget]
  · intro s₁ s₂ h1 h2 hne
    obtain ⟨ts1, a1, a2, a3, ⟨e1, a4⟩, a5⟩ := term_id_post M _ _ s₁ hinv h1 (by omega)
    obtain ⟨ts2, b1, b2, b3, ⟨e2, b4⟩, -⟩ := term_id_post M _ _ s₂ a1 h2 (by omega)
    rw [a3, b3]
    intro h
    simp only [Option.some.injEq, Nat.add_right_cancel_iff] at h
    have c1 : ts2.get? (firstIndex s₁ ts2) = some s₁ :=
      firstIndex_get s₁ ts2 (by rw [b4]; exact List.mem_append_left _ a2)
    have c2 : ts2.get? (firstIndex s₂ ts2) = some s₂ := firstIndex_get s₂ ts2 b2
    have c3 : firstIndex s₁ ts2 = firstIndex s₁ ts1 := by
      rw [b4]; exact firstIndex_append s₁ e2 ts1 a2
    rw [c3, h, c2] at c1
    exact hne (Option.some.inj c1).symm

theorem dictionary_bijection_witness :
    term (term_id 4 (internMany 4 Dict.fresh [[97], [98, 99]]) [100]).2 3 = [100] ∧
    term (internMany 4 Dict.fresh [[97], [98, 99]]) 2 = [98, 99] := by
  have h := dictionary_bijection 4 [[97], [98, 99]] (by decide)
  obtain ⟨id, h1, h2⟩ := h.1 [100] (by decide)
  have h3 : id = 3 := by
    have : (term_id 4 (internMany 4 Dict.fresh [[97], [98, 99]]) [100]).1 = some 3 := by decide
    rw [this] at h1
    exact (Option.some.inj h1).symm
  subst h3
  exact ⟨h2, by decide⟩

/-- C10: `term_id` rejects the empty term and every term longer than `MaxTermLength`
and then leaves the dictionaries as they are; it answers an ID for every term whose
length is between 1 and `MaxTermLength`. -/
theorem term_id_rejects_iff (M : Nat) (D : Dict) (t : Bytes) :
    ((t.length = 0 ∨ M < t.length) → term_id M D t = (none, D)) ∧
    ((1 ≤ t.length ∧ t.length ≤ M) → ∃ id, (term_id M D t).1 = some id) := by
  constructor
  · intro h
    apply term_id_invalid
    unfold validTerm
    rcases h with h | h
    · simp [h]
    · have : ¬ t.length ≤ M := by omega
      simp [this]
  · rintro ⟨h1, h2⟩
    unfold term_id
    have h0 : ¬ t.length = 0 := by omega
    simp only [h0, if_false, h2, not_true_eq_false]
    split
    · exact ⟨_, rfl⟩
    · exact ⟨_, rfl⟩

/-! ## Inserting hits -/

theorem sum_map_update (f : Nat → List hit_t) (k : Nat) (h : hit_t) :
    ∀ (l : List Nat), l.Nodup → k ∈ l →
      (l.map (fun i => (Function.update f k (f k ++ [h]) i).length)).sum
        = (l.map (fun i => (f i).length)).sum + 1 := by
  intro l
  induction l with
  | nil => intro _ hk; simp at hk
  | cons hd tl ih =>
    intro hnd hk
    simp only [List.nodup_cons] at hnd
    by_cases e : hd = k
    · subst e
      have htl : tl.map (fun i => (Function.update f hd (f hd ++ [h]) i).length)
          = tl.map (fun i => (f i).length) := by
        apply List.map_congr_left
        intro a ha
        have : a ≠ hd := by rintro rfl; exact hnd.1 ha
        simp [Function.update, this]
      simp only [List.map_cons, List.sum_cons, htl]
      simp
      omega
    · have hk2 : k ∈ tl := by
        rcases List.mem_cons.1 hk with h | h
        · exact absurd h.symm e
        · exact h
      simp only [List.map_cons, List.sum_cons, ih hnd.2 hk2]
      simp [Function.update, e]
      omega

theorem hitsCount_update (s : SegmentIndexSession) (k : Nat) (h : hit_t) (hk : k < 16) :
    ∀ s' : SegmentIndexSession, s'.hits = Function.update s.hits k (s.hits k ++ [h]) →
      hitsCount s' = hitsCount s + 1 := by
  intro s' hs
  unfold hitsCount
  rw [hs]
  exact sum_map_update s.hits k h (List.range 16) (List.nodup_range 16) (List.mem_range.2 hk)

/-- C9: `insert` fails exactly when the term ID is 0, or the position is not below
`MaxPosition`, or the payload is longer than 8 bytes, and then no bucket changes;
on every other input one hit is added at the end of bucket `termID & 15` and no other
bucket changes. -/
theorem insert_fails_iff (MaxPosition : Nat) (s : SegmentIndexSession) (px : document_proxy)
    (termID position : Nat) (payload : Bytes) :
    ((insert MaxPosition s px termID position payload).1 ≠ Outcome.ok ↔
      (termID = 0 ∨ ¬ position < MaxPosition ∨ 8 < payload.length)) ∧
    ((insert MaxPosition s px termID position payload).1 ≠ Outcome.ok →
      (insert MaxPosition s px termID position payload).2.1.hits = s.hits) ∧
    ((insert MaxPosition s px termID position payload).1 = Outcome.ok →
      ∃ h : hit_t, h.termID = termID ∧ h.position = position ∧
        h.payloadSize = payload.length ∧
        (insert MaxPosition s px termID position payload).2.1.hits
          = Function.update s.hits (termID &&& 15) (s.hits (termID &&& 15) ++ [h]) ∧
        hitsCount (insert MaxPosition s px termID position payload).2.1 = hitsCount s + 1) := by
  have hk : termID &&& 15 < 16 := by
    have : termID &&& 15 ≤ 15 := Nat.and_le_right
    omega
  unfold insert
  by_cases h0 : termID = 0
  · simp [h0]
  by_cases h1 : position < MaxPosition
  swap
  · simp [h0, h1]
  by_cases h2 : payload.length = 0
  · simp only [h0, h1, h2, if_false, not_true_eq_false, ne_eq, not_false_eq_true]
    refine ⟨by simp, by simp, fun _ => ⟨_, rfl, rfl, rfl, rfl, hitsCount_update _ _ _ hk _ rfl⟩⟩
  by_cases h3 : payload.length ≤ 8
  · simp only [h0, h1, h2, h3, if_false, if_true, not_true_eq_false, ne_eq, not_false_eq_true]
    refine ⟨by simp; omega, by simp, fun _ => ⟨_, rfl, rfl, rfl, rfl, hitsCount_update _ _ _ hk _ rfl⟩⟩
  · simp only [h0, h1, h2, h3, if_false, if_true, not_true_eq_false, ne_eq, not_false_eq_true]
    refine ⟨by simp; omega, by simp, by simp⟩

/-! ## Byte-level round trips -/

theorem read32_pack32 (v : Nat) (rest : Bytes) (h : v < 2 ^ 32) :
    read32 (pack32 v ++ rest) = some (v, rest) := by
  simp only [pack32, read32, List.cons_append, List.nil_append, Option.some.injEq, Prod.mk.injEq,
    and_true]
  omega

theorem read16_pack16 (v : Nat) (rest : Bytes) (h : v < 65536) :
    read16 (pack16 v ++ rest) = some (v, rest) := by
  simp only [pack16, read16, List.cons_append, List.nil_append, Option.some.injEq, Prod.mk.injEq,
    and_true]
  omega

theorem pack32_length (v : Nat) : (pack32 v).length = 4 := rfl

theorem pack16_length (v : Nat) : (pack16 v).length = 2 := rfl

theorem patch16_placeholder (b x : Bytes) (v : Nat) :
    patch16 (b ++ pack16 0 ++ x) b.length v = b ++ pack16 (v % 65536) ++ x := by
  unfold patch16
  have h1 : (b ++ pack16 0 ++ x).take b.length = b := by
    rw [List.append_assoc, List.take_left']
    rfl
  have h2 : (b ++ pack16 0 ++ x).drop (b.length + 2) = x := by
    have : b.length + 2 = (b ++ pack16 0).length := by simp [pack16_length]
    rw [this, List.drop_left']
    rfl
  rw [h1, h2]

theorem varbyte_get32_encode (n : Nat) (rest : Bytes) (h : n < 2 ^ 32) :
    varbyte_get32 (encode_varbyte32 n ++ rest) = some (n, rest) := by
  unfold encode_varbyte32
  by_cases h1 : n < 128
  · simp [h1, varbyte_get32]
  by_cases h2 : n < 16384
  · have a1 : ¬ n % 128 + 128 < 128 := by omega
    have a2 : n / 128 < 128 := by omega
    simp only [h1, h2, if_false, if_true, List.cons_append, List.nil_append, varbyte_get32, a1, a2,
      Option.some.injEq, Prod.mk.injEq, and_true]
    omega
  by_cases h3 : n < 2097152
  · have a1 : ¬ n % 128 + 128 < 128 := by omega
    have a2 : ¬ n / 128 % 128 + 128 < 128 := by omega
    have a3 : n / 16384 < 128 := by omega
    simp only [h1, h2, h3, if_false, if_true, List.cons_append, List.nil_append, varbyte_get32,
      a1, a2, a3, Option.some.injEq, Prod.mk.injEq, and_true]
    omega
  by_cases h4 : n < 268435456
  · have a1 : ¬ n % 128 + 128 < 128 := by omega
    have a2 : ¬ n / 128 % 128 + 128 < 128 := by omega
    have a3 : ¬ n / 16384 % 128 + 128 < 128 := by omega
    have a4 : n / 2097152 < 128 := by omega
    simp only [h1, h2, h3, h4, if_false, if_true, List.cons_append, List.nil_append,
      varbyte_get32, a1, a2, a3, a4, Option.some.injEq, Prod.mk.injEq, and_true]
    omega
  · have a1 : ¬ n % 128 + 128 < 128 := by omega
    have a2 : ¬ n / 128 % 128 + 128 < 128 := by omega
    have a3 : ¬ n / 16384 % 128 + 128 < 128 := by omega
    have a4 : ¬ n / 2097152 % 128 + 128 < 128 := by omega
    simp only [h1, h2, h3, h4, if_false, List.cons_append, List.nil_append,
      varbyte_get32, a1, a2, a3, a4, Option.some.injEq, Prod.mk.injEq, and_true]
    have : (2 : Nat) ^ 32 = 4294967296 := by norm_num
    omega

/-! ## Sorting and runs -/

theorem orderedInsertBy_perm {α : Type} (less : α → α → Bool) (a : α) :
    ∀ l : List α, (orderedInsertBy less a l).Perm (a :: l) := by
  intro l
  induction l with
  | nil => exact List.Perm.refl _
  | cons b l ih =>
    simp only [orderedInsertBy]
    split
    · exact List.Perm.refl _
    · exact (List.Perm.cons b ih).trans (List.Perm.swap a b l)

theorem stdSort_perm {α : Type} (less : α → α → Bool) :
    ∀ l : List α, (stdSort less l).Perm l := by
  intro l
  induction l with
  | nil => exact List.Perm.refl _
  | cons a l ih =>
    simp only [stdSort]
    exact (orderedInsertBy_perm less a _).trans (List.Perm.cons a ih)

theorem stdSort_length {α : Type} (less : α → α → Bool) (l : List α) :
    (stdSort less l).length = l.length := (stdSort_perm less l).length_eq

theorem orderedInsertBy_sorted {α : Type} (less : α → α → Bool)
    (htrans : ∀ a b c, less a b = false → less b c = false → less a c = false)
    (hasym : ∀ a b, less a b = true → less b a = false) (a : α) :
    ∀ l : List α, l.Pairwise (fun x y => less y x = false) →
      (orderedInsertBy less a l).Pairwise (fun x y => less y x = false) := by
  intro l
  induction l with
  | nil => intro _; simp [orderedInsertBy]
  | cons b l ih =>
    intro h
    rw [List.pairwise_cons] at h
    simp only [orderedInsertBy]
    split
    · rename_i hab
      rw [List.pairwise_cons]
      refine ⟨?_, List.pairwise_cons.2 h⟩
      intro y hy
      rcases List.mem_cons.1 hy with rfl | hy
      · exact hasym _ _ hab
      · exact htrans _ _ _ (h.1 y hy) (hasym _ _ hab)
    · rename_i hab
      have hab2 : less a b = false := by simpa using hab
      rw [List.pairwise_cons]
      refine ⟨?_, ih h.2⟩
      intro y hy
      rcases List.mem_cons.1 ((orderedInsertBy_perm less a l).subset hy) with rfl | hy
      · exact hab2
      · exact h.1 y hy

theorem stdSort_sorted {α : Type} (less : α → α → Bool)
    (htrans : ∀ a b c, less a b = false → less b c = false → less a c = false)
    (hasym : ∀ a b, less a b = true → less b a = false) :
    ∀ l : List α, (stdSort less l).Pairwise (fun x y => less y x = false) := by
  intro l
  induction l with
  | nil => simp [stdSort]
  | cons a l ih =>
    simp only [stdSort]
    exact orderedInsertBy_sorted less htrans hasym a _ ih

theorem orderedInsertBy_map {α β : Type} (f : α → β) (less : α → α → Bool)
    (less' : β → β → Bool) (h : ∀ a b, less a b = less' (f a) (f b)) (a : α) :
    ∀ l : List α, (orderedInsertBy less a l).map f = orderedInsertBy less' (f a) (l.map f) := by
  intro l
  induction l with
  | nil => rfl
  | cons b l ih =>
    simp only [orderedInsertBy, List.map_cons, ← h]
    split
    · rfl
    · simp [ih]

theorem stdSort_map {α β : Type} (f : α → β) (less : α → α → Bool)
    (less' : β → β → Bool) (h : ∀ a b, less a b = less' (f a) (f b)) :
    ∀ l : List α, (stdSort less l).map f = stdSort less' (l.map f) := by
  intro l
  induction l with
  | nil => rfl
  | cons a l ih =>
    simp only [stdSort, List.map_cons]
    rw [orderedInsertBy_map f less less' h, ih]

theorem groupRuns_cons {α : Type} (key : α → Nat) :
    ∀ (l : List α) (a : α),
      groupRuns key (a :: l)
        = (a :: l.takeWhile (fun x => key x = key a)) ::
            groupRuns key (l.dropWhile (fun x => key x = key a)) := by
  intro l
  induction l with
  | nil => intro a; simp [groupRuns]
  | cons b l ih =>
    intro a
    have hb := ih b
    rw [groupRuns, hb]
    by_cases hk : key b = key a
    · have e1 : (fun x => decide (key x = key b)) = (fun x => decide (key x = key a)) := by
        funext x; rw [hk]
      simp only [List.head?_cons, Option.map_some', hk, if_true, List.takeWhile_cons,
        decide_True, List.dropWhile_cons, e1]
    · have hk2 : ¬ some (key b) = some (key a) := by simpa using hk
      simp only [List.head?_cons, Option.map_some', hk2, if_false, List.takeWhile_cons, hk,
        decide_False, List.dropWhile_cons]
      simp [hb]

theorem dropWhile_length_le {α : Type} (p : α → Bool) (l : List α) :
    (l.dropWhile p).length ≤ l.length := by
  induction l with
  | nil => simp
  | cons a l ih =>
    simp only [List.dropWhile_cons]
    split
    · simp only [List.length_cons]; omega
    · simp

theorem groupRuns_join {α : Type} (key : α → Nat) :
    ∀ (n : Nat) (l : List α), l.length ≤ n → (groupRuns key l).flatten = l := by
  intro n
  induction n with
  | zero =>
    intro l h
    have : l = [] := List.length_eq_zero.1 (by omega)
    subst this; rfl
  | succ n ih =>
    intro l h
    cases l with
    | nil => rfl
    | cons a l =>
      rw [groupRuns_cons, List.flatten_cons, ih _ (by
        have := dropWhile_length_le (fun x => decide (key x = key a)) l
        simp only [List.length_cons] at h
        omega)]
      simp [List.takeWhile_append_dropWhile]

/-! ## Writing a document record -/

theorem hitBody_b (all_hits : Bytes) (it : hit_t) (st : HitLoop) (hok : HitOK all_hits it) :
    (hitBody all_hits it st).b
      = st.b ++ encodeHits st.prev st.prevPayloadSize [resolve all_hits it] ∧
    (hitBody all_hits it st).prev = it.position ∧
    (hitBody all_hits it st).prevPayloadSize = (resolve all_hits it).2.length ∧
    (hitBody all_hits it st).termHits = st.termHits + 1 := by
  have hlen : ((all_hits.drop it.payloadOffset).take it.payloadSize).length = it.payloadSize := by
    unfold HitOK at hok
    simp only [List.length_take, List.length_drop]
    omega
  refine ⟨?_, rfl, ?_, rfl⟩
  · simp only [hitBody, encodeHits, resolve, hlen, List.append_nil]
    by_cases h0 : it.payloadSize = 0
    · have : (all_hits.drop it.payloadOffset).take it.payloadSize = [] :=
        List.length_eq_zero.1 (by rw [hlen, h0])
      rw [this]
      simp only [h0, ne_eq, not_true_eq_false, if_false, List.append_nil]
      split_ifs <;> simp only [List.append_assoc]
    · simp only [h0, ne_eq, not_false_eq_true, if_true]
      split_ifs <;> simp only [List.append_assoc]
  · simp only [hitBody, resolve, hlen]
    split
    · rfl
    · rename_i h; simp only [ne_eq, not_not] at h; exact h.symm

theorem encodeHits_cons (prev pps : Nat) (x : Nat × Bytes) (l : List (Nat × Bytes)) :
    encodeHits prev pps (x :: l)
      = encodeHits prev pps [x] ++ encodeHits x.1 x.2.length l := by
  obtain ⟨pos, pl⟩ := x
  simp only [encodeHits, List.append_nil, List.append_assoc]

theorem hitsLoop_spec (all_hits : Bytes) (term : Nat) :
    ∀ (rest : List hit_t) (it : hit_t) (st : HitLoop),
      (∀ h ∈ it :: rest, HitOK all_hits h) →
      (hitsLoop all_hits term it rest st).1.b
        = st.b ++ encodeHits st.prev st.prevPayloadSize
            ((it :: rest.takeWhile (fun x => x.termID = term)).map (resolve all_hits)) ∧
      (hitsLoop all_hits term it rest st).1.termHits
        = st.termHits + (it :: rest.takeWhile (fun x => x.termID = term)).length ∧
      (hitsLoop all_hits term it rest st).2 = rest.dropWhile (fun x => x.termID = term) := by
  intro rest
  induction rest with
  | nil =>
    intro it st hok
    obtain ⟨h1, -, -, h4⟩ := hitBody_b all_hits it st (hok it (by simp))
    simp [hitsLoop, h1, h4]
  | cons nxt rest ih =>
    intro it st hok
    obtain ⟨h1, h2, h3, h4⟩ := hitBody_b all_hits it st (hok it (by simp))
    simp only [hitsLoop]
    by_cases hk : nxt.termID = term
    · simp only [hk, if_true, List.takeWhile_cons, decide_True, List.dropWhile_cons]
      obtain ⟨a1, a2, a3⟩ := ih nxt (hitBody all_hits it st)
        (fun h hh => hok h (List.mem_cons_of_mem _ hh))
      refine ⟨?_, ?_, a3⟩
      · rw [a1, h1, h2, h3]
        simp only [List.map_cons, List.append_assoc]
        congr 1
        exact (encodeHits_cons _ _ (resolve all_hits it) _).symm
      · rw [a2, h4]; simp only [List.length_cons]; omega
    · simp [hk, h1, h4]

theorem termGroup_spec (all_hits : Bytes) (b : Bytes) (it : hit_t) (rest : List hit_t)
    (hok : ∀ h ∈ it :: rest, HitOK all_hits h) :
    termGroup all_hits b (it :: rest)
      = if RunOK (it :: rest.takeWhile (fun x => x.termID = it.termID)) then
          some (b ++ encGroup (hitGroup all_hits
                  (it :: rest.takeWhile (fun x => x.termID = it.termID))),
                rest.dropWhile (fun x => x.termID = it.termID))
        else none := by
  obtain ⟨a1, a2, a3⟩ := hitsLoop_spec all_hits it.termID rest it
    ⟨0, 0xff, 0, b ++ pack32 it.termID ++ pack16 0⟩ hok
  simp only [termGroup, RunOK, runKey]
  by_cases h0 : it.termID = 0
  · simp [h0]
  simp only [h0, if_false, a2, Nat.zero_add]
  by_cases h1 : (it :: rest.takeWhile (fun x => x.termID = it.termID)).length ≤ 65535
  · simp only [h1, not_true_eq_false, if_false, ne_eq, h0, not_false_eq_true, and_self,
      if_true, Option.some.injEq, Prod.mk.injEq]
    refine ⟨?_, a3⟩
    rw [a1]
    have := patch16_placeholder (b ++ pack32 it.termID)
      (encodeHits 0 0xff ((it :: rest.takeWhile (fun x => x.termID = it.termID)).map
        (resolve all_hits)))
      (it :: rest.takeWhile (fun x => x.termID = it.termID)).length
    simp only [List.append_assoc] at this ⊢
    rw [this]
    simp [encGroup, hitGroup, runKey]
  · rw [if_pos h1, if_neg (fun h => h1 h.2)]

theorem bucketLoop_spec (all_hits : Bytes) :
    ∀ (fuel : Nat) (v : List hit_t) (b : Bytes) (terms : Nat), v.length ≤ fuel →
      (∀ h ∈ v, HitOK all_hits h) →
      bucketLoop all_hits fuel b terms v
        = if ∀ run ∈ groupRuns (·.termID) v, RunOK run then
            some (b ++ ((groupRuns (·.termID) v).map (hitGroup all_hits)).flatMap encGroup,
                  terms + (groupRuns (·.termID) v).length)
          else none := by
  intro fuel
  induction fuel with
  | zero =>
    intro v b terms hlen _
    have : v = [] := List.length_eq_zero.1 (by omega)
    subst this
    simp [bucketLoop, groupRuns]
  | succ fuel ih =>
    intro v b terms hlen hok
    cases v with
    | nil => simp [bucketLoop, groupRuns]
    | cons it rest =>
      have hdl := dropWhile_length_le (fun x => decide (x.termID = it.termID)) rest
      have hok2 : ∀ h ∈ rest.dropWhile (fun x => x.termID = it.termID), HitOK all_hits h := by
        intro h hh
        exact hok h (List.mem_cons_of_mem _ ((List.dropWhile_sublist _).subset hh))
      simp only [bucketLoop, termGroup_spec all_hits b it rest hok, groupRuns_cons,
        List.forall_mem_cons, List.map_cons, List.flatMap_cons, List.length_cons]
      by_cases h1 : RunOK (it :: rest.takeWhile (fun x => x.termID = it.termID))
      · simp only [h1, if_true, true_and]
        rw [ih _ _ _ (by simp only [List.length_cons] at hlen; omega) hok2]
        split
        · simp only [List.append_assoc, Option.some.injEq, Prod.mk.injEq, true_and]
          omega
        · rfl
      · simp [h1]

theorem bucketRuns_succ (hits : Nat → List hit_t) (k n : Nat) :
    bucketRuns hits k (n + 1)
      = groupRuns (·.termID) (stdSort hitLess (hits k)) ++ bucketRuns hits (k + 1) n := by
  simp [bucketRuns, List.range'_succ]

theorem bucketsLoop_spec (all_hits : Bytes) (hits : Nat → List hit_t)
    (hok : ∀ k, ∀ h ∈ hits k, HitOK all_hits h) :
    ∀ (n k : Nat) (b : Bytes) (terms : Nat),
      bucketsLoop all_hits hits n k b terms
        = if ∀ run ∈ bucketRuns hits k n, RunOK run then
            some (b ++ ((bucketRuns hits k n).map (hitGroup all_hits)).flatMap encGroup,
                  terms + (bucketRuns hits k n).length)
          else none := by
  intro n
  induction n with
  | zero => intro k b terms; simp [bucketsLoop, bucketRuns]
  | succ n ih =>
    intro k b terms
    have hok2 : ∀ h ∈ stdSort hitLess (hits k), HitOK all_hits h := fun h hh =>
      hok k h ((stdSort_perm hitLess (hits k)).subset hh)
    rw [bucketsLoop, bucketLoop_spec all_hits _ _ b terms
      (by rw [stdSort_length]) hok2, bucketRuns_succ]
    by_cases h1 : ∀ run ∈ groupRuns (·.termID) (stdSort hitLess (hits k)), RunOK run
    · rw [if_pos h1]
      simp only
      rw [ih]
      by_cases h2 : ∀ run ∈ bucketRuns hits (k + 1) n, RunOK run
      · have h3 : ∀ run ∈ groupRuns (·.termID) (stdSort hitLess (hits k)) ++
            bucketRuns hits (k + 1) n, RunOK run := by
          intro run hr
          rcases List.mem_append.1 hr with hr | hr
          · exact h1 run hr
          · exact h2 run hr
        rw [if_pos h2, if_pos h3]
        simp only [List.map_append, List.flatMap_append, List.append_assoc, List.length_append,
          Option.some.injEq, Prod.mk.injEq, true_and]
        omega
      · have h3 : ¬ ∀ run ∈ groupRuns (·.termID) (stdSort hitLess (hits k)) ++
            bucketRuns hits (k + 1) n, RunOK run := by
          intro h; exact h2 (fun run hr => h run (List.mem_append_right _ hr))
        rw [if_neg h2, if_neg h3]
    · have h3 : ¬ ∀ run ∈ groupRuns (·.termID) (stdSort hitLess (hits k)) ++
          bucketRuns hits (k + 1) n, RunOK run := by
        intro h; exact h1 (fun run hr => h run (List.mem_append_left _ hr))
      rw [if_neg h1, if_neg h3]

theorem consider_update_fst (SPAN : Nat) (g : Guard) (d : Nat) :
    consider_update SPAN g d
      = (if (track SPAN g d).1 = true then Outcome.ok else Outcome.threw, (track SPAN g d).2) := by
  unfold consider_update
  split <;> simp_all

/-- What `commit_document_impl` does when the payloads of the bucket entries lie inside
`hitsBuf`: it succeeds exactly when the guard accepts the ID and every run passes the
`require` checks, and then the record of the document is appended to the stage buffer,
which is moved to the backing file when it has grown beyond a non-zero
`intermediateStateFlushFreq`. -/
theorem commit_document_impl_spec (SPAN : Nat) (s : SegmentIndexSession)
    (proxy : document_proxy) (replace : Bool)
    (hok : ∀ k, ∀ h ∈ s.hits k, HitOK s.hitsBuf h) :
    ((commit_document_impl SPAN s proxy replace).1 = Outcome.ok ↔
      ((track SPAN s.guard proxy.did).1 = true ∧ ∀ run ∈ bucketRuns s.hits 0 16, RunOK run)) ∧
    ((commit_document_impl SPAN s proxy replace).1 = Outcome.ok →
      (commit_document_impl SPAN s proxy replace).2
        = if s.intermediateStateFlushFreq ≠ 0 ∧
              (s.b ++ stagedRecord s proxy.did).length > s.intermediateStateFlushFreq then
            { s with
              guard := (track SPAN s.guard proxy.did).2,
              updatedDocumentIDs :=
                if replace then s.updatedDocumentIDs ++ [proxy.did] else s.updatedDocumentIDs,
              hits := fun _ => [],
              backingFile := some (s.backingFile.getD [] ++ (s.b ++ stagedRecord s proxy.did)),
              b := [] }
          else
            { s with
              guard := (track SPAN s.guard proxy.did).2,
              updatedDocumentIDs :=
                if replace then s.updatedDocumentIDs ++ [proxy.did] else s.updatedDocumentIDs,
              hits := fun _ => [],
              b := s.b ++ stagedRecord s proxy.did }) := by
  have hb := bucketsLoop_spec s.hitsBuf s.hits hok 16 0 (s.b ++ pack32 proxy.did ++ pack16 0) 0
  have hp := patch16_placeholder (s.b ++ pack32 proxy.did)
    (((bucketRuns s.hits 0 16).map (hitGroup s.hitsBuf)).flatMap encGroup)
    (bucketRuns s.hits 0 16).length
  have hrec : s.b ++ pack32 proxy.did ++ pack16 ((bucketRuns s.hits 0 16).length % 65536) ++
      ((bucketRuns s.hits 0 16).map (hitGroup s.hitsBuf)).flatMap encGroup
      = s.b ++ stagedRecord s proxy.did := by
    simp [stagedRecord, encRecord]
  simp only [Nat.zero_add] at hb
  unfold commit_document_impl
  rw [consider_update_fst]
  by_cases ht : (track SPAN s.guard proxy.did).1 = true
  · rw [if_pos ht]
    simp only
    rw [hb]
    by_cases hr : ∀ run ∈ bucketRuns s.hits 0 16, RunOK run
    · rw [if_pos hr]
      simp only
      rw [hp, hrec]
      constructor
      · split <;> simp [ht] <;> exact hr
      · intro _
        split <;> rfl
    · rw [if_neg hr]
      simp [hr]
  · rw [if_neg ht]
    simp [ht]

/-! ## From the `insert` calls to the record -/

theorem runKey_map {α β : Type} (f : α → β) (key : α → Nat) (key' : β → Nat)
    (h : ∀ a, key a = key' (f a)) (run : List α) : runKey key' (run.map f) = runKey key run := by
  cases run with
  | nil => rfl
  | cons a l => simp [runKey, h]

theorem groupRuns_map {α β : Type} (f : α → β) (key : α → Nat) (key' : β → Nat)
    (h : ∀ a, key a = key' (f a)) :
    ∀ l : List α, (groupRuns key l).map (List.map f) = groupRuns key' (l.map f) := by
  intro l
  induction l with
  | nil => rfl
  | cons a l ih =>
    simp only [groupRuns, List.map_cons]
    rw [← ih]
    cases hg : groupRuns key l with
    | nil => simp
    | cons g gs =>
      simp only [List.map_cons]
      have : (List.map f g).head?.map key' = g.head?.map key := by
        cases g with
        | nil => rfl
        | cons x xs => simp [h]
      rw [this, ← h a]
      split <;> simp

theorem HitOK_append (all x : Bytes) (h : hit_t) (hok : HitOK all h) : HitOK (all ++ x) h := by
  unfold HitOK at *
  simp only [List.length_append]
  omega

theorem resolve_append (all x : Bytes) (h : hit_t) (hok : HitOK all h) :
    resolve (all ++ x) h = resolve all h := by
  unfold HitOK at hok
  unfold resolve
  congr 1
  by_cases hle : h.payloadOffset ≤ all.length
  · rw [List.drop_append_of_le_length hle, List.take_append_of_le_length]
    simp only [List.length_drop]
    omega
  · have h0 : h.payloadSize = 0 := by omega
    simp [h0]

theorem hitTriple_append (all x : Bytes) (h : hit_t) (hok : HitOK all h) :
    hitTriple (all ++ x) h = hitTriple all h := by
  simp [hitTriple, resolve_append all x h hok]

theorem insert_spec (MaxPosition : Nat) (s : SegmentIndexSession) (px : document_proxy)
    (c : InsertCall) (hok : ∀ k, ∀ h ∈ s.hits k, HitOK s.hitsBuf h) :
    ((insert MaxPosition s px c.termID c.position c.payload).1 = Outcome.ok ↔
      InsertOK MaxPosition c) ∧
    ((insert MaxPosition s px c.termID c.position c.payload).1 = Outcome.ok →
      (∀ k, ∀ h ∈ (insert MaxPosition s px c.termID c.position c.payload).2.1.hits k,
        HitOK (insert MaxPosition s px c.termID c.position c.payload).2.1.hitsBuf h) ∧
      (∀ k, ((insert MaxPosition s px c.termID c.position c.payload).2.1.hits k).map
          (hitTriple (insert MaxPosition s px c.termID c.position c.payload).2.1.hitsBuf)
        = (s.hits k).map (hitTriple s.hitsBuf) ++
            ([c].filter (fun c => c.termID &&& 15 = k)).map callTriple) ∧
      (insert MaxPosition s px c.termID c.position c.payload).2.1.b = s.b ∧
      (insert MaxPosition s px c.termID c.position c.payload).2.1.backingFile = s.backingFile ∧
      (insert MaxPosition s px c.termID c.position c.payload).2.1.intermediateStateFlushFreq
        = s.intermediateStateFlushFreq ∧
      (insert MaxPosition s px c.termID c.position c.payload).2.1.updatedDocumentIDs
        = s.updatedDocumentIDs ∧
      (insert MaxPosition s px c.termID c.position c.payload).2.1.guard = s.guard ∧
      (insert MaxPosition s px c.termID c.position c.payload).2.1.dict = s.dict ∧
      (insert MaxPosition s px c.termID c.position c.payload).2.1.defaultFieldStats
        = s.defaultFieldStats ∧
      (insert MaxPosition s px c.termID c.position c.payload).2.2.did = px.did) := by
  have hmap : ∀ (all x : Bytes) (l : List hit_t), (∀ h ∈ l, HitOK all h) →
      l.map (hitTriple (all ++ x)) = l.map (hitTriple all) := by
    intro all x l hl
    apply List.map_congr_left
    intro h hh
    exact hitTriple_append all x h (hl h hh)
  unfold insert InsertOK
  by_cases h0 : c.termID = 0
  · simp [h0]
  by_cases h1 : c.position < MaxPosition
  swap
  · simp [h0, h1]
  by_cases h2 : c.payload.length = 0
  · have hp : c.payload = [] := List.length_eq_zero.1 h2
    simp only [h0, h1, h2, if_false, not_true_eq_false, ne_eq, not_false_eq_true, true_and,
      Nat.zero_le, and_self, true_iff, forall_true_left, and_true]
    refine ⟨?_, ?_⟩
    · intro k h hh
      by_cases hk : k = c.termID &&& 15
      · subst hk
        simp only [Function.update_same, List.mem_append, List.mem_singleton] at hh
        rcases hh with hh | rfl
        · exact hok _ h hh
        · simp [HitOK]
      · simp only [Function.update_noteq hk] at hh
        exact hok k h hh
    · intro k
      by_cases hk : k = c.termID &&& 15
      · subst hk
        simp [hitTriple, resolve, callTriple, hp]
      · have hk2 : ¬ (c.termID &&& 15 = k) := fun e => hk e.symm
        simp [Function.update_noteq hk, hk2]
  by_cases h3 : c.payload.length ≤ 8
  · simp only [h0, h1, h2, h3, if_false, if_true, not_true_eq_false, ne_eq, not_false_eq_true,
      true_and, and_self, true_iff, forall_true_left, and_true]
    refine ⟨?_, ?_⟩
    · intro k h hh
      by_cases hk : k = c.termID &&& 15
      · subst hk
        simp only [Function.update_same, List.mem_append, List.mem_singleton] at hh
        rcases hh with hh | rfl
        · exact HitOK_append _ _ h (hok _ h hh)
        · simp [HitOK]
      · simp only [Function.update_noteq hk] at hh
        exact HitOK_append _ _ h (hok k h hh)
    · intro k
      by_cases hk : k = c.termID &&& 15
      · subst hk
        simp only [Function.update_same, List.map_append, hmap _ _ _ (hok _)]
        simp [hitTriple, resolve, callTriple]
      · have hk2 : ¬ (c.termID &&& 15 = k) := fun e => hk e.symm
        simp [Function.update_noteq hk, hk2, hmap _ _ _ (hok k)]
  · simp [h0, h1, h2, h3]

theorem insertAll_spec (MaxPosition : Nat) (cs : List InsertCall) :
    ∀ (s : SegmentIndexSession) (px : document_proxy),
      (∀ k, ∀ h ∈ s.hits k, HitOK s.hitsBuf h) →
      ((insertAll MaxPosition cs s px).1 = Outcome.ok ↔ ∀ c ∈ cs, InsertOK MaxPosition c) ∧
      ((insertAll MaxPosition cs s px).1 = Outcome.ok →
        (∀ k, ∀ h ∈ (insertAll MaxPosition cs s px).2.1.hits k,
          HitOK (insertAll MaxPosition cs s px).2.1.hitsBuf h) ∧
        (∀ k, ((insertAll MaxPosition cs s px).2.1.hits k).map
            (hitTriple (insertAll MaxPosition cs s px).2.1.hitsBuf)
          = (s.hits k).map (hitTriple s.hitsBuf) ++
              (cs.filter (fun c => c.termID &&& 15 = k)).map callTriple) ∧
        SameStage s (insertAll MaxPosition cs s px).2.1 ∧
        (insertAll MaxPosition cs s px).2.2.did = px.did) := by
  induction cs with
  | nil =>
    intro s px _
    simp [insertAll, SameStage]
    intro k h hh
    rename_i hok
    exact hok k h hh
  | cons c cs ih =>
    intro s px hok
    obtain ⟨h1, h2⟩ := insert_spec MaxPosition s px c hok
    rw [insertAll]
    by_cases hc : InsertOK MaxPosition c
    · have hok1 := h1.2 hc
      obtain ⟨a1, a2, a3, a4, a5, a6, a7, a8, a9, a10⟩ := h2 hok1
      generalize hr : insert MaxPosition s px c.termID c.position c.payload = r at *
      obtain ⟨o, s1, px1⟩ := r
      simp only at hok1 a1 a2 a3 a4 a5 a6 a7 a8 a9 a10
      subst hok1
      simp only
      obtain ⟨b1, b2⟩ := ih s1 px1 a1
      constructor
      · rw [b1]
        simp [hc]
      · intro hh
        obtain ⟨c1, c2, c3, c4⟩ := b2 hh
        refine ⟨c1, ?_, ?_, ?_⟩
        · intro k
          rw [c2 k, a2 k]
          simp only [List.filter_cons, List.filter_nil, List.append_assoc]
          split <;> simp
        · unfold SameStage at *
          obtain ⟨d1, d2, d3, d4, d5, d6, d7⟩ := c3
          exact ⟨d1.trans a3, d2.trans a4, d3.trans a5, d4.trans a6, d5.trans a7, d6.trans a8,
            d7.trans a9⟩
        · rw [c4, a10]
    · have hno : ¬ (insert MaxPosition s px c.termID c.position c.payload).1 = Outcome.ok :=
        fun h => hc (h1.1 h)
      generalize hr : insert MaxPosition s px c.termID c.position c.payload = r at *
      obtain ⟨o, s1, px1⟩ := r
      simp only at hno
      cases o with
      | ok => exact absurd rfl hno
      | threw => simp [hc]
      | aborted => simp [hc]

theorem hitGroup_eq (all_hits : Bytes) (run : List hit_t) :
    hitGroup all_hits run = tripleGroup (run.map (hitTriple all_hits)) := by
  unfold hitGroup tripleGroup
  rw [runKey_map (hitTriple all_hits) (·.termID) (·.1) (fun _ => rfl)]
  simp [hitTriple, List.map_map, Function.comp_def]

theorem hitLess_eq (all_hits : Bytes) (a b : hit_t) :
    hitLess a b = tripleLess (hitTriple all_hits a) (hitTriple all_hits b) := rfl

theorem bucketRuns_map (all_hits : Bytes) (hits : Nat → List hit_t) (doc : Document)
    (h : ∀ k, (hits k).map (hitTriple all_hits)
      = (doc.inserts.filter (fun c => c.termID &&& 15 = k)).map callTriple) :
    (bucketRuns hits 0 16).map (List.map (hitTriple all_hits)) = doc.runs := by
  unfold bucketRuns Document.runs
  rw [List.map_flatMap]
  congr 1
  funext k
  rw [groupRuns_map (hitTriple all_hits) (·.termID) (·.1) (fun _ => rfl),
    stdSort_map (hitTriple all_hits) hitLess tripleLess (hitLess_eq all_hits), h k]

theorem stagedRecord_eq (s : SegmentIndexSession) (doc : Document)
    (h : ∀ k, (s.hits k).map (hitTriple s.hitsBuf)
      = (doc.inserts.filter (fun c => c.termID &&& 15 = k)).map callTriple) :
    stagedRecord s doc.did = doc.record ∧
    ((∀ run ∈ bucketRuns s.hits 0 16, RunOK run) ↔ ∀ run ∈ doc.runs, TripleRunOK run) := by
  have hm := bucketRuns_map s.hitsBuf s.hits doc h
  constructor
  · unfold stagedRecord Document.record Document.groups
    rw [← hm, List.map_map]
    congr 2
    apply List.map_congr_left
    intro run _
    exact hitGroup_eq _ run
  · rw [← hm]
    simp only [List.mem_map, forall_exists_index, and_imp, forall_apply_eq_imp_iff₂]
    apply forall_congr'
    intro run
    apply imp_congr_right
    intro _
    unfold RunOK TripleRunOK
    rw [runKey_map (hitTriple s.hitsBuf) (·.termID) (·.1) (fun _ => rfl), List.length_map]

/-- What indexing one document does to a session whose buckets are empty: it succeeds
exactly when every `insert` passes its checks, the guard accepts the ID and every run
passes the `require` checks of `commit_document_impl`; then the record of the document
is staged. -/
theorem indexDocument_spec (SPAN MaxPosition : Nat) (s : SegmentIndexSession) (doc : Document)
    (hempty : s.hits = fun _ => []) :
    ((indexDocument SPAN MaxPosition s doc).1 = Outcome.ok ↔
      ((∀ c ∈ doc.inserts, InsertOK MaxPosition c) ∧
        (track SPAN s.guard doc.did).1 = true ∧ ∀ run ∈ doc.runs, TripleRunOK run)) ∧
    ((indexDocument SPAN MaxPosition s doc).1 = Outcome.ok →
      StagedDoc SPAN s doc (indexDocument SPAN MaxPosition s doc).2) := by
  have hok0 : ∀ k, ∀ h ∈ (s.begin doc.did).1.hits k, HitOK (s.begin doc.did).1.hitsBuf h := by
    intro k h hh
    simp [SegmentIndexSession.begin, hempty] at hh
  obtain ⟨h1, h2⟩ := insertAll_spec MaxPosition doc.inserts (s.begin doc.did).1
    (s.begin doc.did).2 hok0
  unfold indexDocument
  by_cases hc : ∀ c ∈ doc.inserts, InsertOK MaxPosition c
  · have hok1 := h1.2 hc
    obtain ⟨a1, a2, a3, a4⟩ := h2 hok1
    generalize hr : insertAll MaxPosition doc.inserts (s.begin doc.did).1 (s.begin doc.did).2
      = r at *
    obtain ⟨o, s1, px1⟩ := r
    simp only at hok1 a1 a2 a3 a4
    subst hok1
    simp only
    have a2' : ∀ k, (s1.hits k).map (hitTriple s1.hitsBuf)
        = (doc.inserts.filter (fun c => c.termID &&& 15 = k)).map callTriple := by
      intro k
      rw [a2 k]
      simp [SegmentIndexSession.begin, hempty]
    obtain ⟨e1, e2⟩ := stagedRecord_eq s1 doc a2'
    obtain ⟨b1, b2⟩ := commit_document_impl_spec SPAN s1 px1 doc.replace a1
    have hdid : px1.did = doc.did := by rw [a4]; rfl
    obtain ⟨d1, d2, d3, d4, d5, d6, d7⟩ := a3
    have d1' : s1.b = s.b := d1
    have d2' : s1.backingFile = s.backingFile := d2
    have d3' : s1.intermediateStateFlushFreq = s.intermediateStateFlushFreq := d3
    have d4' : s1.updatedDocumentIDs = s.updatedDocumentIDs := d4
    have d5' : s1.guard = s.guard := d5
    have d6' : s1.dict = s.dict := d6
    have d7' : s1.defaultFieldStats = s.defaultFieldStats := d7
    rw [hdid, d5', e2] at b1
    rw [hdid, e1, d5', d1', d2', d3', d4'] at b2
    constructor
    · rw [b1]; exact ⟨fun h => ⟨hc, h⟩, fun h => h.2⟩
    · intro hh
      rw [b2 hh]
      unfold StagedDoc Spills
      by_cases hs : s.intermediateStateFlushFreq ≠ 0 ∧
          (s.b ++ doc.record).length > s.intermediateStateFlushFreq
      · rw [if_pos hs]
        exact ⟨rfl, rfl, rfl, rfl, d6', d7', Or.inl ⟨hs, rfl, rfl⟩⟩
      · rw [if_neg hs]
        exact ⟨rfl, rfl, rfl, rfl, d6', d7', Or.inr ⟨hs, rfl, rfl⟩⟩
  · have hno : ¬ (insertAll MaxPosition doc.inserts (s.begin doc.did).1
        (s.begin doc.did).2).1 = Outcome.ok := fun h => hc (h1.1 h)
    generalize hr : insertAll MaxPosition doc.inserts (s.begin doc.did).1 (s.begin doc.did).2
      = r at *
    obtain ⟨o, s1, px1⟩ := r
    simp only at hno
    cases o with
    | ok => exact absurd rfl hno
    | threw => simp [hc]
    | aborted => simp [hc]

/-! ## The staged session -/

theorem Holds_fresh (SPAN freq : Nat) : Holds SPAN freq [] (SegmentIndexSession.fresh freq) := by
  refine ⟨rfl, rfl, rfl, rfl, rfl, [], [], rfl, rfl, rfl, fun _ => rfl⟩

theorem Holds_step (SPAN freq : Nat) (docs : List Document) (doc : Document)
    (s s' : SegmentIndexSession) (h : Holds SPAN freq docs s) (hs : StagedDoc SPAN s doc s') :
    Holds SPAN freq (docs ++ [doc]) s' := by
  obtain ⟨h1, h2, h3, h4, h5, spilled, staged, h6, h7, h8, h9⟩ := h
  obtain ⟨a1, a2, a3, a4, a5, a6, a7⟩ := hs
  refine ⟨a1, a4.trans h2, ?_, a6.trans h4, ?_, ?_⟩
  · rw [a2, h3, List.map_append, List.map_cons, List.map_nil, trackMany_append]
  · rw [a3, h5, List.filter_append, List.map_append]
    cases hr : doc.replace <;> simp [List.filter_cons, hr]
  · rcases a7 with ⟨-, b1, b2⟩ | ⟨-, b1, b2⟩
    · refine ⟨docs ++ [doc], [], by simp, by simp [b1], ?_, ?_⟩
      · rw [b2, Option.getD_some, h8, h7, h6]
        simp [Document.record]
      · rw [b2]; intro h; cases h
    · refine ⟨spilled, staged ++ [doc], by simp [h6], ?_, ?_, ?_⟩
      · rw [b1, h7]; simp
      · rw [b2, h8]
      · rw [b2]; exact h9

/-- A session that indexed the documents `docs` without a failure holds their records;
every document passed the checks, and the document IDs are pairwise different. -/
theorem indexAll_spec (SPAN MaxPosition freq : Nat) (docs : List Document) :
    ∀ (docs₀ : List Document) (s : SegmentIndexSession), Holds SPAN freq docs₀ s →
      (indexAll SPAN MaxPosition docs s).1 = Outcome.ok →
      Holds SPAN freq (docs₀ ++ docs) (indexAll SPAN MaxPosition docs s).2 ∧
      (∀ doc ∈ docs, DocOK MaxPosition doc) ∧
      (docs.map (·.did)).Nodup ∧ ∀ doc ∈ docs, doc.did ∉ docs₀.map (·.did) := by
  induction docs with
  | nil =>
    intro docs₀ s h _
    simpa [indexAll] using h
  | cons doc docs ih =>
    intro docs₀ s h hok
    obtain ⟨h1, h2⟩ := indexDocument_spec SPAN MaxPosition s doc h.1
    rw [indexAll] at hok ⊢
    generalize hr : indexDocument SPAN MaxPosition s doc = r at *
    obtain ⟨o, s1⟩ := r
    cases o with
    | ok =>
      simp only at hok h1 h2 ⊢
      obtain ⟨c1, c2, c3⟩ := h1.1 trivial
      have hst := h2 trivial
      have hH := Holds_step SPAN freq docs₀ doc s s1 h hst
      obtain ⟨i1, i2, i3, i4⟩ := ih (docs₀ ++ [doc]) s1 hH hok
      have hnew : doc.did ∉ docs₀.map (·.did) := by
        rw [h.2.2.1, track_trackMany] at c2
        simpa using c2
      refine ⟨by simpa using i1, ?_, ?_, ?_⟩
      · intro d hd
        rcases List.mem_cons.1 hd with rfl | hd
        · exact ⟨c1, c3⟩
        · exact i2 d hd
      · rw [List.map_cons, List.nodup_cons]
        refine ⟨?_, i3⟩
        intro hm
        obtain ⟨d, hd, he⟩ := List.mem_map.1 hm
        exact i4 d hd (by rw [he]; simp)
      · intro d hd
        rcases List.mem_cons.1 hd with rfl | hd
        · exact hnew
        · intro hm
          exact i4 d hd (by simp only [List.map_append, List.mem_append]; exact Or.inl hm)
    | threw => simp at hok
    | aborted => simp at hok

/-! ## Reading the staged hits back -/

theorem hit_header (prev pps ps pos : Nat) (pl tail : Bytes) (hpl : pl.length ≤ 8)
    (hps : pps = ps ∨ pps = 255) :
    ∃ dm p1, varbyte_get32 (encodeHits prev pps [(pos, pl)] ++ tail) = some (dm, p1) ∧
      readPayloadSize dm ps p1 = some (pl.length, pl ++ tail) ∧
      dm >>> 1 = ((pos + 2 ^ 32 - prev) % 2 ^ 32 * 2) % 2 ^ 32 / 2 := by
  have hd : ((pos + 2 ^ 32 - prev) % 2 ^ 32 * 2) % 2 ^ 32 < 2 ^ 32 := Nat.mod_lt _ (by norm_num)
  have heven : ((pos + 2 ^ 32 - prev) % 2 ^ 32 * 2) % 2 ^ 32 % 2 = 0 := by omega
  simp only [encodeHits, List.append_nil]
  generalize ((pos + 2 ^ 32 - prev) % 2 ^ 32 * 2) % 2 ^ 32 = d at hd heven ⊢
  by_cases hc : pl.length = pps
  · have hps2 : ps = pl.length := by
      rcases hps with h | h
      · rw [← h, hc]
      · omega
    refine ⟨d + 1, pl ++ tail, ?_, ?_, ?_⟩
    · have hv := varbyte_get32_encode (d + 1) (pl ++ tail) (by omega)
      simp only [hc, ne_eq, not_true_eq_false, if_false, List.append_assoc]
      exact hv
    · have : ¬ ((d + 1) &&& 1 = 0) := by rw [Nat.and_one_is_mod]; omega
      rw [readPayloadSize, if_neg this, hps2]
    · rw [Nat.shiftRight_eq_div_pow]; omega
  · refine ⟨d, encode_varbyte32 pl.length ++ (pl ++ tail), ?_, ?_, ?_⟩
    · have hv := varbyte_get32_encode d (encode_varbyte32 pl.length ++ (pl ++ tail)) hd
      simp only [hc, ne_eq, not_false_eq_true, if_true, List.append_assoc]
      exact hv
    · have h0 : d &&& 1 = 0 := by rw [Nat.and_one_is_mod]; exact heven
      have hl : pl.length < 2 ^ 32 := by omega
      simp only [readPayloadSize, h0, if_true, varbyte_get32_encode _ _ hl]
      congr 2
      omega
    · rw [Nat.shiftRight_eq_div_pow]

theorem skipHits_spec (hs : List (Nat × Bytes)) :
    ∀ (prev pps ps : Nat) (rest : Bytes), (∀ h ∈ hs, h.2.length ≤ 8) →
      (pps = ps ∨ pps = 255) →
      ∃ ps', skipHits hs.length (encodeHits prev pps hs ++ rest) ps = some (rest, ps') := by
  induction hs with
  | nil => intro prev pps ps rest _ _; exact ⟨ps, by simp [skipHits, encodeHits]⟩
  | cons h t ih =>
    intro prev pps ps rest hpl hps
    obtain ⟨pos, pl⟩ := h
    have hpl0 : pl.length ≤ 8 := hpl (pos, pl) (by simp)
    obtain ⟨dm, p1, e1, e2, -⟩ := hit_header prev pps ps pos pl
      (encodeHits pos pl.length t ++ rest) hpl0 hps
    obtain ⟨ps', e3⟩ := ih pos pl.length pl.length rest
      (fun h hh => hpl h (List.mem_cons_of_mem _ hh)) (Or.inl rfl)
    refine ⟨ps', ?_⟩
    rw [encodeHits_cons, List.append_assoc, List.length_cons, skipHits, e1]
    simp only [e2]
    have : ¬ (pl ++ (encodeHits pos pl.length t ++ rest)).length < pl.length := by
      simp
    rw [if_neg this, List.drop_left']
    · exact e3
    · rfl

theorem decodeHits_spec (hs : List (Nat × Bytes)) :
    ∀ (prev pps ps : Nat) (rest : Bytes), WFHits hs → (∀ h ∈ hs, prev ≤ h.1) →
      (pps = ps ∨ pps = 255) →
      ∃ ps', decodeHits hs.length (encodeHits prev pps hs ++ rest) prev ps = some (hs, ps') := by
  induction hs with
  | nil => intro prev pps ps rest _ _ _; exact ⟨ps, by simp [decodeHits, encodeHits]⟩
  | cons h t ih =>
    intro prev pps ps rest hwf hprev hps
    obtain ⟨pos, pl⟩ := h
    obtain ⟨hb, hsorted⟩ := hwf
    rw [List.pairwise_cons] at hsorted
    have hpl0 : pl.length ≤ 8 := (hb (pos, pl) (by simp)).1
    have hpos : pos < 2 ^ 31 := (hb (pos, pl) (by simp)).2
    have hle : prev ≤ pos := hprev (pos, pl) (by simp)
    obtain ⟨dm, p1, e1, e2, e3⟩ := hit_header prev pps ps pos pl
      (encodeHits pos pl.length t ++ rest) hpl0 hps
    obtain ⟨ps', e4⟩ := ih pos pl.length pl.length rest
      ⟨fun h hh => hb h (List.mem_cons_of_mem _ hh), hsorted.2⟩
      (fun h hh => hsorted.1 h hh) (Or.inl rfl)
    have hnew : (prev + (dm >>> 1)) % 2 ^ 32 = pos := by
      rw [e3]
      have : (2 : Nat) ^ 31 = 2147483648 := by norm_num
      have : (2 : Nat) ^ 32 = 4294967296 := by norm_num
      omega
    refine ⟨ps', ?_⟩
    rw [encodeHits_cons, List.append_assoc, List.length_cons, decodeHits, e1]
    simp only [e2]
    have : ¬ (pl ++ (encodeHits pos pl.length t ++ rest)).length < pl.length := by
      simp
    rw [if_neg this, List.drop_left' rfl, hnew, e4, List.take_left' rfl]

theorem collectTerms_spec (i did : Nat) (data : Bytes) (hdata : data.length < 2 ^ 32)
    (gs : List Group) :
    ∀ (pre rest : Bytes) (st : ScanState), data = pre ++ (gs.flatMap encGroup ++ rest) →
      (∀ g ∈ gs, WFGroup g) →
      ∃ (st' : ScanState) (T : List segment_data),
        collectTerms i data.length did gs.length (gs.flatMap encGroup ++ rest) st
          = some (rest, st') ∧
        st'.docsCnt = st.docsCnt ∧
        (∀ k, st'.all k = st.all k ++ T.filter (fun t => t.termID &&& 31 = k)) ∧
        List.Forall₂ (EntryAt data i) T (gs.map fun g => (g.1, did, g.2)) := by
  induction gs with
  | nil =>
    intro pre rest st _ _
    exact ⟨st, [], by simp [collectTerms], rfl, by simp, by simp⟩
  | cons g gs ih =>
    intro pre rest st hd hwf
    obtain ⟨t, hs⟩ := g
    obtain ⟨w1, w2, w3, w4⟩ := hwf (t, hs) (by simp)
    simp only at w1 w2 w3 w4
    have hmod : hs.length % 65536 = hs.length := Nat.mod_eq_of_lt (by omega)
    have hp : passes16 hs.length = hs.length := by
      unfold passes16; rw [if_neg]; omega
    obtain ⟨ps', e1⟩ := skipHits_spec hs 0 0xff st.payloadSize (gs.flatMap encGroup ++ rest)
      (fun h hh => (w4.1 h hh).1) (Or.inr rfl)
    have hd2 : data = (pre ++ pack32 t ++ pack16 hs.length ++ encodeHits 0 0xff hs) ++
        (gs.flatMap encGroup ++ rest) := by
      rw [hd]; simp [encGroup, hmod]
    obtain ⟨st', T, e2, e3, e4, e5⟩ := ih _ rest
      { st with
        payloadSize := ps',
        all := Function.update st.all (t &&& 31)
          (st.all (t &&& 31) ++
            [⟨t, did, (data.length - (encodeHits 0 0xff hs ++
              (gs.flatMap encGroup ++ rest)).length) % 2 ^ 32, hs.length, i⟩]) }
      hd2 (fun g hg => hwf g (List.mem_cons_of_mem _ hg))
    have hoff : data.length - (encodeHits 0 0xff hs ++ (gs.flatMap encGroup ++ rest)).length
        = (pre ++ pack32 t ++ pack16 hs.length).length := by
      rw [hd2]; simp only [List.length_append]; omega
    have hoff2 : (pre ++ pack32 t ++ pack16 hs.length).length % 2 ^ 32
        = (pre ++ pack32 t ++ pack16 hs.length).length := by
      apply Nat.mod_eq_of_lt
      rw [hd2] at hdata
      simp only [List.length_append] at hdata ⊢
      omega
    refine ⟨st', ⟨t, did, (pre ++ pack32 t ++ pack16 hs.length).length, hs.length, i⟩ :: T,
      ?_, e3, ?_, ?_⟩
    · have hbytes : (t, hs) :: gs = [(t, hs)] ++ gs := rfl
      rw [List.flatMap_cons, List.length_cons, collectTerms]
      simp only [encGroup, hmod, List.append_assoc]
      rw [read32_pack32 _ _ w1]
      simp only
      rw [read16_pack16 _ _ (by omega)]
      simp only
      rw [hp, e1]
      simp only
      exact e2
    · intro k
      rw [e4 k, hoff, hoff2]
      by_cases hk : k = t &&& 31
      · subst hk
        simp [List.filter_cons]
      · have hk2 : ¬ (t &&& 31 = k) := fun e => hk e.symm
        simp [Function.update_noteq hk, List.filter_cons, hk2]
    · rw [List.map_cons]
      refine List.Forall₂.cons ⟨rfl, rfl, rfl, rfl, gs.flatMap encGroup ++ rest, ?_⟩ e5
      have hsplit : data = (pre ++ pack32 t ++ pack16 hs.length) ++
          (encodeHits 0 0xff hs ++ (gs.flatMap encGroup ++ rest)) := by
        rw [hd2]; simp only [List.append_assoc]
      show List.drop (pre ++ pack32 t ++ pack16 hs.length).length data = _
      conv_lhs => rw [hsplit]
      exact List.drop_left' rfl

theorem collectDocs_succ (i dataSize fuel : Nat) (p : Bytes) (st : ScanState) (hp : p ≠ []) :
    collectDocs i dataSize (fuel + 1) p st
      = match read32 p with
        | none => none
        | some (documentID, p1) =>
          match read16 p1 with
          | none => none
          | some (termsCnt, p2) =>
            if termsCnt = 0 then collectDocs i dataSize fuel p2 st
            else
              match collectTerms i dataSize documentID termsCnt p2
                  { st with docsCnt := st.docsCnt + 1 } with
              | none => none
              | some (p3, st') => collectDocs i dataSize fuel p3 st' := by
  cases p with
  | nil => exact absurd rfl hp
  | cons a l => rfl

theorem entries_cons (r : Nat × List Group) (rs : List (Nat × List Group)) :
    entries (r :: rs) = (r.2.map fun g => (g.1, r.1, g.2)) ++ entries rs := by
  simp [entries]

theorem collectDocs_spec (i : Nat) (data : Bytes) (hdata : data.length < 2 ^ 32)
    (rs : List (Nat × List Group)) :
    ∀ (fuel : Nat) (pre : Bytes) (st : ScanState), data = pre ++ rs.flatMap encRecord →
      rs.length ≤ fuel → (∀ r ∈ rs, WFRecord r) →
      ∃ (st' : ScanState) (T : List segment_data),
        collectDocs i data.length fuel (rs.flatMap encRecord) st = some st' ∧
        st'.docsCnt = st.docsCnt + (rs.filter (fun r => decide (r.2 ≠ []))).length ∧
        (∀ k, st'.all k = st.all k ++ T.filter (fun t => t.termID &&& 31 = k)) ∧
        List.Forall₂ (EntryAt data i) T (entries rs) := by
  induction rs with
  | nil =>
    intro fuel pre st _ _ _
    refine ⟨st, [], ?_, by simp, by simp, by simp [entries]⟩
    cases fuel <;> simp [collectDocs]
  | cons r rs ih =>
    intro fuel pre st hd hfuel hwf
    obtain ⟨did, gs⟩ := r
    obtain ⟨w1, w2, w3⟩ := hwf (did, gs) (by simp)
    simp only at w1 w2 w3
    obtain ⟨fuel, rfl⟩ : ∃ f, fuel = f + 1 := ⟨fuel - 1, by simp only [List.length_cons] at hfuel; omega⟩
    have hmod : gs.length % 65536 = gs.length := Nat.mod_eq_of_lt w2
    have hne : ((did, gs) :: rs).flatMap encRecord ≠ [] := by
      simp [encRecord, pack32]
    have hbytes : ((did, gs) :: rs).flatMap encRecord
        = pack32 did ++ (pack16 gs.length ++ (gs.flatMap encGroup ++ rs.flatMap encRecord)) := by
      simp [encRecord, hmod]
    have hd2 : data = (pre ++ pack32 did ++ pack16 gs.length) ++
        (gs.flatMap encGroup ++ rs.flatMap encRecord) := by
      rw [hd, hbytes]; simp only [List.append_assoc]
    rw [collectDocs_succ _ _ _ _ _ hne, hbytes, read32_pack32 _ _ w1]
    simp only
    rw [read16_pack16 _ _ w2]
    simp only
    by_cases h0 : gs.length = 0
    · have hgs : gs = [] := List.length_eq_zero.1 h0
      subst hgs
      have hd3 : data = (pre ++ pack32 did ++ pack16 0) ++ rs.flatMap encRecord := by
        simpa using hd2
      obtain ⟨st', T, e1, e2, e3, e4⟩ := ih fuel _ st hd3
        (by simp only [List.length_cons] at hfuel; omega)
        (fun r hr => hwf r (List.mem_cons_of_mem _ hr))
      refine ⟨st', T, ?_, ?_, e3, ?_⟩
      · simpa using e1
      · rw [e2]; simp
      · rw [entries_cons]; simpa using e4
    · rw [if_neg h0]
      obtain ⟨st1, T1, c1, c2, c3, c4⟩ := collectTerms_spec i did data hdata gs
        (pre ++ pack32 did ++ pack16 gs.length) (rs.flatMap encRecord)
        { st with docsCnt := st.docsCnt + 1 } hd2 w3
      have hd3 : data = (pre ++ pack32 did ++ pack16 gs.length ++ gs.flatMap encGroup) ++
          rs.flatMap encRecord := by
        rw [hd2]; simp only [List.append_assoc]
      obtain ⟨st', T, e1, e2, e3, e4⟩ := ih fuel _ st1 hd3
        (by simp only [List.length_cons] at hfuel; omega)
        (fun r hr => hwf r (List.mem_cons_of_mem _ hr))
      refine ⟨st', T1 ++ T, ?_, ?_, ?_, ?_⟩
      · rw [c1]; exact e1
      · rw [e2, c2]
        have : gs ≠ [] := fun h => h0 (by rw [h]; rfl)
        simp [List.filter_cons, this]
        omega
      · intro k
        rw [e3 k, c3 k, List.filter_append, List.append_assoc]
      · rw [entries_cons]
        exact List.rel_append c4 e4

theorem EntryAt_getD (R : List Bytes) (i : Nat) (data : Bytes) (hR : R.getD i [] = data)
    (T : List segment_data) (es : List Entry) (h : List.Forall₂ (EntryAt data i) T es) :
    List.Forall₂ (fun tup e => EntryAt (R.getD tup.rangeIdx []) tup.rangeIdx tup e) T es := by
  induction h with
  | nil => exact List.Forall₂.nil
  | cons hx _ ih =>
    refine List.Forall₂.cons ?_ ih
    have hi := hx.1
    rw [hi, hR]
    exact hx

theorem collectRanges_spec (R : List Bytes) :
    ∀ (ranges : List Bytes) (recs : List (List (Nat × List Group))) (Rpre : List Bytes)
      (st : ScanState), R = Rpre ++ ranges →
      List.Forall₂ (fun data rs => data = rs.flatMap encRecord ∧ data.length < 2 ^ 32 ∧
        ∀ r ∈ rs, WFRecord r) ranges recs →
      ∃ (st' : ScanState) (T : List segment_data),
        collectRanges ranges Rpre.length st = some st' ∧
        st'.docsCnt = st.docsCnt + (recs.flatten.filter (fun r => decide (r.2 ≠ []))).length ∧
        (∀ k, st'.all k = st.all k ++ T.filter (fun t => t.termID &&& 31 = k)) ∧
        List.Forall₂ (fun tup e => EntryAt (R.getD tup.rangeIdx []) tup.rangeIdx tup e) T
          (entries recs.flatten) := by
  intro ranges recs Rpre st hR h
  induction h generalizing Rpre st with
  | nil => exact ⟨st, [], rfl, by simp, by simp, by simp [entries]⟩
  | @cons data rs ranges recs hx _ ih =>
    obtain ⟨x1, x2, x3⟩ := hx
    have hlen : rs.length ≤ data.length := by
      rw [x1]
      clear x1 x2 x3 ih hR
      induction rs with
      | nil => simp
      | cons r rs ih2 =>
        simp only [List.length_cons, List.flatMap_cons, List.length_append]
        have : 1 ≤ (encRecord r).length := by simp [encRecord, pack32]
        omega
    obtain ⟨st1, T1, c1, c2, c3, c4⟩ := collectDocs_spec Rpre.length data x2 rs data.length []
      st (by simpa using x1) hlen x3
    have hget : R.getD Rpre.length [] = data := by
      rw [hR, List.getD_eq_getElem?_getD, List.getElem?_append_right (le_refl _)]
      simp
    obtain ⟨st', T, e1, e2, e3, e4⟩ := ih (Rpre ++ [data]) st1 (by rw [hR]; simp)
    refine ⟨st', T1 ++ T, ?_, ?_, ?_, ?_⟩
    · rw [← x1] at c1
      rw [collectRanges, c1]
      simp only
      simpa using e1
    · rw [e2, c2]; simp [List.filter_append]; omega
    · intro k
      rw [e3 k, c3 k, List.filter_append, List.append_assoc]
    · have : entries (rs :: recs).flatten = entries rs ++ entries recs.flatten := by
        simp [entries]
      rw [this]
      exact List.rel_append (EntryAt_getD R _ data hget T1 _ c4) e4

/-! ## Properties of runs -/

theorem groupRuns_mem {α : Type} (key : α → Nat) :
    ∀ (n : Nat) (l : List α), l.length ≤ n →
      ∀ run ∈ groupRuns key l,
        run ≠ [] ∧ (∀ x ∈ run, key x = runKey key run) ∧ run.Sublist l := by
  intro n
  induction n with
  | zero =>
    intro l h run hr
    have : l = [] := List.length_eq_zero.1 (by omega)
    subst this
    simp [groupRuns] at hr
  | succ n ih =>
    intro l h run hr
    cases l with
    | nil => simp [groupRuns] at hr
    | cons a l =>
      rw [groupRuns_cons] at hr
      rcases List.mem_cons.1 hr with rfl | hr
      · refine ⟨by simp, ?_, ?_⟩
        · intro x hx
          rcases List.mem_cons.1 hx with rfl | hx
          · rfl
          · have := List.mem_takeWhile_imp hx
            simpa [runKey] using this
        · exact List.Sublist.cons₂ a (List.takeWhile_sublist _)
      · have hl := dropWhile_length_le (fun x => decide (key x = key a)) l
        obtain ⟨h1, h2, h3⟩ := ih _ (by simp only [List.length_cons] at h; omega) run hr
        exact ⟨h1, h2, (h3.trans (List.dropWhile_sublist _)).trans (List.sublist_cons_self _ _)⟩

theorem dropWhile_key_gt {α : Type} (key : α → Nat) :
    ∀ (l : List α) (a : α), (a :: l).Pairwise (fun x y => key x ≤ key y) →
      ∀ x ∈ l.dropWhile (fun x => key x = key a), key a < key x := by
  intro l
  induction l with
  | nil => intro a _ x hx; simp at hx
  | cons b l ih =>
    intro a hpw x hx
    rw [List.pairwise_cons] at hpw
    by_cases hk : key b = key a
    · simp only [List.dropWhile_cons, hk, decide_True, if_true] at hx
      have hpw2 : (a :: l).Pairwise (fun x y => key x ≤ key y) := by
        rw [List.pairwise_cons]
        exact ⟨fun y hy => hpw.1 y (List.mem_cons_of_mem _ hy), (List.pairwise_cons.1 hpw.2).2⟩
      exact ih a hpw2 x hx
    · simp only [List.dropWhile_cons, hk, decide_False] at hx
      have h1 := hpw.1 b (by simp)
      rcases List.mem_cons.1 hx with rfl | hx
      · omega
      · have h3 := (List.pairwise_cons.1 hpw.2).1 x hx
        omega

theorem groupRuns_keys_sorted {α : Type} (key : α → Nat) :
    ∀ (n : Nat) (l : List α), l.length ≤ n → l.Pairwise (fun x y => key x ≤ key y) →
      ((groupRuns key l).map (runKey key)).Pairwise (fun a b => a < b) := by
  intro n
  induction n with
  | zero =>
    intro l h _
    have : l = [] := List.length_eq_zero.1 (by omega)
    subst this
    simp [groupRuns]
  | succ n ih =>
    intro l h hpw
    cases l with
    | nil => simp [groupRuns]
    | cons a l =>
      have hl := dropWhile_length_le (fun x => decide (key x = key a)) l
      have hlen : (l.dropWhile (fun x => decide (key x = key a))).length ≤ n := by
        simp only [List.length_cons] at h; omega
      rw [groupRuns_cons, List.map_cons, List.pairwise_cons]
      refine ⟨?_, ih _ hlen (hpw.sublist
        ((List.dropWhile_sublist _).trans (List.sublist_cons_self _ _)))⟩
      intro k hk
      obtain ⟨run, hrun, rfl⟩ := List.mem_map.1 hk
      obtain ⟨h1, h2, h3⟩ := groupRuns_mem key _ _ hlen run hrun
      cases run with
      | nil => exact absurd rfl h1
      | cons x xs =>
        have hx : x ∈ l.dropWhile (fun x => decide (key x = key a)) := h3.subset (by simp)
        simpa [runKey] using dropWhile_key_gt key l a hpw x hx

theorem pairwise_lt_inj {α : Type} (f : α → Nat) :
    ∀ (l : List α), (l.map f).Pairwise (fun a b => a < b) →
      ∀ a ∈ l, ∀ b ∈ l, f a = f b → a = b := by
  intro l
  induction l with
  | nil => intro _ a ha; simp at ha
  | cons x l ih =>
    intro h a ha b hb hab
    rw [List.map_cons, List.pairwise_cons] at h
    rcases List.mem_cons.1 ha with e1 | ha' <;> rcases List.mem_cons.1 hb with e2 | hb'
    · rw [e1, e2]
    · have := h.1 (f b) (List.mem_map_of_mem f hb')
      rw [e1] at hab; omega
    · have := h.1 (f a) (List.mem_map_of_mem f ha')
      rw [e2] at hab; omega
    · exact ih h.2 a ha' b hb' hab

theorem pairwise_lt_nodup :
    ∀ (l : List Nat), l.Pairwise (fun a b => a < b) → l.Nodup := by
  intro l h
  exact h.imp (fun hab => Nat.ne_of_lt hab)

theorem runs_filter_join {α : Type} (key : α → Nat) (t : Nat) (runs : List (List α))
    (h : ∀ run ∈ runs, ∀ x ∈ run, key x = runKey key run) :
    (runs.filter (fun run => runKey key run = t)).flatten
      = runs.flatten.filter (fun x => key x = t) := by
  induction runs with
  | nil => rfl
  | cons r rs ih =>
    have ih' := ih (fun run hr => h run (List.mem_cons_of_mem _ hr))
    have hr := h r (by simp)
    simp only [List.filter_cons, List.flatten_cons, List.filter_append]
    by_cases hk : runKey key r = t
    · have : r.filter (fun x => decide (key x = t)) = r := by
        rw [List.filter_eq_self]
        intro x hx
        simp [hr x hx, hk]
      simp [hk, this, ih']
    · have : r.filter (fun x => decide (key x = t)) = [] := by
        rw [List.filter_eq_nil_iff]
        intro x hx
        simp [hr x hx, hk]
      simp [hk, this, ih']

/-- The bucket (or partition) lists of a list, taken in order of the residue, make
up a permutation of the list. -/
theorem buckets_perm {α : Type} (res : α → Nat) (sort : List α → List α)
    (hsort : ∀ l, (sort l).Perm l) (l : List α) :
    ∀ (n k : Nat),
      ((List.range' k n).flatMap fun i => sort (l.filter (fun x => res x = i))).Perm
        (l.filter (fun x => k ≤ res x ∧ res x < k + n)) := by
  intro n
  induction n with
  | zero =>
    intro k
    have : l.filter (fun x => k ≤ res x ∧ res x < k + 0) = [] := by
      rw [List.filter_eq_nil_iff]
      intro a _
      simp
    rw [this]
    simp
  | succ n ih =>
    intro k
    rw [List.range'_succ, List.flatMap_cons]
    refine ((hsort _).append (ih (k + 1))).trans ?_
    clear ih
    induction l with
    | nil => simp
    | cons e E ih2 =>
      simp only [List.filter_cons]
      by_cases h1 : res e = k
      · have d1 : decide (res e = k) = true := by simpa using h1
        have d2 : decide (k + 1 ≤ res e ∧ res e < k + 1 + n) = false := by
          rw [decide_eq_false_iff_not]; omega
        have d3 : decide (k ≤ res e ∧ res e < k + (n + 1)) = true := by
          rw [decide_eq_true_iff]; omega
        rw [d1, d2, d3]
        simp only [if_true, Bool.false_eq_true, if_false, List.cons_append]
        exact List.Perm.cons e ih2
      · have d1 : decide (res e = k) = false := by simpa using h1
        by_cases h2 : k + 1 ≤ res e ∧ res e < k + 1 + n
        · have d2 : decide (k + 1 ≤ res e ∧ res e < k + 1 + n) = true := by
            rw [decide_eq_true_iff]; exact h2
          have d3 : decide (k ≤ res e ∧ res e < k + (n + 1)) = true := by
            rw [decide_eq_true_iff]; omega
          rw [d1, d2, d3]
          simp only [if_true, Bool.false_eq_true, if_false]
          exact List.perm_middle.trans (List.Perm.cons e ih2)
        · have d2 : decide (k + 1 ≤ res e ∧ res e < k + 1 + n) = false := by
            rw [decide_eq_false_iff_not]; exact h2
          have d3 : decide (k ≤ res e ∧ res e < k + (n + 1)) = false := by
            rw [decide_eq_false_iff_not]; omega
          rw [d1, d2, d3]
          simp only [Bool.false_eq_true, if_false]
          exact ih2

/-! ## The encode phase -/

theorem forall₂_filter {α β : Type} (r : α → β → Prop) (p : α → Bool) (q : β → Bool)
    (hpq : ∀ a b, r a b → p a = q b) :
    ∀ (l₁ : List α) (l₂ : List β), List.Forall₂ r l₁ l₂ →
      List.Forall₂ r (l₁.filter p) (l₂.filter q) := by
  intro l₁ l₂ h
  induction h with
  | nil => exact List.Forall₂.nil
  | @cons a b l₁ l₂ hab _ ih =>
    simp only [List.filter_cons, hpq a b hab]
    split
    · exact List.Forall₂.cons hab ih
    · exact ih

theorem forall₂_takeWhile {α β : Type} (r : α → β → Prop) (p : α → Bool) (q : β → Bool)
    (hpq : ∀ a b, r a b → p a = q b) :
    ∀ (l₁ : List α) (l₂ : List β), List.Forall₂ r l₁ l₂ →
      List.Forall₂ r (l₁.takeWhile p) (l₂.takeWhile q) ∧
      List.Forall₂ r (l₁.dropWhile p) (l₂.dropWhile q) := by
  intro l₁ l₂ h
  induction h with
  | nil => exact ⟨List.Forall₂.nil, List.Forall₂.nil⟩
  | @cons a b l₁ l₂ hab htl ih =>
    simp only [List.takeWhile_cons, List.dropWhile_cons, hpq a b hab]
    split
    · exact ⟨List.Forall₂.cons hab ih.1, ih.2⟩
    · exact ⟨List.Forall₂.nil, List.Forall₂.cons hab htl⟩

theorem forall₂_orderedInsertBy {α β : Type} (r : α → β → Prop) (less : α → α → Bool)
    (less' : β → β → Bool)
    (hl : ∀ a a' b b', r a a' → r b b' → less a b = less' a' b') (a : α) (a' : β)
    (ha : r a a') :
    ∀ (l₁ : List α) (l₂ : List β), List.Forall₂ r l₁ l₂ →
      List.Forall₂ r (orderedInsertBy less a l₁) (orderedInsertBy less' a' l₂) := by
  intro l₁ l₂ h
  induction h with
  | nil => exact List.Forall₂.cons ha List.Forall₂.nil
  | @cons b b' l₁ l₂ hb htl ih =>
    simp only [orderedInsertBy, hl a a' b b' ha hb]
    split
    · exact List.Forall₂.cons ha (List.Forall₂.cons hb htl)
    · exact List.Forall₂.cons hb ih

theorem forall₂_stdSort {α β : Type} (r : α → β → Prop) (less : α → α → Bool)
    (less' : β → β → Bool)
    (hl : ∀ a a' b b', r a a' → r b b' → less a b = less' a' b') :
    ∀ (l₁ : List α) (l₂ : List β), List.Forall₂ r l₁ l₂ →
      List.Forall₂ r (stdSort less l₁) (stdSort less' l₂) := by
  intro l₁ l₂ h
  induction h with
  | nil => exact List.Forall₂.nil
  | @cons a a' l₁ l₂ ha _ ih =>
    exact forall₂_orderedInsertBy r less less' hl a a' ha _ _ ih

theorem EntryRel_less (R : List Bytes) (a : segment_data) (a' : Entry) (b : segment_data)
    (b' : Entry) (ha : EntryRel R a a') (hb : EntryRel R b b') :
    segLess a b = entryLess a' b' := by
  obtain ⟨-, a1, a2, -⟩ := ha
  obtain ⟨-, b1, b2, -⟩ := hb
  simp [segLess, entryLess, a1, a2, b1, b2]

theorem docsLoop_spec (R : List Bytes) (term : Nat) :
    ∀ (rest : List segment_data) (erest : List Entry) (it : segment_data) (e : Entry)
      (prevDID : Nat) (st : EncodeState), EntryRel R it e →
      List.Forall₂ (EntryRel R) rest erest →
      (∀ x ∈ e :: erest, WFHits x.2.2) →
      List.Chain (fun a b => a < b) prevDID
        ((e :: erest.takeWhile (fun x => x.1 = term)).map (·.2.1)) →
      ∃ st', docsLoop R term it rest prevDID st
          = some ((e :: erest.takeWhile (fun x => x.1 = term)).map (fun e => (e.2.1, e.2.2)),
              st', rest.dropWhile (fun x => x.termID = term)) ∧
        st'.map = st.map ∧
        st'.stats =
          { st.stats with
            sumTermHits := st.stats.sumTermHits +
              hitsTotal (e :: erest.takeWhile (fun x => x.1 = term)),
            sumTermsDocs := st.stats.sumTermsDocs +
              (e :: erest.takeWhile (fun x => x.1 = term)).length } := by
  intro rest
  induction rest with
  | nil =>
    intro erest it e prevDID st hrel hrest hwf hchain
    cases hrest
    obtain ⟨r1, r2, r3, r4, tail, r5⟩ := hrel
    obtain ⟨ps', hdec⟩ := decodeHits_spec e.2.2 0 0xff st.payloadSize tail (hwf e (by simp))
      (fun _ _ => Nat.zero_le _) (Or.inr rfl)
    simp only [List.takeWhile_nil, List.map_cons, List.map_nil, List.chain_cons] at hchain
    refine ⟨{ st with
        payloadSize := ps',
        stats := { st.stats with
          sumTermHits := st.stats.sumTermHits + e.2.2.length,
          sumTermsDocs := st.stats.sumTermsDocs + 1 } }, ?_, rfl, ?_⟩
    · unfold docsLoop
      rw [r3, if_neg (by omega), r5, r4, hdec]
      simp
    · simp [hitsTotal]
  | cons nxt rest ih =>
    intro erest it e prevDID st hrel hrest hwf hchain
    cases hrest with
    | @cons _ ne _ erest' hn hrest' =>
    obtain ⟨r1, r2, r3, r4, tail, r5⟩ := hrel
    obtain ⟨ps', hdec⟩ := decodeHits_spec e.2.2 0 0xff st.payloadSize tail (hwf e (by simp))
      (fun _ _ => Nat.zero_le _) (Or.inr rfl)
    have hnt : nxt.termID = ne.1 := hn.2.1
    have hlt : prevDID < e.2.1 := by
      simp only [List.map_cons, List.chain_cons] at hchain
      exact hchain.1
    unfold docsLoop
    rw [r3, if_neg (by omega), r5, r4, hdec]
    simp only
    by_cases hk : nxt.termID = term
    · have hk2 : ne.1 = term := by rw [← hnt]; exact hk
      have hchain2 : List.Chain (fun a b => a < b) e.2.1
          ((ne :: erest'.takeWhile (fun x => x.1 = term)).map (·.2.1)) := by
        simp only [List.takeWhile_cons, hk2, decide_True, if_true, List.map_cons,
          List.chain_cons] at hchain ⊢
        exact hchain.2
      obtain ⟨st', e1, e2, e3⟩ := ih erest' nxt ne e.2.1
        { st with
          payloadSize := ps',
          stats := { st.stats with
            sumTermHits := st.stats.sumTermHits + e.2.2.length,
            sumTermsDocs := st.stats.sumTermsDocs + 1 } }
        hn hrest' (fun x hx => hwf x (List.mem_cons_of_mem _ hx)) hchain2
      refine ⟨st', ?_, e2, ?_⟩
      · rw [if_pos hk, e1]
        simp [hk, hk2]
      · rw [e3]
        simp only [List.takeWhile_cons, hk2, decide_True, if_true, hitsTotal, List.map_cons,
          List.sum_cons, List.length_cons, field_statistics.mk.injEq, and_true, true_and]
        omega
    · have hk2 : ¬ ne.1 = term := by rw [← hnt]; exact hk
      refine ⟨{ st with
          payloadSize := ps',
          stats := { st.stats with
            sumTermHits := st.stats.sumTermHits + e.2.2.length,
            sumTermsDocs := st.stats.sumTermsDocs + 1 } }, ?_, rfl, ?_⟩
      · rw [if_neg hk]
        simp [hk, hk2]
      · simp [hitsTotal, hk2]

theorem entryLess_iff (a b : Entry) :
    entryLess a b = true ↔ (a.1 < b.1 ∨ (a.1 = b.1 ∧ a.2.1 < b.2.1)) := by
  simp [entryLess]

theorem chain_of_run (t : Nat) :
    ∀ (erest : List Entry) (e : Entry) (prev : Nat), e.1 = t → prev < e.2.1 →
      (e :: erest).Pairwise (fun a b => entryLess a b = true) →
      List.Chain (fun a b => a < b) prev
        ((e :: erest.takeWhile (fun x => x.1 = t)).map (·.2.1)) := by
  intro erest
  induction erest with
  | nil => intro e prev _ hp _; simp [hp]
  | cons ne er ih =>
    intro e prev he hp hpw
    rw [List.pairwise_cons] at hpw
    by_cases hk : ne.1 = t
    · have hlt : e.2.1 < ne.2.1 := by
        have := (entryLess_iff e ne).1 (hpw.1 ne (by simp))
        omega
      have := ih ne e.2.1 hk hlt hpw.2
      simp only [List.takeWhile_cons, hk, decide_True, if_true, List.map_cons,
        List.chain_cons] at this ⊢
      exact ⟨hp, this⟩
    · simp [hk, hp]

theorem dropWhile_key_lt :
    ∀ (erest : List Entry) (e : Entry),
      (e :: erest).Pairwise (fun a b => entryLess a b = true) →
      ∀ x ∈ erest.dropWhile (fun x => x.1 = e.1), e.1 < x.1 := by
  intro erest
  induction erest with
  | nil => intro e _ x hx; simp at hx
  | cons ne er ih =>
    intro e hpw x hx
    rw [List.pairwise_cons] at hpw
    by_cases hk : ne.1 = e.1
    · simp only [List.dropWhile_cons, hk, decide_True, if_true] at hx
      have hpw2 : (e :: er).Pairwise (fun a b => entryLess a b = true) := by
        rw [List.pairwise_cons]
        exact ⟨fun y hy => hpw.1 y (List.mem_cons_of_mem _ hy), (List.pairwise_cons.1 hpw.2).2⟩
      exact ih e hpw2 x hx
    · simp only [List.dropWhile_cons, hk, decide_False] at hx
      have h1 := (entryLess_iff e ne).1 (hpw.1 ne (by simp))
      have h2 : e.1 < ne.1 := by omega
      rcases List.mem_cons.1 hx with rfl | hx
      · exact h2
      · have h3 := (entryLess_iff ne x).1 ((List.pairwise_cons.1 hpw.2).1 x hx)
        omega

theorem postingsOf_cons (e : Entry) (erest : List Entry) :
    postingsOf (e :: erest)
      = (e.1, (e :: erest.takeWhile (fun x => x.1 = e.1)).map (fun e => (e.2.1, e.2.2))) ::
          postingsOf (erest.dropWhile (fun x => x.1 = e.1)) := by
  unfold postingsOf
  rw [groupRuns_cons]
  simp [runKey]

theorem hitsTotal_append (l₁ l₂ : List Entry) :
    hitsTotal (l₁ ++ l₂) = hitsTotal l₁ + hitsTotal l₂ := by
  simp [hitsTotal]

theorem termsLoop_spec (R : List Bytes) :
    ∀ (fuel : Nat) (S : List segment_data) (E : List Entry) (st : EncodeState),
      S.length ≤ fuel → List.Forall₂ (EntryRel R) S E →
      (∀ x ∈ E, WFHits x.2.2 ∧ 0 < x.2.1) →
      E.Pairwise (fun a b => entryLess a b = true) →
      (∀ x ∈ E, x.1 ∉ st.map) →
      ∃ st', termsLoop R fuel S st = some (postingsOf E, st') ∧
        st'.map = st.map ++ (postingsOf E).map (·.1) ∧
        st'.stats =
          { sumTermHits := st.stats.sumTermHits + hitsTotal E,
            totalTerms := st.stats.totalTerms + (postingsOf E).length,
            sumTermsDocs := st.stats.sumTermsDocs + E.length,
            docsCnt := st.stats.docsCnt } := by
  intro fuel
  induction fuel with
  | zero =>
    intro S E st hlen hrel _ _ _
    have : S = [] := List.length_eq_zero.1 (by omega)
    subst this
    cases hrel
    exact ⟨st, by simp [termsLoop, postingsOf, groupRuns], by simp [postingsOf, groupRuns],
      by simp [postingsOf, groupRuns, hitsTotal]⟩
  | succ fuel ih =>
    intro S E st hlen hrel hwf hpw hmap
    cases hrel with
    | nil =>
      exact ⟨st, by simp [termsLoop, postingsOf, groupRuns], by simp [postingsOf, groupRuns],
        by simp [postingsOf, groupRuns, hitsTotal]⟩
    | @cons it e rest erest hie hrest =>
      have hterm : it.termID = e.1 := hie.2.1
      have hchain := chain_of_run e.1 erest e 0 rfl (hwf e (by simp)).2 hpw
      obtain ⟨st1, d1, d2, d3⟩ := docsLoop_spec R e.1 rest erest it e 0 st hie hrest
        (fun x hx => (hwf x hx).1) hchain
      have hfr := (forall₂_takeWhile (EntryRel R) (fun x => decide (x.termID = e.1))
        (fun x => decide (x.1 = e.1)) (fun a b hab => congrArg (fun v => decide (v = e.1)) hab.2.1) rest erest hrest).2
      have hsub : (erest.dropWhile (fun x => decide (x.1 = e.1))).Sublist (e :: erest) :=
        (List.dropWhile_sublist _).trans (List.sublist_cons_self _ _)
      have hlt := dropWhile_key_lt erest e hpw
      obtain ⟨st2, f1, f2, f3⟩ := ih (rest.dropWhile (fun x => decide (x.termID = e.1)))
        (erest.dropWhile (fun x => decide (x.1 = e.1)))
        { st1 with
          map := if e.1 ∈ st1.map then st1.map else st1.map ++ [e.1],
          stats := { st1.stats with totalTerms := st1.stats.totalTerms + 1 } }
        (by
          have := dropWhile_length_le (fun x => decide (x.termID = e.1)) rest
          simp only [List.length_cons] at hlen
          omega)
        hfr (fun x hx => hwf x (hsub.subset hx)) (hpw.sublist hsub)
        (by
          intro x hx
          have hx1 := hmap x (hsub.subset hx)
          have hx2 := hlt x hx
          simp only [d2]
          rw [if_neg (hmap e (by simp))]
          simp only [List.mem_append, List.mem_singleton, not_or]
          exact ⟨hx1, by omega⟩)
      have hsplit : e :: erest = (e :: erest.takeWhile (fun x => decide (x.1 = e.1))) ++
          erest.dropWhile (fun x => decide (x.1 = e.1)) := by
        simp [List.takeWhile_append_dropWhile]
      refine ⟨st2, ?_, ?_, ?_⟩
      · rw [termsLoop, hterm, d1]
        simp only
        rw [f1, postingsOf_cons]
      · rw [f2, postingsOf_cons]
        simp only [d2]
        rw [if_neg (hmap e (by simp))]
        simp
      · rw [f3, postingsOf_cons]
        simp only [d3]
        conv_rhs => rw [hsplit, hitsTotal_append, List.length_append]
        simp only [List.length_cons, field_statistics.mk.injEq, and_true]
        omega

theorem entryLess_sorted (l : List Entry) :
    (stdSort entryLess l).Pairwise (fun x y => entryLess y x = false) := by
  apply stdSort_sorted
  · intro a b c h1 h2
    have e1 := entryLess_iff a b
    have e2 := entryLess_iff b c
    have e3 := entryLess_iff a c
    rw [Bool.eq_false_iff] at h1 h2 ⊢
    intro h3
    rw [ne_eq, e1] at h1
    rw [ne_eq, e2] at h2
    rw [e3] at h3
    omega
  · intro a b h
    have e1 := entryLess_iff a b
    have e2 := entryLess_iff b a
    rw [Bool.eq_false_iff]
    intro h3
    rw [e1] at h
    rw [e2] at h3
    omega

theorem sorted_strict (l : List Entry) (hd : DistinctKeys l) :
    (stdSort entryLess l).Pairwise (fun a b => entryLess a b = true) := by
  have h1 := entryLess_sorted l
  have h2 : DistinctKeys (stdSort entryLess l) := by
    unfold DistinctKeys at *
    refine (List.Perm.pairwise_iff ?_ (stdSort_perm entryLess l)).2 hd
    intro a b h hh
    exact h ⟨hh.1.symm, hh.2.symm⟩
  refine (h1.and h2).imp ?_
  intro a b h
  obtain ⟨h3, h4⟩ := h
  rw [entryLess_iff]
  rw [Bool.eq_false_iff, ne_eq, entryLess_iff] at h3
  omega

theorem postingsOf_key_mem :
    ∀ (n : Nat) (l : List Entry), l.length ≤ n →
      ∀ tp ∈ postingsOf l, ∃ e ∈ l, e.1 = tp.1 := by
  intro n
  induction n with
  | zero =>
    intro l h tp htp
    have : l = [] := List.length_eq_zero.1 (by omega)
    subst this
    simp [postingsOf, groupRuns] at htp
  | succ n ih =>
    intro l h tp htp
    cases l with
    | nil => simp [postingsOf, groupRuns] at htp
    | cons e erest =>
      rw [postingsOf_cons] at htp
      rcases List.mem_cons.1 htp with rfl | htp
      · exact ⟨e, by simp, rfl⟩
      · have hl := dropWhile_length_le (fun x => decide (x.1 = e.1)) erest
        obtain ⟨x, hx, hxe⟩ := ih _ (by simp only [List.length_cons] at h; omega) tp htp
        exact ⟨x, List.mem_cons_of_mem _ ((List.dropWhile_sublist _).subset hx), hxe⟩

theorem partEntries_succ (E : List Entry) (k n : Nat) :
    partEntries E k (n + 1)
      = stdSort entryLess (E.filter (fun e => e.1 &&& 31 = k)) ++ partEntries E (k + 1) n := by
  simp [partEntries, List.range'_succ]

theorem postingsAll_succ (E : List Entry) (k n : Nat) :
    postingsAll E k (n + 1)
      = postingsOf (stdSort entryLess (E.filter (fun e => e.1 &&& 31 = k))) ++
          postingsAll E (k + 1) n := by
  simp [postingsAll, List.range'_succ]

theorem partitionsLoop_spec (R : List Bytes) (all : Nat → List segment_data) (E : List Entry)
    (hall : ∀ k, List.Forall₂ (EntryRel R) (all k) (E.filter (fun e => e.1 &&& 31 = k)))
    (hwf : ∀ x ∈ E, WFHits x.2.2 ∧ 0 < x.2.1) (hd : DistinctKeys E) :
    ∀ (n k : Nat) (st : EncodeState), (∀ t ∈ st.map, t &&& 31 < k) →
      ∃ st', partitionsLoop R all n k st = some (postingsAll E k n, st') ∧
        st'.map = st.map ++ (postingsAll E k n).map (·.1) ∧
        st'.stats =
          { sumTermHits := st.stats.sumTermHits + hitsTotal (partEntries E k n),
            totalTerms := st.stats.totalTerms + (postingsAll E k n).length,
            sumTermsDocs := st.stats.sumTermsDocs + (partEntries E k n).length,
            docsCnt := st.stats.docsCnt } := by
  intro n
  induction n with
  | zero =>
    intro k st _
    exact ⟨st, by simp [partitionsLoop, postingsAll], by simp [postingsAll],
      by simp [postingsAll, partEntries, hitsTotal]⟩
  | succ n ih =>
    intro k st hmap
    have hperm := stdSort_perm entryLess (E.filter (fun e => e.1 &&& 31 = k))
    have hmemk : ∀ x ∈ stdSort entryLess (E.filter (fun e => e.1 &&& 31 = k)),
        x ∈ E ∧ x.1 &&& 31 = k := by
      intro x hx
      have := hperm.subset hx
      simpa using this
    have hdk : DistinctKeys (E.filter (fun e => e.1 &&& 31 = k)) :=
      List.Pairwise.sublist (List.filter_sublist _) hd
    have hrel := forall₂_stdSort (EntryRel R) segLess entryLess (EntryRel_less R) _ _ (hall k)
    obtain ⟨st1, a1, a2, a3⟩ := termsLoop_spec R (all k).length (stdSort segLess (all k))
      (stdSort entryLess (E.filter (fun e => e.1 &&& 31 = k))) st
      (by rw [stdSort_length]) hrel (fun x hx => hwf x (hmemk x hx).1) (sorted_strict _ hdk)
      (by
        intro x hx hm
        have := hmap x.1 hm
        rw [(hmemk x hx).2] at this
        omega)
    obtain ⟨st2, b1, b2, b3⟩ := ih (k + 1) st1 (by
      intro t ht
      rw [a2] at ht
      rcases List.mem_append.1 ht with ht | ht
      · have := hmap t ht; omega
      · obtain ⟨tp, htp, rfl⟩ := List.mem_map.1 ht
        obtain ⟨e, he, hek⟩ := postingsOf_key_mem _ _ (le_refl _) tp htp
        rw [← hek, (hmemk e he).2]
        omega)
    refine ⟨st2, ?_, ?_, ?_⟩
    · rw [partitionsLoop, a1]
      simp only
      rw [b1, postingsAll_succ]
    · rw [b2, a2, postingsAll_succ]
      simp
    · rw [b3, a3, postingsAll_succ, partEntries_succ, hitsTotal_append]
      simp only [List.length_append, field_statistics.mk.injEq, and_true]
      omega

theorem partEntries_perm (E : List Entry) (n k : Nat) :
    (partEntries E k n).Perm (E.filter (fun e => k ≤ e.1 &&& 31 ∧ e.1 &&& 31 < k + n)) :=
  buckets_perm (fun e : Entry => e.1 &&& 31) (stdSort entryLess) (stdSort_perm entryLess) E n k

theorem partEntries_perm_all (E : List Entry) : (partEntries E 0 32).Perm E := by
  refine (partEntries_perm E 32 0).trans ?_
  have : E.filter (fun e => 0 ≤ e.1 &&& 31 ∧ e.1 &&& 31 < 0 + 32) = E := by
    rw [List.filter_eq_self]
    intro a _
    have : a.1 &&& 31 ≤ 31 := Nat.and_le_right
    simp
    omega
  rw [this]

theorem hitsTotal_perm (l₁ l₂ : List Entry) (h : l₁.Perm l₂) : hitsTotal l₁ = hitsTotal l₂ := by
  unfold hitsTotal
  exact (h.map _).sum_eq

theorem forall₂_right_mem {α β : Type} (r : α → β → Prop) :
    ∀ (l₁ : List α) (l₂ : List β), List.Forall₂ r l₁ l₂ → ∀ b ∈ l₂, ∃ a ∈ l₁, r a b := by
  intro l₁ l₂ h
  induction h with
  | nil => intro b hb; simp at hb
  | @cons a b l₁ l₂ hab _ ih =>
    intro x hx
    rcases List.mem_cons.1 hx with rfl | hx
    · exact ⟨a, by simp, hab⟩
    · obtain ⟨y, hy, hr⟩ := ih x hx
      exact ⟨y, List.mem_cons_of_mem _ hy, hr⟩

/-- The collect, sort and encode phases on source ranges that hold well-formed records:
the postings are those of the entries of the records, and the counters grow by the
number of hits, of terms, of entries and of records with a term. -/
theorem scan_spec (stats : field_statistics) (ps0 : Nat) (R : List Bytes)
    (recs : List (List (Nat × List Group))) (hR : R.length < 8)
    (hF : List.Forall₂ (fun data rs => data = rs.flatMap encRecord ∧ data.length < 2 ^ 32 ∧
        ∀ r ∈ rs, WFRecord r) R recs)
    (hpos : ∀ x ∈ entries recs.flatten, 0 < x.2.1)
    (hd : DistinctKeys (entries recs.flatten)) :
    scan stats ps0 R
      = some
          { postings := postingsAll (entries recs.flatten) 0 32,
            map := (postingsAll (entries recs.flatten) 0 32).map (·.1),
            stats :=
              { sumTermHits := stats.sumTermHits + hitsTotal (entries recs.flatten),
                totalTerms := stats.totalTerms + (postingsAll (entries recs.flatten) 0 32).length,
                sumTermsDocs := stats.sumTermsDocs + (entries recs.flatten).length,
                docsCnt := stats.docsCnt +
                  (recs.flatten.filter (fun r => decide (r.2 ≠ []))).length } } := by
  obtain ⟨st, T, c1, c2, c3, c4⟩ := collectRanges_spec R R recs [] ⟨ps0, fun _ => [], stats.docsCnt⟩
    rfl hF
  have hwf : ∀ x ∈ entries recs.flatten, WFHits x.2.2 ∧ 0 < x.2.1 := by
    intro x hx
    refine ⟨?_, hpos x hx⟩
    simp only [entries, List.mem_flatMap, List.mem_map, List.mem_flatten] at hx
    obtain ⟨r, ⟨rs, hrs, hr⟩, g, hg, rfl⟩ := hx
    obtain ⟨data, -, hrel⟩ := forall₂_right_mem _ R recs hF rs hrs
    exact ((hrel.2.2 r hr).2.2 g hg).2.2.2
  have hall : ∀ k, List.Forall₂ (EntryRel R) (st.all k)
      ((entries recs.flatten).filter (fun e => e.1 &&& 31 = k)) := by
    intro k
    rw [c3 k]
    simp only [List.nil_append]
    exact forall₂_filter (EntryRel R) _ _
      (fun a b hab => congrArg (fun v => decide (v &&& 31 = k)) hab.2.1) T _ c4
  obtain ⟨st', e1, e2, e3⟩ := partitionsLoop_spec R st.all (entries recs.flatten) hall hwf hd 32 0
    ⟨st.payloadSize, { stats with docsCnt := st.docsCnt }, []⟩ (by simp)
  have hperm := partEntries_perm_all (entries recs.flatten)
  unfold scan
  rw [if_neg (by omega)]
  simp only [List.length_nil] at c1
  rw [c1]
  simp only
  rw [e1]
  simp only [e2, e3, List.nil_append, c2, hitsTotal_perm _ _ hperm, hperm.length_eq]

/-! ## The record of a document -/

theorem Document.runs_eq (doc : Document) :
    doc.runs = (List.range' 0 16).flatMap fun k =>
      groupRuns (·.1) (stdSort tripleLess (doc.triples.filter (fun t => t.1 &&& 15 = k))) := by
  unfold Document.runs Document.triples
  congr 1
  funext k
  rw [List.filter_map]
  rfl

theorem tripleLess_iff (a b : Triple) :
    tripleLess a b = true ↔ (a.1 < b.1 ∨ (a.1 = b.1 ∧ a.2.1 < b.2.1)) := by
  simp [tripleLess]

theorem tripleLess_sorted (l : List Triple) :
    (stdSort tripleLess l).Pairwise (fun x y => tripleLess y x = false) := by
  apply stdSort_sorted
  · intro a b c h1 h2
    have e1 := tripleLess_iff a b
    have e2 := tripleLess_iff b c
    have e3 := tripleLess_iff a c
    rw [Bool.eq_false_iff] at h1 h2 ⊢
    intro h3
    rw [ne_eq, e1] at h1
    rw [ne_eq, e2] at h2
    rw [e3] at h3
    omega
  · intro a b h
    have e1 := tripleLess_iff a b
    have e2 := tripleLess_iff b a
    rw [Bool.eq_false_iff]
    intro h3
    rw [e1] at h
    rw [e2] at h3
    omega

theorem nodup_flatMap_range (res : Nat → Nat) (f : Nat → List Nat)
    (h1 : ∀ i, (f i).Nodup) (h2 : ∀ i, ∀ x ∈ f i, res x = i) :
    ∀ (n k : Nat), ((List.range' k n).flatMap f).Nodup := by
  intro n
  induction n with
  | zero => intro k; simp
  | succ n ih =>
    intro k
    rw [List.range'_succ, List.flatMap_cons, List.nodup_append]
    refine ⟨h1 k, ih (k + 1), ?_⟩
    intro a ha hb
    obtain ⟨i, hi, hai⟩ := List.mem_flatMap.1 hb
    have e1 := h2 k a ha
    have e2 := h2 i a hai
    rw [List.mem_range'_1] at hi
    omega

/-- The runs of a document, bucket by bucket: every run is not empty, its triples are
triples of the document with the term ID of the run, in non-decreasing position. -/
theorem Document.runs_mem (doc : Document) (run : List Triple) (hr : run ∈ doc.runs) :
    run ≠ [] ∧ (∀ x ∈ run, x.1 = runKey (·.1) run ∧ x ∈ doc.triples) ∧
      run.Pairwise (fun a b => a.2.1 ≤ b.2.1) := by
  rw [Document.runs_eq] at hr
  obtain ⟨k, -, hk⟩ := List.mem_flatMap.1 hr
  obtain ⟨h1, h2, h3⟩ := groupRuns_mem (·.1) _ _ (le_refl _) run hk
  refine ⟨h1, ?_, ?_⟩
  · intro x hx
    refine ⟨h2 x hx, ?_⟩
    have := (stdSort_perm tripleLess _).subset (h3.subset hx)
    exact (List.mem_filter.1 this).1
  · have hs := (tripleLess_sorted (doc.triples.filter (fun t => t.1 &&& 15 = k))).sublist h3
    have hk2 : run.Pairwise (fun a b => a.1 = b.1) := by
      rw [List.pairwise_iff_forall_sublist]
      intro a b hab
      have ha := h2 a (hab.subset (by simp))
      have hb := h2 b (hab.subset (by simp))
      simp only at ha hb
      rw [ha, hb]
    refine (hs.and hk2).imp ?_
    intro a b h
    obtain ⟨h4, h5⟩ := h
    rw [Bool.eq_false_iff, ne_eq, tripleLess_iff] at h4
    omega

theorem Document.runs_keys_nodup (doc : Document) :
    (doc.runs.map (runKey (·.1))).Nodup := by
  rw [Document.runs_eq, List.map_flatMap]
  apply nodup_flatMap_range (fun t => t &&& 15)
  · intro k
    apply pairwise_lt_nodup
    refine groupRuns_keys_sorted (fun t : Triple => t.1) _ _ (le_refl _) ?_
    refine (tripleLess_sorted _).imp ?_
    intro a b h
    rw [Bool.eq_false_iff, ne_eq, tripleLess_iff] at h
    show a.1 ≤ b.1
    omega
  · intro k x hx
    obtain ⟨run, hrun, rfl⟩ := List.mem_map.1 hx
    obtain ⟨h1, h2, h3⟩ := groupRuns_mem (fun t : Triple => t.1) _ _ (le_refl _) run hrun
    cases run with
    | nil => exact absurd rfl h1
    | cons a l =>
      have := (stdSort_perm tripleLess _).subset (h3.subset (List.mem_cons_self a l))
      simpa [runKey] using (List.mem_filter.1 this).2

theorem Document.runs_flatten_perm (doc : Document) : doc.runs.flatten.Perm doc.triples := by
  rw [Document.runs_eq]
  have h1 : ((List.range' 0 16).flatMap fun k =>
      groupRuns (·.1) (stdSort tripleLess (doc.triples.filter (fun t => t.1 &&& 15 = k)))).flatten
      = (List.range' 0 16).flatMap fun k =>
          stdSort tripleLess (doc.triples.filter (fun t => t.1 &&& 15 = k)) := by
    rw [List.flatten_eq_flatMap, List.flatMap_assoc]
    congr 1
    funext k
    rw [← List.flatten_eq_flatMap]
    exact groupRuns_join (fun t : Triple => t.1) _ _ (le_refl _)
  rw [h1]
  refine (buckets_perm (fun t : Triple => t.1 &&& 15) (stdSort tripleLess)
    (stdSort_perm tripleLess) doc.triples 16 0).trans ?_
  have : doc.triples.filter (fun t => 0 ≤ t.1 &&& 15 ∧ t.1 &&& 15 < 0 + 16) = doc.triples := by
    rw [List.filter_eq_self]
    intro a _
    have : a.1 &&& 15 ≤ 15 := Nat.and_le_right
    simp
    omega
  rw [this]

theorem Document.groups_keys (doc : Document) :
    doc.groups.map (·.1) = doc.runs.map (runKey (·.1)) := by
  simp [Document.groups, tripleGroup, List.map_map, Function.comp_def]

theorem Document.hasTerm_iff (doc : Document) (t : Nat) :
    doc.hasTerm t ↔ t ∈ doc.groups.map (·.1) := by
  rw [Document.groups_keys]
  constructor
  · rintro ⟨c, hc, rfl⟩
    have hmem : callTriple c ∈ doc.runs.flatten :=
      (Document.runs_flatten_perm doc).symm.subset (List.mem_map_of_mem _ hc)
    obtain ⟨run, hrun, hx⟩ := List.mem_flatten.1 hmem
    have := ((Document.runs_mem doc run hrun).2.1 _ hx).1
    exact List.mem_map.2 ⟨run, hrun, this.symm⟩
  · intro h
    obtain ⟨run, hrun, rfl⟩ := List.mem_map.1 h
    obtain ⟨h1, h2, -⟩ := Document.runs_mem doc run hrun
    cases run with
    | nil => exact absurd rfl h1
    | cons a l =>
      obtain ⟨-, ha⟩ := h2 a (by simp)
      obtain ⟨c, hc, rfl⟩ := List.mem_map.1 ha
      exact ⟨c, hc, rfl⟩

theorem Document.termIDs_perm (doc : Document) : (doc.groups.map (·.1)).Perm doc.termIDs := by
  unfold Document.termIDs
  rw [List.perm_ext_iff_of_nodup (by rw [Document.groups_keys]; exact Document.runs_keys_nodup doc)
    (List.nodup_dedup _)]
  intro t
  rw [← Document.hasTerm_iff, List.mem_dedup, List.mem_map]
  rfl

theorem Document.groups_length (doc : Document) : doc.groups.length = doc.termIDs.length := by
  have := (Document.termIDs_perm doc).length_eq
  simpa using this

theorem Document.groups_hits (doc : Document) (t : Nat) :
    ((doc.groups.filter (fun g => g.1 = t)).flatMap (·.2)).Perm (doc.pairs t) := by
  have h1 : (doc.groups.filter (fun g => g.1 = t)).flatMap (·.2)
      = ((doc.runs.filter (fun run => runKey (·.1) run = t)).flatten).map (·.2) := by
    unfold Document.groups
    generalize doc.runs = runs
    induction runs with
    | nil => rfl
    | cons r rs ih =>
      simp only [List.map_cons, List.filter_cons]
      by_cases hk : runKey (fun x : Triple => x.1) r = t
      · have hk2 : (tripleGroup r).1 = t := hk
        simp only [hk, hk2, decide_True, if_true, List.flatMap_cons, List.flatten_cons,
          List.map_append, ih]
        rfl
      · have hk2 : ¬ (tripleGroup r).1 = t := hk
        simp only [hk, hk2, decide_False, Bool.false_eq_true, if_false, ih]
  rw [h1, runs_filter_join (fun x : Triple => x.1) t doc.runs
    (fun run hr x hx => ((Document.runs_mem doc run hr).2.1 x hx).1)]
  have h2 := ((Document.runs_flatten_perm doc).filter (fun x => decide (x.1 = t))).map (·.2)
  refine h2.trans ?_
  unfold Document.triples Document.pairs
  rw [List.filter_map, List.map_map]
  exact List.Perm.refl _

theorem Document.groups_total (doc : Document) :
    (doc.groups.map fun g => g.2.length).sum = doc.inserts.length := by
  have h1 : (doc.groups.map fun g => g.2.length).sum = doc.runs.flatten.length := by
    unfold Document.groups
    rw [List.map_map, List.length_flatten]
    congr 1
    apply List.map_congr_left
    intro run _
    simp [tripleGroup]
  rw [h1, (Document.runs_flatten_perm doc).length_eq]
  simp [Document.triples]

theorem Document.groups_nil_iff (doc : Document) : doc.groups = [] ↔ doc.inserts = [] := by
  constructor
  · intro h
    have h1 := Document.groups_total doc
    rw [h] at h1
    exact List.length_eq_zero.1 h1.symm
  · intro h
    have h1 := Document.groups_length doc
    rw [Document.termIDs, h] at h1
    exact List.length_eq_zero.1 h1

/-- The record of a document that passed the checks can be read back, when its IDs are
32-bit values, it has fewer than 65536 distinct terms and positions stay below
`2 ^ 31`. -/
theorem Document.staged_wf (MaxPosition : Nat) (doc : Document) (hmax : MaxPosition ≤ 2 ^ 31)
    (hok : DocOK MaxPosition doc) (hty : DocTyped doc) (hterms : doc.termIDs.length < 65536) :
    WFRecord doc.staged := by
  refine ⟨hty.1, ?_, ?_⟩
  · show doc.groups.length < 65536
    rw [Document.groups_length]; exact hterms
  · intro g hg
    obtain ⟨run, hrun, rfl⟩ := List.mem_map.1 hg
    obtain ⟨h1, h2, h3⟩ := Document.runs_mem doc run hrun
    have hlen := (hok.2 run hrun).2
    have hne : 1 ≤ run.length := by
      cases run with
      | nil => exact absurd rfl h1
      | cons a l => simp
    refine ⟨?_, by simpa [tripleGroup] using hne, by simpa [tripleGroup] using hlen, ?_, ?_⟩
    · cases run with
      | nil => exact absurd rfl h1
      | cons a l =>
        obtain ⟨-, ha⟩ := h2 a (by simp)
        obtain ⟨c, hc, rfl⟩ := List.mem_map.1 ha
        exact hty.2 c hc
    · intro h hh
      obtain ⟨x, hx, rfl⟩ := List.mem_map.1 hh
      obtain ⟨-, hx2⟩ := h2 x hx
      obtain ⟨c, hc, rfl⟩ := List.mem_map.1 hx2
      obtain ⟨-, c2, c3⟩ := hok.1 c hc
      exact ⟨c3, by simp only [callTriple]; omega⟩
    · show (run.map (·.2)).Pairwise _
      rw [List.pairwise_map]
      exact h3

theorem docEntries_cons (doc : Document) (docs : List Document) :
    docEntries (doc :: docs)
      = (doc.groups.map fun g => (g.1, doc.did, g.2)) ++ docEntries docs := by
  simp [docEntries, entries, Document.staged]

theorem docEntries_append (docs₁ docs₂ : List Document) :
    docEntries (docs₁ ++ docs₂) = docEntries docs₁ ++ docEntries docs₂ := by
  simp [docEntries, entries]

theorem docEntries_mem (docs : List Document) (x : Entry) :
    x ∈ docEntries docs ↔ ∃ doc ∈ docs, x.2.1 = doc.did ∧ (x.1, x.2.2) ∈ doc.groups := by
  induction docs with
  | nil => simp [docEntries, entries]
  | cons doc docs ih =>
    rw [docEntries_cons, List.mem_append, ih]
    simp only [List.mem_map, List.mem_cons, exists_eq_or_imp]
    apply or_congr_left
    constructor
    · rintro ⟨g, hg, rfl⟩
      exact ⟨rfl, hg⟩
    · rintro ⟨h1, h2⟩
      exact ⟨(x.1, x.2.2), h2, by rw [← h1]⟩

theorem docEntries_distinct (docs : List Document) (hnd : (docs.map (·.did)).Nodup) :
    DistinctKeys (docEntries docs) := by
  induction docs with
  | nil => simp [docEntries, entries, DistinctKeys]
  | cons doc docs ih =>
    rw [List.map_cons, List.nodup_cons] at hnd
    rw [docEntries_cons]
    unfold DistinctKeys at *
    rw [List.pairwise_append]
    refine ⟨?_, ih hnd.2, ?_⟩
    · rw [List.pairwise_map]
      have hk : (doc.groups.map (·.1)).Nodup := by
        rw [Document.groups_keys]; exact Document.runs_keys_nodup doc
      rw [List.Nodup, List.pairwise_map] at hk
      exact hk.imp (fun hab h => hab h.1)
    · intro a ha b hb h
      obtain ⟨g, -, rfl⟩ := List.mem_map.1 ha
      obtain ⟨d, hd, hbd, -⟩ := (docEntries_mem docs b).1 hb
      apply hnd.1
      rw [List.mem_map]
      exact ⟨d, hd, by rw [← hbd, ← h.2]⟩

/-! ## What `commit` returns -/

theorem sorted_perm_eq (l₁ l₂ : List Entry) (hp : l₁.Perm l₂) (hd : DistinctKeys l₂) :
    stdSort entryLess l₁ = stdSort entryLess l₂ := by
  have hd1 : DistinctKeys l₁ := by
    unfold DistinctKeys at *
    refine (List.Perm.pairwise_iff ?_ hp).2 hd
    intro a b h hh
    exact h ⟨hh.1.symm, hh.2.symm⟩
  have h1 := sorted_strict l₁ hd1
  have h2 := sorted_strict l₂ hd
  have hperm : (stdSort entryLess l₁).Perm (stdSort entryLess l₂) :=
    ((stdSort_perm entryLess l₁).trans hp).trans (stdSort_perm entryLess l₂).symm
  have hanti : IsAntisymm Entry (fun a b => entryLess a b = true) :=
    ⟨by
      intro a b hab hba
      rw [entryLess_iff] at hab hba
      omega⟩
  exact @List.eq_of_perm_of_sorted _ _ hanti _ _ hperm h1 h2

theorem postingsAll_perm (E E' : List Entry) (hp : E.Perm E') (hd : DistinctKeys E')
    (k n : Nat) : postingsAll E k n = postingsAll E' k n := by
  unfold postingsAll
  congr 1
  funext i
  rw [sorted_perm_eq _ _ (hp.filter _) (List.Pairwise.sublist (List.filter_sublist _) hd)]

theorem postingsAll_nil (k n : Nat) : postingsAll [] k n = [] := by
  unfold postingsAll
  rw [List.flatMap_eq_nil_iff]
  intro i _
  simp [stdSort, postingsOf, groupRuns]

theorem record_ne_nil (doc : Document) : doc.record ≠ [] := by
  simp [Document.record, encRecord, pack32]

theorem records_flatten (docs : List Document) :
    (docs.map (·.record)).flatten = (docs.map Document.staged).flatMap encRecord := by
  rw [List.flatMap_def, List.map_map]
  rfl

theorem records_nil_iff (docs : List Document) :
    (docs.map (·.record)).flatten = [] ↔ docs = [] := by
  cases docs with
  | nil => simp
  | cons d ds =>
    constructor
    · intro h
      have h1 := congrArg List.length h
      simp only [List.map_cons, List.flatten_cons, List.length_append, List.length_nil] at h1
      have h2 : d.record.length = 0 := by omega
      exact absurd (List.length_eq_zero.1 h2) (record_ne_nil d)
    · intro h; cases h

theorem nonempty_count (docs : List Document) :
    ((docs.map Document.staged).filter (fun r => decide (r.2 ≠ []))).length
      = (docs.filter (fun d => decide (d.inserts ≠ []))).length := by
  induction docs with
  | nil => rfl
  | cons d ds ih =>
    have h := Document.groups_nil_iff d
    have d1 : decide (d.staged.2 ≠ []) = decide (d.inserts ≠ []) := by
      have : d.staged.2 = d.groups := rfl
      rw [this]
      apply decide_eq_decide.2
      rw [ne_eq, ne_eq, h]
    rw [List.map_cons, List.filter_cons, List.filter_cons, d1]
    split
    · rw [List.length_cons, List.length_cons, ih]
    · exact ih

/-- What `commit` returns for a session that holds the documents `docs`: the postings of
the staged groups by term and document, with the statistics counted on them.  Every
document passed the checks of `insert`, has a non-zero 32-bit ID, 32-bit term IDs and
fewer than 65536 distinct terms; the IDs are pairwise different; positions are below
`2 ^ 31`; and the records take less than `2 ^ 32` bytes in all. -/
theorem commit_spec (SPAN MaxPosition freq ps0 : Nat) (docs : List Document)
    (s : SegmentIndexSession) (hH : Holds SPAN freq docs s) (hmax : MaxPosition ≤ 2 ^ 31)
    (hok : ∀ doc ∈ docs, DocOK MaxPosition doc)
    (hty : ∀ doc ∈ docs, doc.did ≠ 0 ∧ DocTyped doc ∧ doc.termIDs.length < 65536)
    (hnd : (docs.map (·.did)).Nodup)
    (hsize : ((docs.map (·.record)).flatten).length < 2 ^ 32) :
    commit s ps0
      = some
          { postings := postingsAll (docEntries docs) 0 32,
            map := (postingsAll (docEntries docs) 0 32).map (·.1),
            stats :=
              { sumTermHits := hitsTotal (docEntries docs),
                totalTerms := (postingsAll (docEntries docs) 0 32).length,
                sumTermsDocs := (docEntries docs).length,
                docsCnt := (docs.filter (fun d => decide (d.inserts ≠ []))).length } } := by
  obtain ⟨-, -, -, hstats, -, spilled, staged, hdocs, hb, hf, hnone⟩ := hH
  have hwf : ∀ doc ∈ docs, WFRecord doc.staged := fun doc hd =>
    Document.staged_wf MaxPosition doc hmax (hok doc hd) (hty doc hd).2.1 (hty doc hd).2.2
  have hposE : ∀ x ∈ docEntries docs, 0 < x.2.1 := by
    intro x hx
    obtain ⟨d, hd, hxd, -⟩ := (docEntries_mem docs x).1 hx
    have := (hty d hd).1
    omega
  have hdist := docEntries_distinct docs hnd
  have hlenb : s.b.length < 2 ^ 32 := by
    rw [hb]
    rw [hdocs] at hsize
    simp only [List.map_append, List.flatten_append, List.length_append] at hsize
    omega
  have hlenf : (s.backingFile.getD []).length < 2 ^ 32 := by
    rw [hf]
    rw [hdocs] at hsize
    simp only [List.map_append, List.flatten_append, List.length_append] at hsize
    omega
  -- the ranges and the records they hold
  have key : ∀ (R : List Bytes) (recs : List (List Document)), R.length < 8 →
      List.Forall₂ (fun data ds => data = (ds.map (·.record)).flatten ∧ data.length < 2 ^ 32 ∧
        ∀ d ∈ ds, d ∈ docs) R recs →
      recs.flatten.Perm docs →
      scan s.defaultFieldStats ps0 R
        = some
          { postings := postingsAll (docEntries docs) 0 32,
            map := (postingsAll (docEntries docs) 0 32).map (·.1),
            stats :=
              { sumTermHits := hitsTotal (docEntries docs),
                totalTerms := (postingsAll (docEntries docs) 0 32).length,
                sumTermsDocs := (docEntries docs).length,
                docsCnt := (docs.filter (fun d => decide (d.inserts ≠ []))).length } } := by
    intro R recs hR hF hperm
    have hF2 : List.Forall₂ (fun data rs => data = rs.flatMap encRecord ∧ data.length < 2 ^ 32 ∧
        ∀ r ∈ rs, WFRecord r) R (recs.map (List.map Document.staged)) := by
      rw [List.forall₂_map_right_iff]
      refine hF.imp ?_
      intro data ds h
      refine ⟨by rw [h.1, records_flatten], h.2.1, ?_⟩
      intro r hr
      obtain ⟨d, hd, rfl⟩ := List.mem_map.1 hr
      exact hwf d (h.2.2 d hd)
    have hflat : (recs.map (List.map Document.staged)).flatten
        = recs.flatten.map Document.staged := by
      rw [List.map_flatten]
    have hE : (entries (recs.map (List.map Document.staged)).flatten).Perm (docEntries docs) := by
      rw [hflat]
      unfold docEntries entries
      exact (hperm.map _).flatMap_right _
    have hd2 : DistinctKeys (entries (recs.map (List.map Document.staged)).flatten) := by
      unfold DistinctKeys at *
      refine (List.Perm.pairwise_iff ?_ hE).2 hdist
      intro a b h hh
      exact h ⟨hh.1.symm, hh.2.symm⟩
    rw [scan_spec s.defaultFieldStats ps0 R _ hR hF2
      (fun x hx => hposE x (hE.subset hx)) hd2]
    rw [postingsAll_perm _ _ hE hdist, hitsTotal_perm _ _ hE, hE.length_eq, hstats, hflat]
    have hcnt : ((recs.flatten.map Document.staged).filter (fun r => decide (r.2 ≠ []))).length
        = (docs.filter (fun d => decide (d.inserts ≠ []))).length := by
      rw [nonempty_count]
      exact (hperm.filter _).length_eq
    simp only [Nat.zero_add, hcnt]
  have hmemL : ∀ d ∈ spilled, d ∈ docs := fun d hd => by rw [hdocs]; simp [hd]
  have hmemR : ∀ d ∈ staged, d ∈ docs := fun d hd => by rw [hdocs]; simp [hd]
  unfold commit sourceRanges
  cases hbf : s.backingFile with
  | none =>
    have hsp : spilled = [] := hnone hbf
    subst hsp
    simp only [List.nil_append] at hdocs
    subst hdocs
    simp only
    by_cases hb0 : s.b.length = 0
    · have hd0 : docs = [] := by
        rw [← records_nil_iff, ← hb]
        exact List.length_eq_zero.1 hb0
      subst hd0
      simp [hb0, hstats, docEntries, entries, postingsAll_nil, hitsTotal]
    · simp only [hb0, ne_eq, not_false_eq_true, if_true, List.append_nil, List.length_singleton,
        one_ne_zero]
      exact key [s.b] [docs] (by simp)
        (List.Forall₂.cons ⟨hb, hlenb, fun d hd => hd⟩ List.Forall₂.nil) (by simp)
  | some f =>
    simp only
    rw [hbf] at hf hlenf
    simp only [Option.getD_some] at hf hlenf
    by_cases hb0 : s.b.length = 0
    · have hd0 : staged = [] := by
        rw [← records_nil_iff, ← hb]
        exact List.length_eq_zero.1 hb0
      subst hd0
      simp only [List.append_nil] at hdocs
      subst hdocs
      simp only [hb0, ne_eq, not_true_eq_false, if_false, List.nil_append]
      exact key [f] [docs] (by simp)
        (List.Forall₂.cons ⟨hf, hlenf, fun d hd => hd⟩ List.Forall₂.nil) (by simp)
    · simp only [hb0, ne_eq, not_false_eq_true, if_true, List.singleton_append]
      exact key [s.b, f] [staged, spilled] (by simp)
        (List.Forall₂.cons ⟨hb, hlenb, hmemR⟩
          (List.Forall₂.cons ⟨hf, hlenf, hmemL⟩ List.Forall₂.nil))
        (by rw [hdocs]; simpa using List.perm_append_comm)

/-! ## The postings -/

theorem flattenPostings_postingsOf :
    ∀ (n : Nat) (l : List Entry), l.length ≤ n → flattenPostings (postingsOf l) = l := by
  intro n
  induction n with
  | zero =>
    intro l h
    have : l = [] := List.length_eq_zero.1 (by omega)
    subst this
    simp [flattenPostings, postingsOf, groupRuns]
  | succ n ih =>
    intro l h
    cases l with
    | nil => simp [flattenPostings, postingsOf, groupRuns]
    | cons e erest =>
      have hl := dropWhile_length_le (fun x => decide (x.1 = e.1)) erest
      have ih' := ih (erest.dropWhile (fun x => decide (x.1 = e.1)))
        (by simp only [List.length_cons] at h; omega)
      rw [postingsOf_cons]
      unfold flattenPostings at ih' ⊢
      rw [List.flatMap_cons, ih']
      simp only [List.map_cons, List.map_map, List.cons_append, List.cons.injEq, true_and]
      have hmap : (erest.takeWhile (fun x => decide (x.1 = e.1))).map
          ((fun d : DocPosting => ((e.1, d.1, d.2) : Entry)) ∘ fun e => (e.2.1, e.2.2))
          = erest.takeWhile (fun x => decide (x.1 = e.1)) := by
        have : ∀ x ∈ erest.takeWhile (fun x => decide (x.1 = e.1)),
            ((fun d : DocPosting => ((e.1, d.1, d.2) : Entry)) ∘ fun e => (e.2.1, e.2.2)) x
              = id x := by
          intro x hx
          have := List.mem_takeWhile_imp hx
          simp only [decide_eq_true_eq] at this
          simp [← this]
        rw [List.map_congr_left this, List.map_id]
      rw [hmap, List.takeWhile_append_dropWhile]

theorem flattenPostings_postingsAll (E : List Entry) (k n : Nat) :
    flattenPostings (postingsAll E k n) = partEntries E k n := by
  unfold flattenPostings postingsAll partEntries
  rw [List.flatMap_assoc]
  congr 1
  funext i
  exact flattenPostings_postingsOf _ _ (le_refl _)

theorem newHitCalls_eq (ps : List TermPosting) (t d : Nat) :
    ((ps.filter (fun tp => tp.1 = t)).flatMap fun tp =>
        (tp.2.filter (fun dp => dp.1 = d)).flatMap (·.2))
      = ((flattenPostings ps).filter (fun e => e.1 = t ∧ e.2.1 = d)).flatMap (·.2.2) := by
  induction ps with
  | nil => rfl
  | cons tp ps ih =>
    have hinner : ∀ (ds : List DocPosting),
        ((ds.map fun dp => ((tp.1, dp.1, dp.2) : Entry)).filter
            (fun e => decide (e.1 = t ∧ e.2.1 = d))).flatMap (·.2.2)
          = if tp.1 = t then (ds.filter (fun dp => decide (dp.1 = d))).flatMap (·.2) else [] := by
      intro ds
      induction ds with
      | nil => simp
      | cons dp ds ih2 =>
        by_cases h1 : tp.1 = t
        · rw [if_pos h1] at ih2 ⊢
          by_cases h2 : dp.1 = d
          · rw [List.map_cons, List.filter_cons_of_pos (by simp [h1, h2]), List.flatMap_cons, ih2,
              List.filter_cons_of_pos (by simp [h2]), List.flatMap_cons]
          · rw [List.map_cons, List.filter_cons_of_neg (by simp [h2]), ih2,
              List.filter_cons_of_neg (by simp [h2])]
        · rw [if_neg h1] at ih2 ⊢
          rw [List.map_cons, List.filter_cons_of_neg (by simp [h1]), ih2]
    unfold flattenPostings at ih ⊢
    rw [List.flatMap_cons, List.filter_append, List.flatMap_append, hinner, ← ih,
      List.filter_cons]
    by_cases h1 : tp.1 = t
    · simp [h1]
    · simp [h1]

theorem postingsAll_keys_nodup (E : List Entry) (k n : Nat) :
    ((postingsAll E k n).map (·.1)).Nodup := by
  unfold postingsAll
  rw [List.map_flatMap]
  apply nodup_flatMap_range (fun t => t &&& 31)
  · intro i
    apply pairwise_lt_nodup
    have : (postingsOf (stdSort entryLess (E.filter (fun e => e.1 &&& 31 = i)))).map (·.1)
        = (groupRuns (fun e : Entry => e.1)
            (stdSort entryLess (E.filter (fun e => e.1 &&& 31 = i)))).map
              (runKey (fun e : Entry => e.1)) := by
      simp [postingsOf, List.map_map, Function.comp_def]
    rw [this]
    refine groupRuns_keys_sorted (fun e : Entry => e.1) _ _ (le_refl _) ?_
    refine (entryLess_sorted _).imp ?_
    intro a b h
    rw [Bool.eq_false_iff, ne_eq, entryLess_iff] at h
    show a.1 ≤ b.1
    omega
  · intro i x hx
    obtain ⟨tp, htp, rfl⟩ := List.mem_map.1 hx
    obtain ⟨e, he, hek⟩ := postingsOf_key_mem _ _ (le_refl _) tp htp
    have := (stdSort_perm entryLess _).subset he
    rw [← hek]
    simpa using (List.mem_filter.1 this).2

/-- Every posting of `commit` lists documents in strictly increasing ID, and each
(document, hits) pair of it is a staged entry of the term. -/
theorem postingsAll_mem (E : List Entry) (hd : DistinctKeys E) (k n : Nat)
    (tp : TermPosting) (htp : tp ∈ postingsAll E k n) :
    (tp.2.map (·.1)).Pairwise (fun a b => a < b) ∧
    ∀ dp ∈ tp.2, ((tp.1, dp.1, dp.2) : Entry) ∈ E := by
  unfold postingsAll at htp
  obtain ⟨i, -, hi⟩ := List.mem_flatMap.1 htp
  unfold postingsOf at hi
  obtain ⟨run, hrun, rfl⟩ := List.mem_map.1 hi
  obtain ⟨h1, h2, h3⟩ := groupRuns_mem (fun e : Entry => e.1) _ _ (le_refl _) run hrun
  have hdk : DistinctKeys (E.filter (fun e => e.1 &&& 31 = i)) :=
    List.Pairwise.sublist (List.filter_sublist _) hd
  have hs := (sorted_strict _ hdk).sublist h3
  constructor
  · simp only [List.map_map]
    rw [List.pairwise_map]
    have hk2 : run.Pairwise (fun a b => a.1 = b.1) := by
      rw [List.pairwise_iff_forall_sublist]
      intro a b hab
      have ha := h2 a (hab.subset (by simp))
      have hb := h2 b (hab.subset (by simp))
      simp only at ha hb
      rw [ha, hb]
    refine (hs.and hk2).imp ?_
    intro a b h
    obtain ⟨h4, h5⟩ := h
    rw [entryLess_iff] at h4
    simp only [Function.comp]
    omega
  · intro dp hdp
    obtain ⟨e, he, rfl⟩ := List.mem_map.1 hdp
    have hk := h2 e he
    simp only at hk ⊢
    rw [← hk]
    have := (stdSort_perm entryLess _).subset (h3.subset he)
    exact (List.mem_filter.1 this).1

theorem flattenPostings_mem (ps : List TermPosting) (x : Entry) :
    x ∈ flattenPostings ps ↔ ∃ tp ∈ ps, tp.1 = x.1 ∧ (x.2.1, x.2.2) ∈ tp.2 := by
  unfold flattenPostings
  rw [List.mem_flatMap]
  constructor
  · rintro ⟨tp, htp, hx⟩
    obtain ⟨dp, hdp, rfl⟩ := List.mem_map.1 hx
    exact ⟨tp, htp, rfl, hdp⟩
  · rintro ⟨tp, htp, h1, h2⟩
    exact ⟨tp, htp, List.mem_map.2 ⟨(x.2.1, x.2.2), h2, by rw [h1]⟩⟩

theorem postingsAll_complete (E : List Entry) (x : Entry) (hx : x ∈ E) :
    ∃ tp ∈ postingsAll E 0 32, tp.1 = x.1 ∧ (x.2.1, x.2.2) ∈ tp.2 := by
  rw [← flattenPostings_mem, flattenPostings_postingsAll]
  exact (partEntries_perm_all E).symm.subset hx

theorem filter_key_le_one (t d : Nat) :
    ∀ (l : List Entry), DistinctKeys l →
      l.filter (fun e => e.1 = t ∧ e.2.1 = d) = [] ∨
        ∃ e ∈ l, l.filter (fun e => e.1 = t ∧ e.2.1 = d) = [e] := by
  intro l
  induction l with
  | nil => intro _; exact Or.inl rfl
  | cons a l ih =>
    intro hd
    unfold DistinctKeys at hd
    rw [List.pairwise_cons] at hd
    by_cases ha : a.1 = t ∧ a.2.1 = d
    · right
      refine ⟨a, by simp, ?_⟩
      have : l.filter (fun e => decide (e.1 = t ∧ e.2.1 = d)) = [] := by
        rw [List.filter_eq_nil_iff]
        intro b hb
        have := hd.1 b hb
        simp only [decide_eq_true_eq]
        intro hb2
        exact this ⟨by rw [ha.1, hb2.1], by rw [ha.2, hb2.2]⟩
      rw [List.filter_cons_of_pos (by simpa using ha), this]
    · rcases ih hd.2 with h | ⟨e, he, h⟩
      · left; rw [List.filter_cons_of_neg (by simpa using ha), h]
      · right
        exact ⟨e, List.mem_cons_of_mem _ he, by rw [List.filter_cons_of_neg (by simpa using ha), h]⟩

theorem docEntries_filter (docs : List Document) (hnd : (docs.map (·.did)).Nodup)
    (doc : Document) (hdoc : doc ∈ docs) (t : Nat) :
    ((docEntries docs).filter (fun e => e.1 = t ∧ e.2.1 = doc.did)).flatMap (·.2.2)
      = (doc.groups.filter (fun g => g.1 = t)).flatMap (·.2) := by
  have hown : ∀ d : Document,
      ((d.groups.map fun g => ((g.1, d.did, g.2) : Entry)).filter
          (fun e => decide (e.1 = t ∧ e.2.1 = doc.did))).flatMap (·.2.2)
        = if d.did = doc.did then (d.groups.filter (fun g => decide (g.1 = t))).flatMap (·.2)
          else [] := by
    intro d
    generalize d.groups = gs
    induction gs with
    | nil => simp
    | cons g gs ih =>
      by_cases h1 : d.did = doc.did
      · rw [if_pos h1] at ih ⊢
        by_cases h2 : g.1 = t
        · rw [List.map_cons, List.filter_cons_of_pos (by simp [h1, h2]), List.flatMap_cons, ih,
            List.filter_cons_of_pos (by simp [h2]), List.flatMap_cons]
        · rw [List.map_cons, List.filter_cons_of_neg (by simp [h2]), ih,
            List.filter_cons_of_neg (by simp [h2])]
      · rw [if_neg h1] at ih ⊢
        rw [List.map_cons, List.filter_cons_of_neg (by simp [h1]), ih]
  induction docs with
  | nil => simp at hdoc
  | cons d ds ih =>
    rw [List.map_cons, List.nodup_cons] at hnd
    rw [docEntries_cons, List.filter_append, List.flatMap_append, hown]
    rcases List.mem_cons.1 hdoc with rfl | hmem
    · have hrest : (docEntries ds).filter (fun e => decide (e.1 = t ∧ e.2.1 = doc.did)) = [] := by
        rw [List.filter_eq_nil_iff]
        intro b hb
        obtain ⟨d', hd', hbd, -⟩ := (docEntries_mem ds b).1 hb
        simp only [decide_eq_true_eq, not_and]
        intro _ h2
        apply hnd.1
        rw [List.mem_map]
        exact ⟨d', hd', by rw [← hbd, h2]⟩
      rw [hrest, if_pos rfl]
      simp
    · have hne : ¬ d.did = doc.did := by
        intro h
        apply hnd.1
        rw [List.mem_map]
        exact ⟨doc, hmem, h.symm⟩
      rw [if_neg hne, List.nil_append]
      exact ih hnd.2 hmem

/-! ## The claims about `commit` -/

theorem session_commit (SPAN MaxPosition freq ps0 : Nat) (docs : List Document)
    (hmax : MaxPosition ≤ 2 ^ 31)
    (hok : (sessionOf SPAN MaxPosition freq docs).1 = Outcome.ok)
    (hadm : Admissible docs) (hsize : (stagedBytes docs).length < 2 ^ 32) :
    commit (sessionOf SPAN MaxPosition freq docs).2 ps0
      = some
          { postings := postingsAll (docEntries docs) 0 32,
            map := (postingsAll (docEntries docs) 0 32).map (·.1),
            stats :=
              { sumTermHits := hitsTotal (docEntries docs),
                totalTerms := (postingsAll (docEntries docs) 0 32).length,
                sumTermsDocs := (docEntries docs).length,
                docsCnt := (docs.filter (fun d => decide (d.inserts ≠ []))).length } } ∧
    (docs.map (·.did)).Nodup ∧ ∀ doc ∈ docs, DocOK MaxPosition doc := by
  obtain ⟨h1, h2, h3, -⟩ := indexAll_spec SPAN MaxPosition freq docs []
    (SegmentIndexSession.fresh freq) (Holds_fresh SPAN freq) hok
  rw [List.nil_append] at h1
  exact ⟨commit_spec SPAN MaxPosition freq ps0 docs _ h1 hmax h2 hadm h3 hsize, h3, h2⟩

theorem docEntries_wfhits (MaxPosition : Nat) (docs : List Document)
    (hmax : MaxPosition ≤ 2 ^ 31) (hok : ∀ doc ∈ docs, DocOK MaxPosition doc)
    (hadm : Admissible docs) : ∀ x ∈ docEntries docs, WFHits x.2.2 := by
  intro x hx
  obtain ⟨d, hd, -, hg⟩ := (docEntries_mem docs x).1 hx
  have := Document.staged_wf MaxPosition d hmax (hok d hd) (hadm d hd).2.1 (hadm d hd).2.2
  exact (this.2.2 _ hg).2.2.2

theorem hasTerm_entry (docs : List Document) (doc : Document) (hdoc : doc ∈ docs) (t : Nat)
    (h : doc.hasTerm t) : ∃ hs, ((t, doc.did, hs) : Entry) ∈ docEntries docs := by
  rw [Document.hasTerm_iff] at h
  obtain ⟨g, hg, rfl⟩ := List.mem_map.1 h
  exact ⟨g.2, (docEntries_mem docs _).2 ⟨doc, hdoc, rfl, hg⟩⟩

theorem entry_hasTerm (docs : List Document) (x : Entry) (hx : x ∈ docEntries docs) :
    ∃ doc ∈ docs, doc.did = x.2.1 ∧ doc.hasTerm x.1 := by
  obtain ⟨d, hd, hxd, hg⟩ := (docEntries_mem docs x).1 hx
  refine ⟨d, hd, hxd.symm, ?_⟩
  rw [Document.hasTerm_iff]
  exact List.mem_map.2 ⟨_, hg, rfl⟩

/-- C2, amended: for documents with non-zero IDs and fewer than 65536 distinct terms
each (32-bit IDs, positions below `2 ^ 31`, less than `2 ^ 32` staged bytes) that were
all committed, `commit` returns, and the `new_hit` calls made for a document inside a
term it has a hit of are a permutation of the (position, payload) pairs inserted for
that term, in non-decreasing position. -/
theorem commit_replays_inserted_hits (SPAN MaxPosition freq ps0 : Nat) (docs : List Document)
    (hmax : MaxPosition ≤ 2 ^ 31)
    (hok : (sessionOf SPAN MaxPosition freq docs).1 = Outcome.ok)
    (hadm : Admissible docs) (hsize : (stagedBytes docs).length < 2 ^ 32) :
    HitsReplayed SPAN MaxPosition freq ps0 docs := by
  obtain ⟨hc, hnd, hdok⟩ := session_commit SPAN MaxPosition freq ps0 docs hmax hok hadm hsize
  refine ⟨_, hc, ?_⟩
  intro doc hdoc t _
  have hdist := docEntries_distinct docs hnd
  have hperm := partEntries_perm_all (docEntries docs)
  have heq : newHitCalls
      { postings := postingsAll (docEntries docs) 0 32,
        map := (postingsAll (docEntries docs) 0 32).map (·.1),
        stats :=
          { sumTermHits := hitsTotal (docEntries docs),
            totalTerms := (postingsAll (docEntries docs) 0 32).length,
            sumTermsDocs := (docEntries docs).length,
            docsCnt := (docs.filter (fun d => decide (d.inserts ≠ []))).length } } t doc.did
      = ((partEntries (docEntries docs) 0 32).filter
          (fun e => e.1 = t ∧ e.2.1 = doc.did)).flatMap (·.2.2) := by
    unfold newHitCalls
    rw [newHitCalls_eq, flattenPostings_postingsAll]
  rw [heq]
  constructor
  · refine ((hperm.filter _).flatMap_right _).trans ?_
    rw [docEntries_filter docs hnd doc hdoc t]
    exact Document.groups_hits doc t
  · have hdist2 : DistinctKeys (partEntries (docEntries docs) 0 32) := by
      unfold DistinctKeys at *
      refine (List.Perm.pairwise_iff ?_ hperm).2 hdist
      intro a b h hh
      exact h ⟨hh.1.symm, hh.2.symm⟩
    rcases filter_key_le_one t doc.did _ hdist2 with h | ⟨e, he, h⟩
    · rw [h]; simp
    · rw [h]
      simp only [List.flatMap_cons, List.flatMap_nil, List.append_nil]
      exact (docEntries_wfhits MaxPosition docs hmax hdok hadm e (hperm.subset he)).2

/-- C3, amended: under the same conditions, for every term that `commit` emits, the
IDs given to `begin_document` inside the term are strictly increasing and are exactly
the IDs of the committed documents that have a hit of the term. -/
theorem commit_lists_documents_of_term (SPAN MaxPosition freq ps0 : Nat) (docs : List Document)
    (hmax : MaxPosition ≤ 2 ^ 31)
    (hok : (sessionOf SPAN MaxPosition freq docs).1 = Outcome.ok)
    (hadm : Admissible docs) (hsize : (stagedBytes docs).length < 2 ^ 32) :
    DocumentsListed SPAN MaxPosition freq ps0 docs := by
  obtain ⟨hc, hnd, -⟩ := session_commit SPAN MaxPosition freq ps0 docs hmax hok hadm hsize
  refine ⟨_, hc, ?_⟩
  intro tp htp
  have hdist := docEntries_distinct docs hnd
  obtain ⟨h1, h2⟩ := postingsAll_mem (docEntries docs) hdist 0 32 tp htp
  refine ⟨h1, ?_⟩
  intro d
  constructor
  · intro hd
    obtain ⟨dp, hdp, rfl⟩ := List.mem_map.1 hd
    obtain ⟨doc, hdoc, e1, e2⟩ := entry_hasTerm docs _ (h2 dp hdp)
    exact ⟨doc, hdoc, e1, e2⟩
  · rintro ⟨doc, hdoc, rfl, ht⟩
    obtain ⟨hs, hmem⟩ := hasTerm_entry docs doc hdoc tp.1 ht
    obtain ⟨tp', htp', hk, hin⟩ := postingsAll_complete (docEntries docs) _ hmem
    have hsame : tp' = tp := by
      have hnodup := postingsAll_keys_nodup (docEntries docs) 0 32
      exact List.inj_on_of_nodup_map hnodup htp' htp hk
    rw [hsame] at hin
    exact List.mem_map.2 ⟨_, hin, rfl⟩

theorem hitsTotal_docEntries (docs : List Document) :
    hitsTotal (docEntries docs) = (docs.map fun d => d.inserts.length).sum := by
  induction docs with
  | nil => rfl
  | cons d ds ih =>
    rw [docEntries_cons, hitsTotal_append, ih, List.map_cons, List.sum_cons]
    congr 1
    rw [← Document.groups_total d]
    simp [hitsTotal, List.map_map, Function.comp_def]

theorem docEntries_length (docs : List Document) :
    (docEntries docs).length = (docs.map fun d => d.termIDs.length).sum := by
  induction docs with
  | nil => rfl
  | cons d ds ih =>
    rw [docEntries_cons, List.length_append, ih, List.map_cons, List.sum_cons, List.length_map,
      Document.groups_length]

/-- C4, amended: under the same conditions, after `commit` on a session whose
statistics started at zero, `docsCnt` is the number of committed documents that have
a hit, `sumTermHits` the number of hits inserted over all documents, and
`sumTermsDocs` the number of (term, document) pairs that have a hit. -/
theorem commit_counts_statistics (SPAN MaxPosition freq ps0 : Nat) (docs : List Document)
    (hmax : MaxPosition ≤ 2 ^ 31)
    (hok : (sessionOf SPAN MaxPosition freq docs).1 = Outcome.ok)
    (hadm : Admissible docs) (hsize : (stagedBytes docs).length < 2 ^ 32) :
    StatsCounted SPAN MaxPosition freq ps0 docs := by
  obtain ⟨hc, -, -⟩ := session_commit SPAN MaxPosition freq ps0 docs hmax hok hadm hsize
  exact ⟨_, hc, rfl, hitsTotal_docEntries docs, docEntries_length docs⟩

theorem stagedTermIDs_mem (docs : List Document) (t : Nat) :
    t ∈ stagedTermIDs docs ↔ ∃ doc ∈ docs, doc.hasTerm t := by
  unfold stagedTermIDs Document.hasTerm
  rw [List.mem_dedup, List.mem_map]
  constructor
  · rintro ⟨c, hc, rfl⟩
    obtain ⟨d, hd, hcd⟩ := List.mem_flatMap.1 hc
    exact ⟨d, hd, c, hcd, rfl⟩
  · rintro ⟨d, hd, c, hcd, rfl⟩
    exact ⟨c, List.mem_flatMap.2 ⟨d, hd, hcd⟩, rfl⟩

theorem postings_terms_mem (docs : List Document) (t : Nat) :
    t ∈ (postingsAll (docEntries docs) 0 32).map (·.1) ↔ t ∈ stagedTermIDs docs := by
  rw [stagedTermIDs_mem]
  constructor
  · intro h
    obtain ⟨tp, htp, rfl⟩ := List.mem_map.1 h
    unfold postingsAll at htp
    obtain ⟨i, -, hi⟩ := List.mem_flatMap.1 htp
    obtain ⟨e, he, hek⟩ := postingsOf_key_mem _ _ (le_refl _) tp hi
    have hmem := (List.mem_filter.1 ((stdSort_perm entryLess _).subset he)).1
    obtain ⟨doc, hdoc, -, ht⟩ := entry_hasTerm docs e hmem
    rw [← hek]
    exact ⟨doc, hdoc, ht⟩
  · rintro ⟨doc, hdoc, ht⟩
    obtain ⟨hs, hmem⟩ := hasTerm_entry docs doc hdoc t ht
    obtain ⟨tp, htp, hk, -⟩ := postingsAll_complete (docEntries docs) _ hmem
    exact List.mem_map.2 ⟨tp, htp, hk⟩

theorem encoderCalls_count (ps : List TermPosting) :
    (encoderCalls ps).count EncoderCall.begin_term = ps.length ∧
    (encoderCalls ps).count EncoderCall.end_term = ps.length := by
  have hdoc : ∀ ds : List DocPosting,
      ((ds.flatMap fun d => [EncoderCall.begin_document d.1] ++
        d.2.map (fun h => EncoderCall.new_hit h.1 h.2) ++ [EncoderCall.end_document]).count
          EncoderCall.begin_term = 0) ∧
      ((ds.flatMap fun d => [EncoderCall.begin_document d.1] ++
        d.2.map (fun h => EncoderCall.new_hit h.1 h.2) ++ [EncoderCall.end_document]).count
          EncoderCall.end_term = 0) := by
    intro ds
    constructor <;>
    · rw [List.count_eq_zero]
      intro h
      obtain ⟨d, -, hd⟩ := List.mem_flatMap.1 h
      simp at hd
  induction ps with
  | nil => simp [encoderCalls]
  | cons tp ps ih =>
    unfold encoderCalls at ih ⊢
    rw [List.flatMap_cons]
    constructor
    · rw [List.count_append, ih.1]
      simp only [List.count_append, (hdoc tp.2).1, List.length_cons]
      simp
      omega
    · rw [List.count_append, ih.2]
      simp only [List.count_append, (hdoc tp.2).2, List.length_cons]
      simp
      omega

/-- C5, amended: under the same conditions, `commit` emits one term for every
distinct staged term ID and no other: the emitted terms are pairwise different,
`begin_term` and `end_term` are called once per distinct term ID, `totalTerms` is the
number of distinct term IDs, and `map` holds exactly one entry per distinct term ID. -/
theorem commit_emits_each_term_once (SPAN MaxPosition freq ps0 : Nat) (docs : List Document)
    (hmax : MaxPosition ≤ 2 ^ 31)
    (hok : (sessionOf SPAN MaxPosition freq docs).1 = Outcome.ok)
    (hadm : Admissible docs) (hsize : (stagedBytes docs).length < 2 ^ 32) :
    TermsEmittedOnce SPAN MaxPosition freq ps0 docs := by
  obtain ⟨hc, -, -⟩ := session_commit SPAN MaxPosition freq ps0 docs hmax hok hadm hsize
  have hnodup := postingsAll_keys_nodup (docEntries docs) 0 32
  have hmem := postings_terms_mem docs
  have hlen : (postingsAll (docEntries docs) 0 32).length = (stagedTermIDs docs).length := by
    have hp : ((postingsAll (docEntries docs) 0 32).map (·.1)).Perm (stagedTermIDs docs) := by
      exact (List.perm_ext_iff_of_nodup hnodup (List.nodup_dedup _)).2 hmem
    simpa using hp.length_eq
  have hcnt := encoderCalls_count (postingsAll (docEntries docs) 0 32)
  exact ⟨_, hc, hnodup, hmem, hlen, hnodup, hmem, by rw [hcnt.1, hlen], by rw [hcnt.2, hlen]⟩

/-- C6, where no count wraps: for documents with non-zero IDs and fewer than 65536
distinct terms each (32-bit IDs, positions below `2 ^ 31`, less than `2 ^ 32` staged
bytes) whose commits all succeed, the postings given to the encoder, the keys of `map`
and the statistics are the same with any `intermediateStateFlushFreq` as with 0. -/
theorem commit_independent_of_flush_freq (SPAN MaxPosition freq ps0 : Nat)
    (docs : List Document) (hmax : MaxPosition ≤ 2 ^ 31)
    (hok : (sessionOf SPAN MaxPosition 0 docs).1 = Outcome.ok)
    (hok' : (sessionOf SPAN MaxPosition freq docs).1 = Outcome.ok)
    (hadm : Admissible docs) (hsize : (stagedBytes docs).length < 2 ^ 32) :
    commit (sessionOf SPAN MaxPosition freq docs).2 ps0
      = commit (sessionOf SPAN MaxPosition 0 docs).2 ps0 := by
  rw [(session_commit SPAN MaxPosition freq ps0 docs hmax hok' hadm hsize).1,
    (session_commit SPAN MaxPosition 0 ps0 docs hmax hok hadm hsize).1]

/-- The claims above at the sample documents, with a spill after the first. -/
theorem commit_replays_inserted_hits_witness :
    HitsReplayed 65536 8192 20 0 sampleDocs :=
  commit_replays_inserted_hits 65536 8192 20 0 sampleDocs (by decide) (by decide) (by decide)
    (by decide)

/-- C2 as stated fails: the document of ID 0 is committed without error, and `commit`
then stops at `require(documentID > prevDID)`, so that its hit is never replayed. -/
theorem commit_replays_inserted_hits_counterexample :
    ¬ ((sessionOf 65536 8192 0 zeroDocs).1 = Outcome.ok →
        HitsReplayed 65536 8192 0 0 zeroDocs) := by
  intro h
  obtain ⟨r, hr, -⟩ := h (by decide)
  have hn : commit (sessionOf 65536 8192 0 zeroDocs).2 0 = none := by decide
  rw [hn] at hr
  cases hr

theorem commit_lists_documents_of_term_witness :
    DocumentsListed 65536 8192 20 0 sampleDocs :=
  commit_lists_documents_of_term 65536 8192 20 0 sampleDocs (by decide) (by decide)
    (by decide) (by decide)

/-- C3 as stated fails: the document of ID 0 has a hit of term 1, and `commit` stops
at `require(documentID > prevDID)` before any `begin_document` for the term. -/
theorem commit_lists_documents_of_term_counterexample :
    ¬ ((sessionOf 65536 8192 0 zeroDocs).1 = Outcome.ok →
        DocumentsListed 65536 8192 0 0 zeroDocs) := by
  intro h
  obtain ⟨r, hr, -⟩ := h (by decide)
  have hn : commit (sessionOf 65536 8192 0 zeroDocs).2 0 = none := by decide
  rw [hn] at hr
  cases hr

theorem commit_counts_statistics_witness :
    StatsCounted 65536 8192 20 0 sampleDocs :=
  commit_counts_statistics 65536 8192 20 0 sampleDocs (by decide) (by decide) (by decide)
    (by decide)

/-- C4 as stated fails: after the document of ID 0 is committed, `commit` does not
return, and `sumTermHits` and `sumTermsDocs` are never brought to 1. -/
theorem commit_counts_statistics_counterexample :
    ¬ ((sessionOf 65536 8192 0 zeroDocs).1 = Outcome.ok →
        StatsCounted 65536 8192 0 0 zeroDocs) := by
  intro h
  obtain ⟨r, hr, -⟩ := h (by decide)
  have hn : commit (sessionOf 65536 8192 0 zeroDocs).2 0 = none := by decide
  rw [hn] at hr
  cases hr

theorem commit_emits_each_term_once_witness :
    TermsEmittedOnce 65536 8192 20 0 sampleDocs :=
  commit_emits_each_term_once 65536 8192 20 0 sampleDocs (by decide) (by decide) (by decide)
    (by decide)

/-- C5 as stated fails: term 1 has a hit in the committed document of ID 0, and
`commit` stops inside the term, before `end_term` and before the term is filed in
`map`. -/
theorem commit_emits_each_term_once_counterexample :
    ¬ ((sessionOf 65536 8192 0 zeroDocs).1 = Outcome.ok →
        TermsEmittedOnce 65536 8192 0 0 zeroDocs) := by
  intro h
  obtain ⟨r, hr, -⟩ := h (by decide)
  have hn : commit (sessionOf 65536 8192 0 zeroDocs).2 0 = none := by decide
  rw [hn] at hr
  cases hr

theorem commit_independent_of_flush_freq_witness :
    commit (sessionOf 65536 8192 20 sampleDocs).2 0
      = commit (sessionOf 65536 8192 0 sampleDocs).2 0 :=
  commit_independent_of_flush_freq 65536 8192 20 0 sampleDocs (by decide) (by decide)
    (by decide) (by decide) (by decide)

/-! ## The proxy counters, the list of masked documents, the spill -/

theorem insert_proxy (MaxPosition : Nat) (s : SegmentIndexSession) (px : document_proxy)
    (termID position : Nat) (payload : Bytes)
    (h : (insert MaxPosition s px termID position payload).1 = Outcome.ok) :
    (insert MaxPosition s px termID position payload).2.2
      = { px with
          positionOverlapsCnt :=
            px.positionOverlapsCnt + (if position ≠ 0 ∧ position = px.lastPos then 1 else 0),
          lastPos := position } := by
  unfold insert at h ⊢
  by_cases h1 : termID = 0
  · simp [h1] at h
  · by_cases h2 : position < MaxPosition
    · by_cases h3 : payload.length ≠ 0
      · by_cases h4 : payload.length ≤ 8
        · simp [h1, h2, h3, h4]
        · simp [h1, h2, h3, h4] at h
      · simp [h1, h2, h3]
    · simp [h1, h2] at h

theorem insertAll_proxy (MaxPosition : Nat) (cs : List InsertCall) :
    ∀ (s : SegmentIndexSession) (px : document_proxy),
      (insertAll MaxPosition cs s px).1 = Outcome.ok →
      (insertAll MaxPosition cs s px).2.2.positionOverlapsCnt
        = px.positionOverlapsCnt + overlaps px.lastPos (cs.map (·.position)) := by
  induction cs with
  | nil => intro s px _; simp [insertAll, overlaps]
  | cons c cs ih =>
    intro s px h
    rw [insertAll] at h ⊢
    have hstep := insert_proxy MaxPosition s px c.termID c.position c.payload
    generalize hr : insert MaxPosition s px c.termID c.position c.payload = r at *
    obtain ⟨o, s', px'⟩ := r
    cases o with
    | ok =>
      simp only at h ⊢
      have i1 := ih s' px' h
      have hp := hstep rfl
      simp only at hp
      rw [i1, hp]
      simp only [List.map_cons, overlaps]
      omega
    | threw => simp at h
    | aborted => simp at h

/-- C11: an accepted `insert` adds one to `positionOverlapsCnt` exactly when its
position is not 0 and equals `lastPos`, the position of the previous accepted insert
on the proxy, whatever the two term IDs, and leaves the counter as it was otherwise;
`lastPos` becomes the position.  After a run of accepted inserts the counter has grown
by the number of positions that are non-zero and equal to the one just before. -/
theorem insert_counts_position_overlaps (MaxPosition : Nat) (s : SegmentIndexSession)
    (px : document_proxy) :
    (∀ (termID position : Nat) (payload : Bytes),
      (insert MaxPosition s px termID position payload).1 = Outcome.ok →
      ((position ≠ 0 ∧ position = px.lastPos →
          (insert MaxPosition s px termID position payload).2.2.positionOverlapsCnt
            = px.positionOverlapsCnt + 1) ∧
       (¬ (position ≠ 0 ∧ position = px.lastPos) →
          (insert MaxPosition s px termID position payload).2.2.positionOverlapsCnt
            = px.positionOverlapsCnt) ∧
       (insert MaxPosition s px termID position payload).2.2.lastPos = position)) ∧
    (∀ cs : List InsertCall, (insertAll MaxPosition cs s px).1 = Outcome.ok →
      (insertAll MaxPosition cs s px).2.2.positionOverlapsCnt
        = px.positionOverlapsCnt + overlaps px.lastPos (cs.map (·.position))) := by
  constructor
  · intro termID position payload h
    rw [insert_proxy MaxPosition s px termID position payload h]
    refine ⟨?_, ?_, rfl⟩
    · intro hc; simp only [if_pos hc]
    · intro hc; simp only [if_neg hc, Nat.add_zero]
  · intro cs h
    exact insertAll_proxy MaxPosition cs s px h

/-- The spec example for C11: two inserts at position 1 on the proxy of document 100
leave `positionOverlapsCnt = 1`. -/
theorem insert_counts_position_overlaps_witness :
    (insertAll 8192 [⟨1, 1, []⟩, ⟨1, 1, []⟩] (SegmentIndexSession.fresh 0)
      ⟨100, 0, 0⟩).2.2.positionOverlapsCnt = 1 :=
  (insert_counts_position_overlaps 8192 (SegmentIndexSession.fresh 0) ⟨100, 0, 0⟩).2
    [⟨1, 1, []⟩, ⟨1, 1, []⟩] (by decide)

theorem erase_spec (SPAN : Nat) (s : SegmentIndexSession) (d : Nat) :
    ((erase SPAN s d).1 = Outcome.ok ↔ (track SPAN s.guard d).1 = true) ∧
    ((erase SPAN s d).1 = Outcome.ok →
      (erase SPAN s d).2
        = { s with
            guard := (track SPAN s.guard d).2,
            updatedDocumentIDs := s.updatedDocumentIDs ++ [d] }) := by
  unfold erase
  rw [consider_update_fst]
  by_cases h : (track SPAN s.guard d).1 = true
  · simp [h]
  · simp [h]

theorem applyOp_spec (SPAN MaxPosition : Nat) (ops : List SessionOp) (s : SegmentIndexSession)
    (op : SessionOp) (h : OpsHold SPAN ops s)
    (hok : (applyOp SPAN MaxPosition s op).1 = Outcome.ok) :
    OpsHold SPAN (ops ++ [op]) (applyOp SPAN MaxPosition s op).2 ∧
    op.did ∉ ops.map (·.did) ∧
    (applyOp SPAN MaxPosition s op).2.updatedDocumentIDs
      = (if op.masks then s.updatedDocumentIDs ++ [op.did] else s.updatedDocumentIDs) := by
  obtain ⟨h1, h2, h3⟩ := h
  have htr : ∀ d, (track SPAN s.guard d).1 = true → d ∉ ops.map (·.did) := by
    intro d hd
    rw [h2, track_trackMany] at hd
    simpa using hd
  cases op with
  | commit doc =>
    obtain ⟨a1, a2⟩ := indexDocument_spec SPAN MaxPosition s doc h1
    simp only [applyOp] at hok ⊢
    obtain ⟨b1, b2, b3, -⟩ := a2 hok
    refine ⟨⟨b1, ?_, ?_⟩, htr _ (a1.1 hok).2.1, ?_⟩
    · rw [b2, h2]
      simp only [List.map_append, List.map_cons, List.map_nil]
      rw [trackMany_append]; rfl
    · rw [b3, h3, List.filter_append, List.map_append]
      cases hr : doc.replace <;> simp [List.filter_cons, SessionOp.masks, SessionOp.did, hr]
    · rw [b3]; rfl
  | erase d =>
    obtain ⟨a1, a2⟩ := erase_spec SPAN s d
    simp only [applyOp] at hok ⊢
    rw [a2 hok]
    refine ⟨⟨h1, ?_, ?_⟩, htr _ (a1.1 hok), ?_⟩
    · simp only [List.map_append, List.map_cons, List.map_nil]
      rw [h2, trackMany_append]; rfl
    · simp only
      rw [h3, List.filter_append, List.map_append]
      simp [List.filter_cons, SessionOp.masks, SessionOp.did]
    · simp [SessionOp.masks, SessionOp.did]

theorem runOps_spec (SPAN MaxPosition : Nat) (ops : List SessionOp) :
    ∀ (ops₀ : List SessionOp) (s : SegmentIndexSession), OpsHold SPAN ops₀ s →
      (ops₀.map (·.did)).Nodup →
      (runOps SPAN MaxPosition ops s).1 = Outcome.ok →
      OpsHold SPAN (ops₀ ++ ops) (runOps SPAN MaxPosition ops s).2 ∧
      ((ops₀ ++ ops).map (·.did)).Nodup := by
  induction ops with
  | nil => intro ops₀ s h hnd _; simpa [runOps] using ⟨h, hnd⟩
  | cons op ops ih =>
    intro ops₀ s h hnd hok
    rw [runOps] at hok ⊢
    have hstep := applyOp_spec SPAN MaxPosition ops₀ s op h
    generalize hr : applyOp SPAN MaxPosition s op = r at *
    obtain ⟨o, s'⟩ := r
    cases o with
    | ok =>
      simp only at hok ⊢
      obtain ⟨c1, c2, -⟩ := hstep rfl
      have hnd' : ((ops₀ ++ [op]).map (·.did)).Nodup := by
        rw [List.map_append, List.nodup_append]
        refine ⟨hnd, by simp, ?_⟩
        intro a ha hb
        simp only [List.map_cons, List.map_nil, List.mem_singleton] at hb
        subst hb
        exact c2 ha
      have := ih (ops₀ ++ [op]) s' c1 hnd' hok
      simpa using this
    | threw => simp at hok
    | aborted => simp at hok

theorem runOps_append (SPAN MaxPosition : Nat) (ops₁ ops₂ : List SessionOp) :
    ∀ s : SegmentIndexSession,
      runOps SPAN MaxPosition (ops₁ ++ ops₂) s
        = match runOps SPAN MaxPosition ops₁ s with
          | (Outcome.ok, s') => runOps SPAN MaxPosition ops₂ s'
          | r => r := by
  induction ops₁ with
  | nil => intro s; simp [runOps]
  | cons op ops ih =>
    intro s
    rw [List.cons_append, runOps, runOps]
    generalize applyOp SPAN MaxPosition s op = r
    obtain ⟨o, s'⟩ := r
    cases o with
    | ok => simp only; exact ih s'
    | threw => rfl
    | aborted => rfl

theorem runOps_prefix_ok (SPAN MaxPosition : Nat) (ops₁ ops₂ : List SessionOp)
    (s : SegmentIndexSession)
    (h : (runOps SPAN MaxPosition (ops₁ ++ ops₂) s).1 = Outcome.ok) :
    (runOps SPAN MaxPosition ops₁ s).1 = Outcome.ok := by
  rw [runOps_append] at h
  generalize runOps SPAN MaxPosition ops₁ s = r at *
  obtain ⟨o, s'⟩ := r
  cases o with
  | ok => rfl
  | threw => simp at h
  | aborted => simp at h

/-- C12: after a run of successful commits and erases on a new session,
`updatedDocumentIDs` is the list, in submission order, of the IDs that were erased or
committed with `replace = true`, and no ID occurs in it twice; each operation appends
its ID when it is an erase or a commit with `replace = true` and leaves the list as it
was when it is a commit with `replace = false`. -/
theorem updated_ids_are_masked_ids (SPAN MaxPosition freq : Nat) (ops : List SessionOp)
    (hok : (runOps SPAN MaxPosition ops (SegmentIndexSession.fresh freq)).1 = Outcome.ok) :
    (runOps SPAN MaxPosition ops (SegmentIndexSession.fresh freq)).2.updatedDocumentIDs
      = (ops.filter (·.masks)).map (·.did) ∧
    (runOps SPAN MaxPosition ops
      (SegmentIndexSession.fresh freq)).2.updatedDocumentIDs.Nodup ∧
    ∀ (pre : List SessionOp) (op : SessionOp) (post : List SessionOp),
      ops = pre ++ op :: post →
      (runOps SPAN MaxPosition (pre ++ [op])
          (SegmentIndexSession.fresh freq)).2.updatedDocumentIDs
        = (if op.masks then
            (runOps SPAN MaxPosition pre
              (SegmentIndexSession.fresh freq)).2.updatedDocumentIDs ++ [op.did]
          else
            (runOps SPAN MaxPosition pre
              (SegmentIndexSession.fresh freq)).2.updatedDocumentIDs) := by
  have h0 : OpsHold SPAN [] (SegmentIndexSession.fresh freq) := by
    simp [OpsHold, SegmentIndexSession.fresh, trackMany]
  obtain ⟨⟨-, -, h3⟩, hnd⟩ := runOps_spec SPAN MaxPosition ops [] _ h0 (by simp) hok
  simp only [List.nil_append] at h3 hnd
  refine ⟨h3, ?_, ?_⟩
  · rw [h3]
    exact (hnd.sublist ((List.filter_sublist _).map _))
  · intro pre op post hsplit
    have hpre1 : (runOps SPAN MaxPosition (pre ++ [op])
        (SegmentIndexSession.fresh freq)).1 = Outcome.ok := by
      apply runOps_prefix_ok SPAN MaxPosition (pre ++ [op]) post
      rw [List.append_assoc, List.singleton_append, ← hsplit]
      exact hok
    have hpre : (runOps SPAN MaxPosition pre (SegmentIndexSession.fresh freq)).1
        = Outcome.ok := runOps_prefix_ok SPAN MaxPosition pre [op] _ hpre1
    obtain ⟨hh, -⟩ := runOps_spec SPAN MaxPosition pre [] _ h0 (by simp) hpre
    rw [List.nil_append] at hh
    rw [runOps_append] at hpre1 ⊢
    generalize runOps SPAN MaxPosition pre (SegmentIndexSession.fresh freq) = r at *
    obtain ⟨o, s'⟩ := r
    simp only at hpre
    subst hpre
    simp only [runOps] at hpre1 ⊢
    have hstep := applyOp_spec SPAN MaxPosition pre s' op hh
    generalize applyOp SPAN MaxPosition s' op = r2 at *
    obtain ⟨o2, s2⟩ := r2
    cases o2 with
    | ok => exact (hstep rfl).2.2
    | threw => simp at hpre1
    | aborted => simp at hpre1

/-- The masked IDs after the sample operations: 7, 70000 and 4, in this order. -/
theorem updated_ids_are_masked_ids_witness :
    (runOps 65536 8192 sampleOps (SegmentIndexSession.fresh 0)).2.updatedDocumentIDs
      = [7, 70000, 4] :=
  (updated_ids_are_masked_ids 65536 8192 0 sampleOps (by decide)).1

theorem indexAll_nospill (SPAN MaxPosition : Nat) (docs : List Document) :
    ∀ s : SegmentIndexSession, s.hits = (fun _ => []) → s.intermediateStateFlushFreq = 0 →
      (indexAll SPAN MaxPosition docs s).1 = Outcome.ok →
      (indexAll SPAN MaxPosition docs s).2.backingFile = s.backingFile ∧
      (indexAll SPAN MaxPosition docs s).2.b = s.b ++ stagedBytes docs := by
  induction docs with
  | nil => intro s _ _ _; simp [indexAll, stagedBytes]
  | cons doc docs ih =>
    intro s hempty hfreq hok
    obtain ⟨-, h2⟩ := indexDocument_spec SPAN MaxPosition s doc hempty
    rw [indexAll] at hok ⊢
    generalize hr : indexDocument SPAN MaxPosition s doc = r at *
    obtain ⟨o, s'⟩ := r
    cases o with
    | ok =>
      simp only at hok ⊢
      obtain ⟨a1, -, -, a4, -, -, a7⟩ := h2 rfl
      simp only at a1 a4 a7
      rcases a7 with ⟨hsp, -, -⟩ | ⟨-, b1, b2⟩
      · exact absurd hfreq hsp.1
      · obtain ⟨c1, c2⟩ := ih s' a1 (a4.trans hfreq) hok
        rw [c1, c2, b1, b2]
        simp [stagedBytes]
    | threw => simp at hok
    | aborted => simp at hok

/-- C15: at the end of a successful `commit_document_impl`, with `stage'` the stage
buffer followed by the record of the document: when `intermediateStateFlushFreq` is
not 0 and `stage'` is longer than it, the backing file becomes its old contents
followed by `stage'` and the stage buffer becomes empty; otherwise the backing file is
as it was and the stage buffer is `stage'`.  With `intermediateStateFlushFreq = 0` no
backing file is ever made: after any documents the stage buffer holds all records. -/
theorem commit_document_spills_past_threshold (SPAN : Nat) (s : SegmentIndexSession)
    (proxy : document_proxy) (replace : Bool)
    (hin : ∀ k, ∀ h ∈ s.hits k, HitOK s.hitsBuf h)
    (hok : (commit_document_impl SPAN s proxy replace).1 = Outcome.ok) :
    (s.intermediateStateFlushFreq ≠ 0 ∧
        (s.b ++ stagedRecord s proxy.did).length > s.intermediateStateFlushFreq →
      (commit_document_impl SPAN s proxy replace).2.backingFile
        = some (s.backingFile.getD [] ++ (s.b ++ stagedRecord s proxy.did)) ∧
      (commit_document_impl SPAN s proxy replace).2.b = []) ∧
    (¬ (s.intermediateStateFlushFreq ≠ 0 ∧
        (s.b ++ stagedRecord s proxy.did).length > s.intermediateStateFlushFreq) →
      (commit_document_impl SPAN s proxy replace).2.backingFile = s.backingFile ∧
      (commit_document_impl SPAN s proxy replace).2.b = s.b ++ stagedRecord s proxy.did) ∧
    (∀ (MaxPosition : Nat) (docs : List Document),
      (sessionOf SPAN MaxPosition 0 docs).1 = Outcome.ok →
      (sessionOf SPAN MaxPosition 0 docs).2.backingFile = none ∧
      (sessionOf SPAN MaxPosition 0 docs).2.b = stagedBytes docs) := by
  obtain ⟨-, h2⟩ := commit_document_impl_spec SPAN s proxy replace hin
  have h3 := h2 hok
  refine ⟨?_, ?_, ?_⟩
  · intro hc
    rw [h3, if_pos hc]
    exact ⟨rfl, rfl⟩
  · intro hc
    rw [h3, if_neg hc]
    exact ⟨rfl, rfl⟩
  · intro MaxPosition docs hd
    have := indexAll_nospill SPAN MaxPosition docs (SegmentIndexSession.fresh 0) rfl rfl hd
    simpa [sessionOf, SegmentIndexSession.fresh] using this

theorem spillSession_hits (k : Nat) :
    ∀ h ∈ spillSession.hits k, HitOK spillSession.hitsBuf h := by
  have h1 : spillSession.hits = Function.update (fun _ => []) 3 [⟨3, 1, 0, 3⟩] := rfl
  have h2 : spillSession.hitsBuf = [1, 2, 3] := rfl
  intro h hh
  rw [h1] at hh
  rw [h2]
  by_cases hk : k = 3
  · subst hk
    simp only [Function.update_same, List.mem_singleton] at hh
    subst hh
    simp [HitOK]
  · simp [Function.update_noteq hk] at hh

theorem commit_document_spills_past_threshold_witness :
    (commit_document_impl 65536 spillSession ⟨8, 1, 0⟩ false).2.backingFile
      = some (spillSession.b ++ stagedRecord spillSession 8) ∧
    (commit_document_impl 65536 spillSession ⟨8, 1, 0⟩ false).2.b = [] :=
  (commit_document_spills_past_threshold 65536 spillSession ⟨8, 1, 0⟩ false spillSession_hits
    (by decide)).1 (by decide)
/-! ## The layout of a staged record -/

theorem filter_key_singleton {α : Type} (f : α → Nat) (l : List α) (hnd : (l.map f).Nodup)
    (x : α) (hx : x ∈ l) : l.filter (fun y => decide (f y = f x)) = [x] := by
  induction l with
  | nil => cases hx
  | cons a l ih =>
    rw [List.map_cons, List.nodup_cons] at hnd
    rcases List.mem_cons.1 hx with rfl | hx'
    · have : l.filter (fun y => decide (f y = f x)) = [] := by
        rw [List.filter_eq_nil_iff]
        intro y hy hh
        exact hnd.1 (by rw [← of_decide_eq_true hh]; exact List.mem_map_of_mem _ hy)
      rw [List.filter_cons_of_pos (by simp), this]
    · have hne : ¬ f a = f x := by
        intro h
        exact hnd.1 (by rw [h]; exact List.mem_map_of_mem _ hx')
      rw [List.filter_cons_of_neg (by simpa using hne)]
      exact ih hnd.2 hx'

theorem Document.group_hits (doc : Document) (g : Group) (hg : g ∈ doc.groups) :
    g.2.Perm (doc.pairs g.1) := by
  have h := Document.groups_hits doc g.1
  have hnd : (doc.groups.map (·.1)).Nodup := by
    rw [Document.groups_keys]; exact Document.runs_keys_nodup doc
  have hf := filter_key_singleton (fun g : Group => g.1) doc.groups hnd g hg
  rw [hf] at h
  simpa using h

theorem Document.pairs_length (doc : Document) (t : Nat) :
    (doc.pairs t).length = (doc.inserts.map (·.termID)).count t := by
  unfold Document.pairs
  rw [List.length_map, List.count, List.countP_map, List.countP_eq_length_filter]
  congr 1

theorem Document.runs_length (doc : Document) (run : List Triple) (hr : run ∈ doc.runs) :
    run.length = (doc.pairs (runKey (·.1) run)).length := by
  have hg : tripleGroup run ∈ doc.groups := List.mem_map_of_mem _ hr
  have := (Document.group_hits doc _ hg).length_eq
  simpa [tripleGroup] using this

theorem docOK_of_counts (MaxPosition : Nat) (doc : Document)
    (h1 : ∀ c ∈ doc.inserts, InsertOK MaxPosition c)
    (h2 : ∀ t, (doc.pairs t).length ≤ 65535) : DocOK MaxPosition doc := by
  refine ⟨h1, ?_⟩
  intro run hr
  obtain ⟨hne, hmem, -⟩ := Document.runs_mem doc run hr
  refine ⟨?_, ?_⟩
  · cases run with
    | nil => exact absurd rfl hne
    | cons x xs =>
      obtain ⟨-, hx⟩ := hmem x (by simp)
      obtain ⟨c, hc, rfl⟩ := List.mem_map.1 hx
      exact (h1 c hc).1
  · rw [Document.runs_length doc run hr]
    exact h2 _

theorem indexDocument_appends (SPAN MaxPosition : Nat) (s : SegmentIndexSession)
    (doc : Document) (hempty : s.hits = fun _ => [])
    (hok : (indexDocument SPAN MaxPosition s doc).1 = Outcome.ok) :
    Appended s (indexDocument SPAN MaxPosition s doc).2 doc.record ∧ DocOK MaxPosition doc := by
  obtain ⟨h1, h2⟩ := indexDocument_spec SPAN MaxPosition s doc hempty
  obtain ⟨-, -, -, -, -, -, a7⟩ := h2 hok
  obtain ⟨b1, -, b3⟩ := h1.1 hok
  refine ⟨?_, b1, b3⟩
  rcases a7 with ⟨-, c1, c2⟩ | ⟨-, c1, c2⟩
  · exact Or.inr ⟨c1, c2⟩
  · exact Or.inl ⟨c1, c2⟩

theorem Document.record_eq (MaxPosition : Nat) (doc : Document) (hok : DocOK MaxPosition doc) :
    doc.record = pack32 doc.did ++ pack16 (doc.termIDs.length % 65536) ++
      doc.groups.flatMap fun g => pack32 g.1 ++ pack16 g.2.length ++ encodeHits 0 0xff g.2 := by
  unfold Document.record encRecord
  rw [Document.groups_length]
  congr 1
  apply List.flatMap_congr
  intro g hg
  obtain ⟨run, hrun, rfl⟩ := List.mem_map.1 hg
  have := (hok.2 run hrun).2
  unfold encGroup
  rw [Nat.mod_eq_of_lt (by simp only [tripleGroup, List.length_map]; omega)]

/-- C13, as the code has it: the record that a successful commit of a document appends
to the stage is the document ID as a `u32`, a `u16` holding the low 16 bits of the
number of distinct term IDs inserted, then one term group per distinct term ID, no
term ID in two groups, each made of the term ID as a `u32`, a `u16` hit count equal to
the number of hits inserted for the term, and that many hits: those inserted for the
term, in non-decreasing position. -/
theorem commit_document_record_layout (SPAN MaxPosition : Nat) (s : SegmentIndexSession)
    (doc : Document) (hempty : s.hits = fun _ => [])
    (hok : (indexDocument SPAN MaxPosition s doc).1 = Outcome.ok) :
    ∃ groups : List Group,
      Appended s (indexDocument SPAN MaxPosition s doc).2
        (pack32 doc.did ++ pack16 (doc.termIDs.length % 65536) ++
          groups.flatMap fun g => pack32 g.1 ++ pack16 g.2.length ++ encodeHits 0 0xff g.2) ∧
      groups.length = doc.termIDs.length ∧
      (groups.map (·.1)).Nodup ∧
      (∀ t, t ∈ groups.map (·.1) ↔ t ∈ doc.termIDs) ∧
      ∀ g ∈ groups, g.2.Perm (doc.pairs g.1) ∧ g.2.length ≤ 65535 ∧
        g.2.length = (doc.inserts.filter (fun c => c.termID = g.1)).length ∧
        g.2.Pairwise (fun a b => a.1 ≤ b.1) := by
  obtain ⟨h1, h2⟩ := indexDocument_appends SPAN MaxPosition s doc hempty hok
  have hnd : (doc.groups.map (·.1)).Nodup := by
    rw [Document.groups_keys]; exact Document.runs_keys_nodup doc
  refine ⟨doc.groups, ?_, Document.groups_length doc, hnd, ?_, ?_⟩
  · rw [← Document.record_eq MaxPosition doc h2]; exact h1
  · intro t
    exact (Document.termIDs_perm doc).mem_iff
  · intro g hg
    have hp := Document.group_hits doc g hg
    obtain ⟨run, hrun, rfl⟩ := List.mem_map.1 hg
    obtain ⟨-, -, hsorted⟩ := Document.runs_mem doc run hrun
    have hlen := (h2.2 run hrun).2
    refine ⟨hp, by simpa [tripleGroup] using hlen, ?_, ?_⟩
    · rw [hp.length_eq]; simp [Document.pairs]
    · simp only [tripleGroup]
      rw [List.pairwise_map]
      exact hsorted

theorem manyTermsDoc_ok (n : Nat) :
    DocOK 8192 (manyTermsDoc n) ∧ (manyTermsDoc n).termIDs.length = n := by
  have hm : (manyTermsDoc n).inserts.map (·.termID) = List.range' 1 n := by
    simp [manyTermsDoc, List.map_map, Function.comp_def]
  have hnd : ((manyTermsDoc n).inserts.map (·.termID)).Nodup := by
    rw [hm]; exact List.nodup_range' 1 n
  constructor
  · apply docOK_of_counts
    · intro c hc
      simp only [manyTermsDoc, List.mem_map, List.mem_range'_1] at hc
      obtain ⟨i, hi, rfl⟩ := hc
      simp only [InsertOK, List.length_nil]
      omega
    · intro t
      rw [Document.pairs_length]
      have := List.nodup_iff_count_le_one.1 hnd t
      omega
  · unfold Document.termIDs
    rw [hnd.dedup, hm, List.length_range']

theorem manyTermsDoc_commit_ok (n : Nat) :
    (indexDocument 65536 8192 (SegmentIndexSession.fresh 0) (manyTermsDoc n)).1
      = Outcome.ok := by
  obtain ⟨hdoc, -⟩ := manyTermsDoc_ok n
  have hempty : (SegmentIndexSession.fresh 0).hits = fun _ => [] := rfl
  rw [(indexDocument_spec 65536 8192 (SegmentIndexSession.fresh 0) (manyTermsDoc n) hempty).1]
  refine ⟨hdoc.1, ?_, hdoc.2⟩
  have h := track_trackMany 65536 [] (manyTermsDoc n).did
  rw [show trackMany 65536 Guard.fresh [] = (SegmentIndexSession.fresh 0).guard from rfl] at h
  rw [h]
  simp

theorem manyTermsDoc_commit (n : Nat) :
    (indexDocument 65536 8192 (SegmentIndexSession.fresh 0) (manyTermsDoc n)).1 = Outcome.ok ∧
    (indexDocument 65536 8192 (SegmentIndexSession.fresh 0) (manyTermsDoc n)).2.b
      = (manyTermsDoc n).record := by
  have hempty : (SegmentIndexSession.fresh 0).hits = fun _ => [] := rfl
  have hok := manyTermsDoc_commit_ok n
  refine ⟨hok, ?_⟩
  obtain ⟨-, -, -, -, -, -, a7⟩ :=
    (indexDocument_spec 65536 8192 (SegmentIndexSession.fresh 0) (manyTermsDoc n) hempty).2 hok
  rcases a7 with ⟨hsp, -, -⟩ | ⟨-, c1, -⟩
  · exact absurd rfl hsp.1
  · rw [c1]
    exact List.nil_append _

theorem read16_term_count (d : Nat) (tail : Bytes) :
    read16 (List.drop 4 (pack32 d ++ pack16 (65536 % 65536) ++ tail))
      ≠ some (65536, List.drop 6 (pack32 d ++ pack16 (65536 % 65536) ++ tail)) := by
  intro h1
  simp [pack32, pack16, read16] at h1

/-- C13 fails at 65536 distinct terms: the document is committed without error, and
the `u16` term count of its record, bytes 4 and 5 of the stage buffer, is 0. -/
theorem commit_document_record_layout_counterexample :
    ¬ ((indexDocument 65536 8192 (SegmentIndexSession.fresh 0) (manyTermsDoc 65536)).1
          = Outcome.ok →
        read16 ((indexDocument 65536 8192 (SegmentIndexSession.fresh 0)
            (manyTermsDoc 65536)).2.b.drop 4)
          = some ((manyTermsDoc 65536).termIDs.length,
              (indexDocument 65536 8192 (SegmentIndexSession.fresh 0)
                (manyTermsDoc 65536)).2.b.drop 6)) := by
  intro h
  obtain ⟨hdoc, hlen⟩ := manyTermsDoc_ok 65536
  obtain ⟨hok, hb⟩ := manyTermsDoc_commit 65536
  have h1 := h hok
  rw [hb, Document.record_eq 8192 _ hdoc, hlen] at h1
  exact read16_term_count _ _ h1

theorem encodeHits_flagged (hs : List (Nat × Bytes)) :
    ∀ (prev : Nat) (po : Option Nat), (∀ h ∈ hs, h.2.length ≤ 8) →
      encodeHits prev (po.getD 255) hs
        = flaggedHits prev hs (sameSizeFlags po (hs.map (·.2.length))) := by
  induction hs with
  | nil => intro prev po _; rfl
  | cons h t ih =>
    intro prev po hlen
    obtain ⟨pos, pl⟩ := h
    have h8 : pl.length ≤ 8 := hlen (pos, pl) (by simp)
    have ht := ih pos (some pl.length) (fun h hh => hlen h (List.mem_cons_of_mem _ hh))
    rw [Option.getD_some] at ht
    have hiff : (pl.length = po.getD 255) ↔ po = some pl.length := by
      cases po with
      | none => simp; omega
      | some x => simp [eq_comm]
    rw [encodeHits, ht, List.map_cons, sameSizeFlags, flaggedHits]
    by_cases hc : po = some pl.length
    · have hc2 : ¬ (pl.length ≠ po.getD 255) := fun h => h (hiff.2 hc)
      rw [if_neg hc2]
      simp only [hc, decide_True, if_true, List.append_nil]
    · have hc2 : pl.length ≠ po.getD 255 := fun h => hc (hiff.1 h)
      rw [if_pos hc2]
      simp only [hc, decide_False, Nat.add_zero, Bool.false_eq_true, if_false]

theorem sameSizeFlags_length (lens : List Nat) :
    ∀ po : Option Nat, (sameSizeFlags po lens).length = lens.length := by
  induction lens with
  | nil => intro po; rfl
  | cons l ls ih => intro po; simp [sameSizeFlags, ih]

theorem sameSizeFlags_getD (lens : List Nat) :
    ∀ (po : Option Nat) (i : Nat), i < lens.length →
      ((sameSizeFlags po lens).getD i false = true ↔
        ((i = 0 ∧ po = some (lens.getD 0 0)) ∨ (0 < i ∧ lens.getD i 0 = lens.getD (i - 1) 0))) := by
  induction lens with
  | nil => intro po i hi; simp at hi
  | cons l ls ih =>
    intro po i hi
    cases i with
    | zero => simp [sameSizeFlags]
    | succ j =>
      simp only [List.length_cons, Nat.add_lt_add_iff_right] at hi
      have := ih (some l) j hi
      simp only [sameSizeFlags, List.getD_cons_succ, this]
      cases j with
      | zero => simp [eq_comm]
      | succ k => simp

/-- C14: in the record that a successful commit of a document appends to the stage,
the hit stream of every term group is the one the same-size rule gives when the
previous payload length is unset at the start of the group, whatever was written
before: the first hit has low bit 0 in its `delta_mask` and an explicit payload size,
and a later hit has low bit 1, and no size, exactly when its payload is as long as
that of the hit just before it in the group. -/
theorem term_group_same_size_flags (SPAN MaxPosition : Nat) (s : SegmentIndexSession)
    (doc : Document) (hempty : s.hits = fun _ => [])
    (hok : (indexDocument SPAN MaxPosition s doc).1 = Outcome.ok) :
    (∃ groups : List Group,
      Appended s (indexDocument SPAN MaxPosition s doc).2
        (pack32 doc.did ++ pack16 (groups.length % 65536) ++
          groups.flatMap fun g => pack32 g.1 ++ pack16 g.2.length ++
            flaggedHits 0 g.2 (sameSizeFlags none (g.2.map (·.2.length)))) ∧
      (groups.map (·.1)).Nodup ∧
      ∀ g ∈ groups, g.2.Perm (doc.pairs g.1)) ∧
    ∀ lens : List Nat,
      (sameSizeFlags none lens).length = lens.length ∧
      ∀ i, i < lens.length →
        ((sameSizeFlags none lens).getD i false = true ↔
          (0 < i ∧ lens.getD i 0 = lens.getD (i - 1) 0)) := by
  obtain ⟨h1, h2⟩ := indexDocument_appends SPAN MaxPosition s doc hempty hok
  have hnd : (doc.groups.map (·.1)).Nodup := by
    rw [Document.groups_keys]; exact Document.runs_keys_nodup doc
  refine ⟨⟨doc.groups, ?_, hnd, fun g hg => Document.group_hits doc g hg⟩, ?_⟩
  · have hrec : doc.record = pack32 doc.did ++ pack16 (doc.groups.length % 65536) ++
        doc.groups.flatMap fun g => pack32 g.1 ++ pack16 g.2.length ++
          flaggedHits 0 g.2 (sameSizeFlags none (g.2.map (·.2.length))) := by
      rw [Document.record_eq MaxPosition doc h2, Document.groups_length]
      congr 1
      apply List.flatMap_congr
      intro g hg
      have hp := Document.group_hits doc g hg
      have h8 : ∀ h ∈ g.2, h.2.length ≤ 8 := by
        intro h hh
        have hm := hp.subset hh
        simp only [Document.pairs, List.mem_map, List.mem_filter] at hm
        obtain ⟨c, ⟨hc, -⟩, rfl⟩ := hm
        exact (h2.1 c hc).2.2
      have := encodeHits_flagged g.2 0 none h8
      rw [Option.getD_none] at this
      rw [this]
    rw [← hrec]; exact h1
  · intro lens
    refine ⟨sameSizeFlags_length lens none, ?_⟩
    intro i hi
    rw [sameSizeFlags_getD lens none i hi]
    simp

theorem commit_document_record_layout_witness :
    ∃ groups : List Group,
      Appended (SegmentIndexSession.fresh 0)
        (indexDocument 65536 8192 (SegmentIndexSession.fresh 0) sampleDoc).2
        (pack32 sampleDoc.did ++ pack16 (sampleDoc.termIDs.length % 65536) ++
          groups.flatMap fun g => pack32 g.1 ++ pack16 g.2.length ++ encodeHits 0 0xff g.2) ∧
      groups.length = sampleDoc.termIDs.length ∧
      (groups.map (·.1)).Nodup ∧
      (∀ t, t ∈ groups.map (·.1) ↔ t ∈ sampleDoc.termIDs) ∧
      ∀ g ∈ groups, g.2.Perm (sampleDoc.pairs g.1) ∧ g.2.length ≤ 65535 ∧
        g.2.length = (sampleDoc.inserts.filter (fun c => c.termID = g.1)).length ∧
        g.2.Pairwise (fun a b => a.1 ≤ b.1) :=
  commit_document_record_layout 65536 8192 (SegmentIndexSession.fresh 0) sampleDoc rfl
    (by decide)

theorem term_group_same_size_flags_witness :
    ∃ groups : List Group,
      Appended (SegmentIndexSession.fresh 0)
        (indexDocument 65536 8192 (SegmentIndexSession.fresh 0) sampleDoc).2
        (pack32 sampleDoc.did ++ pack16 (groups.length % 65536) ++
          groups.flatMap fun g => pack32 g.1 ++ pack16 g.2.length ++
            flaggedHits 0 g.2 (sameSizeFlags none (g.2.map (·.2.length)))) ∧
      (groups.map (·.1)).Nodup ∧
      ∀ g ∈ groups, g.2.Perm (sampleDoc.pairs g.1) :=
  (term_group_same_size_flags 65536 8192 (SegmentIndexSession.fresh 0) sampleDoc rfl
    (by decide)).1

/-! ## The document ID check of the encode phase -/

theorem docsLoop_some (R : List Bytes) (term : Nat) :
    ∀ (rest : List segment_data) (it : segment_data) (prevDID : Nat) (st : EncodeState)
      (x : List DocPosting × EncodeState × List segment_data),
      docsLoop R term it rest prevDID st = some x →
      ascendFrom prevDID
        ((it :: rest.takeWhile (fun y => y.termID = term)).map (·.documentID)) = true ∧
      x.2.2 = rest.dropWhile (fun y => y.termID = term) := by
  intro rest
  induction rest with
  | nil =>
    intro it prevDID st x h
    unfold docsLoop at h
    by_cases hc : it.documentID > prevDID
    · rw [if_neg (by omega)] at h
      cases hd : decodeHits it.hitsCnt ((R.getD it.rangeIdx []).drop it.hitsOffset) 0
          st.payloadSize with
      | none => rw [hd] at h; cases h
      | some v =>
        rw [hd] at h
        simp only [Option.some.injEq] at h
        subst h
        simp [ascendFrom, hc]
    · rw [if_pos hc] at h; cases h
  | cons nxt rest ih =>
    intro it prevDID st x h
    unfold docsLoop at h
    by_cases hc : it.documentID > prevDID
    · rw [if_neg (by omega)] at h
      cases hd : decodeHits it.hitsCnt ((R.getD it.rangeIdx []).drop it.hitsOffset) 0
          st.payloadSize with
      | none => rw [hd] at h; cases h
      | some v =>
        rw [hd] at h
        simp only at h
        by_cases hk : nxt.termID = term
        · rw [if_pos hk] at h
          generalize hr : docsLoop R term nxt rest it.documentID _ = r at h
          cases r with
          | none => cases h
          | some y =>
            obtain ⟨c1, c2⟩ := ih nxt it.documentID _ y hr
            simp only [Option.some.injEq] at h
            subst h
            simp only [List.takeWhile_cons, hk, decide_True, if_true, List.map_cons,
              List.dropWhile_cons, ascendFrom, Bool.and_eq_true, decide_eq_true_eq]
            exact ⟨⟨hc, by simpa [ascendFrom] using c1⟩, c2⟩
        · rw [if_neg hk] at h
          simp only [Option.some.injEq] at h
          subst h
          simp [hk, hc, ascendFrom]
    · rw [if_pos hc] at h; cases h

theorem termsLoop_some (R : List Bytes) :
    ∀ (fuel : Nat) (S : List segment_data) (st : EncodeState)
      (x : List TermPosting × EncodeState),
      termsLoop R fuel S st = some x →
      ∀ run ∈ groupRuns (·.termID) S, DocIDsAscend run := by
  intro fuel
  induction fuel with
  | zero =>
    intro S st x h
    cases S with
    | nil => simp [groupRuns]
    | cons a l => simp [termsLoop] at h
  | succ fuel ih =>
    intro S st x h
    cases S with
    | nil => simp [groupRuns]
    | cons it rest =>
      rw [termsLoop] at h
      generalize hr : docsLoop R it.termID it rest 0 st = r at h
      cases r with
      | none => cases h
      | some y =>
        obtain ⟨docs, st', left⟩ := y
        obtain ⟨c1, c2⟩ := docsLoop_some R it.termID rest it 0 st _ hr
        simp only at c2 h
        generalize hr2 : termsLoop R fuel left _ = r2 at h
        cases r2 with
        | none => cases h
        | some z =>
          have := ih left _ z hr2
          rw [groupRuns_cons]
          intro run hrun
          rcases List.mem_cons.1 hrun with rfl | hrun
          · exact c1
          · rw [← c2] at hrun
            exact this run hrun

theorem partitionsLoop_some (R : List Bytes) (all : Nat → List segment_data) :
    ∀ (n k : Nat) (st : EncodeState) (x : List TermPosting × EncodeState),
      partitionsLoop R all n k st = some x →
      ∀ i, k ≤ i → i < k + n →
        ∀ run ∈ groupRuns (·.termID) (stdSort segLess (all i)), DocIDsAscend run := by
  intro n
  induction n with
  | zero => intro k st x _ i h1 h2; omega
  | succ n ih =>
    intro k st x h i h1 h2
    rw [partitionsLoop] at h
    generalize hr : termsLoop R (all k).length (stdSort segLess (all k)) st = r at h
    cases r with
    | none => cases h
    | some y =>
      simp only at h
      generalize hr2 : partitionsLoop R all n (k + 1) y.2 = r2 at h
      cases r2 with
      | none => cases h
      | some z =>
        by_cases hik : i = k
        · subst hik
          exact termsLoop_some R _ _ st y hr
        · exact ih (k + 1) y.2 z hr2 i (by omega) (by omega)

theorem commit_some_checks (s : SegmentIndexSession) (ps0 : Nat) (r : CommitResult)
    (h : commit s ps0 = some r) : ChecksOn (sortedPartitions s ps0) := by
  have hscan : ∀ x, scan s.defaultFieldStats ps0 (sourceRanges s) = some x →
      ChecksOn (sortedPartitions s ps0) := by
    intro x hx
    unfold scan at hx
    unfold sortedPartitions
    by_cases hl : (sourceRanges s).length < 8
    · rw [if_neg (by simpa using hl)] at hx
      cases hc : collectRanges (sourceRanges s) 0
          ⟨ps0, fun _ => [], s.defaultFieldStats.docsCnt⟩ with
      | none => rw [hc] at hx; cases hx
      | some st =>
        rw [hc] at hx
        simp only at hx
        generalize hp : partitionsLoop (sourceRanges s) st.all 32 0 _ = pr at hx
        cases pr with
        | none => cases hx
        | some y =>
          simp only [Option.map_some', ChecksOn]
          intro p hpm run hrun
          obtain ⟨k, hk, rfl⟩ := List.mem_map.1 hpm
          exact partitionsLoop_some _ _ 32 0 _ y hp k (Nat.zero_le _)
            (by simpa using List.mem_range.1 hk) run hrun
    · rw [if_pos (by simpa using hl)] at hx; cases hx
  unfold commit at h
  cases hb : s.backingFile with
  | some f =>
    rw [hb] at h
    exact hscan r h
  | none =>
    rw [hb] at h
    simp only at h
    by_cases hl : (sourceRanges s).length = 0
    · have hnil : sourceRanges s = [] := List.length_eq_zero.1 hl
      unfold sortedPartitions
      rw [hnil]
      simp only [collectRanges, Option.map_some', ChecksOn, List.mem_map, List.mem_range]
      rintro p ⟨k, -, rfl⟩ run hrun
      simp [stdSort, groupRuns] at hrun
    · rw [if_pos hl] at h
      exact hscan r h

/-- C16, amended: for documents with non-zero IDs and fewer than 65536 distinct terms
each (32-bit IDs, positions below `2 ^ 31`, less than `2 ^ 32` staged bytes) whose
commits all succeeded, the check `require(documentID > prevDID)` of the encode phase
passes on every entry of every run, and `commit` returns. -/
theorem commit_document_id_checks_pass (SPAN MaxPosition freq ps0 : Nat)
    (docs : List Document) (hmax : MaxPosition ≤ 2 ^ 31)
    (hok : (sessionOf SPAN MaxPosition freq docs).1 = Outcome.ok)
    (hadm : Admissible docs) (hsize : (stagedBytes docs).length < 2 ^ 32) :
    DocIDChecksPass SPAN MaxPosition freq ps0 docs := by
  obtain ⟨hc, -, -⟩ := session_commit SPAN MaxPosition freq ps0 docs hmax hok hadm hsize
  exact ⟨commit_some_checks _ ps0 _ hc, by rw [hc]; rfl⟩

theorem commit_document_id_checks_pass_witness :
    DocIDChecksPass 65536 8192 20 0 sampleDocs :=
  commit_document_id_checks_pass 65536 8192 20 0 sampleDocs (by decide) (by decide)
    (by decide) (by decide)

/-- C16 as stated fails: the guard accepts document ID 0, the collect phase files its
entry, and the check `require(documentID > prevDID)` fails on it, 0 not being greater
than the initial `prevDID = 0`. -/
theorem commit_document_id_checks_pass_counterexample :
    ¬ ((sessionOf 65536 8192 0 zeroDocs).1 = Outcome.ok →
        DocIDChecksPass 65536 8192 0 0 zeroDocs) := by
  decide

/-! ## The order of the terms -/

theorem collectTerms_partition (i dataSize did : Nat) :
    ∀ (n : Nat) (p : Bytes) (st : ScanState) (x : Bytes × ScanState),
      collectTerms i dataSize did n p st = some x →
      (∀ k, ∀ y ∈ st.all k, y.termID &&& 31 = k) →
      ∀ k, ∀ y ∈ x.2.all k, y.termID &&& 31 = k := by
  intro n
  induction n with
  | zero =>
    intro p st x h hinv
    simp only [collectTerms, Option.some.injEq] at h
    subst h
    exact hinv
  | succ n ih =>
    intro p st x h hinv
    rw [collectTerms] at h
    cases h1 : read32 p with
    | none => rw [h1] at h; cases h
    | some v1 =>
      rw [h1] at h
      simp only at h
      cases h2 : read16 v1.2 with
      | none => rw [h2] at h; cases h
      | some v2 =>
        rw [h2] at h
        simp only at h
        cases h3 : skipHits (passes16 v2.1) v2.2 st.payloadSize with
        | none => rw [h3] at h; cases h
        | some v3 =>
          rw [h3] at h
          simp only at h
          refine ih _ _ x h ?_
          intro k y hy
          simp only at hy
          by_cases hk : k = v1.1 &&& 31
          · subst hk
            rw [Function.update_same] at hy
            rcases List.mem_append.1 hy with hy | hy
            · exact hinv _ y hy
            · simp only [List.mem_singleton] at hy
              subst hy
              rfl
          · rw [Function.update_noteq hk] at hy
            exact hinv k y hy

theorem collectDocs_partition (i dataSize : Nat) :
    ∀ (fuel : Nat) (p : Bytes) (st st' : ScanState),
      collectDocs i dataSize fuel p st = some st' →
      (∀ k, ∀ y ∈ st.all k, y.termID &&& 31 = k) →
      ∀ k, ∀ y ∈ st'.all k, y.termID &&& 31 = k := by
  intro fuel
  induction fuel with
  | zero =>
    intro p st st' h hinv
    cases p with
    | nil => simp only [collectDocs, Option.some.injEq] at h; subst h; exact hinv
    | cons a l => simp [collectDocs] at h
  | succ fuel ih =>
    intro p st st' h hinv
    cases p with
    | nil => simp only [collectDocs, Option.some.injEq] at h; subst h; exact hinv
    | cons a l =>
      rw [collectDocs_succ _ _ _ _ _ (by simp)] at h
      cases h1 : read32 (a :: l) with
      | none => rw [h1] at h; cases h
      | some v1 =>
        rw [h1] at h
        simp only at h
        cases h2 : read16 v1.2 with
        | none => rw [h2] at h; cases h
        | some v2 =>
          rw [h2] at h
          simp only at h
          by_cases h0 : v2.1 = 0
          · rw [if_pos h0] at h
            exact ih _ _ _ h hinv
          · rw [if_neg h0] at h
            cases h3 : collectTerms i dataSize v1.1 v2.1 v2.2
                { st with docsCnt := st.docsCnt + 1 } with
            | none => rw [h3] at h; cases h
            | some v3 =>
              rw [h3] at h
              simp only at h
              exact ih _ _ _ h (collectTerms_partition i dataSize v1.1 v2.1 v2.2 _ v3 h3 hinv)

theorem collectRanges_partition :
    ∀ (ranges : List Bytes) (i : Nat) (st st' : ScanState),
      collectRanges ranges i st = some st' →
      (∀ k, ∀ y ∈ st.all k, y.termID &&& 31 = k) →
      ∀ k, ∀ y ∈ st'.all k, y.termID &&& 31 = k := by
  intro ranges
  induction ranges with
  | nil =>
    intro i st st' h hinv
    simp only [collectRanges, Option.some.injEq] at h
    subst h
    exact hinv
  | cons data more ih =>
    intro i st st' h hinv
    rw [collectRanges] at h
    cases h1 : collectDocs i data.length data.length data st with
    | none => rw [h1] at h; cases h
    | some v =>
      rw [h1] at h
      simp only at h
      exact ih _ _ _ h (collectDocs_partition i data.length data.length data st v h1 hinv)

theorem sortedPartitions_spec (s : SegmentIndexSession) (ps0 : Nat)
    (h : ChecksOn (sortedPartitions s ps0)) :
    ∃ parts, sortedPartitions s ps0 = some parts ∧ parts.length = 32 ∧
      ∀ k, ∀ x ∈ parts.getD k [], x.termID &&& 31 = k := by
  unfold sortedPartitions at h ⊢
  cases hc : collectRanges (sourceRanges s) 0
      ⟨ps0, fun _ => [], s.defaultFieldStats.docsCnt⟩ with
  | none => rw [hc] at h; exact absurd h (by simp [ChecksOn])
  | some st =>
    refine ⟨_, rfl, by simp, ?_⟩
    intro k x hx
    have hinv := collectRanges_partition _ _ _ st hc (by intro k y hy; simp at hy)
    by_cases hk : k < 32
    · rw [List.getD_eq_getElem?_getD, List.getElem?_map, List.getElem?_range hk] at hx
      simp only [Option.map_some', Option.getD_some] at hx
      exact hinv k x ((stdSort_perm segLess _).subset hx)
    · rw [List.getD_eq_getElem?_getD, List.getElem?_eq_none (by simpa using hk)] at hx
      simp at hx

theorem pairwise_flatMap_range {α : Type} (R : α → α → Prop) (f : Nat → List α)
    (h1 : ∀ i, (f i).Pairwise R)
    (h2 : ∀ i j, i < j → ∀ x ∈ f i, ∀ y ∈ f j, R x y) :
    ∀ (n k : Nat), ((List.range' k n).flatMap f).Pairwise R := by
  intro n
  induction n with
  | zero => intro k; simp
  | succ n ih =>
    intro k
    rw [List.range'_succ, List.flatMap_cons, List.pairwise_append]
    refine ⟨h1 k, ih (k + 1), ?_⟩
    intro x hx y hy
    obtain ⟨j, hj, hyj⟩ := List.mem_flatMap.1 hy
    have : k < j := by
      have := (List.mem_range'_1.1 hj).1
      omega
    exact h2 k j this x hx y hyj

theorem postingsAll_keys_ordered (E : List Entry) (k n : Nat) :
    ((postingsAll E k n).map (·.1)).Pairwise termOrder := by
  unfold postingsAll
  rw [List.map_flatMap]
  have hpart : ∀ i, ∀ x ∈ (postingsOf (stdSort entryLess
      (E.filter (fun e => e.1 &&& 31 = i)))).map (·.1), x % 32 = i := by
    intro i x hx
    obtain ⟨tp, htp, rfl⟩ := List.mem_map.1 hx
    obtain ⟨e, he, hek⟩ := postingsOf_key_mem _ _ (le_refl _) tp htp
    have := (stdSort_perm entryLess _).subset he
    have h31 : e.1 &&& 31 = i := by simpa using (List.mem_filter.1 this).2
    rw [← hek, ← h31]
    exact (Nat.and_pow_two_sub_one_eq_mod e.1 5).symm
  apply pairwise_flatMap_range
  · intro i
    have : (postingsOf (stdSort entryLess (E.filter (fun e => e.1 &&& 31 = i)))).map (·.1)
        = (groupRuns (fun e : Entry => e.1)
            (stdSort entryLess (E.filter (fun e => e.1 &&& 31 = i)))).map
              (runKey (fun e : Entry => e.1)) := by
      simp [postingsOf, List.map_map, Function.comp_def]
    have hs : ((postingsOf (stdSort entryLess (E.filter (fun e => e.1 &&& 31 = i)))).map
        (·.1)).Pairwise (fun a b => a < b) := by
      rw [this]
      refine groupRuns_keys_sorted (fun e : Entry => e.1) _ _ (le_refl _) ?_
      refine (entryLess_sorted _).imp ?_
      intro a b h
      rw [Bool.eq_false_iff, ne_eq, entryLess_iff] at h
      show a.1 ≤ b.1
      omega
    refine (List.Pairwise.and_mem.1 hs).imp ?_
    rintro a b ⟨ha, hb, hab⟩
    exact Or.inr ⟨by rw [hpart i a ha, hpart i b hb], hab⟩
  · intro i j hij x hx y hy
    exact Or.inl (by rw [hpart i x hx, hpart j y hy]; exact hij)

theorem termOrder_antisymm (l₁ l₂ : List Nat) (h1 : l₁.Pairwise termOrder)
    (h2 : l₂.Pairwise termOrder) (hmem : ∀ t, t ∈ l₁ ↔ t ∈ l₂) : l₁ = l₂ := by
  have hirr : ∀ a, ¬ termOrder a a := by
    intro a h; unfold termOrder at h; omega
  have hnd : ∀ l : List Nat, l.Pairwise termOrder → l.Nodup := by
    intro l hl
    refine hl.imp ?_
    intro a b hab he
    subst he
    exact hirr a hab
  have hperm : l₁.Perm l₂ := (List.perm_ext_iff_of_nodup (hnd l₁ h1) (hnd l₂ h2)).2 hmem
  have hanti : IsAntisymm Nat termOrder :=
    ⟨by
      intro a b hab hba
      unfold termOrder at hab hba
      omega⟩
  exact @List.eq_of_perm_of_sorted _ _ hanti _ _ hperm h1 h2


/-- C20, amended: for documents with non-zero IDs and fewer than 65536 distinct terms
each (32-bit IDs, positions below `2 ^ 31`, less than `2 ^ 32` staged bytes) whose
commits all succeeded, `commit` files every (document, term) group in partition
`term_id & 31` and gives the terms to the encoder partition by partition and, inside
a partition, in strictly increasing term ID: the `begin_term` calls are made for the
distinct staged term IDs in the order `(term_id mod 32, term_id)`, which is the same
for every order in which the documents are committed. -/
theorem commit_emits_terms_in_partition_order (SPAN MaxPosition freq ps0 : Nat)
    (docs : List Document) (hmax : MaxPosition ≤ 2 ^ 31)
    (hok : (sessionOf SPAN MaxPosition freq docs).1 = Outcome.ok)
    (hadm : Admissible docs) (hsize : (stagedBytes docs).length < 2 ^ 32) :
    TermsInPartitionOrder SPAN MaxPosition freq ps0 docs ∧
    ∀ docs' : List Document, docs'.Perm docs →
      (sessionOf SPAN MaxPosition freq docs').1 = Outcome.ok →
      (commit (sessionOf SPAN MaxPosition freq docs').2 ps0).map (fun r => r.postings.map (·.1))
        = (commit (sessionOf SPAN MaxPosition freq docs).2 ps0).map
            (fun r => r.postings.map (·.1)) := by
  obtain ⟨hc, -, -⟩ := session_commit SPAN MaxPosition freq ps0 docs hmax hok hadm hsize
  refine ⟨⟨_, hc, sortedPartitions_spec _ ps0 (commit_some_checks _ ps0 _ hc),
    postingsAll_keys_ordered _ 0 32, postings_terms_mem docs⟩, ?_⟩
  intro docs' hperm hok'
  have hadm' : Admissible docs' := fun d hd => hadm d (hperm.subset hd)
  have hsize' : (stagedBytes docs').length < 2 ^ 32 := by
    have : (stagedBytes docs').length = (stagedBytes docs).length := by
      unfold stagedBytes
      rw [List.length_flatten, List.length_flatten]
      exact ((hperm.map _).map _).sum_eq
    omega
  obtain ⟨hc', -, -⟩ := session_commit SPAN MaxPosition freq ps0 docs' hmax hok' hadm' hsize'
  rw [hc, hc']
  simp only [Option.map_some', Option.some.injEq]
  apply termOrder_antisymm _ _ (postingsAll_keys_ordered _ 0 32) (postingsAll_keys_ordered _ 0 32)
  intro t
  rw [postings_terms_mem, postings_terms_mem]
  unfold stagedTermIDs
  rw [List.mem_dedup, List.mem_dedup]
  exact ((hperm.flatMap_right _).map _).mem_iff

theorem commit_emits_terms_in_partition_order_witness :
    TermsInPartitionOrder 65536 8192 20 0 sampleDocs :=
  (commit_emits_terms_in_partition_order 65536 8192 20 0 sampleDocs (by decide) (by decide)
    (by decide) (by decide)).1

/-- C20 as stated fails: the document of ID 0 with hits of terms 1 and 2 is committed
without error; `commit` stops inside term 1 at `require(documentID > prevDID)`, and
`begin_term` is never called for term 2. -/
theorem commit_emits_terms_in_partition_order_counterexample :
    ¬ ((sessionOf 65536 8192 0 zeroTwoTermsDocs).1 = Outcome.ok →
        TermsInPartitionOrder 65536 8192 0 0 zeroTwoTermsDocs) := by
  intro h
  obtain ⟨r, hr, -⟩ := h (by decide)
  have hn : commit (sessionOf 65536 8192 0 zeroTwoTermsDocs).2 0 = none := by decide
  rw [hn] at hr
  cases hr
/-! ## The scanner registry -/

theorem slots_get (done : List updated_documents_scanner) (x : updated_documents_scanner)
    (tail : List updated_documents_scanner) :
    (done ++ x :: tail).get? done.length = some x := by
  rw [List.get?_eq_getElem?, List.getElem?_append_right (le_refl _)]
  simp

theorem slots_set (done : List updated_documents_scanner) (x y : updated_documents_scanner)
    (tail : List updated_documents_scanner) :
    (done ++ x :: tail).set done.length y = done ++ y :: tail := by
  simp

theorem forget_copy (m : Nat) (o : updated_documents_scanner) :
    (o.copy m).forget = o.forget := rfl

theorem testLoop_spec
    (scan : updated_documents_scanner → Nat → Bool × updated_documents_scanner)
    (indet : updated_documents_scanner → Nat) (id : Nat) :
    ∀ (fuel : Nat) (done todo dead : List updated_documents_scanner), todo.length ≤ fuel →
      ∃ (ans : Bool) (live' dead' tested : List updated_documents_scanner),
        masked_documents_registry.testLoop scan indet id fuel done.length
            ⟨done.length + todo.length, done ++ (todo ++ dead)⟩
          = some (ans, ⟨live'.length, live' ++ dead'⟩, tested) ∧
        live'.length + dead'.length = done.length + todo.length + dead.length ∧
        live'.length ≤ done.length + todo.length ∧
        (∃ extra, dead' = extra ++ dead) ∧
        (tested.map (·.forget)).Subperm (todo.map (·.forget)) ∧
        (ans = false →
          (tested.map (·.forget)).Perm (todo.map (·.forget)) ∧
          (∀ u ∈ tested, (scan u id).1 = false) ∧
          live' = done ++ (tested.map (fun t => (scan t id).2)).filter (fun s => !s.drained)) ∧
        (ans = true →
          ∃ init t, tested = init ++ [t] ∧ (scan t id).1 = true ∧
            ∀ u ∈ init, (scan u id).1 = false) := by
  intro fuel
  induction fuel with
  | zero =>
    intro done todo dead hlen
    have : todo = [] := List.length_eq_zero.1 (by omega)
    subst this
    refine ⟨false, done, dead, [], ?_, by simp, by simp, ⟨[], rfl⟩, by simp, ?_, by simp⟩
    · unfold masked_documents_registry.testLoop
      simp
    · intro _; simp
  | succ fuel ih =>
    intro done todo dead hlen
    cases todo with
    | nil =>
      refine ⟨false, done, dead, [], ?_, by simp, by simp, ⟨[], rfl⟩, by simp, ?_, by simp⟩
      · unfold masked_documents_registry.testLoop
        simp
      · intro _; simp
    | cons x rest =>
      have hi : done.length < done.length + (x :: rest).length := by simp
      unfold masked_documents_registry.testLoop
      simp only [hi, not_true_eq_false, if_false, List.cons_append, slots_get, slots_set]
      by_cases ha : (scan x id).1 = true
      · simp only [ha, if_true]
        refine ⟨true, done ++ (scan x id).2 :: rest, dead, [x], ?_, ?_, ?_, ⟨[], rfl⟩, ?_, ?_, ?_⟩
        · simp
        · simp
        · simp
        · simp only [List.map_cons, List.map_nil]
          exact (List.singleton_sublist.2 (by simp)).subperm
        · intro h; cases h
        · intro _; exact ⟨[], x, rfl, ha, by simp⟩
      · simp only [ha, if_false, Bool.false_eq_true]
        have haf : (scan x id).1 = false := by simpa using ha
        by_cases hd : (scan x id).2.drained = true
        · simp only [hd, if_true]
          rcases List.eq_nil_or_concat' rest with hr | ⟨mid, last, hr⟩
          · subst hr
            have hidx : done.length + [x].length - 1 = done.length := by simp
            rw [hidx, List.nil_append, slots_get]
            simp only
            obtain ⟨ans, live', dead', tested, e1, e2, e3, ⟨extra, e4⟩, e5, e6, e7⟩ :=
              ih done [] (((scan x id).2.copy (indet (scan x id).2)) :: dead) (by simp)
            have hreg : (⟨done.length,
                done ++ (scan x id).2.copy (indet (scan x id).2) :: dead⟩ :
                  masked_documents_registry)
                = ⟨done.length + ([] : List updated_documents_scanner).length,
                    done ++ ([] ++ ((scan x id).2.copy (indet (scan x id).2) :: dead))⟩ := by
              simp
            rw [hreg, e1]
            have ht : tested = [] := by
              have := e5.length_le
              simpa using this
            subst ht
            refine ⟨ans, live', dead', [x], rfl, ?_, ?_,
              ⟨extra ++ [(scan x id).2.copy (indet (scan x id).2)], by rw [e4]; simp⟩,
              by simp, ?_, ?_⟩
            · simp at e2 ⊢; omega
            · simp at e3 ⊢; omega
            · intro h
              obtain ⟨-, -, c3⟩ := e6 h
              refine ⟨by simp, by simpa using haf, ?_⟩
              rw [c3]
              simp [hd]
            · intro h
              obtain ⟨init, t, c1, -, -⟩ := e7 h
              simp at c1
          · subst hr
            have hidx : done.length + (x :: (mid ++ [last])).length - 1
                = (done ++ (scan x id).2 :: mid).length := by
              simp
            have hget : (done ++ (scan x id).2 :: ((mid ++ [last]) ++ dead)).get?
                (done.length + (x :: (mid ++ [last])).length - 1) = some last := by
              rw [hidx]
              have : done ++ (scan x id).2 :: ((mid ++ [last]) ++ dead)
                  = (done ++ (scan x id).2 :: mid) ++ last :: dead := by simp
              rw [this, slots_get]
            rw [hget]
            simp only
            obtain ⟨ans, live', dead', tested, e1, e2, e3, ⟨extra, e4⟩, e5, e6, e7⟩ :=
              ih done ((last.copy (indet (scan x id).2)) :: mid) (last :: dead)
                (by simp at hlen ⊢; omega)
            have hreg : (⟨done.length + (x :: (mid ++ [last])).length - 1,
                done ++ last.copy (indet (scan x id).2) :: ((mid ++ [last]) ++ dead)⟩ :
                  masked_documents_registry)
                = ⟨done.length + ((last.copy (indet (scan x id).2)) :: mid).length,
                    done ++ (((last.copy (indet (scan x id).2)) :: mid) ++ (last :: dead))⟩ := by
              congr 1
              · simp
              · simp
            rw [hreg, e1]
            have hperm : (((last.copy (indet (scan x id).2)) :: mid).map (·.forget)).Perm
                ((mid ++ [last]).map (·.forget)) := by
              simp only [List.map_cons, List.map_append, List.map_nil, forget_copy]
              exact (List.perm_append_singleton _ _).symm
            refine ⟨ans, live', dead', x :: tested, rfl, ?_, ?_,
              ⟨extra ++ [last], by rw [e4]; simp⟩, ?_, ?_, ?_⟩
            · simp at e2 ⊢; omega
            · simp at e3 ⊢; omega
            · simp only [List.map_cons]
              exact (List.subperm_cons _).2 (e5.trans hperm.subperm)
            · intro h
              obtain ⟨c1, c2, c3⟩ := e6 h
              refine ⟨?_, ?_, ?_⟩
              · simp only [List.map_cons]
                exact (c1.trans hperm).cons _
              · intro u hu
                rcases List.mem_cons.1 hu with rfl | hu
                · exact haf
                · exact c2 u hu
              · rw [c3]
                simp [hd]
            · intro h
              obtain ⟨init, t, c1, c2, c3⟩ := e7 h
              refine ⟨x :: init, t, by rw [c1]; rfl, c2, ?_⟩
              intro u hu
              rcases List.mem_cons.1 hu with rfl | hu
              · exact haf
              · exact c3 u hu
        · simp only [hd, if_false, Bool.false_eq_true]
          obtain ⟨ans, live', dead', tested, e1, e2, e3, e4, e5, e6, e7⟩ :=
            ih (done ++ [(scan x id).2]) rest dead (by simp at hlen ⊢; omega)
          have hreg : (⟨done.length + (x :: rest).length,
              done ++ (scan x id).2 :: (rest ++ dead)⟩ : masked_documents_registry)
              = ⟨(done ++ [(scan x id).2]).length + rest.length,
                  (done ++ [(scan x id).2]) ++ (rest ++ dead)⟩ := by
            congr 1
            · simp; omega
            · simp
          have hlen1 : done.length + 1 = (done ++ [(scan x id).2]).length := by simp
          rw [hreg, hlen1, e1]
          refine ⟨ans, live', dead', x :: tested, rfl, ?_, ?_, e4, ?_, ?_, ?_⟩
          · simp at e2 ⊢; omega
          · simp at e3 ⊢; omega
          · simp only [List.map_cons]
            exact (List.subperm_cons _).2 e5
          · intro h
            obtain ⟨c1, c2, c3⟩ := e6 h
            refine ⟨?_, ?_, ?_⟩
            · simp only [List.map_cons]
              exact c1.cons _
            · intro u hu
              rcases List.mem_cons.1 hu with rfl | hu
              · exact haf
              · exact c2 u hu
            · rw [c3]
              have hnd : (scan x id).2.drained = false := by simpa using hd
              simp [hnd]
          · intro h
            obtain ⟨init, t, c1, c2, c3⟩ := e7 h
            refine ⟨x :: init, t, by rw [c1]; rfl, c2, ?_⟩
            intro u hu
            rcases List.mem_cons.1 hu with rfl | hu
            · exact haf
            · exact c3 u hu

theorem leValue_pack64 (v : Nat) (h : v < 2 ^ 64) :
    leValue (pack64 v) = v ∧ (pack64 v).length = 8 ∧ ∀ b ∈ pack64 v, b < 256 := by
  refine ⟨?_, rfl, ?_⟩
  · have h64 : (2 : Nat) ^ 64 = 18446744073709551616 := by norm_num
    simp only [pack64, leValue]
    omega
  · intro b hb
    simp only [pack64, List.mem_cons, List.mem_singleton, List.not_mem_nil, or_false] at hb
    omega

/-- C19: the bytes that `persist_segment` writes to the `id` file are one byte 1, one
byte holding the length of the codec identifier, the bytes of the identifier, then
`sumTermHits`, `totalTerms`, `sumTermsDocs` and `docsCnt`, in this order, each as
eight bytes that are its value in little-endian order; `2 + length + 32` bytes in
all. -/
theorem id_file_layout (codecID : Bytes) (fs : field_statistics)
    (hid : codecID.length < 256)
    (h1 : fs.sumTermHits < 2 ^ 64) (h2 : fs.totalTerms < 2 ^ 64)
    (h3 : fs.sumTermsDocs < 2 ^ 64) (h4 : fs.docsCnt < 2 ^ 64) :
    ∃ a b c d : Bytes,
      idFileBytes codecID fs = [1, codecID.length] ++ codecID ++ (a ++ b ++ c ++ d) ∧
      (idFileBytes codecID fs).length = 2 + codecID.length + 32 ∧
      (a.length = 8 ∧ (∀ x ∈ a, x < 256) ∧ leValue a = fs.sumTermHits) ∧
      (b.length = 8 ∧ (∀ x ∈ b, x < 256) ∧ leValue b = fs.totalTerms) ∧
      (c.length = 8 ∧ (∀ x ∈ c, x < 256) ∧ leValue c = fs.sumTermsDocs) ∧
      (d.length = 8 ∧ (∀ x ∈ d, x < 256) ∧ leValue d = fs.docsCnt) := by
  obtain ⟨a1, a2, a3⟩ := leValue_pack64 _ h1
  obtain ⟨b1, b2, b3⟩ := leValue_pack64 _ h2
  obtain ⟨c1, c2, c3⟩ := leValue_pack64 _ h3
  obtain ⟨d1, d2, d3⟩ := leValue_pack64 _ h4
  refine ⟨pack64 fs.sumTermHits, pack64 fs.totalTerms, pack64 fs.sumTermsDocs,
    pack64 fs.docsCnt, ?_, ?_, ⟨a2, a3, a1⟩, ⟨b2, b3, b1⟩, ⟨c2, c3, c1⟩, ⟨d2, d3, d1⟩⟩
  · simp [idFileBytes, pack8, Nat.mod_eq_of_lt hid]
  · simp only [idFileBytes, pack8, List.length_append, List.length_cons, List.length_nil, a2,
      b2, c2, d2]

/-- The `id` file of the codec `"LUCENE"` with the statistics of the sample documents. -/
theorem id_file_layout_witness :
    ∃ a b c d : Bytes,
      idFileBytes [76, 85, 67, 69, 78, 69] ⟨6, 3, 4, 2⟩
        = [1, 6] ++ [76, 85, 67, 69, 78, 69] ++ (a ++ b ++ c ++ d) ∧
      (idFileBytes [76, 85, 67, 69, 78, 69] ⟨6, 3, 4, 2⟩).length = 2 + 6 + 32 ∧
      (a.length = 8 ∧ (∀ x ∈ a, x < 256) ∧ leValue a = 6) ∧
      (b.length = 8 ∧ (∀ x ∈ b, x < 256) ∧ leValue b = 3) ∧
      (c.length = 8 ∧ (∀ x ∈ c, x < 256) ∧ leValue c = 4) ∧
      (d.length = 8 ∧ (∀ x ∈ d, x < 256) ∧ leValue d = 2) :=
  id_file_layout [76, 85, 67, 69, 78, 69] ⟨6, 3, 4, 2⟩ (by decide) (by decide) (by decide)
    (by decide) (by decide)

/-! ## The spill threshold and a term count that wraps -/

theorem session_two (SPAN MaxPosition freq : Nat) (A B : Document)
    (hA : DocOK MaxPosition A) (hB : DocOK MaxPosition B) (hne : B.did ≠ A.did) :
    (sessionOf SPAN MaxPosition freq [A, B]).1 = Outcome.ok ∧
    (sessionOf SPAN MaxPosition freq [A, B]).2.defaultFieldStats = ⟨0, 0, 0, 0⟩ ∧
    (freq = 0 →
      (sessionOf SPAN MaxPosition freq [A, B]).2.b = A.record ++ B.record ∧
      (sessionOf SPAN MaxPosition freq [A, B]).2.backingFile = none) ∧
    (freq ≠ 0 → A.record.length > freq → B.record.length ≤ freq →
      (sessionOf SPAN MaxPosition freq [A, B]).2.b = B.record ∧
      (sessionOf SPAN MaxPosition freq [A, B]).2.backingFile = some A.record) := by
  have hempty : (SegmentIndexSession.fresh freq).hits = fun _ => [] := rfl
  obtain ⟨a1, a2⟩ := indexDocument_spec SPAN MaxPosition (SegmentIndexSession.fresh freq) A hempty
  have htA : (track SPAN (SegmentIndexSession.fresh freq).guard A.did).1 = true := by
    have h := track_trackMany SPAN [] A.did
    rw [show trackMany SPAN Guard.fresh [] = (SegmentIndexSession.fresh freq).guard from rfl] at h
    rw [h]; simp
  have hokA := a1.2 ⟨hA.1, htA, hA.2⟩
  obtain ⟨s1h, s1g, -, s1f, -, s1s, s1d⟩ := a2 hokA
  unfold sessionOf
  rw [indexAll]
  generalize hr : indexDocument SPAN MaxPosition (SegmentIndexSession.fresh freq) A = r at *
  obtain ⟨o, s1⟩ := r
  simp only at hokA s1h s1g s1f s1s s1d
  subst hokA
  simp only
  obtain ⟨b1, b2⟩ := indexDocument_spec SPAN MaxPosition s1 B s1h
  have htB : (track SPAN s1.guard B.did).1 = true := by
    have h := track_trackMany SPAN [A.did] B.did
    rw [show trackMany SPAN Guard.fresh [A.did]
      = (track SPAN (SegmentIndexSession.fresh freq).guard A.did).2 from rfl, ← s1g] at h
    rw [h]; simpa using hne
  have hokB := b1.2 ⟨hB.1, htB, hB.2⟩
  obtain ⟨-, -, -, s2f, -, s2s, s2d⟩ := b2 hokB
  rw [indexAll]
  generalize hr2 : indexDocument SPAN MaxPosition s1 B = r2 at *
  obtain ⟨o2, s2⟩ := r2
  simp only at hokB s2f s2s s2d
  subst hokB
  simp only [indexAll]
  have hfreq1 : s1.intermediateStateFlushFreq = freq := s1f
  refine ⟨trivial, by rw [s2s, s1s]; rfl, ?_, ?_⟩
  · intro h0
    rcases s1d with ⟨hsp, -, -⟩ | ⟨-, c1, c2⟩
    · exact absurd h0 hsp.1
    · rcases s2d with ⟨hsp, -, -⟩ | ⟨-, d1, d2⟩
      · exact absurd (hfreq1.trans h0) hsp.1
      · rw [d1, d2, c1, c2]
        exact ⟨rfl, rfl⟩
  · intro h0 hA' hB'
    have hfb : (SegmentIndexSession.fresh freq).b = [] := rfl
    rcases s1d with ⟨-, c1, c2⟩ | ⟨hsp, -, -⟩
    · rcases s2d with ⟨hsp, -, -⟩ | ⟨-, d1, d2⟩
      · exfalso
        have := hsp.2
        rw [c1, hfreq1] at this
        simp only [List.nil_append] at this
        omega
      · rw [d1, d2, c1, c2]
        exact ⟨rfl, rfl⟩
    · exfalso
      apply hsp
      exact ⟨h0, by rw [hfb]; exact hA'⟩

theorem wrapDoc_terms (n : Nat) :
    (wrapDoc n).inserts.map (·.termID) = (List.range' 1 n).map (fun j => 16 * j) ++ [15] ∧
    ((wrapDoc n).inserts.map (·.termID)).Nodup := by
  have h1 : (wrapDoc n).inserts.map (·.termID)
      = (List.range' 1 n).map (fun j => 16 * j) ++ [15] := by
    simp [wrapDoc, List.map_map, Function.comp_def]
  refine ⟨h1, ?_⟩
  rw [h1, List.nodup_append]
  refine ⟨(List.nodup_range' 1 n).map (fun a b h => by simpa using h), by simp, ?_⟩
  intro a ha hb
  simp only [List.mem_map, List.mem_singleton] at ha hb
  obtain ⟨j, -, rfl⟩ := ha
  omega

theorem wrapDoc_ok (n : Nat) :
    DocOK 8192 (wrapDoc n) ∧ (wrapDoc n).termIDs.length = n + 1 := by
  obtain ⟨hm, hnd⟩ := wrapDoc_terms n
  constructor
  · apply docOK_of_counts
    · intro c hc
      simp only [wrapDoc, List.mem_append, List.mem_map, List.mem_range'_1,
        List.mem_singleton] at hc
      rcases hc with ⟨j, hj, rfl⟩ | rfl
      · simp only [InsertOK, wrapPayload, List.length_cons, List.length_nil]
        omega
      · simp [InsertOK, wrapPayload]
    · intro t
      rw [Document.pairs_length]
      have := List.nodup_iff_count_le_one.1 hnd t
      omega
  · unfold Document.termIDs
    rw [hnd.dedup, hm]
    simp

theorem and15_mul16 (j : Nat) : (16 * j) &&& 15 = 0 := by
  have := Nat.and_pow_two_sub_one_eq_mod (16 * j) 4
  simp only [Nat.reducePow, Nat.add_one_sub_one, Nat.reduceSub] at this
  rw [this]
  omega

theorem wrapDoc_groups (n : Nat) :
    ∃ G0 : List Group,
      (wrapDoc n).groups = G0 ++ [(15, [(0, wrapPayload 3)])] ∧
      G0.length = n ∧ (G0.map (fun g : Group => g.1) ++ [15]).Nodup ∧
      ∀ g ∈ G0, g.2 = [(0, wrapPayload 2)] ∧ 0 < g.1 ∧ g.1 ≤ 16 * n := by
  obtain ⟨hm, hnd⟩ := wrapDoc_terms n
  have hf15 : (wrapDoc n).inserts.filter (fun c => c.termID &&& 15 = 15)
      = [⟨15, 0, wrapPayload 3⟩] := by
    simp only [wrapDoc, List.filter_append]
    have h1 : ((List.range' 1 n).map fun j => (⟨16 * j, 0, wrapPayload 2⟩ : InsertCall)).filter
        (fun c => c.termID &&& 15 = 15) = [] := by
      rw [List.filter_eq_nil_iff]
      intro c hc
      obtain ⟨j, -, rfl⟩ := List.mem_map.1 hc
      simp [and15_mul16]
    rw [h1]
    rfl
  have hruns : (wrapDoc n).runs
      = ((List.range' 0 15).flatMap fun k =>
          groupRuns (fun t : Triple => t.1) (stdSort tripleLess
            (((wrapDoc n).inserts.filter (fun c => c.termID &&& 15 = k)).map callTriple))) ++
        [[(15, 0, wrapPayload 3)]] := by
    unfold Document.runs
    rw [show List.range' 0 16 = List.range' 0 15 ++ [15] from rfl, List.flatMap_append]
    congr 1
    simp only [List.flatMap_cons, List.flatMap_nil, List.append_nil, hf15]
    rfl
  have hgroups : (wrapDoc n).groups
      = (((List.range' 0 15).flatMap fun k =>
          groupRuns (fun t : Triple => t.1) (stdSort tripleLess
            (((wrapDoc n).inserts.filter (fun c => c.termID &&& 15 = k)).map callTriple))).map
              tripleGroup) ++ [(15, [(0, wrapPayload 3)])] := by
    unfold Document.groups
    rw [hruns, List.map_append]
    rfl
  generalize hG : (((List.range' 0 15).flatMap fun k =>
      groupRuns (fun t : Triple => t.1) (stdSort tripleLess
        (((wrapDoc n).inserts.filter (fun c => c.termID &&& 15 = k)).map callTriple))).map
          tripleGroup) = G0 at hgroups
  have hkeys : ((wrapDoc n).groups.map (·.1)).Nodup := by
    rw [Document.groups_keys]; exact Document.runs_keys_nodup _
  have hlen := Document.groups_length (wrapDoc n)
  rw [(wrapDoc_ok n).2, hgroups] at hlen
  rw [hgroups, List.map_append] at hkeys
  refine ⟨G0, hgroups, by simpa using hlen, hkeys, ?_⟩
  intro g hg
  have hgm : g ∈ (wrapDoc n).groups := by rw [hgroups]; simp [hg]
  have hne15 : g.1 ≠ 15 := by
    intro h
    have := (List.nodup_append.1 hkeys).2.2
    exact this (List.mem_map_of_mem _ hg) (by simp [h])
  have hterm : g.1 ∈ (wrapDoc n).inserts.map (·.termID) := by
    have := (Document.termIDs_perm (wrapDoc n)).mem_iff.1 (List.mem_map_of_mem (·.1) hgm)
    unfold Document.termIDs at this
    exact List.mem_dedup.1 this
  rw [hm] at hterm
  simp only [List.mem_append, List.mem_map, List.mem_range'_1, List.mem_singleton] at hterm
  rcases hterm with ⟨j, hj, hjeq⟩ | h15
  · have hp := Document.group_hits (wrapDoc n) g hgm
    have hpairs : ∀ y ∈ (wrapDoc n).pairs g.1, y = (0, wrapPayload 2) := by
      intro y hy
      simp only [Document.pairs, wrapDoc, List.mem_map, List.mem_filter, List.mem_append,
        List.mem_range'_1, List.mem_singleton, decide_eq_true_eq] at hy
      obtain ⟨c, ⟨hc | hc, hct⟩, rfl⟩ := hy
      · obtain ⟨i, -, rfl⟩ := hc
        rfl
      · subst hc
        exact absurd hct.symm hne15
    have hle : g.2.length ≤ 1 := by
      rw [hp.length_eq, Document.pairs_length]
      exact List.nodup_iff_count_le_one.1 hnd g.1
    have hge : g.2 ≠ [] := by
      obtain ⟨run, hrun, rfl⟩ := List.mem_map.1 hgm
      have := (Document.runs_mem (wrapDoc n) run hrun).1
      simpa [tripleGroup] using this
    refine ⟨?_, by omega, by omega⟩
    cases hg2 : g.2 with
    | nil => exact absurd hg2 hge
    | cons y ys =>
      rw [hg2] at hle hp
      have hys : ys = [] := List.length_eq_zero.1 (by simpa using hle)
      subst hys
      rw [hpairs y (hp.subset (by simp))]
  · exact absurd h15 hne15

theorem misread_group (t : Nat) :
    encGroup (t, [(0, wrapPayload 2)]) = encRecord (misread t [170, 187]) := by
  simp [encGroup, encRecord, misread, encodeHits, encode_varbyte32, pack16, pack32, wrapPayload]

theorem collectDocs_prefix (i : Nat) (data : Bytes) (hdata : data.length < 2 ^ 32)
    (rs : List (Nat × List Group)) :
    ∀ (fuel : Nat) (pre rest : Bytes) (st : ScanState),
      data = pre ++ (rs.flatMap encRecord ++ rest) →
      rs.length ≤ fuel → (∀ r ∈ rs, WFRecord r) →
      ∃ st' : ScanState,
        collectDocs i data.length fuel (rs.flatMap encRecord ++ rest) st
          = collectDocs i data.length (fuel - rs.length) rest st' := by
  induction rs with
  | nil =>
    intro fuel pre rest st _ _ _
    exact ⟨st, by simp⟩
  | cons r rs ih =>
    intro fuel pre rest st hd hfuel hwf
    obtain ⟨did, gs⟩ := r
    obtain ⟨w1, w2, w3⟩ := hwf (did, gs) (by simp)
    simp only at w1 w2 w3
    obtain ⟨fuel, rfl⟩ : ∃ f, fuel = f + 1 :=
      ⟨fuel - 1, by simp only [List.length_cons] at hfuel; omega⟩
    have hmod : gs.length % 65536 = gs.length := Nat.mod_eq_of_lt w2
    have hbytes : ((did, gs) :: rs).flatMap encRecord ++ rest
        = pack32 did ++ (pack16 gs.length ++
            (gs.flatMap encGroup ++ (rs.flatMap encRecord ++ rest))) := by
      simp [encRecord, hmod]
    have hne : ((did, gs) :: rs).flatMap encRecord ++ rest ≠ [] := by
      rw [hbytes]; simp [pack32]
    have hd2 : data = (pre ++ pack32 did ++ pack16 gs.length) ++
        (gs.flatMap encGroup ++ (rs.flatMap encRecord ++ rest)) := by
      rw [hd, hbytes]; simp only [List.append_assoc]
    have hfu : fuel + 1 - ((did, gs) :: rs).length = fuel - rs.length := by
      simp only [List.length_cons]; omega
    rw [collectDocs_succ _ _ _ _ _ hne, hbytes, read32_pack32 _ _ w1, hfu]
    simp only
    rw [read16_pack16 _ _ w2]
    simp only
    by_cases h0 : gs.length = 0
    · have hgs : gs = [] := List.length_eq_zero.1 h0
      subst hgs
      have hd3 : data = (pre ++ pack32 did ++ pack16 0) ++ (rs.flatMap encRecord ++ rest) := by
        simpa using hd2
      obtain ⟨st', e1⟩ := ih fuel _ rest st hd3
        (by simp only [List.length_cons] at hfuel; omega)
        (fun r hr => hwf r (List.mem_cons_of_mem _ hr))
      refine ⟨st', ?_⟩
      simpa using e1
    · rw [if_neg h0]
      obtain ⟨st1, T1, c1, -, -, -⟩ := collectTerms_spec i did data hdata gs
        (pre ++ pack32 did ++ pack16 gs.length) (rs.flatMap encRecord ++ rest)
        { st with docsCnt := st.docsCnt + 1 } hd2 w3
      have hd3 : data = (pre ++ pack32 did ++ pack16 gs.length ++ gs.flatMap encGroup) ++
          (rs.flatMap encRecord ++ rest) := by
        rw [hd2]; simp only [List.append_assoc]
      obtain ⟨st', e1⟩ := ih fuel _ rest st1 hd3
        (by simp only [List.length_cons] at hfuel; omega)
        (fun r hr => hwf r (List.mem_cons_of_mem _ hr))
      refine ⟨st', ?_⟩
      rw [c1]
      exact e1

theorem collectDocs_overrun (i dataSize fuel : Nat) (st : ScanState) :
    collectDocs i dataSize (fuel + 1) (encGroup (15, [(0, wrapPayload 3)])) st = none := by
  rfl

theorem tail_misread :
    encGroup (15, [(0, wrapPayload 3)]) ++ tailDoc.record
      = [misread 15 [170, 187, 2], (16777216, []), (16777217, []), (117901061, [])].flatMap
          encRecord := by
  decide

theorem misread_length (l : List Group) :
    ((l.map fun g => misread g.1 [170, 187]).flatMap encRecord).length = 16 * l.length := by
  induction l with
  | nil => rfl
  | cons g l ih =>
    rw [List.map_cons, List.flatMap_cons, List.length_append, ih]
    have : (encRecord (misread g.1 [170, 187])).length = 16 := by
      simp [encRecord, misread, encGroup, encodeHits, pack32, pack16, encode_varbyte32]
    rw [this, List.length_cons]
    ring

theorem wrapDoc_record (n : Nat) (hn : n + 1 = 65536) :
    ∃ G0 : List Group,
      (wrapDoc n).record
        = ((1, []) :: G0.map fun g => misread g.1 [170, 187]).flatMap encRecord ++
            encGroup (15, [(0, wrapPayload 3)]) ∧
      G0.length = n ∧ (G0.map (fun g : Group => g.1) ++ [15]).Nodup ∧
      (∀ g ∈ G0, 0 < g.1 ∧ g.1 ≤ 16 * n) ∧
      (wrapDoc n).record.length = 6 + 16 * n + 16 := by
  obtain ⟨G0, h1, h2, h3, h4⟩ := wrapDoc_groups n
  have hflat : G0.flatMap encGroup
      = (G0.map fun g => misread g.1 [170, 187]).flatMap encRecord := by
    rw [List.flatMap_map]
    apply List.flatMap_congr
    intro g hg
    have := (h4 g hg).1
    rw [← misread_group g.1, ← this]
  have hrec : (wrapDoc n).record
      = ((1, []) :: G0.map fun g => misread g.1 [170, 187]).flatMap encRecord ++
          encGroup (15, [(0, wrapPayload 3)]) := by
    have hlen : (G0 ++ [((15 : Nat), [((0 : Nat), wrapPayload 3)])]).length % 65536 = 0 := by
      rw [List.length_append, h2, List.length_singleton, hn]
    unfold Document.record encRecord
    rw [h1]
    simp only [hlen, List.flatMap_append, List.flatMap_cons, List.flatMap_nil, List.append_nil,
      hflat, List.length_nil, Nat.zero_mod, List.append_assoc]
    rfl
  refine ⟨G0, hrec, h2, h3, fun g hg => (h4 g hg).2, ?_⟩
  rw [hrec, List.length_append, List.flatMap_cons, List.length_append, misread_length, h2]
  rfl

theorem misread_entries (l : List Group) (pl : Bytes) :
    ((l.map fun g : Group => misread g.1 pl).flatMap
        fun r => r.2.map fun g => ((g.1, r.1, g.2) : Entry))
      = l.map fun g : Group => ((2048, g.1, [(0, pl)]) : Entry) := by
  induction l with
  | nil => rfl
  | cons g l ih =>
    rw [List.map_cons, List.flatMap_cons, ih]
    rfl

theorem wrap_contiguous (n ps0 : Nat) (hn : n + 1 = 65536) (s : SegmentIndexSession)
    (hb : s.b = (wrapDoc n).record ++ tailDoc.record) (hf : s.backingFile = none) :
    (commit s ps0).isSome = true := by
  obtain ⟨G0, h1, h2, h3, h4, h5⟩ := wrapDoc_record n hn
  have hdata : s.b = (((1, []) :: G0.map fun g : Group => misread g.1 [170, 187]) ++
      [misread 15 [170, 187, 2], (16777216, []), (16777217, []), (117901061, [])]).flatMap
        encRecord := by
    rw [hb, h1, List.flatMap_append, ← tail_misread, List.append_assoc]
  have hlen : s.b.length < 2 ^ 32 := by
    rw [hb, List.length_append, h5]
    have : tailDoc.record.length = 19 := by decide
    rw [this]
    have : (2 : Nat) ^ 32 = 4294967296 := by norm_num
    omega
  have hne : s.b.length ≠ 0 := by
    rw [hb, List.length_append, h5]; omega
  have hwf : ∀ r ∈ ((1, []) :: G0.map fun g : Group => misread g.1 [170, 187]) ++
      [misread 15 [170, 187, 2], (16777216, []), (16777217, []), (117901061, [])],
      WFRecord r := by
    have hmis : ∀ t p, t < 2 ^ 32 → p.length ≤ 8 → WFRecord (misread t p) := by
      intro t p ht hp
      refine ⟨ht, by simp [misread], ?_⟩
      intro g hg
      simp only [misread, List.mem_singleton] at hg
      subst hg
      refine ⟨by norm_num, by simp, by simp, ?_, by simp⟩
      intro h hh
      simp only [List.mem_singleton] at hh
      subst hh
      exact ⟨hp, by norm_num⟩
    have hempty : ∀ d, d < 2 ^ 32 → WFRecord (d, []) := by
      intro d hd
      exact ⟨hd, by simp, by simp⟩
    intro r hr
    simp only [List.mem_append, List.mem_cons, List.mem_map, List.mem_singleton,
      List.not_mem_nil, or_false] at hr
    rcases hr with (rfl | ⟨g, hg, rfl⟩) | rfl | rfl | rfl | rfl
    · exact hempty 1 (by norm_num)
    · apply hmis _ _ _ (by simp)
      have := (h4 g hg).2
      have : (2 : Nat) ^ 32 = 4294967296 := by norm_num
      omega
    · exact hmis 15 _ (by norm_num) (by simp)
    · exact hempty _ (by norm_num)
    · exact hempty _ (by norm_num)
    · exact hempty _ (by norm_num)
  have hent : entries (((1, []) :: G0.map fun g : Group => misread g.1 [170, 187]) ++
      [misread 15 [170, 187, 2], (16777216, []), (16777217, []), (117901061, [])])
      = (G0.map fun g : Group => ((2048, g.1, [(0, [170, 187])]) : Entry)) ++
          [(2048, 15, [(0, [170, 187, 2])])] := by
    unfold entries
    rw [List.flatMap_append, List.flatMap_cons, misread_entries]
    rfl
  have hscan := scan_spec s.defaultFieldStats ps0 [s.b] [_] (by simp)
    (List.Forall₂.cons ⟨hdata, hlen, hwf⟩ List.Forall₂.nil)
    (by
      intro x hx
      simp only [List.flatten_cons, List.flatten_nil, List.append_nil] at hx
      rw [hent] at hx
      simp only [List.mem_append, List.mem_map, List.mem_singleton] at hx
      rcases hx with ⟨g, hg, rfl⟩ | rfl
      · exact (h4 g hg).1
      · norm_num)
    (by
      simp only [List.flatten_cons, List.flatten_nil, List.append_nil]
      rw [hent]
      unfold DistinctKeys
      have hp : ((G0.map fun g : Group => ((2048, g.1, [(0, [170, 187])]) : Entry)) ++
          [(2048, 15, [(0, [170, 187, 2])])]).map (fun e : Entry => e.2.1)
          = G0.map (fun g : Group => g.1) ++ [15] := by
        simp [List.map_map, Function.comp_def]
      have hnd := h3
      rw [← hp] at hnd
      exact (List.pairwise_map.1 hnd).imp (fun {a b : Entry} h hh => h hh.2))
  unfold commit
  rw [hf]
  simp only
  have hsrc : sourceRanges s = [s.b] := by
    unfold sourceRanges
    rw [hf]
    simp [hne]
  rw [hsrc, if_pos (by simp), hscan]
  rfl

theorem wrap_split (n ps0 : Nat) (hn : n + 1 = 65536) (s : SegmentIndexSession)
    (hb : s.b = tailDoc.record) (hf : s.backingFile = some (wrapDoc n).record) :
    commit s ps0 = none := by
  obtain ⟨G0, h1, h2, -, h4, h5⟩ := wrapDoc_record n hn
  have hlen : (wrapDoc n).record.length < 2 ^ 32 := by
    rw [h5]
    have : (2 : Nat) ^ 32 = 4294967296 := by norm_num
    omega
  have hwf : ∀ r ∈ ((1, []) :: G0.map fun g : Group => misread g.1 [170, 187]), WFRecord r := by
    intro r hr
    simp only [List.mem_cons, List.mem_map] at hr
    rcases hr with rfl | ⟨g, hg, rfl⟩
    · exact ⟨by norm_num, by simp, by simp⟩
    · refine ⟨?_, by simp [misread], ?_⟩
      · have := (h4 g hg).2
        have : (2 : Nat) ^ 32 = 4294967296 := by norm_num
        show g.1 < 2 ^ 32
        omega
      · intro g' hg'
        simp only [misread, List.mem_singleton] at hg'
        subst hg'
        refine ⟨by norm_num, by simp, by simp, ?_, by simp⟩
        intro h hh
        simp only [List.mem_singleton] at hh
        subst hh
        exact ⟨by simp, by norm_num⟩
  have hfile : ∀ st : ScanState,
      collectDocs 1 (wrapDoc n).record.length (wrapDoc n).record.length (wrapDoc n).record st
        = none := by
    intro st
    obtain ⟨st', e⟩ := collectDocs_prefix 1 (wrapDoc n).record hlen
      ((1, []) :: G0.map fun g : Group => misread g.1 [170, 187]) (wrapDoc n).record.length []
      (encGroup (15, [(0, wrapPayload 3)])) st (by rw [List.nil_append]; exact h1)
      (by rw [h5]; simp only [List.length_cons, List.length_map, h2]; omega) hwf
    have hfuel : (wrapDoc n).record.length
        - ((1, []) :: G0.map fun g : Group => misread g.1 [170, 187]).length
        = (6 + 16 * n + 16 - (n + 1) - 1) + 1 := by
      rw [h5]; simp only [List.length_cons, List.length_map, h2]; omega
    rw [hfuel, collectDocs_overrun, ← h1] at e
    exact e
  have hsrc : sourceRanges s = [tailDoc.record, (wrapDoc n).record] := by
    unfold sourceRanges
    rw [hf, hb]
    rfl
  unfold commit
  rw [hf]
  simp only
  unfold scan
  rw [hsrc, if_neg (by simp)]
  have hcol : collectRanges [tailDoc.record, (wrapDoc n).record] 0
      ⟨ps0, fun _ => [], s.defaultFieldStats.docsCnt⟩ = none := by
    rw [collectRanges]
    cases collectDocs 0 tailDoc.record.length tailDoc.record.length tailDoc.record
        ⟨ps0, fun _ => [], s.defaultFieldStats.docsCnt⟩ with
    | none => rfl
    | some st1 =>
      simp only
      rw [collectRanges, hfile]
  rw [hcol]

theorem wrapDocs_sessions :
    ((sessionOf 65536 8192 1000 wrapDocs).1 = Outcome.ok ∧
      commit (sessionOf 65536 8192 1000 wrapDocs).2 0 = none) ∧
    ((sessionOf 65536 8192 0 wrapDocs).1 = Outcome.ok ∧
      (commit (sessionOf 65536 8192 0 wrapDocs).2 0).isSome = true) := by
  have hw : wrapDocs = [wrapDoc 65535, tailDoc] := rfl
  rw [hw]
  have hn : 65535 + 1 = 65536 := rfl
  have hA := (wrapDoc_ok 65535).1
  have hB : DocOK 8192 tailDoc := by
    apply docOK_of_counts
    · decide
    · intro t
      rw [Document.pairs_length]
      have : (tailDoc.inserts.map (·.termID)).Nodup := by decide
      have := List.nodup_iff_count_le_one.1 this t
      omega
  have hne : tailDoc.did ≠ (wrapDoc 65535).did := by decide
  obtain ⟨G0, -, -, -, -, h5⟩ := wrapDoc_record 65535 hn
  constructor
  · obtain ⟨s1, -, -, s4⟩ := session_two 65536 8192 1000 (wrapDoc 65535) tailDoc hA hB hne
    obtain ⟨b1, b2⟩ := s4 (by decide) (by rw [h5]; omega) (by decide)
    exact ⟨s1, wrap_split 65535 0 hn _ b1 b2⟩
  · obtain ⟨s1, -, s3, -⟩ := session_two 65536 8192 0 (wrapDoc 65535) tailDoc hA hB hne
    obtain ⟨b1, b2⟩ := s3 rfl
    exact ⟨s1, wrap_contiguous 65535 0 hn _ b1 b2⟩

/-- C6 fails when the term count of a record wraps: document 1 has 65536 distinct
terms and document 2 one hit.  Both runs commit the two documents without error.
With `intermediateStateFlushFreq = 0` the collect phase reads the 65536 term groups of
document 1 as documents, its last read ends one byte inside the record of document 2,
which it then skips, and `commit` returns.  With `intermediateStateFlushFreq = 1000`
document 1 is alone in the backing file, and the same read leaves the range. -/
theorem commit_independent_of_flush_freq_counterexample :
    ¬ ((sessionOf 65536 8192 1000 wrapDocs).1 = Outcome.ok →
        (sessionOf 65536 8192 0 wrapDocs).1 = Outcome.ok →
        commit (sessionOf 65536 8192 1000 wrapDocs).2 0
          = commit (sessionOf 65536 8192 0 wrapDocs).2 0) := by
  intro h
  obtain ⟨⟨a1, a2⟩, b1, b2⟩ := wrapDocs_sessions
  have := h a1 b1
  rw [a2] at this
  rw [← this] at b2
  cases b2


/-! ## The making of a scanner -/

theorem committedDocs_append (ops₁ ops₂ : List SessionOp) :
    committedDocs (ops₁ ++ ops₂) = committedDocs ops₁ ++ committedDocs ops₂ := by
  induction ops₁ with
  | nil => rfl
  | cons op ops ih =>
    cases op with
    | commit doc => simp [committedDocs, ih]
    | erase d => simp [committedDocs, ih]

theorem stagedBytes_append (docs₁ docs₂ : List Document) :
    stagedBytes (docs₁ ++ docs₂) = stagedBytes docs₁ ++ stagedBytes docs₂ := by
  simp [stagedBytes]

theorem applyOp_records (SPAN MaxPosition : Nat) (docs : List Document)
    (s : SegmentIndexSession) (op : SessionOp) (hempty : s.hits = fun _ => [])
    (h : SplitAtRecords docs s) (hok : (applyOp SPAN MaxPosition s op).1 = Outcome.ok) :
    (applyOp SPAN MaxPosition s op).2.hits = (fun _ => []) ∧
    SplitAtRecords (docs ++ committedDocs [op]) (applyOp SPAN MaxPosition s op).2 := by
  obtain ⟨spilled, staged, h1, h2, h3⟩ := h
  cases op with
  | commit doc =>
    obtain ⟨-, a2⟩ := indexDocument_spec SPAN MaxPosition s doc hempty
    simp only [applyOp] at hok ⊢
    obtain ⟨b1, -, -, -, -, -, b7⟩ := a2 hok
    refine ⟨b1, ?_⟩
    rcases b7 with ⟨-, c2, c3⟩ | ⟨-, c2, c3⟩
    · refine ⟨docs ++ [doc], [], by simp [committedDocs], ?_, ?_⟩
      · rw [c3, h1, h2, h3]
        simp [stagedBytes]
      · rw [c2]; rfl
    · refine ⟨spilled, staged ++ [doc], by simp [committedDocs, h1], ?_, ?_⟩
      · rw [c3, h2]
      · rw [c2, h3]
        simp [stagedBytes]
  | erase d =>
    obtain ⟨-, a2⟩ := erase_spec SPAN s d
    simp only [applyOp] at hok ⊢
    rw [a2 hok]
    exact ⟨hempty, spilled, staged, by simp [committedDocs, h1], h2, h3⟩

theorem runOps_records (SPAN MaxPosition : Nat) (ops : List SessionOp) :
    ∀ (docs : List Document) (s : SegmentIndexSession), s.hits = (fun _ => []) →
      SplitAtRecords docs s → (runOps SPAN MaxPosition ops s).1 = Outcome.ok →
      SplitAtRecords (docs ++ committedDocs ops) (runOps SPAN MaxPosition ops s).2 := by
  induction ops with
  | nil => intro docs s _ h _; simpa [runOps, committedDocs] using h
  | cons op ops ih =>
    intro docs s hempty h hok
    rw [runOps] at hok ⊢
    have hstep := applyOp_records SPAN MaxPosition docs s op hempty h
    generalize hr : applyOp SPAN MaxPosition s op = r at *
    obtain ⟨o, s'⟩ := r
    cases o with
    | ok =>
      simp only at hok ⊢
      obtain ⟨c1, c2⟩ := hstep rfl
      have := ih (docs ++ committedDocs [op]) s' c1 c2 hok
      rw [List.append_assoc, ← committedDocs_append] at this
      exact this
    | threw => simp at hok
    | aborted => simp at hok

/-- C22: after any number of the operations of a session in which every commit and
erase succeeded (`ops₁`, with `ops₂` still to come), the contents of the backing file
followed by the stage buffer are the records of the documents committed so far, one
after another in commit order; and the list of these documents splits in two, the
backing file being the records of the first part and the stage buffer the records of
the second, so each holds whole records only. -/
theorem file_then_buffer_hold_whole_records (SPAN MaxPosition freq : Nat)
    (ops₁ ops₂ : List SessionOp)
    (hok : (runOps SPAN MaxPosition (ops₁ ++ ops₂) (SegmentIndexSession.fresh freq)).1
      = Outcome.ok) :
    (runOps SPAN MaxPosition ops₁ (SegmentIndexSession.fresh freq)).2.backingFile.getD [] ++
        (runOps SPAN MaxPosition ops₁ (SegmentIndexSession.fresh freq)).2.b
      = ((committedDocs ops₁).map (·.record)).flatten ∧
    ∃ spilled staged : List Document, committedDocs ops₁ = spilled ++ staged ∧
      (runOps SPAN MaxPosition ops₁ (SegmentIndexSession.fresh freq)).2.backingFile.getD []
        = (spilled.map (·.record)).flatten ∧
      (runOps SPAN MaxPosition ops₁ (SegmentIndexSession.fresh freq)).2.b
        = (staged.map (·.record)).flatten := by
  have hok1 := runOps_prefix_ok SPAN MaxPosition ops₁ ops₂ _ hok
  obtain ⟨spilled, staged, h1, h2, h3⟩ := runOps_records SPAN MaxPosition ops₁ []
    (SegmentIndexSession.fresh freq) rfl ⟨[], [], rfl, rfl, rfl⟩ hok1
  rw [List.nil_append] at h1
  refine ⟨?_, spilled, staged, h1, h2, h3⟩
  rw [h2, h3, h1, ← stagedBytes_append]
  rfl

theorem file_then_buffer_hold_whole_records_witness :
    (runOps 65536 8192 (sampleOps ++ []) (SegmentIndexSession.fresh 20)).1 = Outcome.ok ∧
    (runOps 65536 8192 sampleOps (SegmentIndexSession.fresh 20)).2.backingFile.getD [] ++
        (runOps 65536 8192 sampleOps (SegmentIndexSession.fresh 20)).2.b
      = ((committedDocs sampleOps).map (·.record)).flatten ∧
    ∃ spilled staged : List Document, committedDocs sampleOps = spilled ++ staged ∧
      (runOps 65536 8192 sampleOps (SegmentIndexSession.fresh 20)).2.backingFile.getD []
        = (spilled.map (·.record)).flatten ∧
      (runOps 65536 8192 sampleOps (SegmentIndexSession.fresh 20)).2.b
        = (staged.map (·.record)).flatten :=
  ⟨by decide, file_then_buffer_hold_whole_records 65536 8192 20 sampleOps [] (by decide)⟩
/-! ## The walk of the collect phase over staged records -/

theorem collectTerms_tuples (i did dataSize : Nat) (gs : List Group) :
    ∀ (o : Nat) (rest : Bytes) (st : ScanState),
      dataSize = o + (gs.flatMap encGroup ++ rest).length →
      (∀ g ∈ gs, g.1 < 2 ^ 32 ∧ 1 ≤ g.2.length ∧ g.2.length ≤ 65535 ∧
        ∀ h ∈ g.2, h.2.length ≤ 8) →
      ∃ st' : ScanState,
        collectTerms i dataSize did gs.length (gs.flatMap encGroup ++ rest) st
          = some (rest, st') ∧
        st'.docsCnt = st.docsCnt ∧
        ∀ k, st'.all k = st.all k ++
          ((groupTuples i did o gs).map wrapOffset).filter (fun t => t.termID &&& 31 = k) := by
  induction gs with
  | nil =>
    intro o rest st _ _
    exact ⟨st, by simp [collectTerms], rfl, by simp [groupTuples]⟩
  | cons g gs ih =>
    intro o rest st hd hwf
    obtain ⟨t, hs⟩ := g
    obtain ⟨w1, w2, w3, w4⟩ := hwf (t, hs) (by simp)
    simp only at w1 w2 w3 w4
    have hmod : hs.length % 65536 = hs.length := Nat.mod_eq_of_lt (by omega)
    have hp : passes16 hs.length = hs.length := by
      unfold passes16; rw [if_neg]; omega
    obtain ⟨ps', e1⟩ := skipHits_spec hs 0 0xff st.payloadSize (gs.flatMap encGroup ++ rest)
      w4 (Or.inr rfl)
    have hglen : (encGroup (t, hs)).length = 6 + (encodeHits 0 0xff hs).length := by
      simp [encGroup, pack32, pack16]; omega
    have hd2 : dataSize = o + (encGroup (t, hs)).length
        + (gs.flatMap encGroup ++ rest).length := by
      rw [hd]; simp only [List.flatMap_cons, List.length_append]; omega
    obtain ⟨st', e2, e3, e4⟩ := ih (o + (encGroup (t, hs)).length) rest
      { st with
        payloadSize := ps',
        all := Function.update st.all (t &&& 31)
          (st.all (t &&& 31) ++
            [⟨t, did, (dataSize - (encodeHits 0 0xff hs ++
              (gs.flatMap encGroup ++ rest)).length) % 2 ^ 32, hs.length, i⟩]) }
      hd2 (fun g hg => hwf g (List.mem_cons_of_mem _ hg))
    have hoff : dataSize - (encodeHits 0 0xff hs ++ (gs.flatMap encGroup ++ rest)).length
        = o + 6 := by
      rw [hd2, hglen]; simp only [List.length_append]; omega
    refine ⟨st', ?_, e3, ?_⟩
    · rw [List.flatMap_cons, List.length_cons, collectTerms]
      simp only [encGroup, hmod, List.append_assoc]
      rw [read32_pack32 _ _ w1]
      simp only
      rw [read16_pack16 _ _ (by omega)]
      simp only
      rw [hp, e1]
      simp only
      exact e2
    · intro k
      rw [e4 k, hoff]
      by_cases hk : k = t &&& 31
      · subst hk
        simp [groupTuples, wrapOffset, List.filter_cons]
      · have hk2 : ¬ (t &&& 31 = k) := fun e => hk e.symm
        simp [groupTuples, wrapOffset, Function.update_noteq hk, List.filter_cons, hk2]

theorem collectDocs_tuples (i dataSize : Nat) (rs : List (Nat × List Group)) :
    ∀ (fuel o : Nat) (st : ScanState), dataSize = o + (rs.flatMap encRecord).length →
      rs.length ≤ fuel → (∀ r ∈ rs, Walkable r) →
      ∃ st' : ScanState,
        collectDocs i dataSize fuel (rs.flatMap encRecord) st = some st' ∧
        st'.docsCnt = st.docsCnt + (rs.filter (fun r => decide (r.2 ≠ []))).length ∧
        ∀ k, st'.all k = st.all k ++
          ((recordTuples i o rs).map wrapOffset).filter (fun t => t.termID &&& 31 = k) := by
  induction rs with
  | nil =>
    intro fuel o st _ _ _
    refine ⟨st, ?_, by simp, by simp [recordTuples]⟩
    cases fuel <;> simp [collectDocs]
  | cons r rs ih =>
    intro fuel o st hd hfuel hwf
    obtain ⟨did, gs⟩ := r
    obtain ⟨w1, w2, w3⟩ := hwf (did, gs) (by simp)
    simp only at w1 w2 w3
    obtain ⟨fuel, rfl⟩ : ∃ f, fuel = f + 1 :=
      ⟨fuel - 1, by simp only [List.length_cons] at hfuel; omega⟩
    have hmod : gs.length % 65536 = gs.length := Nat.mod_eq_of_lt w2
    have hne : ((did, gs) :: rs).flatMap encRecord ≠ [] := by
      simp [encRecord, pack32]
    have hbytes : ((did, gs) :: rs).flatMap encRecord
        = pack32 did ++ (pack16 gs.length ++ (gs.flatMap encGroup ++ rs.flatMap encRecord)) := by
      simp [encRecord, hmod]
    have hrlen : (encRecord (did, gs)).length = 6 + (gs.flatMap encGroup).length := by
      simp [encRecord, pack32, pack16]; omega
    have hd2 : dataSize = o + 6 + (gs.flatMap encGroup ++ rs.flatMap encRecord).length := by
      rw [hd, hbytes]; simp [pack32, pack16]; omega
    have hd3 : dataSize = o + (encRecord (did, gs)).length + (rs.flatMap encRecord).length := by
      rw [hd2, hrlen]; simp only [List.length_append]; omega
    rw [collectDocs_succ _ _ _ _ _ hne, hbytes, read32_pack32 _ _ w1]
    simp only
    rw [read16_pack16 _ _ w2]
    simp only
    by_cases h0 : gs.length = 0
    · have hgs : gs = [] := List.length_eq_zero.1 h0
      subst hgs
      obtain ⟨st', e1, e2, e3⟩ := ih fuel _ st hd3
        (by simp only [List.length_cons] at hfuel; omega)
        (fun r hr => hwf r (List.mem_cons_of_mem _ hr))
      refine ⟨st', ?_, ?_, ?_⟩
      · simpa using e1
      · rw [e2]; simp
      · intro k
        rw [e3 k]
        simp [recordTuples, groupTuples]
    · rw [if_neg h0]
      obtain ⟨st1, c1, c2, c3⟩ := collectTerms_tuples i did dataSize gs (o + 6)
        (rs.flatMap encRecord) { st with docsCnt := st.docsCnt + 1 } hd2 w3
      obtain ⟨st', e1, e2, e3⟩ := ih fuel _ st1 hd3
        (by simp only [List.length_cons] at hfuel; omega)
        (fun r hr => hwf r (List.mem_cons_of_mem _ hr))
      refine ⟨st', ?_, ?_, ?_⟩
      · rw [c1]; exact e1
      · rw [e2, c2]
        have : gs ≠ [] := fun h => h0 (by rw [h]; rfl)
        simp [List.filter_cons, this]
        omega
      · intro k
        rw [e3 k, c3 k]
        simp [recordTuples, List.filter_append, List.append_assoc]

theorem records_fuel (rs : List (Nat × List Group)) :
    rs.length ≤ (rs.flatMap encRecord).length := by
  induction rs with
  | nil => simp
  | cons r rs ih =>
    simp only [List.flatMap_cons, List.length_append, List.length_cons, encRecord, pack32,
      pack16]
    omega

theorem groupTuples_offset (i did : Nat) (gs : List Group) :
    ∀ o : Nat, (∀ g ∈ gs, 1 ≤ g.2.length) →
      ∀ t ∈ groupTuples i did o gs, t.hitsOffset ≤ o + (gs.flatMap encGroup).length := by
  induction gs with
  | nil => intro o _ t ht; simp [groupTuples] at ht
  | cons g gs ih =>
    intro o hg t ht
    have hglen : (encGroup g).length = 6 + (encodeHits 0 0xff g.2).length := by
      simp [encGroup, pack32, pack16]; omega
    simp only [groupTuples, List.mem_cons] at ht
    rcases ht with rfl | ht
    · simp only [List.flatMap_cons, List.length_append, hglen]
      omega
    · have := ih (o + (encGroup g).length) (fun g hg' => hg g (List.mem_cons_of_mem _ hg')) t ht
      simp only [List.flatMap_cons, List.length_append]
      omega

theorem recordTuples_offset (i : Nat) (rs : List (Nat × List Group)) :
    ∀ o : Nat, (∀ r ∈ rs, Walkable r) →
      ∀ t ∈ recordTuples i o rs, t.hitsOffset ≤ o + (rs.flatMap encRecord).length := by
  induction rs with
  | nil => intro o _ t ht; simp [recordTuples] at ht
  | cons r rs ih =>
    intro o hwf t ht
    have hrlen : (encRecord r).length = 6 + (r.2.flatMap encGroup).length := by
      simp [encRecord, pack32, pack16]; omega
    simp only [recordTuples, List.mem_append] at ht
    simp only [List.flatMap_cons, List.length_append]
    rcases ht with ht | ht
    · have := groupTuples_offset i r.1 r.2 (o + 6)
        (fun g hg => ((hwf r (by simp)).2.2 g hg).2.1) t ht
      omega
    · have := ih (o + (encRecord r).length) (fun r hr => hwf r (List.mem_cons_of_mem _ hr)) t ht
      omega

theorem recordTuples_wrap (i : Nat) (rs : List (Nat × List Group))
    (hwf : ∀ r ∈ rs, Walkable r) (hsize : (rs.flatMap encRecord).length < 2 ^ 32) :
    (recordTuples i 0 rs).map wrapOffset = recordTuples i 0 rs := by
  conv_rhs => rw [← List.map_id (recordTuples i 0 rs)]
  apply List.map_congr_left
  intro t ht
  have := recordTuples_offset i rs 0 hwf t ht
  have hlt : t.hitsOffset % 2 ^ 32 = t.hitsOffset := Nat.mod_eq_of_lt (by omega)
  simp only [wrapOffset, hlt, id]

theorem groupTuples_at (i did : Nat) (data : Bytes) (gs : List Group) :
    ∀ (pre rest : Bytes), data = pre ++ (gs.flatMap encGroup ++ rest) →
      List.Forall₂ (EntryAt data i) (groupTuples i did pre.length gs)
        (gs.map fun g => (g.1, did, g.2)) := by
  induction gs with
  | nil => intro pre rest _; simp [groupTuples]
  | cons g gs ih =>
    intro pre rest hd
    have hd2 : data = (pre ++ encGroup g) ++ (gs.flatMap encGroup ++ rest) := by
      rw [hd]; simp only [List.flatMap_cons, List.append_assoc]
    have ih' := ih (pre ++ encGroup g) rest hd2
    rw [List.length_append] at ih'
    rw [groupTuples, List.map_cons]
    refine List.Forall₂.cons ⟨rfl, rfl, rfl, rfl, gs.flatMap encGroup ++ rest, ?_⟩ ih'
    have hsplit : data = (pre ++ pack32 g.1 ++ pack16 (g.2.length % 65536)) ++
        (encodeHits 0 0xff g.2 ++ (gs.flatMap encGroup ++ rest)) := by
      rw [hd2]; simp only [encGroup, List.append_assoc]
    show List.drop (pre.length + 6) data = _
    conv_lhs => rw [hsplit]
    exact List.drop_left' (by simp [pack32, pack16])

theorem recordTuples_at (i : Nat) (data : Bytes) (rs : List (Nat × List Group)) :
    ∀ (pre : Bytes), data = pre ++ rs.flatMap encRecord →
      List.Forall₂ (EntryAt data i) (recordTuples i pre.length rs) (entries rs) := by
  induction rs with
  | nil => intro pre _; simp [recordTuples, entries]
  | cons r rs ih =>
    intro pre hd
    have hd2 : data = (pre ++ encRecord r) ++ rs.flatMap encRecord := by
      rw [hd]; simp only [List.flatMap_cons, List.append_assoc]
    have ih' := ih (pre ++ encRecord r) hd2
    rw [List.length_append] at ih'
    have hd3 : data = (pre ++ pack32 r.1 ++ pack16 (r.2.length % 65536)) ++
        (r.2.flatMap encGroup ++ rs.flatMap encRecord) := by
      rw [hd2]; simp only [encRecord, List.append_assoc]
    have hg := groupTuples_at i r.1 data r.2 _ _ hd3
    have hl : (pre ++ pack32 r.1 ++ pack16 (r.2.length % 65536)).length = pre.length + 6 := by
      simp [pack32, pack16]
    rw [hl] at hg
    rw [recordTuples, entries_cons]
    exact List.rel_append hg ih'

theorem Document.staged_walkable (MaxPosition : Nat) (doc : Document)
    (hok : DocOK MaxPosition doc) (hty : DocTyped doc) (hterms : doc.termIDs.length < 65536) :
    Walkable doc.staged := by
  refine ⟨hty.1, ?_, ?_⟩
  · show doc.groups.length < 65536
    rw [Document.groups_length]; exact hterms
  · intro g hg
    obtain ⟨run, hrun, rfl⟩ := List.mem_map.1 hg
    obtain ⟨h1, h2, h3⟩ := Document.runs_mem doc run hrun
    have hlen := (hok.2 run hrun).2
    have hne : 1 ≤ run.length := by
      cases run with
      | nil => exact absurd rfl h1
      | cons a l => simp
    refine ⟨?_, by simpa [tripleGroup] using hne, by simpa [tripleGroup] using hlen, ?_⟩
    · cases run with
      | nil => exact absurd rfl h1
      | cons a l =>
        obtain ⟨-, ha⟩ := h2 a (by simp)
        obtain ⟨c, hc, rfl⟩ := List.mem_map.1 ha
        exact hty.2 c hc
    · intro h hh
      obtain ⟨x, hx, rfl⟩ := List.mem_map.1 hh
      obtain ⟨-, hx2⟩ := h2 x hx
      obtain ⟨c, hc, rfl⟩ := List.mem_map.1 hx2
      obtain ⟨-, -, c3⟩ := hok.1 c hc
      exact c3

theorem collect_walk (i : Nat) (docs : List Document) (st : ScanState)
    (hwf : ∀ doc ∈ docs, Walkable doc.staged) :
    ∃ st' : ScanState,
      collectDocs i (stagedBytes docs).length (stagedBytes docs).length (stagedBytes docs) st
        = some st' ∧
      ∀ k, st'.all k = st.all k ++
        ((recordTuples i 0 (docs.map Document.staged)).map wrapOffset).filter
          (fun t => t.termID &&& 31 = k) := by
  have hb : stagedBytes docs = (docs.map Document.staged).flatMap encRecord :=
    records_flatten docs
  obtain ⟨st', e1, -, e3⟩ := collectDocs_tuples i (stagedBytes docs).length
    (docs.map Document.staged) (stagedBytes docs).length 0 st (by rw [hb]; simp)
    (by rw [hb]; exact records_fuel _)
    (by
      intro r hr
      obtain ⟨doc, hdoc, rfl⟩ := List.mem_map.1 hr
      exact hwf doc hdoc)
  exact ⟨st', by rw [hb] at e1 ⊢; exact e1, e3⟩

/-- C23: for a range of less than `2 ^ 32` bytes that holds, one after another, the
records that `commit_document_impl` wrote for documents with fewer than 65536
distinct terms each (every `insert` and every `require` of the commit having passed,
IDs being 32-bit values), the collect phase of `commit` ends within its passes
without reading or moving past the end of the range, its cursor at the end of the
range; what it appends to the partitions is one tuple for each group of each record,
in order; and the offset of each tuple is where the hits of its group start in the
range, its count the number of hits of the group. -/
theorem collect_phase_walks_staged_records (MaxPosition i : Nat) (docs : List Document)
    (st : ScanState)
    (hok : ∀ doc ∈ docs,
      DocOK MaxPosition doc ∧ DocTyped doc ∧ doc.termIDs.length < 65536)
    (hsize : (stagedBytes docs).length < 2 ^ 32) :
    CollectsGroups i docs st ∧
    List.Forall₂ (EntryAt (stagedBytes docs) i)
      (recordTuples i 0 (docs.map Document.staged)) (docEntries docs) := by
  have hwf : ∀ doc ∈ docs, Walkable doc.staged := fun doc hdoc =>
    Document.staged_walkable MaxPosition doc (hok doc hdoc).1 (hok doc hdoc).2.1
      (hok doc hdoc).2.2
  have hb : stagedBytes docs = (docs.map Document.staged).flatMap encRecord :=
    records_flatten docs
  obtain ⟨st', e1, e2⟩ := collect_walk i docs st hwf
  have hw := recordTuples_wrap i (docs.map Document.staged)
    (by
      intro r hr
      obtain ⟨doc, hdoc, rfl⟩ := List.mem_map.1 hr
      exact hwf doc hdoc)
    (by rw [← hb]; exact hsize)
  refine ⟨⟨st', e1, ?_⟩, ?_⟩
  · intro k
    rw [e2 k, hw]
  · have := recordTuples_at i (stagedBytes docs) (docs.map Document.staged) []
      (by rw [hb]; rfl)
    exact this

theorem collect_phase_walks_staged_records_witness :
    (∀ doc ∈ sampleDocs, DocOK 8192 doc ∧ DocTyped doc ∧ doc.termIDs.length < 65536) ∧
    (stagedBytes sampleDocs).length < 2 ^ 32 ∧
    CollectsGroups 0 sampleDocs ⟨0, fun _ => [], 0⟩ ∧
    List.Forall₂ (EntryAt (stagedBytes sampleDocs) 0)
      (recordTuples 0 0 (sampleDocs.map Document.staged)) (docEntries sampleDocs) :=
  ⟨by decide, by decide,
    collect_phase_walks_staged_records 8192 0 sampleDocs ⟨0, fun _ => [], 0⟩
      (by decide) (by decide)⟩

theorem bigDoc_staged (d : Nat) :
    Document.staged ⟨d, false, [⟨1, 0, []⟩]⟩ = (d, [(1, [(0, [])])]) := rfl

theorem bigDoc_ok (d : Nat) : DocOK 8192 ⟨d, false, [⟨1, 0, []⟩]⟩ := by
  have h : DocOK 8192 ⟨0, false, [⟨1, 0, []⟩]⟩ := by decide
  exact h

theorem bigDoc_terms (d : Nat) :
    (Document.termIDs ⟨d, false, [⟨1, 0, []⟩]⟩).length < 65536 := by
  have h : (Document.termIDs ⟨0, false, [⟨1, 0, []⟩]⟩).length < 65536 := by decide
  exact h

theorem bigDocs_mem (n : Nat) (doc : Document) (h : doc ∈ bigDocs n) :
    ∃ d, 1 ≤ d ∧ d ≤ n ∧ doc = ⟨d, false, [⟨1, 0, []⟩]⟩ := by
  obtain ⟨d, hd, rfl⟩ := List.mem_map.1 h
  rw [List.mem_range'_1] at hd
  exact ⟨d, hd.1, by omega, rfl⟩

theorem bigDocs_staged (s n : Nat) :
    ((List.range' s n).map fun d => (⟨d, false, [⟨1, 0, []⟩]⟩ : Document)).map Document.staged
      = (List.range' s n).map fun d => (d, [((1 : Nat), [((0 : Nat), ([] : Bytes))])]) := by
  rw [List.map_map]
  rfl

theorem bigDocs_last_tuple (i : Nat) :
    ∀ (n s o : Nat),
      (⟨1, s + n, o + 14 * n + 12, 1, i⟩ : segment_data) ∈
        recordTuples i o
          ((List.range' s (n + 1)).map fun d => (d, [((1 : Nat), [((0 : Nat), ([] : Bytes))])])) := by
  intro n
  induction n with
  | zero =>
    intro s o
    simp [List.range', recordTuples, groupTuples]
  | succ n ih =>
    intro s o
    have h := ih (s + 1) (o + 14)
    rw [List.range'_succ, List.map_cons, recordTuples, List.mem_append]
    right
    have hl : (encRecord (s, [((1 : Nat), [((0 : Nat), ([] : Bytes))])])).length = 14 := by
      simp [encRecord, encGroup, pack32, pack16, encodeHits, encode_varbyte32]
    rw [hl]
    have e1 : s + 1 + n = s + (n + 1) := by omega
    have e2 : o + 14 + 14 * n + 12 = o + 14 * (n + 1) + 12 := by omega
    rw [e1, e2] at h
    exact h

theorem indexAll_ok (SPAN MaxPosition freq : Nat) (docs : List Document) :
    ∀ (docs₀ : List Document) (s : SegmentIndexSession), Holds SPAN freq docs₀ s →
      (∀ doc ∈ docs, DocOK MaxPosition doc) → ((docs₀ ++ docs).map (·.did)).Nodup →
      (indexAll SPAN MaxPosition docs s).1 = Outcome.ok := by
  induction docs with
  | nil => intro docs₀ s _ _ _; rfl
  | cons doc docs ih =>
    intro docs₀ s h hok hnd
    obtain ⟨a1, a2⟩ := indexDocument_spec SPAN MaxPosition s doc h.1
    have htrack : (track SPAN s.guard doc.did).1 = true := by
      rw [h.2.2.1, track_trackMany]
      simp only [decide_eq_true_eq]
      intro hmem
      rw [List.map_append, List.map_cons, List.nodup_append] at hnd
      exact hnd.2.2 hmem (List.mem_cons_self _ _)
    have hdoc := hok doc (List.mem_cons_self _ _)
    have hr : (indexDocument SPAN MaxPosition s doc).1 = Outcome.ok :=
      a1.2 ⟨hdoc.1, htrack, hdoc.2⟩
    have hholds := Holds_step SPAN freq docs₀ doc s _ h (a2 hr)
    have hnext := ih (docs₀ ++ [doc]) (indexDocument SPAN MaxPosition s doc).2 hholds
      (fun d hd => hok d (List.mem_cons_of_mem _ hd)) (by simpa using hnd)
    rw [indexAll]
    generalize indexDocument SPAN MaxPosition s doc = r at hr hnext
    obtain ⟨o, s'⟩ := r
    simp only at hr
    subst hr
    exact hnext

theorem record_length (doc : Document) : 6 ≤ doc.record.length := by
  simp [Document.record, encRecord, pack32, pack16]

theorem indexAll_allspill (SPAN MaxPosition : Nat) (docs : List Document) :
    ∀ s : SegmentIndexSession, s.hits = (fun _ => []) → s.intermediateStateFlushFreq = 1 →
      s.b = [] → (indexAll SPAN MaxPosition docs s).1 = Outcome.ok →
      (indexAll SPAN MaxPosition docs s).2.b = [] ∧
      (indexAll SPAN MaxPosition docs s).2.backingFile.getD []
        = s.backingFile.getD [] ++ stagedBytes docs ∧
      (docs ≠ [] → (indexAll SPAN MaxPosition docs s).2.backingFile ≠ none) := by
  induction docs with
  | nil => intro s _ _ hb _; simp [indexAll, stagedBytes, hb]
  | cons doc docs ih =>
    intro s hempty hfreq hb hok
    obtain ⟨-, a2⟩ := indexDocument_spec SPAN MaxPosition s doc hempty
    rw [indexAll] at hok ⊢
    generalize hr : indexDocument SPAN MaxPosition s doc = r at a2 hok ⊢
    obtain ⟨o, s'⟩ := r
    cases o with
    | ok =>
      simp only at hok ⊢
      obtain ⟨b1, -, -, b4, -, -, b7⟩ := a2 rfl
      simp only at b1 b4 b7
      have hsp : Spills s doc := by
        refine ⟨by rw [hfreq]; decide, ?_⟩
        rw [hfreq, List.length_append]
        have := record_length doc
        omega
      rcases b7 with ⟨-, c2, c3⟩ | ⟨c1, -, -⟩
      · obtain ⟨d1, d2, d3⟩ := ih s' b1 (by rw [b4, hfreq]) c2 hok
        refine ⟨d1, ?_, fun _ => ?_⟩
        · rw [d2, c3, hb]
          simp [stagedBytes]
        · intro hnone
          rw [hnone, c3] at d2
          have hlen := congrArg List.length d2
          simp only [Option.getD_none, Option.getD_some, List.length_nil, List.length_append,
            hb] at hlen
          have := record_length doc
          omega
      · exact absurd hsp c1
    | threw => simp at hok
    | aborted => simp at hok

theorem bigDocs_ok (n : Nat) (hn : n < 2 ^ 32) :
    (∀ doc ∈ bigDocs n, DocOK 8192 doc ∧ DocTyped doc ∧ doc.termIDs.length < 65536) ∧
    ((bigDocs n).map (·.did)).Nodup := by
  refine ⟨?_, ?_⟩
  · intro doc hdoc
    obtain ⟨d, -, hd, rfl⟩ := bigDocs_mem n doc hdoc
    refine ⟨bigDoc_ok d, ⟨?_, ?_⟩, bigDoc_terms d⟩
    · show d < 2 ^ 32
      omega
    · intro c hc
      have hc2 : c = ⟨1, 0, []⟩ := by simpa using hc
      rw [hc2]
      norm_num
  · have : (bigDocs n).map (·.did) = List.range' 1 n := by
      unfold bigDocs
      rw [List.map_map]
      exact List.map_id _
    rw [this]
    exact List.nodup_range' 1 n

theorem bigDocs_session (freq n : Nat) (hn : n < 2 ^ 32) :
    (sessionOf 65536 8192 freq (bigDocs n)).1 = Outcome.ok := by
  obtain ⟨h1, h2⟩ := bigDocs_ok n hn
  exact indexAll_ok 65536 8192 freq (bigDocs n) [] (SegmentIndexSession.fresh freq)
    (Holds_fresh 65536 freq) (fun doc hdoc => (h1 doc hdoc).1) (by simpa using h2)

theorem bigDocs_bytes (n : Nat) :
    ∀ s : Nat, (stagedBytes ((List.range' s n).map
      fun d => (⟨d, false, [⟨1, 0, []⟩]⟩ : Document))).length = 14 * n := by
  induction n with
  | zero => intro s; rfl
  | succ n ih =>
    intro s
    have hl : (Document.record ⟨s, false, [⟨1, 0, []⟩]⟩).length = 14 := by
      show (encRecord (s, [((1 : Nat), [((0 : Nat), ([] : Bytes))])])).length = 14
      simp [encRecord, encGroup, pack32, pack16, encodeHits, encode_varbyte32]
    have := ih (s + 1)
    unfold stagedBytes at this ⊢
    rw [List.range'_succ, List.map_cons, List.map_cons, List.flatten_cons, List.length_append,
      hl, this]
    omega

theorem bigDocs_spilled (n : Nat) (hn : n + 1 < 2 ^ 32) :
    sourceRanges (sessionOf 65536 8192 1 (bigDocs (n + 1))).2 = [stagedBytes (bigDocs (n + 1))] := by
  have hses := bigDocs_session 1 (n + 1) hn
  obtain ⟨h1, h2, h3⟩ := indexAll_allspill 65536 8192 (bigDocs (n + 1))
    (SegmentIndexSession.fresh 1) rfl rfl rfl hses
  have hne : bigDocs (n + 1) ≠ [] := by
    unfold bigDocs
    rw [List.range'_succ]
    exact List.cons_ne_nil _ _
  have h3' := h3 hne
  unfold sourceRanges
  unfold sessionOf
  rw [h1]
  cases hf : (indexAll 65536 8192 (bigDocs (n + 1)) (SegmentIndexSession.fresh 1)).2.backingFile with
  | none => exact absurd hf h3'
  | some f =>
    rw [hf] at h2
    simp only [Option.getD_some] at h2
    rw [h2]
    rfl

theorem bigDocs_wrap (n : Nat) (hn : n + 1 < 2 ^ 32) (hbig : 2 ^ 32 ≤ 14 * n + 12) :
    ¬ CollectsGroups 0 (bigDocs (n + 1)) ⟨0, fun _ => [], 0⟩ := by
  rintro ⟨st', e1, e2⟩
  obtain ⟨hok, -⟩ := bigDocs_ok (n + 1) hn
  obtain ⟨st2, f1, f2⟩ := collect_walk 0 (bigDocs (n + 1)) ⟨0, fun _ => [], 0⟩
    (fun doc hdoc => Document.staged_walkable 8192 doc (hok doc hdoc).1 (hok doc hdoc).2.1
      (hok doc hdoc).2.2)
  rw [e1] at f1
  have hst : st' = st2 := Option.some.inj f1
  subst hst
  have hk := (e2 1).symm.trans (f2 1)
  simp only [List.nil_append] at hk
  have hmem : (⟨1, 1 + n, 0 + 14 * n + 12, 1, 0⟩ : segment_data) ∈
      recordTuples 0 0 ((bigDocs (n + 1)).map Document.staged) := by
    unfold bigDocs
    rw [bigDocs_staged]
    exact bigDocs_last_tuple 0 n 1 0
  have hf : (⟨1, 1 + n, 0 + 14 * n + 12, 1, 0⟩ : segment_data) ∈
      (recordTuples 0 0 ((bigDocs (n + 1)).map Document.staged)).filter
        (fun t => t.termID &&& 31 = 1) :=
    List.mem_filter.2 ⟨hmem, by
      show decide ((1 : Nat) &&& 31 = 1) = true
      decide⟩
  rw [hk] at hf
  obtain ⟨u, -, hut⟩ := List.mem_map.1 (List.mem_filter.1 hf).1
  have hoff : u.hitsOffset % 2 ^ 32 = 0 + 14 * n + 12 := by
    have := congrArg segment_data.hitsOffset hut
    exact this
  have := Nat.mod_lt u.hitsOffset (show 0 < 2 ^ 32 by norm_num)
  omega

theorem collect_phase_walks_staged_records_counterexample :
    ¬ (∀ (freq : Nat) (docs : List Document),
        (sessionOf 65536 8192 freq docs).1 = Outcome.ok →
        (∀ doc ∈ docs, DocTyped doc ∧ doc.termIDs.length < 65536) →
        CollectsGroups 0 docs ⟨0, fun _ => [], 0⟩) ∧
    sourceRanges (sessionOf 65536 8192 1 (bigDocs 306783379)).2
      = [stagedBytes (bigDocs 306783379)] ∧
    (stagedBytes (bigDocs 306783379)).length = 2 ^ 32 + 10 := by
  have hn : 306783378 + 1 < 2 ^ 32 := by norm_num
  refine ⟨?_, bigDocs_spilled 306783378 hn, ?_⟩
  · intro h
    exact bigDocs_wrap 306783378 hn (by norm_num)
      (h 1 (bigDocs 306783379) (bigDocs_session 1 306783379 hn)
        (fun doc hdoc => ((bigDocs_ok 306783379 hn).1 doc hdoc).2))
  · have := bigDocs_bytes 306783379 1
    unfold bigDocs
    rw [this]
    norm_num
/-! ## A document ID submitted twice -/

theorem resubmitted_track (SPAN : Nat) (ids : List Nat) (d : Nat) (hd : d ∈ ids) :
    (track SPAN (trackMany SPAN Guard.fresh ids) d).1 = false ∧
    ∀ x, tracked SPAN (track SPAN (trackMany SPAN Guard.fresh ids) d).2 x ↔
      tracked SPAN (trackMany SPAN Guard.fresh ids) x := by
  obtain ⟨hnd, hmem⟩ := trackMany_spec SPAN ids Guard.fresh [] (by simp [Guard.fresh])
    (by intro x; simp [tracked, memB, Guard.fresh])
  simp only [List.nil_append] at hmem
  obtain ⟨h1, -, h3⟩ := track_step SPAN (trackMany SPAN Guard.fresh ids) d hnd
  have htr : tracked SPAN (trackMany SPAN Guard.fresh ids) d := (hmem d).2 hd
  refine ⟨?_, ?_⟩
  · cases hb : (track SPAN (trackMany SPAN Guard.fresh ids) d).1 with
    | false => rfl
    | true => exact absurd htr (h1.1 hb)
  · intro x
    rw [h3 x]
    constructor
    · rintro (h | h)
      · exact h
      · rw [h]; exact htr
    · exact Or.inl

/-- C24: when `commit_document_impl` or `erase` is called with a document ID that the
guard of the session has recorded (the guard holds the IDs `ids` submitted so far,
and the ID is one of them), the call throws, and the session after it has the stage
buffer, the backing file and `updatedDocumentIDs` of the session before it, and its
guard has recorded the same IDs. -/
theorem resubmission_throws_unchanged (SPAN : Nat) (s : SegmentIndexSession) (ids : List Nat)
    (proxy : document_proxy) (replace : Bool)
    (hg : s.guard = trackMany SPAN Guard.fresh ids) (hd : proxy.did ∈ ids) :
    ((commit_document_impl SPAN s proxy replace).1 = Outcome.threw ∧
      (commit_document_impl SPAN s proxy replace).2.b = s.b ∧
      (commit_document_impl SPAN s proxy replace).2.backingFile = s.backingFile ∧
      (commit_document_impl SPAN s proxy replace).2.updatedDocumentIDs
        = s.updatedDocumentIDs ∧
      ∀ x, tracked SPAN (commit_document_impl SPAN s proxy replace).2.guard x ↔
        tracked SPAN s.guard x) ∧
    ((erase SPAN s proxy.did).1 = Outcome.threw ∧
      (erase SPAN s proxy.did).2.b = s.b ∧
      (erase SPAN s proxy.did).2.backingFile = s.backingFile ∧
      (erase SPAN s proxy.did).2.updatedDocumentIDs = s.updatedDocumentIDs ∧
      ∀ x, tracked SPAN (erase SPAN s proxy.did).2.guard x ↔ tracked SPAN s.guard x) ∧
    ∀ x, tracked SPAN s.guard x ↔ x ∈ ids := by
  obtain ⟨h1, h2⟩ := resubmitted_track SPAN ids proxy.did hd
  rw [← hg] at h1 h2
  have hcu : consider_update SPAN s.guard proxy.did
      = (Outcome.threw, (track SPAN s.guard proxy.did).2) := by
    rw [consider_update_fst, h1]; rfl
  refine ⟨?_, ?_, ?_⟩
  · unfold commit_document_impl
    rw [hcu]
    exact ⟨rfl, rfl, rfl, rfl, h2⟩
  · unfold erase
    rw [hcu]
    exact ⟨rfl, rfl, rfl, rfl, h2⟩
  · intro x
    rw [hg]
    have := (trackMany_spec SPAN ids Guard.fresh [] (by simp [Guard.fresh])
      (by intro x; simp [tracked, memB, Guard.fresh])).2 x
    simpa using this

theorem resubmission_throws_unchanged_witness :
    (commit_document_impl 65536 (runOps 65536 8192 sampleOps (SegmentIndexSession.fresh 0)).2
        ⟨70000, 0, 0⟩ true).1 = Outcome.threw ∧
    (commit_document_impl 65536 (runOps 65536 8192 sampleOps (SegmentIndexSession.fresh 0)).2
        ⟨70000, 0, 0⟩ true).2.b
      = (runOps 65536 8192 sampleOps (SegmentIndexSession.fresh 0)).2.b ∧
    (erase 65536 (runOps 65536 8192 sampleOps (SegmentIndexSession.fresh 0)).2 70000).1
      = Outcome.threw :=
  ⟨(resubmission_throws_unchanged 65536
      (runOps 65536 8192 sampleOps (SegmentIndexSession.fresh 0)).2 [7, 2, 70000, 4]
      ⟨70000, 0, 0⟩ true (by decide) (by decide)).1.1,
    (resubmission_throws_unchanged 65536
      (runOps 65536 8192 sampleOps (SegmentIndexSession.fresh 0)).2 [7, 2, 70000, 4]
      ⟨70000, 0, 0⟩ true (by decide) (by decide)).1.2.1,
    (resubmission_throws_unchanged 65536
      (runOps 65536 8192 sampleOps (SegmentIndexSession.fresh 0)).2 [7, 2, 70000, 4]
      ⟨70000, 0, 0⟩ true (by decide) (by decide)).2.1.1⟩
/-! ## The copy made by the registry -/

/-- C25: the copy that the registry puts into the slot of a drained scanner has the
value of the source scanner in `end`, `bankSize`, `curBankRange`, `skiplistBase`,
`curBank`, `udSkipList` and `udBanks`; its `maxDocID` is not taken from the source: it
is the value `m` that the member is found to hold in the slot. -/
theorem registry_copy_keeps_fields (m : Nat) (o : updated_documents_scanner) :
    (o.copy m).endp = o.endp ∧ (o.copy m).bankSize = o.bankSize ∧
    (o.copy m).curBankRange = o.curBankRange ∧ (o.copy m).skiplistBase = o.skiplistBase ∧
    (o.copy m).curBank = o.curBank ∧ (o.copy m).udSkipList = o.udSkipList ∧
    (o.copy m).udBanks = o.udBanks ∧ (o.copy m).maxDocID = m ∧
    (o.copy m).drained = o.drained :=
  ⟨rfl, rfl, rfl, rfl, rfl, rfl, rfl, rfl, rfl⟩

theorem registry_copy_keeps_fields_counterexample :
    ¬ (∀ (m : Nat) (o : updated_documents_scanner), CopyKeepsEveryField m o) ∧
    (sampleRegistry.test sampleScan (fun s => s.maxDocID) 5).map (fun x => (x.1, x.2.1.rem))
      = some (false, 0) ∧
    sampleScan (sampleScanner 7) 5 = (false, sampleScanner 7) ∧
    sampleScan (sampleScanner 7) 7 = (true, sampleScanner 7) ∧
    sampleScan ((sampleScanner 7).copy 3) 5
      = (false, { (sampleScanner 7).copy 3 with curBankRange := (UINT32_MAX, 0) }) := by
  refine ⟨?_, by decide, by decide, by decide, by decide⟩
  intro h
  have h1 := (h 3 (sampleScanner 7)).2.2.2.2.2.1
  revert h1
  decide
/-! ## The passes of the registry loop -/

theorem testLoop8_eq
    (scan : updated_documents_scanner → Nat → Bool × updated_documents_scanner)
    (indet : updated_documents_scanner → Nat) (id : Nat) :
    ∀ (fuel i : Nat) (r : masked_documents_registry), r.rem ≤ 255 →
      masked_documents_registry.testLoop8 scan indet id fuel i r
        = masked_documents_registry.testLoop scan indet id fuel i r := by
  intro fuel
  induction fuel with
  | zero =>
    intro i r _
    unfold masked_documents_registry.testLoop8 masked_documents_registry.testLoop
    rfl
  | succ fuel ih =>
    intro i r hr
    unfold masked_documents_registry.testLoop8 masked_documents_registry.testLoop
    by_cases hi : i < r.rem
    · have hmod : (i + 1) % 2 ^ 8 = i + 1 := Nat.mod_eq_of_lt (by omega)
      simp only [hi, not_true_eq_false, if_false, hmod]
      cases r.scanners.get? i with
      | none => rfl
      | some it =>
        simp only
        rw [ih (i + 1) ⟨r.rem, r.scanners.set i (scan it id).2⟩ hr]
        cases (r.scanners.set i (scan it id).2).get? (r.rem - 1) with
        | none => rfl
        | some src =>
          simp only
          rw [ih i ⟨r.rem - 1, (r.scanners.set i (scan it id).2).set i
            (src.copy (indet (scan it id).2))⟩ (show r.rem - 1 ≤ 255 by omega)]
    · simp only [hi, not_false_eq_true, if_true]

theorem testLoop_frame
    (scan : updated_documents_scanner → Nat → Bool × updated_documents_scanner)
    (indet : updated_documents_scanner → Nat) (id : Nat) :
    ∀ (fuel i rem : Nat) (xs dead : List updated_documents_scanner), rem ≤ xs.length →
      masked_documents_registry.testLoop scan indet id fuel i ⟨rem, xs ++ dead⟩
        = (masked_documents_registry.testLoop scan indet id fuel i ⟨rem, xs⟩).map
            fun x => (x.1, ⟨x.2.1.rem, x.2.1.scanners ++ dead⟩, x.2.2) := by
  intro fuel
  induction fuel with
  | zero =>
    intro i rem xs dead _
    unfold masked_documents_registry.testLoop
    by_cases hi : i < rem <;> simp [hi]
  | succ fuel ih =>
    intro i rem xs dead hrem
    unfold masked_documents_registry.testLoop
    by_cases hi : i < rem
    · have hix : i < xs.length := by omega
      have hg : (xs ++ dead).get? i = xs.get? i := by
        rw [List.get?_eq_getElem?, List.get?_eq_getElem?, List.getElem?_append_left hix]
      have hs : ∀ v, (xs ++ dead).set i v = xs.set i v ++ dead := fun v =>
        List.set_append_left _ _ hix
      simp only [hi, not_true_eq_false, if_false, hg, hs]
      cases hit : xs.get? i with
      | none => rfl
      | some it =>
        simp only
        by_cases ha : (scan it id).1 = true
        · simp [ha]
        · simp only [ha, if_false]
          by_cases hd : (scan it id).2.drained = true
          · simp only [hd, if_true]
            have hl : rem - 1 < (xs.set i (scan it id).2).length := by
              rw [List.length_set]; omega
            have hg2 : (xs.set i (scan it id).2 ++ dead).get? (rem - 1)
                = (xs.set i (scan it id).2).get? (rem - 1) := by
              rw [List.get?_eq_getElem?, List.get?_eq_getElem?, List.getElem?_append_left hl]
            rw [hg2]
            cases (xs.set i (scan it id).2).get? (rem - 1) with
            | none => rfl
            | some src =>
              simp only
              have hi2 : i < (xs.set i (scan it id).2).length := by
                rw [List.length_set]; exact hix
              rw [List.set_append_left _ _ hi2, ih i (rem - 1) _ dead
                (by rw [List.length_set, List.length_set]; omega)]
              cases masked_documents_registry.testLoop scan indet id fuel i
                ⟨rem - 1, (xs.set i (scan it id).2).set i
                  (src.copy (indet (scan it id).2))⟩ with
              | none => rfl
              | some x => rfl
          · simp only [hd, if_false]
            rw [ih (i + 1) rem _ dead (by rw [List.length_set]; exact hrem)]
            cases masked_documents_registry.testLoop scan indet id fuel (i + 1)
              ⟨rem, xs.set i (scan it id).2⟩ with
            | none => rfl
            | some x => rfl
    · simp [hi]

/-- C26: on a registry with `rem <= 255` (and `rem` slots in its array), the loop of
`masked_documents_registry::test`, with its index in a `uint8_t`, ends within `rem`
passes, `rem` being the value at entry: it calls `test` on at most `rem` scanners;
`rem` does not grow; the slots at the indices from the entry value of `rem` on are
neither written (they hold what they held) nor read (with any other contents
`other` in them the call gives the same answer, the same `rem`, the same slots below
and the same calls). -/
theorem registry_test_ends_within_rem
    (scan : updated_documents_scanner → Nat → Bool × updated_documents_scanner)
    (indet : updated_documents_scanner → Nat) (r : masked_documents_registry) (id : Nat)
    (h255 : r.rem ≤ 255) (hrem : r.rem ≤ r.scanners.length) :
    ∃ (ans : Bool) (rf : masked_documents_registry) (tested : List updated_documents_scanner),
      r.test8 scan indet id = some (ans, rf, tested) ∧
      tested.length ≤ r.rem ∧ rf.rem ≤ r.rem ∧
      rf.scanners.length = r.scanners.length ∧
      rf.scanners.drop r.rem = r.scanners.drop r.rem ∧
      ∀ other : List updated_documents_scanner,
        masked_documents_registry.test8 scan indet ⟨r.rem, r.scanners.take r.rem ++ other⟩ id
          = some (ans, ⟨rf.rem, rf.scanners.take r.rem ++ other⟩, tested) := by
  obtain ⟨rem, slots⟩ := r
  simp only at h255 hrem ⊢
  have htl : (slots.take rem).length = rem := by
    rw [List.length_take]; exact Nat.min_eq_left hrem
  obtain ⟨ans, live', dead', tested, e, hlen, hle, ⟨extra, hex⟩, hsub, -, -⟩ :=
    testLoop_spec scan indet id rem [] (slots.take rem) [] (by rw [htl])
  simp only [List.length_nil, Nat.zero_add, List.append_nil, List.nil_append, htl,
    Nat.add_zero] at e hlen hle
  have hys : (live' ++ dead').length = rem := by rw [List.length_append]; exact hlen
  have hall : ∀ other : List updated_documents_scanner,
      masked_documents_registry.test8 scan indet ⟨rem, slots.take rem ++ other⟩ id
        = some (ans, ⟨live'.length, (live' ++ dead') ++ other⟩, tested) := by
    intro other
    unfold masked_documents_registry.test8
    rw [testLoop8_eq scan indet id rem 0 _ h255,
      testLoop_frame scan indet id rem 0 rem (slots.take rem) other (by rw [htl]), e]
    rfl
  have htested : tested.length ≤ rem := by
    have := hsub.length_le
    rw [List.length_map, List.length_map, htl] at this
    exact this
  refine ⟨ans, ⟨live'.length, (live' ++ dead') ++ slots.drop rem⟩, tested, ?_,
    htested, hle, ?_, ?_, ?_⟩
  · have := hall (slots.drop rem)
    rwa [List.take_append_drop] at this
  · rw [List.length_append, hys, List.length_drop]; omega
  · exact List.drop_left' hys
  · intro other
    simp only
    rw [List.take_left' hys]
    exact hall other

theorem registry_test_ends_within_rem_witness :
    sampleRegistry.rem ≤ 255 ∧ sampleRegistry.rem ≤ sampleRegistry.scanners.length ∧
    ∃ (ans : Bool) (rf : masked_documents_registry) (tested : List updated_documents_scanner),
      sampleRegistry.test8 sampleScan (fun _ => 0) 8 = some (ans, rf, tested) ∧
      tested.length ≤ sampleRegistry.rem ∧ rf.rem ≤ sampleRegistry.rem ∧
      rf.scanners.length = sampleRegistry.scanners.length ∧
      rf.scanners.drop sampleRegistry.rem = sampleRegistry.scanners.drop sampleRegistry.rem ∧
      ∀ other : List updated_documents_scanner,
        masked_documents_registry.test8 sampleScan (fun _ => 0)
            ⟨sampleRegistry.rem, sampleRegistry.scanners.take sampleRegistry.rem ++ other⟩ 8
          = some (ans, ⟨rf.rem, rf.scanners.take sampleRegistry.rem ++ other⟩, tested) :=
  ⟨by decide, by decide,
    registry_test_ends_within_rem sampleScan (fun _ => 0) sampleRegistry 8
      (by decide) (by decide)⟩

theorem make_rem (unset : Nat → (Nat × Nat) × Nat) (ud : List updated_documents)
    (r : masked_documents_registry)
    (h : masked_documents_registry.make unset ud = some r) :
    r.rem ≤ 255 ∧ r.rem = r.scanners.length ∧ r.rem = ud.length := by
  unfold masked_documents_registry.make at h
  by_cases hn : ud.length ≤ 255
  · simp only [hn, not_true_eq_false, if_false, Option.some.injEq] at h
    subst h
    simp [hn]
  · simp [hn] at h

/-! ## The registry and the member that the copy leaves unset -/

end Trinity
